import Mathlib

/-!
# FAT12 file system engine: shallow embedding

The engine of `FAT12.cpp` / `FAT12.h` over the sector device of `Disk.cpp`.

* bytes are `Fin 256`; `int16_t`, `int64_t`, `size_t` values are `Int` / `Nat`
  with explicit wrap-around where the source converts between widths;
* the object state (`disk`, `sb`, `fat`) is threaded explicitly; a C++ exception
  (or a failed `assert`) is an `Except.error` that still carries the state
  reached when it was raised;
* `std::filesystem::path` is represented by the sequence of elements its
  iterator yields (`"/"` for the root directory, then the names).
-/

namespace FAT12

/-! ## Machine values -/

abbrev Byte := Fin 256

/-- Conversion to `int16_t` (two's complement wrap-around). -/
def wrap16 (x : Int) : Int := (x + 32768) % 65536 - 32768

/-- Conversion to `int64_t` (two's complement wrap-around). -/
def wrap64 (x : Int) : Int := (x + 9223372036854775808) % 18446744073709551616 - 9223372036854775808

/-- Conversion of a signed value to `size_t` (64-bit unsigned). -/
def toSizeT (x : Int) : Nat := (x % 18446744073709551616).toNat

/-- Resize a byte vector to `n` elements, value-initialising new ones (`std::vector::resize`). -/
def resize (l : List Byte) (n : Nat) : List Byte := l.take n ++ List.replicate (n - l.length) 0

/-! ## Errors and state -/

inductive Error
  | noSuchFileOrDirectory
  | notADirectory
  | isADirectory
  | fileExists
  | permission
  | invalidMode
  /-- `std::runtime_error("File system is full.")` -/
  | fileSystemFull
  /-- a failed `assert` -/
  | assertion
  /-- an index outside an array or a read past the end of a buffer -/
  | outOfBounds
  /-- `std::length_error` of `std::vector::resize` -/
  | lengthError
  /-- the loop or recursion never returns -/
  | diverges
  deriving DecidableEq, Repr

structure Superblock where
  partitionId : Nat := 1
  blockSize : Nat
  rootDirectoryEntrySize : Int := 0
  deriving DecidableEq, Repr

/-- The sector device: sector index to sector contents. -/
abbrev Disk := Nat → List Byte

/-- The 4096-entry table `std::array<BlockAddress, 4096> fat`, by index. -/
abbrev Fat := Nat → Int

/-- The state of a `FAT12` object together with the image it owns.
`clock` is the sequence of readings `getNow()` returns, `tick` the number
of readings taken so far. `uninit` is the sequence of contents in which a local array
that is declared without an initialiser is found, `uninitUsed` the number of such arrays
used so far. -/
structure FS where
  disk : Disk
  sb : Superblock
  fat : Fat
  clock : Nat → Int
  tick : Nat
  uninit : Nat → List Byte := fun _ => []
  uninitUsed : Nat := 0

/-- Computations of the engine: a result or an error, and the state reached. -/
def M (α : Type) : Type := FS → Except Error α × FS

instance : Monad M where
  pure a := fun s => (Except.ok a, s)
  bind m f := fun s =>
    match m s with
    | (Except.ok a, t) => f a t
    | (Except.error e, t) => (Except.error e, t)

def throw {α : Type} (e : Error) : M α := fun s => (Except.error e, s)

def get : M FS := fun s => (Except.ok s, s)

def modify (f : FS → FS) : M Unit := fun s => (Except.ok (), f s)

/-- `assert(c)`. -/
def assert (c : Bool) : M Unit := if c then pure () else throw Error.assertion

/-- Lift a pure fallible computation. -/
def liftE {α : Type} : Except Error α → M α
  | Except.ok a => pure a
  | Except.error e => throw e

/-! ## Disk.cpp -/

def sectorSize : Nat := 512

def Disk.write (d : Disk) (address : Nat) (sector : List Byte) : Disk :=
  fun a => if a = address then sector else d a

def Disk.read (d : Disk) (address : Nat) : List Byte :=
  resize (d address) sectorSize

/-! ## Constants of FAT12.h -/

def fatSize : Nat := 4096

def fatAddress : Int := 0

def freeBlockMarker : Int := 0

def lastBlockMarker : Int := -1

def dataAddressOf (blockSize : Nat) : Int := wrap16 (fatAddress + ((fatSize * 2) / blockSize : Nat))

def dataAddress (s : FS) : Int := dataAddressOf s.sb.blockSize

def maxAddress : Int := wrap16 ((fatSize : Int) - 1)

def getNow : M Int := fun s => (Except.ok (wrap64 (s.clock s.tick)), { s with tick := s.tick + 1 })

/-- Read `fat[i]`; an index outside the array is an error. -/
def fatGet (fat : Fat) (i : Int) : Except Error Int :=
  if 0 ≤ i ∧ i < fatSize then Except.ok (fat i.toNat) else Except.error Error.outOfBounds

/-- Assign `fat[i] = v`. -/
def fatSet (fat : Fat) (i : Nat) (v : Int) : Fat :=
  fun j => if j = i then v else fat j

/-! ## Serialisation of integers (FAT12.h) -/

/-- The `n` little-endian bytes of the bit pattern of `x`. -/
def leBytes : Nat → Nat → List Byte
  | 0, _ => []
  | n + 1, x => Fin.ofNat (x % 256) :: leBytes n (x / 256)

/-- The unsigned value of little-endian bytes. -/
def leValue : List Byte → Nat
  | [] => 0
  | b :: bs => b.val + 256 * leValue bs

def serializeU8 (buffer : List Byte) (x : Nat) : List Byte := buffer ++ leBytes 1 x

def serializeU16 (buffer : List Byte) (x : Nat) : List Byte := buffer ++ leBytes 2 x

def serializeI16 (buffer : List Byte) (x : Int) : List Byte := buffer ++ leBytes 2 (x % 65536).toNat

def serializeI64 (buffer : List Byte) (x : Int) : List Byte :=
  buffer ++ leBytes 8 (x % 18446744073709551616).toNat

def serializeBool (buffer : List Byte) (b : Bool) : List Byte := buffer ++ [if b then 1 else 0]

def serializeString (buffer : List Byte) (data : List Byte) : List Byte :=
  buffer ++ leBytes 8 data.length ++ data

/-- Copy `n` bytes out of `buffer` at `offset`; reading past the end is an error. -/
def readBytes (buffer : List Byte) (offset n : Nat) : Except Error (List Byte) :=
  if offset + n ≤ buffer.length then Except.ok ((buffer.drop offset).take n)
  else Except.error Error.outOfBounds

def deserializeU8 (buffer : List Byte) (offset : Nat) : Except Error (Nat × Nat) := do
  let bs ← readBytes buffer offset 1
  pure (leValue bs, offset + 1)

def deserializeU16 (buffer : List Byte) (offset : Nat) : Except Error (Nat × Nat) := do
  let bs ← readBytes buffer offset 2
  pure (leValue bs, offset + 2)

def deserializeI16 (buffer : List Byte) (offset : Nat) : Except Error (Int × Nat) := do
  let bs ← readBytes buffer offset 2
  pure (wrap16 (leValue bs), offset + 2)

def deserializeI64 (buffer : List Byte) (offset : Nat) : Except Error (Int × Nat) := do
  let bs ← readBytes buffer offset 8
  pure (wrap64 (leValue bs), offset + 8)

/-- A `bool` is read back as "byte is non-zero". -/
def deserializeBool (buffer : List Byte) (offset : Nat) : Except Error (Bool × Nat) := do
  let bs ← readBytes buffer offset 1
  pure (decide (leValue bs ≠ 0), offset + 1)

def deserializeString (buffer : List Byte) (offset : Nat) : Except Error (List Byte × Nat) := do
  let len ← readBytes buffer offset 8
  let data ← readBytes buffer (offset + 8) (leValue len)
  pure (data, offset + 8 + leValue len)

/-! ## Superblock and FAT persistence, block I/O -/

/-- The loop of `writeBlock`: sectors `startAddress + 0 .. startAddress + n - 1`
receive consecutive 512-byte pieces of `block`. -/
def writeSectors (d : Disk) (startAddress : Nat) (block : List Byte) : Nat → Disk
  | 0 => d
  | n + 1 =>
    (writeSectors d startAddress block n).write (startAddress + n)
      ((block.drop (n * sectorSize)).take sectorSize)

/-- The loop of `readBlock`: the first `n` sectors from `startAddress`, concatenated. -/
def readSectors (d : Disk) (startAddress : Nat) : Nat → List Byte
  | 0 => []
  | n + 1 => readSectors d startAddress n ++ d.read (startAddress + n)

/-- A byte vector of exactly `n` bytes: the argument of `writeBlock`, whose size both
callers fix by construction. -/
structure Block (n : Nat) where
  bytes : List Byte
  size_eq : bytes.length = n

/-- The vector `std::vector<char> block(begin, std::min(begin + n, buffer.end()))`
followed by `block.resize(n)`, where `begin = buffer.begin() + offset`; when the `n`
bytes all lie inside `buffer` this is `std::vector<char> block(begin, begin + n)`. -/
def Block.slice (buffer : List Byte) (offset n : Nat) : Block n :=
  { bytes := resize ((buffer.drop offset).take n) n
    size_eq := by simp [resize] }

/-- The second assertion, `block.size() == sb.blockSize`, compares the size the block
was built with. -/
def writeBlock (blockAddress : Int) {n : Nat} (block : Block n) : M Unit := do
  assert (decide (blockAddress ≥ 0 ∧ blockAddress ≤ maxAddress))
  let s ← get
  assert (decide (n = s.sb.blockSize))
  let sectorPerBlock := s.sb.blockSize / sectorSize
  let startAddress := 1 + blockAddress.toNat * sectorPerBlock
  modify fun s => { s with disk := writeSectors s.disk startAddress block.bytes sectorPerBlock }

def readBlock (blockAddress : Int) : M (List Byte) := do
  assert (decide (blockAddress ≥ 0 ∧ blockAddress ≤ maxAddress))
  let s ← get
  let sectorPerBlock := s.sb.blockSize / sectorSize
  let startAddress := 1 + blockAddress.toNat * sectorPerBlock
  pure (resize (readSectors s.disk startAddress sectorPerBlock) s.sb.blockSize)

/-- The array `sector` is declared without an initialiser and only its first
`buffer.size()` bytes are assigned: the other bytes of the sector written are the ones
the array was found with (`uninit`; bytes the model's list does not supply count as
zero). -/
def writeSuperblock : M Unit := do
  let s ← get
  let buffer := serializeU8 [] s.sb.partitionId
  let buffer := serializeU16 buffer s.sb.blockSize
  let buffer := serializeI16 buffer s.sb.rootDirectoryEntrySize
  let sector := resize (buffer ++ (s.uninit s.uninitUsed).drop buffer.length) sectorSize
  modify fun s => { s with disk := s.disk.write 0 sector, uninitUsed := s.uninitUsed + 1 }

def readSuperblock : M Unit := do
  let s ← get
  let buffer := s.disk.read 0
  let (partitionId, offset) ← liftE (deserializeU8 buffer 0)
  let (blockSize, offset) ← liftE (deserializeU16 buffer offset)
  let (rootDirectoryEntrySize, _) ← liftE (deserializeI16 buffer offset)
  modify fun s => { s with sb := { partitionId := partitionId, blockSize := blockSize,
                                   rootDirectoryEntrySize := rootDirectoryEntrySize } }

/-- The serialised table: `fat[0]`, ..., `fat[n-1]` as 16-bit values, in this order
(the buffer the first loop of `writeFat` builds by appending entry after entry). -/
def serializeFat (fat : Fat) (n : Nat) : List Byte :=
  (List.range n).flatMap fun i => serializeI16 [] (fat i)

/-- The block loop of `writeFat`, for block addresses `0 .. n - 1`. -/
def writeFatBlocks (buffer : List Byte) : Nat → M Unit
  | 0 => pure ()
  | n + 1 => do
    writeFatBlocks buffer n
    let s ← get
    writeBlock n (Block.slice buffer (n * s.sb.blockSize) s.sb.blockSize)

def writeFat : M Unit := do
  let s ← get
  let buffer := serializeFat s.fat fatSize
  writeFatBlocks buffer (dataAddress s - fatAddress).toNat

/-- The block loop of `readFat`, for block addresses `0 .. n - 1`. -/
def readFatBlocks : Nat → M (List Byte)
  | 0 => pure []
  | n + 1 => do
    let buffer ← readFatBlocks n
    let block ← readBlock n
    pure (buffer ++ block)

/-- The entry loop of `readFat`: the table whose first `n` entries are read from `buffer`. -/
def deserializeFat (buffer : List Byte) : Nat → Except Error Fat
  | 0 => Except.ok (fun _ => 0)
  | n + 1 => do
    let fat ← deserializeFat buffer n
    let (v, _) ← deserializeI16 buffer (2 * n)
    pure (fatSet fat n v)

def readFat : M Unit := do
  let s ← get
  let buffer ← readFatBlocks (dataAddress s - fatAddress).toNat
  let fat ← liftE (deserializeFat buffer fatSize)
  modify fun s => { s with fat := fun i => if i < fatSize then fat i else s.fat i }

/-! ## Chains: freeBlocks, writeBlocks, readBlocks -/

/-- The `while` loop of `freeBlocks(BlockAddress)`. -/
def freeBlocksLoop : Nat → Int → M Unit
  | 0, _ => throw Error.diverges
  | fuel + 1, blockAddress =>
    if blockAddress ≠ lastBlockMarker then do
      let s ← get
      let nextAddress ← liftE (fatGet s.fat blockAddress)
      modify fun s => { s with fat := fatSet s.fat blockAddress.toNat freeBlockMarker }
      freeBlocksLoop fuel nextAddress
    else pure ()

/-- Every terminating walk of `freeBlocks` takes at most `fatSize + 1` steps
(see `freeBlocksLoop`); with this fuel `Error.diverges` stands for an endless walk. -/
def chainFuel : Nat := fatSize + 2

def freeBlocks (blockAddress : Int) : M Unit := do
  let s ← get
  assert (decide (blockAddress ≥ dataAddress s ∧ blockAddress ≤ maxAddress ∨ blockAddress = lastBlockMarker))
  freeBlocksLoop chainFuel blockAddress
  writeFat

/-- The `while (true)` loop of `writeBlocks`; `blockAddress` is where the scan began. -/
def writeBlocksLoop (buffer : List Byte) (blockAddress : Int) : Nat → Int → Int → Int → Nat → M Int
  | 0, _, _, _, _ => throw Error.diverges
  | fuel + 1, currAddress, prevAddress, firstAddress, offset => do
    let s ← get
    let entry ← liftE (fatGet s.fat currAddress)
    let next : Int → Int → Nat → M Int := fun prevAddress firstAddress offset =>
      let currAddress := wrap16 ((toSizeT (currAddress + 1) % fatSize : Nat) : Int)
      if currAddress = blockAddress then throw Error.fileSystemFull
      else writeBlocksLoop buffer blockAddress fuel currAddress prevAddress firstAddress offset
    if entry = freeBlockMarker then do
      let block := Block.slice buffer offset s.sb.blockSize
      let offset := offset + s.sb.blockSize
      writeBlock currAddress block
      let firstAddress := if firstAddress = -1 then currAddress else firstAddress
      if prevAddress ≠ -1 then
        modify fun s => { s with fat := fatSet s.fat prevAddress.toNat currAddress }
      let prevAddress := currAddress
      if offset ≥ buffer.length then do
        modify fun s => { s with fat := fatSet s.fat currAddress.toNat lastBlockMarker }
        writeFat
        pure firstAddress
      else next prevAddress firstAddress offset
    else next prevAddress firstAddress offset

def writeBlocks (blockAddress : Int) (buffer : List Byte) : M Int := do
  let s ← get
  let blockAddress ←
    if blockAddress = lastBlockMarker then pure (dataAddress s)
    else do
      freeBlocks blockAddress
      pure blockAddress
  if buffer.isEmpty then pure lastBlockMarker
  else writeBlocksLoop buffer blockAddress fatSize blockAddress (-1) (-1) 0

/-- The `while` loop of `readBlocks`. -/
def readBlocksLoop : Nat → Int → List Byte → M (List Byte)
  | 0, _, _ => throw Error.diverges
  | fuel + 1, blockAddress, buffer =>
    if blockAddress ≠ lastBlockMarker then do
      let block ← readBlock blockAddress
      let s ← get
      let nextAddress ← liftE (fatGet s.fat blockAddress)
      readBlocksLoop fuel nextAddress (buffer ++ block)
    else pure buffer

def readBlocks (blockAddress : Int) : M (List Byte) := do
  let s ← get
  assert (decide (blockAddress ≥ dataAddress s ∧ blockAddress ≤ maxAddress ∨ blockAddress = lastBlockMarker))
  readBlocksLoop chainFuel blockAddress []

/-! ## Directory entries and their serialisation -/

abbrev Name := List Byte

structure FileAttributes where
  isDirectory : Bool
  name : Name
  size : Int := 0
  canRead : Bool := true
  canWrite : Bool := true
  created : Int
  lastModified : Int
  deriving DecidableEq, Repr

structure DirectoryEntry where
  attributes : FileAttributes
  firstBlockAddress : Int := lastBlockMarker
  deriving DecidableEq, Repr

/-- The body of the serialisation loop of `writeDirectory` for one entry. -/
def serializeEntry (buffer : List Byte) (entry : DirectoryEntry) : List Byte :=
  let buffer := serializeBool buffer entry.attributes.isDirectory
  let buffer := serializeString buffer entry.attributes.name
  let buffer := serializeI16 buffer entry.attributes.size
  let buffer := serializeBool buffer entry.attributes.canRead
  let buffer := serializeBool buffer entry.attributes.canWrite
  let buffer := serializeI64 buffer entry.attributes.created
  let buffer := serializeI64 buffer entry.attributes.lastModified
  serializeI16 buffer entry.firstBlockAddress

def serializeDirectory (directory : List DirectoryEntry) : List Byte :=
  directory.foldl serializeEntry []

/-- The body of the loop of `readDirectory(BlockAddress, BlockAddress)` for one entry. -/
def deserializeEntry (buffer : List Byte) (offset : Nat) : Except Error (DirectoryEntry × Nat) := do
  let (isDirectory, offset) ← deserializeBool buffer offset
  let (name, offset) ← deserializeString buffer offset
  let (size, offset) ← deserializeI16 buffer offset
  let (canRead, offset) ← deserializeBool buffer offset
  let (canWrite, offset) ← deserializeBool buffer offset
  let (created, offset) ← deserializeI64 buffer offset
  let (lastModified, offset) ← deserializeI64 buffer offset
  let (firstBlockAddress, offset) ← deserializeI16 buffer offset
  pure ({ attributes := { isDirectory := isDirectory, name := name, size := size,
                          canRead := canRead, canWrite := canWrite, created := created,
                          lastModified := lastModified },
          firstBlockAddress := firstBlockAddress }, offset)

/-- The loop `while (offset < size)` of `readDirectory(BlockAddress, BlockAddress)`;
`size` is already converted to `size_t`. -/
def deserializeDirectory (buffer : List Byte) (size : Nat) :
    Nat → Nat → List DirectoryEntry → Except Error (List DirectoryEntry)
  | 0, _, _ => Except.error Error.diverges
  | fuel + 1, offset, directory =>
    if offset < size then do
      let (entry, offset) ← deserializeEntry buffer offset
      deserializeDirectory buffer size fuel offset (directory ++ [entry])
    else pure directory

def readDirectoryAt (blockAddress size : Int) : M (List DirectoryEntry) := do
  let buffer ← readBlocks blockAddress
  liftE (deserializeDirectory buffer (toSizeT size) (buffer.length + 1) 0 [])

/-! ## Paths -/

/-- A `std::filesystem::path`, as the elements its iterator yields. -/
abbrev Path := List Name

/-- The root directory element `"/"`. -/
def rootName : Name := [47]

def Path.rootPath (p : Path) : Path :=
  match p with
  | n :: _ => if n = rootName then [rootName] else []
  | [] => []

def Path.filename (p : Path) : Name :=
  match p with
  | [] => []
  | [n] => if n = rootName then [] else n
  | _ :: m :: r => (m :: r).getLast (List.cons_ne_nil m r)

def Path.hasFilename (p : Path) : Bool := decide (p.filename ≠ [])

def Path.parent (p : Path) : Path :=
  if p = [] ∨ p = [rootName] then p else p.dropLast

/-- The path `p / name`. -/
def Path.join (p : Path) (name : Name) : Path :=
  if name = rootName then [rootName]
  else if p.getLast? = some [] then p.dropLast ++ [name]
  else p ++ [name]

def pathToName (path : Path) : M Name := do
  assert (decide (path ≠ []))
  if path = path.rootPath then pure rootName
  else if path.hasFilename then pure path.filename
  else pure path.parent.filename

def parentPath (path : Path) : M Path := do
  assert (decide (path ≠ []))
  if path = path.rootPath then pure []
  else pure path.parent

/-! ## Path resolution and directory access -/

def findEntry (directory : List DirectoryEntry) (name : Name) : Option DirectoryEntry :=
  directory.find? fun entry => decide (entry.attributes.name = name)

/-- The `for (auto& name : path)` loop of `pathToAddressAndSize`. -/
def resolveLoop : List Name → List DirectoryEntry → Bool → Int → Int → M (Int × Int)
  | [], _, _, address, size => pure (address, size)
  | name :: rest, directory, fileFound, _, _ =>
    if fileFound then throw Error.notADirectory
    else
      match findEntry directory name with
      | some entry =>
        if entry.attributes.isDirectory then do
          let directory ← readDirectoryAt entry.firstBlockAddress entry.attributes.size
          resolveLoop rest directory false entry.firstBlockAddress entry.attributes.size
        else resolveLoop rest directory true entry.firstBlockAddress entry.attributes.size
      | none => throw Error.noSuchFileOrDirectory

def pathToAddressAndSize (path : Path) : M (Int × Int) := do
  let s ← get
  let address := dataAddress s
  let size := s.sb.rootDirectoryEntrySize
  if path = [] then pure (address, size)
  else do
    let directory ← readDirectoryAt address size
    resolveLoop path directory false address size

/-- The body of `readDirectoryEntry`, given `readDirectory(const Path&)`. -/
def readDirectoryEntryWith (readDir : Path → M (List DirectoryEntry)) (path : Path) :
    M DirectoryEntry := do
  let parent ← readDir (← parentPath path)
  let name ← pathToName path
  match findEntry parent name with
  | some entry => pure entry
  | none => throw Error.noSuchFileOrDirectory

/-- The body of `checkIsDirectory`, given `readDirectory(const Path&)`. -/
def checkIsDirectoryWith (readDir : Path → M (List DirectoryEntry)) (path : Path)
    (shouldBeDirectory : Bool) : M Unit := do
  let isDirectory ←
    if path = [] then pure true
    else do
      let entry ← readDirectoryEntryWith readDir path
      pure entry.attributes.isDirectory
  if shouldBeDirectory && !isDirectory then throw Error.notADirectory
  else if !shouldBeDirectory && isDirectory then throw Error.isADirectory
  else pure ()

/-- The function `readDirectory(const Path&)`; the recursion through `checkIsDirectory`,
`readAttributes` and `readDirectoryEntry` reaches the parent path, `fuel` bounds its depth. -/
def readDirectoryAux : Nat → Path → M (List DirectoryEntry)
  | 0, _ => throw Error.diverges
  | fuel + 1, path => do
    checkIsDirectoryWith (readDirectoryAux fuel) path true
    let (address, size) ← pathToAddressAndSize path
    readDirectoryAt address size

def readDirectory (path : Path) : M (List DirectoryEntry) :=
  readDirectoryAux (path.length + 1) path

def readDirectoryEntry (path : Path) : M DirectoryEntry :=
  readDirectoryEntryWith readDirectory path

def checkIsDirectory (path : Path) (shouldBeDirectory : Bool) : M Unit :=
  checkIsDirectoryWith readDirectory path shouldBeDirectory

def readAttributes (path : Path) : M FileAttributes := do
  let entry ← readDirectoryEntry path
  pure entry.attributes

inductive Permission
  | r
  | w
  deriving DecidableEq, Repr

def checkPermission (path : Path) (permission : Permission) : M Unit := do
  if path = [] then pure ()
  else do
    let attributes ← readAttributes path
    if (permission = Permission.r && !attributes.canRead)
        || (permission = Permission.w && !attributes.canWrite) then
      throw Error.permission
    else pure ()

/-- Replace the first entry named `name` (the loop of `writeDirectoryEntry`). -/
def replaceEntry (name : Name) (directoryEntry : DirectoryEntry) :
    List DirectoryEntry → Option (List DirectoryEntry)
  | [] => none
  | entry :: rest =>
    if entry.attributes.name = name then some (directoryEntry :: rest)
    else (replaceEntry name directoryEntry rest).map (entry :: ·)

/-- The body of `writeDirectoryEntry`, given `writeDirectory`. -/
def writeDirectoryEntryWith (writeDir : Path → List DirectoryEntry → Bool → M Int)
    (path : Path) (directoryEntry : DirectoryEntry) : M Unit := do
  let parent ← readDirectory (← parentPath path)
  let name ← pathToName path
  match replaceEntry name directoryEntry parent with
  | some parent => do
    let _ ← writeDir (← parentPath path) parent false
    pure ()
  | none => throw Error.noSuchFileOrDirectory

/-- The function `writeDirectory`; the recursion through `writeDirectoryEntry` reaches
the parent path, `fuel` bounds its depth. -/
def writeDirectoryAux : Nat → Path → List DirectoryEntry → Bool → M Int
  | 0, _, _, _ => throw Error.diverges
  | fuel + 1, path, directory, updateLastModified => do
    checkIsDirectory path true
    let buffer := serializeDirectory directory
    let (address, _) ← pathToAddressAndSize path
    let address ← writeBlocks address buffer
    if path = [] then do
      modify fun s => { s with sb := { s.sb with rootDirectoryEntrySize := wrap16 buffer.length } }
      writeSuperblock
    else do
      let entry ← readDirectoryEntry path
      let changed := decide (toSizeT entry.attributes.size ≠ buffer.length
                              ∨ entry.firstBlockAddress ≠ address)
      let entry : DirectoryEntry :=
        if changed then
          { attributes := { entry.attributes with size := wrap16 buffer.length },
            firstBlockAddress := address }
        else entry
      let entry ←
        if updateLastModified then do
          let now ← getNow
          pure { entry with attributes := { entry.attributes with lastModified := now } }
        else pure entry
      if changed || updateLastModified then
        writeDirectoryEntryWith (writeDirectoryAux fuel) path entry
    pure (wrap16 buffer.length)

def writeDirectory (path : Path) (directory : List DirectoryEntry)
    (updateLastModified : Bool := false) : M Int :=
  writeDirectoryAux (path.length + 1) path directory updateLastModified

def writeDirectoryEntry (path : Path) (directoryEntry : DirectoryEntry) : M Unit :=
  writeDirectoryEntryWith (fun p d u => writeDirectory p d u) path directoryEntry

/-! ## Public operations -/

/-- The constructor `FAT12(diskPath, blockSize)`: format a new image on `disk`. -/
def format (blockSize : Nat) : M Unit := do
  modify fun s => { s with sb := { blockSize := blockSize } }
  assert (decide (blockSize = 512 ∨ blockSize = 1024 ∨ blockSize = 2048 ∨ blockSize = 4096))
  modify fun s => { s with fat := fun _ => freeBlockMarker }
  modify fun s => { s with fat := fun i => if (i : Int) < dataAddress s then lastBlockMarker else s.fat i }
  let s ← get
  let _ ← liftE (fatGet s.fat (dataAddress s))
  modify fun s => { s with fat := fatSet s.fat (dataAddress s).toNat lastBlockMarker }
  let now ← getNow
  let rootDirectoryEntry : DirectoryEntry :=
    { attributes := { isDirectory := true, name := rootName, created := now, lastModified := now } }
  let size ← writeDirectory [] [rootDirectoryEntry]
  modify fun s => { s with sb := { s.sb with rootDirectoryEntrySize := size } }
  writeSuperblock
  writeFat

/-- The constructor `FAT12(diskPath)`: open an existing image. -/
def openImage : M Unit := do
  readSuperblock
  readFat

def writeAttributes (path : Path) (attributes : FileAttributes) : M Unit := do
  let entry ← readDirectoryEntry path
  writeDirectoryEntry path { entry with attributes := attributes }

def createDirectory (path : Path) : M Unit := do
  checkPermission (← parentPath path) Permission.w
  let parent ← readDirectory (← parentPath path)
  let name ← pathToName path
  if parent.any (fun entry => decide (entry.attributes.name = name)) then throw Error.fileExists
  else do
    let now ← getNow
    let entry : DirectoryEntry :=
      { attributes := { isDirectory := true, name := name, created := now, lastModified := now } }
    let _ ← writeDirectory (← parentPath path) (parent ++ [entry]) true
    pure ()

def listDirectory (path : Path) : M (List FileAttributes) := do
  checkPermission path Permission.r
  let attributes ← readAttributes path
  if !attributes.isDirectory then pure [attributes]
  else do
    let directory ← readDirectory path
    pure (directory.map fun entry => entry.attributes)

def freeBlocksPath (path : Path) : M Unit := do
  let (address, _) ← pathToAddressAndSize path
  freeBlocks address

/-- Erase the first entry named `name` (the final loop of `deleteDirectory` and `deleteFile`). -/
def eraseEntry (name : Name) : List DirectoryEntry → Option (List DirectoryEntry)
  | [] => none
  | entry :: rest =>
    if entry.attributes.name = name then some rest
    else (eraseEntry name rest).map (entry :: ·)

/-- The loop over `self` in `deleteDirectory`, given `deleteDirectory` for the children. -/
def deleteChildren (deleteDir : Path → M Unit) (path : Path) : List DirectoryEntry → M Unit
  | [] => pure ()
  | entry :: rest => do
    if entry.attributes.isDirectory then deleteDir (path.join entry.attributes.name)
    else freeBlocks entry.firstBlockAddress
    deleteChildren deleteDir path rest

/-- The function `deleteDirectory`; `fuel` bounds the depth of the recursion into
subdirectories. -/
def deleteDirectory : Nat → Path → M Unit
  | 0, _ => throw Error.diverges
  | fuel + 1, path => do
    checkPermission path Permission.w
    let self ← readDirectory path
    let parent ← readDirectory (← parentPath path)
    let name ← pathToName path
    deleteChildren (deleteDirectory fuel) path self
    freeBlocksPath path
    match eraseEntry name parent with
    | some parent => do
      let _ ← writeDirectory (← parentPath path) parent true
      pure ()
    | none => pure ()

/-- The construct `try { body } catch (const NoSuchFileOrDirectoryException&) { handler }`. -/
def tryCatchNoSuchFile {α : Type} (body handler : M α) : M α := fun s =>
  match body s with
  | (Except.error Error.noSuchFileOrDirectory, t) => handler t
  | r => r

def writeFile (path : Path) (data : List Byte) : M Unit := do
  let parent ← readDirectory (← parentPath path)
  let name ← pathToName path
  tryCatchNoSuchFile
    (do
      checkIsDirectory path false
      checkPermission path Permission.w
      let (address, _) ← pathToAddressAndSize path
      let _ ← writeBlocks address data
      let attributes ← readAttributes path
      let now ← getNow
      writeAttributes path { attributes with size := wrap16 data.length, lastModified := now })
    (do
      checkPermission (← parentPath path) Permission.w
      let address ← writeBlocks lastBlockMarker data
      let now ← getNow
      let entry : DirectoryEntry :=
        { attributes := { isDirectory := false, name := name, size := wrap16 data.length,
                          created := now, lastModified := now },
          firstBlockAddress := address }
      let _ ← writeDirectory (← parentPath path) (parent ++ [entry]) true
      pure ())

def readFile (path : Path) : M (List Byte) := do
  checkIsDirectory path false
  checkPermission path Permission.r
  let (address, size) ← pathToAddressAndSize path
  let data ← readBlocks address
  if size < 0 then throw Error.lengthError
  else pure (resize data size.toNat)

def deleteFile (path : Path) : M Unit := do
  checkIsDirectory path false
  checkPermission path Permission.w
  let parent ← readDirectory (← parentPath path)
  let name ← pathToName path
  freeBlocksPath path
  match eraseEntry name parent with
  | some parent => do
    let _ ← writeDirectory (← parentPath path) parent true
    pure ()
  | none => pure ()

/-- The number of FREE entries of the table, as counted by `dump`. -/
def freeBlockCount (fat : Fat) : Nat :=
  (List.range fatSize).countP fun i => decide (fat i = freeBlockMarker)

/-! ## Test harness: a blank device -/

/-- A state before any constructor ran: blank device, clock reading `t` at every call. -/
def blank (t : Int) : FS :=
  { disk := fun _ => [], sb := { blockSize := 0 }, fat := fun _ => 0, clock := fun _ => t, tick := 0 }

/-! ## Specification vocabulary -/

/-- The block sizes the formatting constructor accepts. -/
def validBlockSize (blockSize : Nat) : Prop :=
  blockSize = 512 ∨ blockSize = 1024 ∨ blockSize = 2048 ∨ blockSize = 4096

instance (blockSize : Nat) : Decidable (validBlockSize blockSize) := by
  unfold validBlockSize; infer_instance

/-- Every entry of the table is END-OF-CHAIN, FREE or a block address. -/
def fatInRange (fat : Fat) : Prop :=
  ∀ i, i < fatSize → -1 ≤ fat i ∧ fat i ≤ 4095

/-- The entries of the blocks that hold the table are END-OF-CHAIN. -/
def fatPinned (blockSize : Nat) (fat : Fat) : Prop :=
  ∀ i : Nat, (i : Int) < dataAddressOf blockSize → fat i = lastBlockMarker

/-- A well-formed table: entries in range, table blocks pinned. -/
def wellFormedFat (blockSize : Nat) (fat : Fat) : Prop :=
  fatInRange fat ∧ fatPinned blockSize fat

/-- The number of blocks a buffer of `n` bytes occupies. -/
def blocksNeeded (n blockSize : Nat) : Nat := (n + blockSize - 1) / blockSize

/-- The contents of block `b` as `readBlock` returns them. -/
def blockOf (s : FS) (b : Nat) : List Byte :=
  resize (readSectors s.disk (1 + b * (s.sb.blockSize / sectorSize)) (s.sb.blockSize / sectorSize))
    s.sb.blockSize

/-- The state after `writeFat`. -/
def persist (s : FS) : FS := (writeFat s).2

/-- The state after `writeBlock(b, bytes)`. -/
def putBlock (s : FS) (b : Nat) (bytes : List Byte) : FS :=
  { s with disk := writeSectors s.disk (1 + b * (s.sb.blockSize / sectorSize)) bytes
                     (s.sb.blockSize / sectorSize) }

/-- The state after the assignment `fat[i] = v`. -/
def setFat (s : FS) (i : Nat) (v : Int) : FS := { s with fat := fatSet s.fat i v }

/-- The state after `if (prevAddress != -1) fat[prevAddress] = currAddress`. -/
def linkPrev (s : FS) (prev : Int) (curr : Nat) : FS :=
  if prev ≠ -1 then setFat s prev.toNat curr else s

/-- The entries other than entry 0 that are not FREE, counted. -/
def busyCount (fat : Fat) : Nat :=
  (List.range fatSize).countP fun i => decide (i ≠ 0 ∧ fat i ≠ 0)

/-- The indices the scan of `writeBlocks` visits from its `j`-th step on, in order, when
it began at `start`. -/
def scanFrom (start j : Nat) : List Nat :=
  (List.range (fatSize - j)).map fun i => (start + j + i) % fatSize

/-- The FREE entries among `l`, in order. -/
def freeIn (fat : Fat) (l : List Nat) : List Nat :=
  l.filter fun i => decide (fat i = 0)

/-- The state after the scan allocated the blocks `cs` in turn: each receives the next
slice of `buffer` and is linked behind the block allocated before it. -/
def allocChain (buffer : List Byte) : FS → Int → Nat → List Nat → FS
  | s, _, _, [] => s
  | s, prev, offset, c :: r =>
    allocChain buffer
      (linkPrev (putBlock s c (Block.slice buffer offset s.sb.blockSize).bytes) prev c)
      c (offset + s.sb.blockSize) r

/-- The table once `writeBlocks` has freed the chain rooted at its hint `h`. -/
def freedFat (s : FS) (h : Int) : Fat :=
  if h = lastBlockMarker then s.fat else (freeBlocks h s).2.fat

/-- The blocks of the chain that starts at `a`, in order, found by following the links of
the table until END-OF-CHAIN; `none` when the walk leaves the table or does not end
within `fuel` steps. -/
def chainOf (fat : Fat) : Nat → Int → Option (List Nat)
  | 0, _ => none
  | fuel + 1, a =>
    if a = lastBlockMarker then some []
    else if 0 ≤ a ∧ a < fatSize then (chainOf fat fuel (fat a.toNat)).map (a.toNat :: ·)
    else none

/-- The table after the scan linked the blocks `cs` behind `prev`. -/
def linkFat (fat : Fat) (prev : Int) : List Nat → Fat
  | [] => fat
  | c :: r => linkFat (if prev ≠ -1 then fatSet fat prev.toNat c else fat) c r

/-- The first `k` block-sized slices of `buffer` from `offset` on, each zero-padded to
`blockSize` bytes, concatenated. -/
def slices (buffer : List Byte) (blockSize : Nat) : Nat → Nat → List Byte
  | _, 0 => []
  | offset, k + 1 =>
    (Block.slice buffer offset blockSize).bytes ++ slices buffer blockSize (offset + blockSize) k

/-- The index at which the scan of `writeBlocks` begins, for hint `h`. -/
def scanStart (s : FS) (h : Int) : Nat :=
  (if h = lastBlockMarker then dataAddress s else h).toNat

instance {ε α : Type} [DecidableEq ε] [DecidableEq α] : DecidableEq (Except ε α) := fun x y =>
  match x, y with
  | Except.ok a, Except.ok b =>
    if h : a = b then isTrue (by rw [h]) else isFalse (fun e => h (by cases e; rfl))
  | Except.error a, Except.error b =>
    if h : a = b then isTrue (by rw [h]) else isFalse (fun e => h (by cases e; rfl))
  | Except.ok _, Except.error _ => isFalse (fun e => by cases e)
  | Except.error _, Except.ok _ => isFalse (fun e => by cases e)

/-- A state whose table is the one a fresh format at block size 512 produces: entries
0 to 16 END-OF-CHAIN, all others FREE. -/
def sampleFS : FS :=
  { disk := fun _ => [], sb := { blockSize := 512, rootDirectoryEntrySize := 32 },
    fat := fun i => if i ≤ 16 then -1 else 0, clock := fun _ => 0, tick := 0 }

/-! ## fsutil.cpp: chmod -/

/-- The `for (auto c : permissions)` loop of `chmod`; `add` is the flag the last sign set. -/
def chmodLoop : List Char → Bool → FileAttributes → Except Error FileAttributes
  | [], _, attributes => Except.ok attributes
  | c :: rest, add, attributes =>
    if c = '+' then chmodLoop rest true attributes
    else if c = '-' then chmodLoop rest false attributes
    else if c = 'r' then chmodLoop rest add { attributes with canRead := add }
    else if c = 'w' then chmodLoop rest add { attributes with canWrite := add }
    else Except.error Error.invalidMode

/-- The function `chmod(fs, path, permissions)`. The flag `add` is declared without a
value; the test of `permissions[0]` makes the loop assign it before it is read
(`permissions[0]` of an empty string is the terminating null character). -/
def chmod (path : Path) (permissions : List Char) : M Unit := do
  let attributes ← readAttributes path
  if permissions.headD (Char.ofNat 0) ≠ '+' ∧ permissions.headD (Char.ofNat 0) ≠ '-' then
    throw Error.invalidMode
  else do
    let attributes ← liftE (chmodLoop permissions false attributes)
    writeAttributes path attributes

/-! ## Sample images and scenarios -/

def nameX : Name := [120]

def nameY : Name := [121]

def nameD : Name := [100]

def nameA : Name := [97]

def nameB : Name := [98]

def pathX : Path := [rootName, nameX]

def pathY : Path := [rootName, nameY]

def pathD : Path := [rootName, nameD]

/-- A freshly formatted image with block size 512 (blank device, clock reading 0). -/
def image512 : FS := (format 512 (blank 0)).2

/-- The image after `writeFile("/x", {})`. -/
def emptyFileImage : FS := (writeFile pathX [] image512).2

/-- The image after `writeFile("/x", {})` and `writeFile("/x", {5, 6})`. -/
def rewrittenEmptyFileImage : FS := (writeFile pathX [5, 6] emptyFileImage).2

/-- The image after `writeFile("/x", {1})`. -/
def oneFileImage : FS := (writeFile pathX [1] image512).2

/-- The image after `writeFile("/x", {1})` and `writeFile("/x", {})`. -/
def truncatedFileImage : FS := (writeFile pathX [] oneFileImage).2

/-- The image after `writeFile("/x", {1})`, `writeFile("/x", {})` and `deleteFile("/x")`. -/
def truncatedDeletedImage : FS := (deleteFile pathX truncatedFileImage).2

/-- The image after `writeFile("/x", {1})`, `writeFile("/x", {})` and `writeFile("/y", {2})`. -/
def sharedBlockImage : FS := (writeFile pathY [2] truncatedFileImage).2

/-- The image after `writeFile("/x", {1})` and `deleteFile("/x")`. -/
def oneFileDeletedImage : FS := (deleteFile pathX oneFileImage).2

/-- The image after `deleteDirectory("/")` on a fresh image. -/
def rootDeletedImage : FS := (deleteDirectory 2 [rootName] image512).2

/-- The image after `createDirectory("d")`, a path without a leading slash. -/
def relativeDirImage : FS := (createDirectory [nameD] image512).2

/-- The names of the entries of a directory listing result. -/
def entryNames (r : Except Error (List DirectoryEntry)) : Except Error (List Name) :=
  r.map fun es => es.map fun e => e.attributes.name

/-- The first block addresses of the entries of a directory listing result. -/
def entryBlocks (r : Except Error (List DirectoryEntry)) : Except Error (List Int) :=
  r.map fun es => es.map fun e => e.firstBlockAddress

/-- Run a sequence of operations, stopping at the first error. -/
def runAll : List (M Unit) → M Unit
  | [] => pure ()
  | op :: rest => do
    op
    runAll rest

/-- Clear the write permission of `path`, as `chmod -w` does. -/
def makeReadOnly (path : Path) : M Unit := chmod path ['-', 'w']

/-- The image after `mkdir /d`, `mkdir /d/a`, `mkdir /d/b` and `chmod -w /d/b`. -/
def guardedTreeImage : FS :=
  (runAll [createDirectory pathD, createDirectory [rootName, nameD, nameA],
           createDirectory [rootName, nameD, nameB],
           makeReadOnly [rootName, nameD, nameB]] image512).2

/-- Two directory entries with the same name, as file contents. -/
def duplicateEntry : DirectoryEntry :=
  { attributes := { isDirectory := false, name := nameA, created := 0, lastModified := 0 } }

/-- The image after `write /x {1}`, `write /x {}`, `mkdir /d`, `mkdir /d/a`, `mkdir /d/b`
and a `write /x` of 64 bytes that spell two entries of the same name. -/
def clobberedDirImage : FS :=
  (runAll [createDirectory pathD, createDirectory [rootName, nameD, nameA],
           createDirectory [rootName, nameD, nameB],
           writeFile pathX (serializeDirectory [duplicateEntry, duplicateEntry])]
    truncatedFileImage).2

/-! ## Computations that leave the state unchanged -/

/-- The computation never changes the state, whether it returns or fails. -/
def ReadOnly {α : Type} (m : M α) : Prop := ∀ s, (m s).2 = s

/-! ## Errors that only the leading checks raise -/

/-- The errors raised by the permission, type, existence and mode checks. -/
def checkError (e : Error) : Prop :=
  e = Error.permission ∨ e = Error.fileExists ∨ e = Error.isADirectory ∨ e = Error.invalidMode

/-- The computation never fails with a check error. -/
def NoCheckError {α : Type} (m : M α) : Prop := ∀ s e, (m s).1 = Except.error e → ¬ checkError e

/-- The pure computation never fails with a check error. -/
def PureNoCheckError {α : Type} (x : Except Error α) : Prop :=
  ∀ e, x = Except.error e → ¬ checkError e

/-! ## Errors of the leading checks leave the state unchanged -/

/-- Whenever the computation fails with a check error, the state is the one it started
from. -/
def CheckAtomic {α : Type} (m : M α) : Prop :=
  ∀ s e, (m s).1 = Except.error e → checkError e → (m s).2 = s

/-- The entry of `/x` in the image after `writeFile("/x", {1})`. -/
def fileXEntry : DirectoryEntry :=
  { attributes := { isDirectory := false, name := nameX, size := 1, created := 0,
                    lastModified := 0 },
    firstBlockAddress := 17 }

/-- The characters the loop of `chmod` accepts. -/
def modeChar (c : Char) : Bool := c = '+' || c = '-' || c = 'r' || c = 'w'

/-- The mode strings `chmod` accepts: the first character is a sign and every character
is a sign or a permission letter. -/
def modeAccepted (mode : List Char) : Bool :=
  (mode.headD (Char.ofNat 0) = '+' || mode.headD (Char.ofNat 0) = '-') && mode.all modeChar

/-- A concatenation of one or more of the two-character tokens `+r`, `-r`, `+w`, `-w`. -/
def isTokenString : List Char → Bool
  | [] => false
  | [_] => false
  | [sign, letter] => (sign = '+' || sign = '-') && (letter = 'r' || letter = 'w')
  | sign :: letter :: rest =>
    (sign = '+' || sign = '-') && (letter = 'r' || letter = 'w') && isTokenString rest

/-- The directory reached from `directory` by following `names`, each of which must name
a subdirectory whose contents can be read; `none` when some component is absent, names a
file, or names a directory that cannot be read. -/
def walkDirs (s : FS) : List Name → List DirectoryEntry → Option (List DirectoryEntry)
  | [], directory => some directory
  | name :: rest, directory =>
    match findEntry directory name with
    | some entry =>
      if entry.attributes.isDirectory then
        match (readDirectoryAt entry.firstBlockAddress entry.attributes.size s).1 with
        | Except.ok sub => walkDirs s rest sub
        | Except.error _ => none
      else none
    | none => none

/-- The entry of `/` in the root container of the image after `writeFile("/x", {1})`. -/
def rootEntryOneFile : DirectoryEntry :=
  { attributes := { isDirectory := true, name := rootName, size := 32, created := 0,
                    lastModified := 0 },
    firstBlockAddress := 18 }

/-- The table with the entries of the blocks `cs` set to FREE. -/
def clearChain (fat : Fat) (cs : List Nat) : Fat :=
  fun i => if i ∈ cs then freeBlockMarker else fat i

/-- The image after `write /x {1}`, `write /x {}`, `write /y {2}` and `write /x {5}`. -/
def overwrittenSharedImage : FS := (writeFile pathX [5] sharedBlockImage).2

/-! ## dump -/

/-- The loop of `dumpDirectory` that annotates the chain of an entry: the text written
from block `address` on, `beginAddress` being the first block of the current run. -/
def chainLabelLoop (fat : Fat) : Nat → Int → Int → Except Error String
  | 0, _, _ => Except.error Error.diverges
  | fuel + 1, address, beginAddress =>
    if address ≠ lastBlockMarker then do
      let next ← fatGet fat address
      if next ≠ address + 1 then do
        let dash := if address ≠ beginAddress then "-" ++ toString address else ""
        if next ≠ lastBlockMarker then do
          let rest ← chainLabelLoop fat fuel next next
          pure (dash ++ ("->" ++ toString next ++ rest))
        else do
          let rest ← chainLabelLoop fat fuel next beginAddress
          pure (dash ++ rest)
      else chainLabelLoop fat fuel next beginAddress
    else pure ""

/-- The text `dumpDirectory` writes between the name of an entry and the end of the
line. -/
def chainLabel (fat : Fat) (firstBlockAddress : Int) : Except Error String := do
  let rest ← chainLabelLoop fat chainFuel firstBlockAddress firstBlockAddress
  pure ((if firstBlockAddress ≠ -1 then toString firstBlockAddress else "") ++ rest)

/-- The counting loop of `dump`: the entries of the table equal to FREE, counted one by
one in index order. -/
def dumpFreeBlockCount (fat : Fat) : Nat :=
  (List.range fatSize).foldl (fun count i => if fat i = freeBlockMarker then count + 1 else count) 0

/-- The bytes of a name as text. -/
def nameText (name : Name) : String := String.mk (name.map fun b => Char.ofNat b.val)

/-- Conversion to `int` (32-bit two's complement). -/
def wrap32 (x : Int) : Int := (x + 2147483648) % 4294967296 - 2147483648

/-- The loop over the entries in `dumpDirectory`, given `dumpDirectory` for the
subdirectories; the counters `fileCount` and `directoryCount` are threaded through. -/
def dumpEntries (dumpDir : Path → Nat → Int × Int → M (String × (Int × Int))) (path : Path)
    (indent : Nat) : List DirectoryEntry → Int × Int → M (String × (Int × Int))
  | [], counts => pure ("", counts)
  | entry :: rest, (fileCount, directoryCount) => do
    let s ← get
    let label ← liftE (chainLabel s.fat entry.firstBlockAddress)
    let line := String.mk (List.replicate indent ' ') ++ nameText entry.attributes.name ++ " "
      ++ label ++ "\n"
    let (sub, counts) ←
      if entry.attributes.isDirectory then
        dumpDir (path.join entry.attributes.name) (indent + 2)
          (fileCount, wrap32 (directoryCount + 1))
      else pure ("", (wrap32 (fileCount + 1), directoryCount))
    let (tail, counts) ← dumpEntries dumpDir path indent rest counts
    pure (line ++ sub ++ tail, counts)

/-- The function `dumpDirectory`; `fuel` bounds the depth of the recursion into
subdirectories. -/
def dumpDirectory : Nat → Path → Nat → Int × Int → M (String × (Int × Int))
  | 0, _, _, _ => throw Error.diverges
  | fuel + 1, path, indent, counts => do
    let directory ← readDirectory path
    dumpEntries (dumpDirectory fuel) path indent directory counts

/-- The function `dump`. -/
def dump (fuel : Nat) : M String := do
  let s ← get
  let freeBlockCount := dumpFreeBlockCount s.fat
  let (directoryDump, (fileCount, directoryCount)) ← dumpDirectory fuel [] 0 (0, 0)
  pure ("Block count: " ++ toString fatSize ++ "\n"
    ++ "Free blocks: " ++ toString freeBlockCount ++ "\n"
    ++ "Block size: " ++ toString s.sb.blockSize ++ "\n"
    ++ "File count: " ++ toString fileCount ++ "\n"
    ++ "Directory count: " ++ toString directoryCount ++ "\n"
    ++ directoryDump)

/-! ## The annotation, as specified -/

/-- The maximal runs of consecutive block addresses of a chain, in chain order, each as
its first and last block. -/
def runsOf : List Nat → List (Nat × Nat)
  | [] => []
  | a :: rest =>
    match runsOf rest with
    | [] => [(a, a)]
    | (b, e) :: more => if b = a + 1 then (a, e) :: more else (a, a) :: (b, e) :: more

/-- The text of one run: `a` when it is a single block, `a-b` otherwise. -/
def renderRun (run : Nat × Nat) : String :=
  if run.1 = run.2 then toString run.1 else toString run.1 ++ "-" ++ toString run.2

/-- The text of the runs, with `->` between successive runs. -/
def renderRuns : List (Nat × Nat) → String
  | [] => ""
  | [run] => renderRun run
  | run :: next :: more => renderRun run ++ "->" ++ renderRuns (next :: more)

/-- The text that follows the first block of a run that began at `b`, ends at `e` and
is followed by the runs `more`. -/
def tailText : Nat → Nat → List (Nat × Nat) → String
  | b, e, [] => if e ≠ b then "-" ++ toString e else ""
  | b, e, (b2, e2) :: more =>
    (if e ≠ b then "-" ++ toString e else "") ++ ("->" ++ toString b2 ++ tailText b2 e2 more)

/-- A state whose table holds the chain 20, 21, 30. -/
def chainSampleFS : FS :=
  { sampleFS with
    fat := fun i => if i = 20 then 21 else if i = 21 then 30 else if i = 30 then -1
                    else sampleFS.fat i }

/-! ## Counting the chain writes of writeDirectory -/

/-- The function `writeDirectoryEntry`, given `writeDirectory` with its count of chain
writes; the count of the nested call is returned. -/
def writeDirectoryEntryCounting
    (writeDir : Path → List DirectoryEntry → Bool → M (Int × Nat))
    (path : Path) (directoryEntry : DirectoryEntry) : M Nat := do
  let parent ← readDirectory (← parentPath path)
  let name ← pathToName path
  match replaceEntry name directoryEntry parent with
  | some parent => do
    let (_, count) ← writeDir (← parentPath path) parent false
    pure count
  | none => throw Error.noSuchFileOrDirectory

/-- The function `writeDirectory` instrumented with a counter: the second component of
the result is the number of calls of `writeBlocks` made by this activation and the
activations nested in it. -/
def writeDirectoryCounting : Nat → Path → List DirectoryEntry → Bool → M (Int × Nat)
  | 0, _, _, _ => throw Error.diverges
  | fuel + 1, path, directory, updateLastModified => do
    checkIsDirectory path true
    let buffer := serializeDirectory directory
    let (address, _) ← pathToAddressAndSize path
    let address ← writeBlocks address buffer
    let nested ←
      if path = [] then do
        modify fun s => { s with sb := { s.sb with rootDirectoryEntrySize := wrap16 buffer.length } }
        writeSuperblock
        pure 0
      else do
        let entry ← readDirectoryEntry path
        let changed := decide (toSizeT entry.attributes.size ≠ buffer.length
                                ∨ entry.firstBlockAddress ≠ address)
        let entry : DirectoryEntry :=
          if changed then
            { attributes := { entry.attributes with size := wrap16 buffer.length },
              firstBlockAddress := address }
          else entry
        let entry ←
          if updateLastModified then do
            let now ← getNow
            pure { entry with attributes := { entry.attributes with lastModified := now } }
          else pure entry
        if changed || updateLastModified then
          writeDirectoryEntryCounting (writeDirectoryCounting fuel) path entry
        else pure 0
    pure (wrap16 buffer.length, 1 + nested)

/-- Forget part of the result of a computation. -/
def mapResult {α β : Type} (φ : α → β) (m : M α) : M β := fun s =>
  match m s with
  | (Except.ok a, t) => (Except.ok (φ a), t)
  | (Except.error e, t) => (Except.error e, t)

/-- Every successful run of the instrumented computation reports a count between 1 and
`k`. -/
def CountAtMost (k : Nat) (m : M (Int × Nat)) : Prop :=
  ∀ s r n t, m s = (Except.ok (r, n), t) → 1 ≤ n ∧ n ≤ k

/-- Every successful run of the nested computation reports a count of at most `k`. -/
def NestedAtMost (k : Nat) (m : M Nat) : Prop :=
  ∀ s n t, m s = (Except.ok n, t) → n ≤ k

/-- The bytes `serializeEntry` appends for one entry. -/
def entryBytes (entry : DirectoryEntry) : List Byte :=
  serializeBool [] entry.attributes.isDirectory
    ++ (serializeString [] entry.attributes.name
    ++ (serializeI16 [] entry.attributes.size
    ++ (serializeBool [] entry.attributes.canRead
    ++ (serializeBool [] entry.attributes.canWrite
    ++ (serializeI64 [] entry.attributes.created
    ++ (serializeI64 [] entry.attributes.lastModified
    ++ serializeI16 [] entry.firstBlockAddress))))))

/-- The fields of the entry hold values of their C++ types: `int16_t` size and block
address, `int64_t` time stamps, a name shorter than `2^64` bytes. -/
def entryInRange (entry : DirectoryEntry) : Prop :=
  entry.attributes.name.length < 18446744073709551616
    ∧ (-32768 ≤ entry.attributes.size ∧ entry.attributes.size ≤ 32767)
    ∧ (-9223372036854775808 ≤ entry.attributes.created
        ∧ entry.attributes.created ≤ 9223372036854775807)
    ∧ (-9223372036854775808 ≤ entry.attributes.lastModified
        ∧ entry.attributes.lastModified ≤ 9223372036854775807)
    ∧ (-32768 ≤ entry.firstBlockAddress ∧ entry.firstBlockAddress ≤ 32767)

instance (entry : DirectoryEntry) : Decidable (entryInRange entry) := by
  unfold entryInRange; infer_instance

/-- The table the formatting constructor builds in memory for block size `b`. -/
def formatTable (b : Nat) : Fat :=
  fatSet (fun i => if (i : Int) < dataAddressOf b then lastBlockMarker else freeBlockMarker)
    (dataAddressOf b).toNat lastBlockMarker

/-- The state of the formatting constructor when it calls `writeDirectory`. -/
def formatStart (b : Nat) (s : FS) : FS :=
  { s with sb := { blockSize := b }, fat := formatTable b, tick := s.tick + 1 }

/-- The entry of the root directory the formatting constructor writes at time `now`. -/
def rootDirectoryEntry (now : Int) : DirectoryEntry :=
  { attributes := { isDirectory := true, name := rootName, created := now, lastModified := now } }

/-- The state after `sb.rootDirectoryEntrySize = size; writeSuperblock()`. -/
def setRootSize (s : FS) (size : Int) : FS :=
  (writeSuperblock { s with sb := { s.sb with rootDirectoryEntrySize := size } }).2

/-- The contents `writeSuperblock` gives sector 0 when it finds its array with the
contents `g`: the five bytes of the superblock, then the bytes of `g` from the sixth
on. -/
def superblockSector (sb : Superblock) (g : List Byte) : List Byte :=
  resize (serializeI16 (serializeU16 (serializeU8 [] sb.partitionId) sb.blockSize)
      sb.rootDirectoryEntrySize
    ++ g.drop (serializeI16 (serializeU16 (serializeU8 [] sb.partitionId) sb.blockSize)
      sb.rootDirectoryEntrySize).length) sectorSize

/-- Sector 0 holds the in-memory superblock in its first five bytes (whatever the other
bytes are), the block size is an allowed one, and the superblock fields and the table
entries are values of their C++ types. -/
def SuperblockSaved (s : FS) : Prop :=
  validBlockSize s.sb.blockSize ∧ s.sb.partitionId = 1 ∧
  (-32768 ≤ s.sb.rootDirectoryEntrySize ∧ s.sb.rootDirectoryEntrySize ≤ 32767) ∧
  (∀ i, i < fatSize → -32768 ≤ s.fat i ∧ s.fat i ≤ 32767) ∧
  ∃ g : List Byte, s.disk 0 = superblockSector s.sb g

/-- The image holds the state of the object: sector 0 holds the superblock and the blocks
`[0, dataAddress)`, concatenated, are the 4096 table entries as consecutive 16-bit
little-endian values. -/
def Persisted (s : FS) : Prop :=
  SuperblockSaved s ∧
  (List.range (8192 / s.sb.blockSize)).flatMap (blockOf s) = serializeFat s.fat fatSize

/-- Whatever its outcome, the computation keeps sector 0 in step with the superblock
(`SuperblockSaved`), and it never reports NoSuchFileOrDirectory. -/
def Steady {α : Type} (m : M α) : Prop :=
  ∀ s r t, SuperblockSaved s → m s = (r, t) →
    SuperblockSaved t ∧ r ≠ Except.error Error.noSuchFileOrDirectory

/-- Started with sector 0 in step with the superblock, the computation never reports
NoSuchFileOrDirectory, and when it returns the image holds the whole state. -/
def Settles {α : Type} (m : M α) : Prop :=
  ∀ s r t, SuperblockSaved s → m s = (r, t) →
    r ≠ Except.error Error.noSuchFileOrDirectory ∧ ∀ a, r = Except.ok a → Persisted t

/-- Started on an image that holds the state, the computation leaves an image that holds
the state whenever it returns or reports NoSuchFileOrDirectory. -/
def Preserves {α : Type} (m : M α) : Prop :=
  ∀ s r t, Persisted s → m s = (r, t) →
    (r = Except.error Error.noSuchFileOrDirectory ∨ ∃ a, r = Except.ok a) → Persisted t

/-- A directory as it is stored: the first block and the size recorded for it, its
entries, and the blocks of its chain. -/
structure Level where
  address : Int
  size : Int
  entries : List DirectoryEntry
  chain : List Nat

/-- The directory `L` is stored in the image: its chain is a chain of data blocks ending
in END-OF-CHAIN, the chain holds the serialised entries in `ceil(size / blockSize)`
blocks, the recorded size is their length (at most 32767), and the fields of the entries
hold values of their C++ types. -/
def LevelOk (s : FS) (L : Level) : Prop :=
  chainOf s.fat chainFuel L.address = some L.chain ∧
  (L.address = -1 ∨ (dataAddress s ≤ L.address ∧ L.address ≤ 4095)) ∧
  (∀ c ∈ L.chain, 8192 / s.sb.blockSize ≤ c) ∧
  (∃ pad, L.chain.flatMap (blockOf s) = serializeDirectory L.entries ++ pad) ∧
  L.size = ((serializeDirectory L.entries).length : Int) ∧
  (serializeDirectory L.entries).length ≤ 32767 ∧
  (∀ e ∈ L.entries, entryInRange e) ∧
  L.chain.length = blocksNeeded (serializeDirectory L.entries).length s.sb.blockSize

/-- The path resolves through stored directories: `Resolved s p Ls L` says that the
directories on the way to `p` are `Ls` (the root container first), that `p` itself is the
directory `L`, that each is reached through a directory entry of the one before, and that
the chains of different directories on the way share no block. -/
inductive Resolved (s : FS) : Path → List Level → Level → Prop
  | root (L : Level) (hL : LevelOk s L) (ha : L.address = dataAddress s)
      (hz : L.size = s.sb.rootDirectoryEntrySize) : Resolved s [] [] L
  | step (q : Path) (Ls : List Level) (L : Level) (n : Name) (e : DirectoryEntry) (L2 : Level)
      (hq : Resolved s q Ls L) (hn : n ≠ []) (hfind : findEntry L.entries n = some e)
      (hdir : e.attributes.isDirectory = true) (ha : e.firstBlockAddress = L2.address)
      (hz : e.attributes.size = L2.size) (hL : LevelOk s L2)
      (hdisj : ∀ M ∈ Ls ++ [L], ∀ c ∈ M.chain, c ∉ L2.chain) :
      Resolved s (q ++ [n]) (Ls ++ [L]) L2

/-- The blocks of the chains of the directories `Ls`. -/
def chainsOf (Ls : List Level) : List Nat := Ls.flatMap fun L => L.chain

/-- What a returned `writeDirectory(p, es)` leaves behind, started in `s` where `p` is the
stored directory `L` below the directories `Ls`: in the state `t` reached, `p` is the
directory `L2` below `Ls2` and lists `es`; block size, well-formedness of the table and the
clock are kept; entries and blocks outside the old and new chains of these directories
are untouched; the new chains use only blocks of the old chains and FREE blocks; the
FREE count changes by the difference of the lengths of the chain of `p`; the entry of
`p` keeps its name, kind, permissions and creation time; and the directories on the way
to `p` keep the lengths of their chains and the names of their entries. -/
def WritePost (s : FS) (p : Path) (Ls : List Level) (L : Level) (es : List DirectoryEntry)
    (t : FS) (Ls2 : List Level) (L2 : Level) : Prop :=
  Resolved t p Ls2 L2 ∧ L2.entries = es ∧ t.sb.blockSize = s.sb.blockSize ∧
  wellFormedFat t.sb.blockSize t.fat ∧
  (∀ x, x ∉ chainsOf (Ls ++ [L]) → x ∉ chainsOf (Ls2 ++ [L2]) → t.fat x = s.fat x) ∧
  (∀ x, 8192 / s.sb.blockSize ≤ x → x ∉ chainsOf (Ls ++ [L]) → x ∉ chainsOf (Ls2 ++ [L2]) →
    blockOf t x = blockOf s x) ∧
  (∀ c ∈ chainsOf (Ls2 ++ [L2]), s.fat c = 0 ∨ c ∈ chainsOf (Ls ++ [L])) ∧
  freeBlockCount t.fat + L2.chain.length = freeBlockCount s.fat + L.chain.length ∧
  t.clock = s.clock ∧ s.tick ≤ t.tick ∧
  (∀ a, readAttributes p s = (Except.ok a, s) →
    ∃ a2, readAttributes p t = (Except.ok a2, t) ∧ a2.name = a.name ∧
      a2.isDirectory = a.isDirectory ∧ a2.canRead = a.canRead ∧ a2.canWrite = a.canWrite ∧
      a2.created = a.created) ∧
  List.Forall₂ (fun A B : Level => B.chain.length = A.chain.length) Ls Ls2 ∧
  List.Forall₂ (fun A B : Level =>
    (B.entries.map fun x => x.attributes.name) = A.entries.map fun x => x.attributes.name)
    Ls Ls2

/-- The specification of `writeDirectory` with `fuel` nested activations allowed. -/
def WritesDirectory (fuel : Nat) : Prop :=
  ∀ (p : Path) (Ls : List Level) (L : Level) (s : FS) (es : List DirectoryEntry) (upd : Bool),
    p.length + 1 ≤ fuel → validBlockSize s.sb.blockSize →
    wellFormedFat s.sb.blockSize s.fat → Resolved s p Ls L →
    (∀ e ∈ es, entryInRange e) → (serializeDirectory es).length ≤ 32767 →
    (p = [] → es ≠ []) →
    blocksNeeded (serializeDirectory es).length s.sb.blockSize
      ≤ freeBlockCount s.fat + L.chain.length →
    ∃ (t : FS) (Ls2 : List Level) (L2 : Level),
      writeDirectoryAux fuel p es upd s
        = (Except.ok (wrap16 (serializeDirectory es).length), t) ∧
      WritePost s p Ls L es t Ls2 L2

/-- The tree below `path` can be dumped with `fuel` nested activations of
`dumpDirectory`: the listing of `path` can be read, the table holds a chain for the first
block of every entry, and the same holds of every subdirectory, with one activation
less. -/
def TreeOk (s : FS) : Nat → Path → Prop
  | 0, _ => False
  | fuel + 1, path =>
    ∃ directory : List DirectoryEntry, readDirectory path s = (Except.ok directory, s) ∧
      ∀ entry ∈ directory,
        (∃ cs : List Nat, chainOf s.fat chainFuel entry.firstBlockAddress = some cs) ∧
        (entry.attributes.isDirectory = true →
          TreeOk s fuel (path.join entry.attributes.name))

/-- The chain of the entry `e` of the stored directory `L` is stored: the first block is
END-OF-CHAIN or a data block, it roots a chain of data blocks that ends in END-OF-CHAIN,
and the chain shares no block with the directories on the way to `L`. -/
def FileStored (s : FS) (Ls : List Level) (L : Level) (e : DirectoryEntry) : Prop :=
  ∃ cs : List Nat, chainOf s.fat chainFuel e.firstBlockAddress = some cs ∧
    (e.firstBlockAddress = -1
      ∨ (dataAddress s ≤ e.firstBlockAddress ∧ e.firstBlockAddress ≤ 4095)) ∧
    (∀ c ∈ cs, 8192 / s.sb.blockSize ≤ c) ∧
    (∀ c ∈ chainsOf (Ls ++ [L]), c ∉ cs)

/-- The image is well formed at the name `n` of the directory `q`: the block size is an
allowed one, the table is well formed and, if the listing of `q` can be read at all, `q`
is a stored directory reached through stored directories, and the chain of the entry
named `n`, when that entry is a file, is stored. -/
def WellFormedAt (s : FS) (q : Path) (n : Name) : Prop :=
  validBlockSize s.sb.blockSize ∧ wellFormedFat s.sb.blockSize s.fat ∧
  ((∃ d, readDirectory q s = (Except.ok d, s)) →
    ∃ (Ls : List Level) (L : Level), Resolved s q Ls L ∧
      ∀ e, findEntry L.entries n = some e → e.attributes.isDirectory = false →
        FileStored s Ls L e)

/-- The computation, started in `s`, leaves the state as it was whenever it reports an
error other than filesystem-full. -/
def ErrorsAtomic {α : Type} (x : M α) (s : FS) : Prop :=
  ∀ e t, x s = (Except.error e, t) → e ≠ Error.fileSystemFull → t = s

/-- The `try` block of `writeFile`: the write to an existing file. -/
def writeFileExisting (path : Path) (data : List Byte) : M Unit := do
  checkIsDirectory path false
  checkPermission path Permission.w
  let (address, _) ← pathToAddressAndSize path
  let _ ← writeBlocks address data
  let attributes ← readAttributes path
  let now ← getNow
  writeAttributes path { attributes with size := wrap16 data.length, lastModified := now }

/-- The `catch` block of `writeFile`: the creation of a new file named `name` in the
directory whose listing is `parent`. -/
def writeFileNew (path : Path) (data : List Byte) (name : Name)
    (parent : List DirectoryEntry) : M Unit := do
  checkPermission (← parentPath path) Permission.w
  let address ← writeBlocks lastBlockMarker data
  let now ← getNow
  let entry : DirectoryEntry :=
    { attributes := { isDirectory := false, name := name, size := wrap16 data.length,
                      created := now, lastModified := now },
      firstBlockAddress := address }
  let _ ← writeDirectory (← parentPath path) (parent ++ [entry]) true
  pure ()

/-- The image after `writeFile("/x", {1})` on a fresh image, with every entry of the
table that was FREE marked END-OF-CHAIN and the table written back: a full device. -/
def fullImage : FS := persist { oneFileImage with fat := fun _ => lastBlockMarker }

/-- The directory entry `e` is stored with the blocks `bs`, in a tree of at most `depth`
levels: a file owns the chain of data blocks that starts at its first block; a directory
is a stored directory whose entries have distinct names, none empty and none the root
name, and it owns its own chain followed by the blocks of its entries, each of which is
stored one level less deep. -/
def Stored (s : FS) : Nat → DirectoryEntry → List Nat → Prop
  | 0 => fun _ _ => False
  | depth + 1 => fun e bs =>
    (e.attributes.isDirectory = false ∧
      chainOf s.fat chainFuel e.firstBlockAddress = some bs ∧
      (e.firstBlockAddress = -1
        ∨ (dataAddress s ≤ e.firstBlockAddress ∧ e.firstBlockAddress ≤ 4095)) ∧
      ∀ c ∈ bs, 8192 / s.sb.blockSize ≤ c) ∨
    (e.attributes.isDirectory = true ∧
      ∃ (L : Level) (bss : List (List Nat)),
        e.firstBlockAddress = L.address ∧ e.attributes.size = L.size ∧ LevelOk s L ∧
        (L.entries.map fun x => x.attributes.name).Nodup ∧
        (∀ x ∈ L.entries, x.attributes.name ≠ [] ∧ x.attributes.name ≠ rootName) ∧
        bs = L.chain ++ bss.flatten ∧
        List.Forall₂ (Stored s depth) L.entries bss)

/-- Between `s` and `t` the blocks in use that lie outside `X` and outside the chains
`old` keep their table entry and their contents and are not in the chains `new`. -/
def Untouched (s t : FS) (X old new : List Nat) : Prop :=
  ∀ x, s.fat x ≠ 0 → x ∉ X → x ∉ old →
    t.fat x = s.fat x ∧ (8192 / s.sb.blockSize ≤ x → blockOf t x = blockOf s x) ∧ x ∉ new

/-- What a returned deletion of the entry named `n` of the stored directory `p` leaves
behind, when the entry was stored with the blocks `bs`: `p` is stored and lists the old
entries without the first one named `n`, the directories on the way to `p` have chains as
long as before, the blocks in use outside `bs` and outside the old chains are untouched,
and the FREE count has grown by the blocks `bs` and by what the chain of `p` has lost. -/
def DeletePost (s : FS) (p : Path) (Ls : List Level) (L : Level) (n : Name) (bs : List Nat)
    (t : FS) : Prop :=
  ∃ (Ls2 : List Level) (L2 : Level) (d2 : List DirectoryEntry),
    eraseEntry n L.entries = some d2 ∧ Resolved t p Ls2 L2 ∧ L2.entries = d2 ∧
    t.sb.blockSize = s.sb.blockSize ∧ wellFormedFat t.sb.blockSize t.fat ∧
    List.Forall₂ (fun A B : Level => B.chain.length = A.chain.length) Ls Ls2 ∧
    Untouched s t bs (chainsOf (Ls ++ [L])) (chainsOf (Ls2 ++ [L2])) ∧
    freeBlockCount t.fat + L2.chain.length
      = freeBlockCount s.fat + bs.length + L.chain.length

/-- The specification of `deleteDirectory` with `fuel` nested activations, on directories
stored in at most `depth` levels: a call that returns leaves the parent without the
entry and the blocks of the tree reclaimed. -/
def DeletesStored (fuel depth : Nat) : Prop :=
  ∀ (s : FS) (p : Path) (Ls : List Level) (L : Level) (n : Name) (e : DirectoryEntry)
    (bs : List Nat) (t : FS),
    validBlockSize s.sb.blockSize → wellFormedFat s.sb.blockSize s.fat →
    Resolved s p Ls L → n ≠ [] → findEntry L.entries n = some e →
    e.attributes.isDirectory = true →
    (p = [] → ∀ d2, eraseEntry n L.entries = some d2 → d2 ≠ []) →
    Stored s depth e bs → bs.Nodup → (∀ c ∈ chainsOf (Ls ++ [L]), c ∉ bs) →
    deleteDirectory fuel (p ++ [n]) s = (Except.ok (), t) →
    DeletePost s p Ls L n bs t

/-- The image after `createDirectory("/d")` on a fresh image. -/
def emptyDirImage : FS := (createDirectory pathD image512).2

end FAT12


namespace FAT12

/-! ## The computation monad -/

@[simp] theorem pure_run {α : Type} (a : α) (s : FS) : (pure a : M α) s = (Except.ok a, s) := rfl

@[simp] theorem bind_run {α β : Type} (m : M α) (f : α → M β) (s : FS) :
    (m >>= f) s = match m s with
      | (Except.ok a, t) => f a t
      | (Except.error e, t) => (Except.error e, t) := rfl

@[simp] theorem throw_run {α : Type} (e : Error) (s : FS) :
    (throw e : M α) s = (Except.error e, s) := rfl

@[simp] theorem get_run (s : FS) : get s = (Except.ok s, s) := rfl

@[simp] theorem modify_run (f : FS → FS) (s : FS) : modify f s = (Except.ok (), f s) := rfl

@[simp] theorem assert_true_run (s : FS) : assert true s = (Except.ok (), s) := rfl

@[simp] theorem assert_false_run (s : FS) : assert false s = (Except.error Error.assertion, s) := rfl

@[simp] theorem liftE_ok_run {α : Type} (a : α) (s : FS) :
    liftE (Except.ok a) s = (Except.ok a, s) := rfl

@[simp] theorem liftE_error_run {α : Type} (e : Error) (s : FS) :
    (liftE (Except.error e) : M α) s = (Except.error e, s) := rfl

theorem ite_run {α : Type} (c : Prop) [Decidable c] (m n : M α) (s : FS) :
    (if c then m else n) s = if c then m s else n s := by
  split <;> rfl

/-! ## Block I/O -/

theorem maxAddress_eq : maxAddress = 4095 := by decide

theorem dataAddressOf_valid {bs : Nat} (h : validBlockSize bs) :
    dataAddressOf bs = ((8192 / bs : Nat) : Int) ∧ 8192 / bs * bs = 8192 ∧ 2 ≤ 8192 / bs
      ∧ 8192 / bs ≤ 16 ∧ bs / 512 * 512 = bs ∧ 8192 / bs * (bs / 512) = 16 := by
  rcases h with h | h | h | h <;> subst h <;> decide

theorem writeBlock_run (b : Int) {n : Nat} (block : Block n) (s : FS)
    (h0 : 0 ≤ b) (h1 : b ≤ 4095) (hn : n = s.sb.blockSize) :
    writeBlock b block s =
      (Except.ok (), { s with disk := writeSectors s.disk (1 + b.toNat * (s.sb.blockSize / sectorSize))
                                        block.bytes (s.sb.blockSize / sectorSize) }) := by
  have hb : decide (b ≥ 0 ∧ b ≤ maxAddress) = true := by
    rw [maxAddress_eq]; exact decide_eq_true ⟨h0, h1⟩
  have hs : decide (n = s.sb.blockSize) = true := decide_eq_true hn
  simp [writeBlock, hb, hs]

theorem readBlock_run (b : Int) (s : FS) (h0 : 0 ≤ b) (h1 : b ≤ 4095) :
    readBlock b s = (Except.ok (blockOf s b.toNat), s) := by
  have hb : decide (b ≥ 0 ∧ b ≤ maxAddress) = true := by
    rw [maxAddress_eq]; exact decide_eq_true ⟨h0, h1⟩
  simp [readBlock, hb, blockOf]

theorem writeSectors_apply (d : Disk) (st : Nat) (blk : List Byte) (n a : Nat) :
    writeSectors d st blk n a =
      if st ≤ a ∧ a < st + n then (blk.drop ((a - st) * sectorSize)).take sectorSize else d a := by
  induction n with
  | zero =>
    rw [if_neg (by omega)]
    rfl
  | succ n ih =>
    simp only [writeSectors, Disk.write]
    by_cases h : a = st + n
    · subst h; simp
    · rw [if_neg h, ih]
      by_cases h2 : st ≤ a ∧ a < st + n
      · rw [if_pos h2, if_pos ⟨h2.1, by omega⟩]
      · rw [if_neg h2, if_neg (by omega)]

theorem readSectors_congr (d e : Disk) (st n : Nat)
    (h : ∀ a, st ≤ a → a < st + n → d a = e a) : readSectors d st n = readSectors e st n := by
  induction n with
  | zero => rfl
  | succ n ih =>
    simp only [readSectors, Disk.read]
    rw [ih (fun a h1 h2 => h a h1 (by omega)), h (st + n) (by omega) (by omega)]

theorem resize_of_length {l : List Byte} {n : Nat} (h : l.length = n) : resize l n = l := by
  simp [resize, h, List.take_of_length_le (Nat.le_of_eq h)]

theorem resize_length (l : List Byte) (n : Nat) : (resize l n).length = n := by
  simp only [resize, List.length_append, List.length_take, List.length_replicate]
  omega

theorem readSectors_writeSectors (d : Disk) (st : Nat) (blk : List Byte) (n m : Nat)
    (hm : m ≤ n) (hlen : m * sectorSize ≤ blk.length) :
    readSectors (writeSectors d st blk n) st m = blk.take (m * sectorSize) := by
  induction m with
  | zero => simp [readSectors]
  | succ m ih =>
    have hlen2 : m * sectorSize ≤ blk.length := by
      have : m * sectorSize ≤ (m + 1) * sectorSize := Nat.mul_le_mul_right _ (Nat.le_succ m)
      omega
    simp only [readSectors, Disk.read]
    rw [ih (by omega) hlen2, writeSectors_apply, if_pos ⟨by omega, by omega⟩]
    have h1 : st + m - st = m := by omega
    rw [h1]
    have h2 : ((blk.drop (m * sectorSize)).take sectorSize).length = sectorSize := by
      simp only [List.length_take, List.length_drop]
      have : (m + 1) * sectorSize = m * sectorSize + sectorSize := by ring
      omega
    rw [resize_of_length h2]
    have h3 : (m + 1) * sectorSize = m * sectorSize + sectorSize := by ring
    rw [h3, List.take_add]

theorem blockOf_congr (s t : FS) (b : Nat) (hbs : t.sb.blockSize = s.sb.blockSize)
    (h : ∀ a, 1 + b * (s.sb.blockSize / sectorSize) ≤ a →
      a < 1 + b * (s.sb.blockSize / sectorSize) + s.sb.blockSize / sectorSize → t.disk a = s.disk a) :
    blockOf t b = blockOf s b := by
  unfold blockOf
  rw [hbs, readSectors_congr t.disk s.disk _ _ h]

/-- Writing a block and reading it back. -/
theorem blockOf_writeSectors_same (s : FS) (b : Nat) (blk : List Byte)
    (hbs : s.sb.blockSize / sectorSize * sectorSize = s.sb.blockSize)
    (hlen : blk.length = s.sb.blockSize) :
    blockOf { s with disk := writeSectors s.disk (1 + b * (s.sb.blockSize / sectorSize)) blk
                               (s.sb.blockSize / sectorSize) } b = blk := by
  unfold blockOf
  simp only
  rw [readSectors_writeSectors _ _ _ _ _ (Nat.le_refl _) (by omega), hbs,
    List.take_of_length_le (Nat.le_of_eq hlen), resize_of_length hlen]

/-- Writing a block leaves the other blocks as they were. -/
theorem blockOf_writeSectors_other (s : FS) (b c : Nat) (blk : List Byte) (hne : c ≠ b) :
    blockOf { s with disk := writeSectors s.disk (1 + b * (s.sb.blockSize / sectorSize)) blk
                               (s.sb.blockSize / sectorSize) } c = blockOf s c := by
  refine blockOf_congr s _ c rfl ?_
  intro a h1 h2
  simp only
  rw [writeSectors_apply, if_neg]
  intro h3
  rcases Nat.lt_or_gt_of_ne hne with h | h
  · have : (c + 1) * (s.sb.blockSize / sectorSize) ≤ b * (s.sb.blockSize / sectorSize) :=
      Nat.mul_le_mul_right _ h
    have e : (c + 1) * (s.sb.blockSize / sectorSize)
        = c * (s.sb.blockSize / sectorSize) + s.sb.blockSize / sectorSize := by ring
    omega
  · have : (b + 1) * (s.sb.blockSize / sectorSize) ≤ c * (s.sb.blockSize / sectorSize) :=
      Nat.mul_le_mul_right _ h
    have e : (b + 1) * (s.sb.blockSize / sectorSize)
        = b * (s.sb.blockSize / sectorSize) + s.sb.blockSize / sectorSize := by ring
    omega

/-! ## Persisting the table -/

theorem writeFatBlocks_run (buffer : List Byte) (n : Nat) (s : FS) (hn : n ≤ 4096) :
    ∃ d : Disk, writeFatBlocks buffer n s = (Except.ok (), { s with disk := d }) ∧
      ∀ a, (a < 1 ∨ 1 + n * (s.sb.blockSize / sectorSize) ≤ a) → d a = s.disk a := by
  induction n with
  | zero => exact ⟨s.disk, rfl, fun _ _ => rfl⟩
  | succ n ih =>
    obtain ⟨d, hd, hframe⟩ := ih (by omega)
    refine ⟨writeSectors d (1 + n * (s.sb.blockSize / sectorSize))
      (Block.slice buffer (n * s.sb.blockSize) s.sb.blockSize).bytes (s.sb.blockSize / sectorSize), ?_, ?_⟩
    · simp only [writeFatBlocks, bind_run, hd, get_run]
      have h := writeBlock_run (n : Int) (Block.slice buffer (n * s.sb.blockSize) s.sb.blockSize)
        { s with disk := d } (by omega) (by omega) rfl
      simpa using h
    · intro a ha
      have e : (n + 1) * (s.sb.blockSize / sectorSize)
          = n * (s.sb.blockSize / sectorSize) + s.sb.blockSize / sectorSize := by ring
      rw [e] at ha
      generalize s.sb.blockSize / sectorSize = q at *
      generalize n * q = r at *
      rw [writeSectors_apply, if_neg (by omega), hframe a (by omega)]

/-- For a valid block size `writeFat` succeeds and only rewrites the sectors of the
table, `[1, 17)`. -/
theorem writeFat_run (s : FS) (hbs : validBlockSize s.sb.blockSize) :
    ∃ d : Disk, writeFat s = (Except.ok (), { s with disk := d }) ∧
      ∀ a, (a < 1 ∨ 17 ≤ a) → d a = s.disk a := by
  obtain ⟨hda, _, _, hle, _, h16⟩ := dataAddressOf_valid hbs
  obtain ⟨d, hd, hframe⟩ := writeFatBlocks_run (serializeFat s.fat fatSize)
    (8192 / s.sb.blockSize) s (by omega)
  refine ⟨d, ?_, ?_⟩
  · simp only [writeFat, bind_run, get_run, dataAddress, hda, fatAddress]
    simpa using hd
  · intro a ha
    apply hframe
    simp only [sectorSize]
    rw [h16]; omega

/-! ## The scan loop of writeBlocks, one iteration -/

theorem fatGet_ok (fat : Fat) (i : Nat) (h : i < 4096) : fatGet fat (i : Int) = Except.ok (fat i) := by
  have : (0 : Int) ≤ i ∧ (i : Int) < fatSize := ⟨by omega, by simp only [fatSize]; omega⟩
  simp [fatGet, this]

theorem wrap16_small (x : Int) (h0 : -32768 ≤ x) (h1 : x ≤ 32767) : wrap16 x = x := by
  unfold wrap16; omega

/-- The address the scan moves to after `curr`. -/
theorem scan_next (curr : Nat) (h : curr < 4096) :
    wrap16 ((toSizeT ((curr : Int) + 1) % fatSize : Nat) : Int) = (((curr + 1) % 4096 : Nat) : Int) := by
  have e : toSizeT ((curr : Int) + 1) = curr + 1 := by
    unfold toSizeT; omega
  rw [e]
  simp only [fatSize]
  apply wrap16_small <;> omega

/-- An iteration of the scan at an entry that is not FREE. -/
theorem writeBlocksLoop_used (buffer : List Byte) (start : Int) (fuel curr : Nat) (prev first : Int)
    (offset : Nat) (s : FS) (hc : curr < 4096) (hused : s.fat curr ≠ 0) :
    writeBlocksLoop buffer start (fuel + 1) curr prev first offset s =
      if (((curr + 1) % 4096 : Nat) : Int) = start then (Except.error Error.fileSystemFull, s)
      else writeBlocksLoop buffer start fuel (((curr + 1) % 4096 : Nat) : Int) prev first offset s := by
  rw [writeBlocksLoop]
  simp only [bind_run, get_run, fatGet_ok _ _ hc, liftE_ok_run]
  simp only [freeBlockMarker, if_neg hused]
  simp only [scan_next curr hc]
  simp only [ite_run, throw_run]

theorem persist_def : persist = fun s => (writeFat s).2 := rfl

theorem persist_run (s : FS) (hbs : validBlockSize s.sb.blockSize) :
    ∃ d : Disk, writeFat s = (Except.ok (), { s with disk := d }) ∧
      persist s = { s with disk := d } ∧ ∀ a, (a < 1 ∨ 17 ≤ a) → d a = s.disk a := by
  obtain ⟨d, hd, hframe⟩ := writeFat_run s hbs
  have hp : persist s = (writeFat s).2 := congrFun persist_def s
  refine ⟨d, hd, ?_, hframe⟩
  rw [hp, hd]

theorem writeFat_persist (s : FS) (hbs : validBlockSize s.sb.blockSize) :
    writeFat s = (Except.ok (), persist s) := by
  obtain ⟨d, hd, hp, _⟩ := persist_run s hbs
  rw [hd, hp]

attribute [irreducible] writeFat

theorem bind_ok {α β : Type} (m : M α) (f : α → M β) (s t : FS) (a : α)
    (h : m s = (Except.ok a, t)) : (m >>= f) s = f a t := by
  rw [bind_run, h]

theorem bind_error {α β : Type} (m : M α) (f : α → M β) (s t : FS) (e : Error)
    (h : m s = (Except.error e, t)) : (m >>= f) s = (Except.error e, t) := by
  rw [bind_run, h]

theorem putBlock_blockSize (s : FS) (c : Nat) (b : List Byte) :
    (putBlock s c b).sb.blockSize = s.sb.blockSize := by
  unfold putBlock
  rfl

theorem setFat_blockSize (s : FS) (i : Nat) (v : Int) :
    (setFat s i v).sb.blockSize = s.sb.blockSize := by
  unfold setFat
  rfl

/-- An iteration of the scan at a FREE entry. -/
theorem writeBlocksLoop_free (buffer : List Byte) (start : Int) (fuel curr : Nat) (prev first : Int)
    (offset : Nat) (s : FS) (hbs : validBlockSize s.sb.blockSize) (hc : curr < 4096)
    (hfree : s.fat curr = 0) :
    writeBlocksLoop buffer start (fuel + 1) curr prev first offset s =
      if offset + s.sb.blockSize ≥ buffer.length then
        (Except.ok (if first = -1 then (curr : Int) else first),
          persist (setFat (linkPrev (putBlock s curr (Block.slice buffer offset s.sb.blockSize).bytes)
            prev curr) curr lastBlockMarker))
      else if (((curr + 1) % 4096 : Nat) : Int) = start then
        (Except.error Error.fileSystemFull,
          linkPrev (putBlock s curr (Block.slice buffer offset s.sb.blockSize).bytes) prev curr)
      else writeBlocksLoop buffer start fuel (((curr + 1) % 4096 : Nat) : Int) curr
             (if first = -1 then (curr : Int) else first) (offset + s.sb.blockSize)
             (linkPrev (putBlock s curr (Block.slice buffer offset s.sb.blockSize).bytes) prev curr) := by
  have hw : writeBlock (curr : Int) (Block.slice buffer offset s.sb.blockSize) s
      = (Except.ok (), putBlock s curr (Block.slice buffer offset s.sb.blockSize).bytes) := by
    have h := writeBlock_run (curr : Int) (Block.slice buffer offset s.sb.blockSize) s
      (by omega) (by omega) rfl
    rw [Int.toNat_ofNat] at h
    exact h
  have hget : liftE (fatGet s.fat (curr : Int)) s = (Except.ok (s.fat curr), s) := by
    rw [fatGet_ok _ _ hc]
    rfl
  rw [writeBlocksLoop, bind_ok _ _ _ _ _ (get_run s), bind_ok _ _ _ _ _ hget,
    if_pos (show s.fat curr = freeBlockMarker from hfree), bind_ok _ _ _ _ _ hw,
    scan_next curr hc]
  have hPb := putBlock_blockSize s curr (Block.slice buffer offset s.sb.blockSize).bytes
  generalize putBlock s curr (Block.slice buffer offset s.sb.blockSize).bytes = P at hPb
  have hlast : ∀ Q : FS, Q.sb.blockSize = s.sb.blockSize →
      (modify (fun s => { s with fat := fatSet s.fat curr lastBlockMarker })
        >>= fun _ => writeFat >>= fun _ => (pure (if first = -1 then (curr : Int) else first) : M Int)) Q
        = (Except.ok (if first = -1 then (curr : Int) else first),
            persist (setFat Q curr lastBlockMarker)) := by
    intro Q hQ
    have hm : modify (fun s => { s with fat := fatSet s.fat curr lastBlockMarker }) Q
        = (Except.ok (), setFat Q curr lastBlockMarker) := rfl
    rw [bind_ok _ _ _ _ _ hm, bind_ok _ _ _ _ _ (writeFat_persist (setFat Q curr lastBlockMarker)
      (((setFat_blockSize Q curr lastBlockMarker).trans hQ) ▸ hbs))]
    rfl
  have hnext : ∀ Q : FS,
      (if (((curr + 1) % 4096 : Nat) : Int) = start then (throw Error.fileSystemFull : M Int)
        else writeBlocksLoop buffer start fuel (((curr + 1) % 4096 : Nat) : Int) curr
          (if first = -1 then (curr : Int) else first) (offset + s.sb.blockSize)) Q
        = if (((curr + 1) % 4096 : Nat) : Int) = start then (Except.error Error.fileSystemFull, Q)
          else writeBlocksLoop buffer start fuel (((curr + 1) % 4096 : Nat) : Int) curr
            (if first = -1 then (curr : Int) else first) (offset + s.sb.blockSize) Q := by
    intro Q
    by_cases hc2 : (((curr + 1) % 4096 : Nat) : Int) = start
    · rw [if_pos hc2, if_pos hc2]
      rfl
    · rw [if_neg hc2, if_neg hc2]
  by_cases hp : prev = -1
  · have hl : linkPrev P prev curr = P := by
      unfold linkPrev
      rw [if_neg (fun h => h hp)]
    rw [if_neg (fun h => h hp), hl, bind_ok _ _ _ _ _ (pure_run _ P)]
    by_cases hoff : offset + s.sb.blockSize ≥ buffer.length
    · rw [if_pos hoff]
      dsimp only
      rw [if_pos hoff, Int.toNat_ofNat]
      exact hlast P hPb
    · rw [if_neg hoff]
      dsimp only
      rw [if_neg hoff]
      exact hnext P
  · have hl : linkPrev P prev curr = setFat P prev.toNat curr := by
      unfold linkPrev
      rw [if_pos hp]
    have hm : modify (fun s => { s with fat := fatSet s.fat prev.toNat curr }) P
        = (Except.ok (), setFat P prev.toNat curr) := rfl
    rw [if_pos hp, hl, bind_ok _ _ _ _ _ hm]
    by_cases hoff : offset + s.sb.blockSize ≥ buffer.length
    · rw [if_pos hoff]
      dsimp only
      rw [if_pos hoff, Int.toNat_ofNat]
      exact hlast _ ((setFat_blockSize P _ _).trans hPb)
    · rw [if_neg hoff]
      dsimp only
      rw [if_neg hoff]
      exact hnext _

attribute [irreducible] writeBlocksLoop

/-! ## freeBlocks -/

theorem countP_range_update (p q : Nat → Bool) (n a : Nat) (ha : a < n) (hpa : p a = true)
    (hqa : q a = false) (hother : ∀ i, i ≠ a → q i = p i) :
    (List.range n).countP q + 1 = (List.range n).countP p := by
  induction n with
  | zero => omega
  | succ n ih =>
    rw [List.range_succ, List.countP_append, List.countP_append]
    by_cases h : a = n
    · subst h
      have e : (List.range a).countP q = (List.range a).countP p := by
        apply List.countP_congr
        intro i hi
        rw [hother i (by have := List.mem_range.mp hi; omega)]
      simp [e, hpa, hqa]
    · have := ih (by omega)
      simp only [List.countP_singleton, hother n (Ne.symm h)]
      omega

theorem countP_range_le (p : Nat → Bool) (n : Nat) : (List.range n).countP p ≤ n := by
  have := List.countP_le_length p (l := List.range n)
  simpa using this

theorem freeBlocksLoop_step (fuel : Nat) (a : Nat) (s : FS) (ha : a < 4096) :
    freeBlocksLoop (fuel + 1) (a : Int) s = freeBlocksLoop fuel (s.fat a) (setFat s a freeBlockMarker) := by
  have hne : (a : Int) ≠ lastBlockMarker := by simp only [lastBlockMarker]; omega
  rw [freeBlocksLoop, if_pos hne]
  simp only [bind_run, get_run, fatGet_ok _ _ ha, liftE_ok_run, modify_run, Int.toNat_ofNat]
  rfl

theorem freeBlocksLoop_end (fuel : Nat) (s : FS) :
    freeBlocksLoop (fuel + 1) (-1) s = (Except.ok (), s) := by
  rw [freeBlocksLoop]
  simp [lastBlockMarker]

theorem fatInRange_setFat_zero (fat : Fat) (a : Nat) (h : fatInRange fat) :
    fatInRange (fatSet fat a 0) := by
  intro i hi
  unfold fatSet
  split
  · omega
  · exact h i hi

/-- The walk of `freeBlocks` ends: within `busyCount + 3` iterations when entry 0 is
END-OF-CHAIN and all entries are in range. -/
theorem freeBlocksLoop_terminates (fuel : Nat) :
    ∀ (s : FS) (a : Int), fatInRange s.fat → s.fat 0 = -1 → -1 ≤ a → a ≤ 4095 →
      busyCount s.fat + 3 ≤ fuel →
      ∃ fat : Fat, freeBlocksLoop fuel a s = (Except.ok (), { s with fat := fat }) ∧
        ∀ i, fat i = s.fat i ∨ fat i = 0 := by
  induction fuel with
  | zero => intro s a _ _ _ _ h; omega
  | succ fuel ih =>
    intro s a hr h0 ha1 ha2 hfuel
    by_cases hend : a = -1
    · subst hend
      exact ⟨s.fat, freeBlocksLoop_end fuel s, fun i => Or.inl rfl⟩
    obtain ⟨n, rfl⟩ : ∃ n : Nat, a = n := ⟨a.toNat, by omega⟩
    have hn : n < 4096 := by omega
    rw [freeBlocksLoop_step fuel n s hn]
    obtain ⟨fuel1, rfl⟩ : ∃ k, fuel = k + 1 := ⟨fuel - 1, by omega⟩
    by_cases hz : n = 0
    · subst hz
      rw [h0]
      exact ⟨fatSet s.fat 0 0, freeBlocksLoop_end fuel1 _, fun i => by
        unfold fatSet; split
        · right; rfl
        · left; rfl⟩
    by_cases hv : s.fat n = -1
    · rw [hv]
      exact ⟨fatSet s.fat n 0, freeBlocksLoop_end fuel1 _, fun i => by
        unfold fatSet; split
        · right; rfl
        · left; rfl⟩
    by_cases hv0 : s.fat n = 0
    · rw [hv0]
      obtain ⟨fuel2, rfl⟩ : ∃ k, fuel1 = k + 1 := ⟨fuel1 - 1, by omega⟩
      have e := freeBlocksLoop_step (fuel2 + 1) 0 (setFat s n freeBlockMarker) (by omega)
      simp only [Nat.cast_zero] at e
      rw [e]
      have e0 : (setFat s n freeBlockMarker).fat 0 = -1 := by
        simp only [setFat, fatSet, if_neg (Ne.symm hz), h0]
      rw [e0]
      refine ⟨fatSet (fatSet s.fat n 0) 0 0, freeBlocksLoop_end fuel2 _, fun i => ?_⟩
      unfold fatSet
      split
      · right; rfl
      · split
        · right; rfl
        · left; rfl
    · have hrange := hr n (by simp only [fatSize]; omega)
      have hdec : busyCount (fatSet s.fat n 0) + 1 = busyCount s.fat := by
        unfold busyCount
        apply countP_range_update _ _ _ n (by simp only [fatSize]; omega)
        · simp [hz, hv0]
        · simp [fatSet]
        · intro i hi
          simp [fatSet, hi]
      obtain ⟨fat, hfat, hprop⟩ := ih (setFat s n freeBlockMarker) (s.fat n)
        (fatInRange_setFat_zero _ _ hr)
        (by simp only [setFat, fatSet, if_neg (Ne.symm hz), h0]) (by omega) (by omega)
        (by simp only [setFat, freeBlockMarker]; omega)
      refine ⟨fat, hfat, fun i => ?_⟩
      rcases hprop i with h | h
      · simp only [setFat, fatSet, freeBlockMarker] at h
        split at h
        · right; exact h
        · left; exact h
      · right; exact h

theorem busyCount_le (fat : Fat) : busyCount fat ≤ 4095 := by
  unfold busyCount
  have e : (List.range fatSize).countP (fun i => decide (i ≠ 0 ∧ fat i ≠ 0)) + 1
      = (List.range fatSize).countP (fun i => decide (i = 0 ∨ (i ≠ 0 ∧ fat i ≠ 0))) := by
    apply countP_range_update _ _ _ 0 (by decide)
    · simp
    · simp
    · intro i hi; simp [hi]
  have := countP_range_le (fun i => decide (i = 0 ∨ (i ≠ 0 ∧ fat i ≠ 0))) fatSize
  simp only [fatSize] at *
  omega

/-- On a table with entries in range and entry 0 END-OF-CHAIN, `freeBlocks` returns:
it only turns entries FREE and then persists the table. -/
theorem freeBlocks_run (s : FS) (h : Int) (hbs : validBlockSize s.sb.blockSize)
    (hr : fatInRange s.fat) (h0 : s.fat 0 = -1) (hh : dataAddress s ≤ h ∧ h ≤ 4095 ∨ h = -1) :
    ∃ fat : Fat, freeBlocks h s = (Except.ok (), persist { s with fat := fat }) ∧
      ∀ i, fat i = s.fat i ∨ fat i = 0 := by
  have hda := (dataAddressOf_valid hbs).1
  have hda2 := (dataAddressOf_valid hbs).2.2.1
  have hassert : decide (h ≥ dataAddress s ∧ h ≤ maxAddress ∨ h = lastBlockMarker) = true := by
    rw [maxAddress_eq]; exact decide_eq_true hh
  obtain ⟨fat, hfat, hprop⟩ := freeBlocksLoop_terminates chainFuel s h hr h0
    (by rcases hh with hh | hh
        · unfold dataAddress at hh; omega
        · omega)
    (by omega) (by have := busyCount_le s.fat; simp only [chainFuel, fatSize]; omega)
  refine ⟨fat, ?_, hprop⟩
  unfold freeBlocks
  simp only [bind_run, get_run, hassert, assert_true_run, hfat]
  exact writeFat_persist _ hbs

/-! ## The scan of writeBlocks -/

theorem scanFrom_cons (start j : Nat) (hj : j < 4096) :
    scanFrom start j = (start + j) % 4096 :: scanFrom start (j + 1) := by
  unfold scanFrom
  simp only [fatSize]
  obtain ⟨m, hm⟩ : ∃ m, 4096 - j = m + 1 := ⟨4095 - j, by omega⟩
  have hm2 : 4096 - (j + 1) = m := by omega
  rw [hm, hm2, List.range_succ_eq_map, List.map_cons, List.map_map]
  congr 1
  apply List.map_congr_left
  intro i _
  simp only [Function.comp, Nat.succ_eq_add_one]
  congr 1
  omega

theorem scanFrom_end (start : Nat) : scanFrom start 4096 = [] := by
  simp [scanFrom, fatSize]

theorem mem_scanFrom {start j i : Nat} (h : i ∈ scanFrom start j) :
    ∃ k, k < 4096 - j ∧ i = (start + j + k) % 4096 := by
  unfold scanFrom at h
  simp only [fatSize, List.mem_map, List.mem_range] at h
  obtain ⟨k, hk, rfl⟩ := h
  exact ⟨k, hk, rfl⟩

theorem blocksNeeded_one {n bs : Nat} (h0 : 0 < n) (h1 : n ≤ bs) : blocksNeeded n bs = 1 := by
  unfold blocksNeeded
  have hbs : 0 < bs := by omega
  apply Nat.div_eq_of_lt_le
  · omega
  · omega

theorem blocksNeeded_succ {n bs : Nat} (hbs : 0 < bs) (h : bs < n) :
    blocksNeeded n bs = blocksNeeded (n - bs) bs + 1 := by
  unfold blocksNeeded
  have e : n + bs - 1 = (n - bs + bs - 1) + bs := by omega
  rw [e, Nat.add_div_right _ hbs]

theorem blocksNeeded_pos {n bs : Nat} (hbs : 0 < bs) (h : 0 < n) : 0 < blocksNeeded n bs := by
  unfold blocksNeeded
  apply Nat.div_pos <;> omega

theorem linkPrev_sb (s : FS) (prev : Int) (c : Nat) : (linkPrev s prev c).sb = s.sb := by
  unfold linkPrev; split <;> rfl

theorem linkPrev_fat_other (s : FS) (prev : Int) (c i : Nat)
    (h : prev = -1 ∨ i ≠ prev.toNat) : (linkPrev s prev c).fat i = s.fat i := by
  unfold linkPrev
  split
  · rename_i hp
    rcases h with h | h
    · exact absurd h hp
    · simp only [setFat, fatSet, if_neg h]
  · rfl

theorem freeIn_congr (f g : Fat) (l : List Nat) (h : ∀ i ∈ l, f i = g i) : freeIn f l = freeIn g l := by
  unfold freeIn
  apply List.filter_congr
  intro i hi
  rw [h i hi]

/-- The outcome of the scan from its `j`-th step on, in terms of the FREE entries still
ahead: with too few of them the scan throws, otherwise it allocates the first ones. -/
theorem scan_spec (buffer : List Byte) (start : Nat) (hstart : start < 4096) (fuel : Nat) :
    ∀ (j : Nat) (s : FS) (prev first : Int) (offset : Nat),
      j + (fuel + 1) = 4096 → validBlockSize s.sb.blockSize → offset < buffer.length →
      (prev = -1 ∨ ∀ i ∈ scanFrom start j, i ≠ prev.toNat) →
      ((freeIn s.fat (scanFrom start j)).length
          < blocksNeeded (buffer.length - offset) s.sb.blockSize →
        ∃ t, writeBlocksLoop buffer start (fuel + 1) (((start + j) % 4096 : Nat) : Int) prev first
          offset s = (Except.error Error.fileSystemFull, t)) ∧
      (blocksNeeded (buffer.length - offset) s.sb.blockSize
          ≤ (freeIn s.fat (scanFrom start j)).length →
        writeBlocksLoop buffer start (fuel + 1) (((start + j) % 4096 : Nat) : Int) prev first
          offset s =
          (Except.ok (if first = -1 then (((freeIn s.fat (scanFrom start j)).headD 0 : Nat) : Int)
                      else first),
            persist (setFat
              (allocChain buffer s prev offset
                ((freeIn s.fat (scanFrom start j)).take
                  (blocksNeeded (buffer.length - offset) s.sb.blockSize)))
              (((freeIn s.fat (scanFrom start j)).take
                  (blocksNeeded (buffer.length - offset) s.sb.blockSize)).getLastD 0)
              lastBlockMarker))) := by
  induction fuel with
  | zero =>
    intro j s prev first offset hj hbs hoff hprev
    have hj2 : j = 4095 := by omega
    subst hj2
    have hbpos : 0 < s.sb.blockSize := by rcases hbs with h | h | h | h <;> omega
    have hc : (start + 4095) % 4096 < 4096 := Nat.mod_lt _ (by decide)
    have hnext : ((((start + 4095) % 4096 + 1) % 4096 : Nat) : Int) = (start : Int) := by omega
    rw [scanFrom_cons start 4095 (by decide), scanFrom_end]
    by_cases hfree : s.fat ((start + 4095) % 4096) = 0
    · have hf : freeIn s.fat [(start + 4095) % 4096] = [(start + 4095) % 4096] := by
        simp [freeIn, hfree]
      rw [hf, writeBlocksLoop_free _ _ _ _ _ _ _ _ hbs hc hfree]
      by_cases hfin : offset + s.sb.blockSize ≥ buffer.length
      · rw [if_pos hfin, blocksNeeded_one (by omega) (by omega)]
        constructor
        · intro h; simp at h
        · intro _; rfl
      · rw [if_neg hfin, if_pos hnext]
        constructor
        · intro _; exact ⟨_, rfl⟩
        · intro h
          rw [blocksNeeded_succ hbpos (by omega)] at h
          have := blocksNeeded_pos hbpos (show 0 < buffer.length - offset - s.sb.blockSize by omega)
          simp at h
          omega
    · have hf : freeIn s.fat [(start + 4095) % 4096] = [] := by
        simp [freeIn, hfree]
      rw [hf, writeBlocksLoop_used _ _ _ _ _ _ _ _ hc hfree, if_pos hnext]
      constructor
      · intro _; exact ⟨_, rfl⟩
      · intro h
        have := blocksNeeded_pos hbpos (show 0 < buffer.length - offset by omega)
        simp at h
        omega
  | succ fuel ih =>
    intro j s prev first offset hj hbs hoff hprev
    have hjlt : j < 4096 := by omega
    have hbpos : 0 < s.sb.blockSize := by rcases hbs with h | h | h | h <;> omega
    have hc : (start + j) % 4096 < 4096 := Nat.mod_lt _ (by decide)
    have hnext : ((((start + j) % 4096 + 1) % 4096 : Nat) : Int) ≠ (start : Int) := by omega
    have hnext2 : ((start + j) % 4096 + 1) % 4096 = (start + (j + 1)) % 4096 := by omega
    have hnotin : ∀ i ∈ scanFrom start (j + 1), i ≠ (start + j) % 4096 := by
      intro i hi
      obtain ⟨k, hk, rfl⟩ := mem_scanFrom hi
      omega
    rw [scanFrom_cons start j hjlt]
    by_cases hfree : s.fat ((start + j) % 4096) = 0
    · have hf : freeIn s.fat ((start + j) % 4096 :: scanFrom start (j + 1))
          = (start + j) % 4096 :: freeIn s.fat (scanFrom start (j + 1)) := by
        simp [freeIn, hfree]
      rw [hf, writeBlocksLoop_free _ _ _ _ _ _ _ _ hbs hc hfree]
      by_cases hfin : offset + s.sb.blockSize ≥ buffer.length
      · rw [if_pos hfin, blocksNeeded_one (by omega) (by omega)]
        constructor
        · intro h; simp at h
        · intro _; rfl
      · rw [if_neg hfin, if_neg hnext, hnext2, blocksNeeded_succ hbpos (by omega)]
        have hsb : (linkPrev (putBlock s ((start + j) % 4096)
            (Block.slice buffer offset s.sb.blockSize).bytes) prev ((start + j) % 4096)).sb
            = s.sb := by rw [linkPrev_sb]; rfl
        have hfat : freeIn (linkPrev (putBlock s ((start + j) % 4096)
            (Block.slice buffer offset s.sb.blockSize).bytes) prev ((start + j) % 4096)).fat
            (scanFrom start (j + 1)) = freeIn s.fat (scanFrom start (j + 1)) := by
          apply freeIn_congr
          intro i hi
          rw [linkPrev_fat_other]
          · rfl
          · rcases hprev with hp | hp
            · exact Or.inl hp
            · right
              apply hp
              rw [scanFrom_cons start j hjlt]
              exact List.mem_cons_of_mem _ hi
        have := ih (j + 1) (linkPrev (putBlock s ((start + j) % 4096)
            (Block.slice buffer offset s.sb.blockSize).bytes) prev ((start + j) % 4096))
          (((start + j) % 4096 : Nat) : Int) (if first = -1 then (((start + j) % 4096 : Nat) : Int) else first)
          (offset + s.sb.blockSize) (by omega) (by rw [hsb]; exact hbs) (by omega)
          (Or.inr (by simpa using hnotin))
        rw [hsb, hfat] at this
        have e : buffer.length - (offset + s.sb.blockSize) = buffer.length - offset - s.sb.blockSize := by
          omega
        rw [e] at this
        obtain ⟨h1, h2⟩ := this
        constructor
        · intro h
          apply h1
          simp only [List.length_cons] at h
          omega
        · intro h
          rw [h2 (by simp only [List.length_cons] at h; omega)]
          have hfirst : (if (if first = -1 then (((start + j) % 4096 : Nat) : Int) else first) = -1
              then (((freeIn s.fat (scanFrom start (j + 1))).headD 0 : Nat) : Int)
              else (if first = -1 then (((start + j) % 4096 : Nat) : Int) else first))
              = (if first = -1 then (((start + j) % 4096 : Nat) : Int) else first) := by
            by_cases hf1 : first = -1
            · have hcne : (((start + j) % 4096 : Nat) : Int) ≠ -1 := by omega
              rw [if_pos hf1, if_neg hcne]
            · rw [if_neg hf1, if_neg hf1]
          have hne : (freeIn s.fat (scanFrom start (j + 1))).take
              (blocksNeeded (buffer.length - offset - s.sb.blockSize) s.sb.blockSize) ≠ [] := by
            have hp := blocksNeeded_pos hbpos
              (show 0 < buffer.length - offset - s.sb.blockSize by omega)
            intro hnil
            have hl := congrArg List.length hnil
            simp only [List.length_take, List.length_nil, List.length_cons] at hl h
            omega
          rw [hfirst, List.take_succ_cons, List.headD_cons]
          simp only [allocChain]
          rw [List.getLastD_cons, List.getLastD_eq_getLast? ]
          cases hx : (freeIn s.fat (scanFrom start (j + 1))).take
              (blocksNeeded (buffer.length - offset - s.sb.blockSize) s.sb.blockSize) with
          | nil => exact absurd hx hne
          | cons a l =>
            have hlast : (a :: l).getLast? = some ((a :: l).getLast (List.cons_ne_nil a l)) :=
              List.getLast?_eq_getLast _ _
            rw [hlast]
            rfl
    · have hf : freeIn s.fat ((start + j) % 4096 :: scanFrom start (j + 1))
          = freeIn s.fat (scanFrom start (j + 1)) := by
        simp [freeIn, hfree]
      rw [hf, writeBlocksLoop_used _ _ _ _ _ _ _ _ hc hfree, if_neg hnext, hnext2]
      exact ih (j + 1) s prev first offset (by omega) hbs hoff
        (by rcases hprev with hp | hp
            · exact Or.inl hp
            · right
              intro i hi
              apply hp
              rw [scanFrom_cons start j hjlt]
              exact List.mem_cons_of_mem _ hi)

theorem scanFrom_zero_perm (start : Nat) (hstart : start < 4096) :
    (scanFrom start 0).Perm (List.range 4096) := by
  have hnd : (scanFrom start 0).Nodup := by
    unfold scanFrom
    apply List.Nodup.map_on
    · intro x hx y hy hxy
      simp only [fatSize, List.mem_range] at hx hy hxy
      omega
    · exact List.nodup_range _
  apply (List.perm_ext_iff_of_nodup hnd (List.nodup_range _)).mpr
  intro a
  constructor
  · intro ha
    obtain ⟨k, _, rfl⟩ := mem_scanFrom ha
    exact List.mem_range.mpr (Nat.mod_lt _ (by decide))
  · intro ha
    have ha2 := List.mem_range.mp ha
    unfold scanFrom
    simp only [fatSize, List.mem_map, List.mem_range]
    exact ⟨(a + 4096 - start) % 4096, by omega, by omega⟩

theorem freeIn_scan_length (fat : Fat) (start : Nat) (hstart : start < 4096) :
    (freeIn fat (scanFrom start 0)).length = freeBlockCount fat := by
  unfold freeIn freeBlockCount
  rw [← List.countP_eq_length_filter, (scanFrom_zero_perm start hstart).countP_eq]
  rfl

theorem persist_eq (s : FS) (hbs : validBlockSize s.sb.blockSize) :
    ∃ d : Disk, persist s = { s with disk := d } ∧ ∀ a, (a < 1 ∨ 17 ≤ a) → d a = s.disk a := by
  obtain ⟨d, _, hp, hframe⟩ := persist_run s hbs
  exact ⟨d, hp, hframe⟩

theorem persist_fat (s : FS) (hbs : validBlockSize s.sb.blockSize) : (persist s).fat = s.fat := by
  obtain ⟨d, hd, _⟩ := persist_eq s hbs
  rw [hd]

theorem persist_sb (s : FS) (hbs : validBlockSize s.sb.blockSize) : (persist s).sb = s.sb := by
  obtain ⟨d, hd, _⟩ := persist_eq s hbs
  rw [hd]

/-- The function `writeBlocks` on a non-empty buffer, once the scan start is known. -/
theorem writeBlocks_scan (s : FS) (h : Int) (buffer : List Byte) (hne : buffer ≠ [])
    (hbs : validBlockSize s.sb.blockSize) (hr : fatInRange s.fat) (h0 : s.fat 0 = -1)
    (hh : h = -1 ∨ (dataAddress s ≤ h ∧ h ≤ 4095)) :
    ∃ (start : Nat) (t : FS), start < 4096 ∧ t.sb = s.sb ∧ t.fat = freedFat s h ∧
      (start : Int) = (if h = -1 then dataAddress s else h) ∧
      (h = -1 → t = s) ∧ (h ≠ -1 → t = (freeBlocks h s).2) ∧
      writeBlocks h buffer s = writeBlocksLoop buffer start fatSize start (-1) (-1) 0 t := by
  have hda := (dataAddressOf_valid hbs).1
  have hda16 := (dataAddressOf_valid hbs).2.2.2.1
  have hemp : buffer.isEmpty = false := by
    cases buffer with
    | nil => exact absurd rfl hne
    | cons a l => rfl
  by_cases hm : h = -1
  · subst hm
    refine ⟨8192 / s.sb.blockSize, s, by omega, rfl, by simp [freedFat, lastBlockMarker], ?_,
      fun _ => rfl, fun hx => absurd rfl hx, ?_⟩
    · simp [dataAddress, hda]
    · obtain ⟨a, l, rfl⟩ : ∃ a l, buffer = a :: l := by
        cases buffer with
        | nil => exact absurd rfl hne
        | cons a l => exact ⟨a, l, rfl⟩
      rw [writeBlocks, bind_ok _ _ _ _ _ (get_run s), ite_run,
        if_pos (show (-1 : Int) = lastBlockMarker from rfl),
        bind_ok _ _ _ _ _ (pure_run _ s)]
      beta_reduce
      rw [ite_run, if_neg (by simp), dataAddress, hda]
  · have hh2 : dataAddress s ≤ h ∧ h ≤ 4095 := by
      rcases hh with hh | hh
      · exact absurd hh hm
      · exact hh
    obtain ⟨fat, hfree, _⟩ := freeBlocks_run s h hbs hr h0 (Or.inl hh2)
    have hbs2 : validBlockSize ({ s with fat := fat } : FS).sb.blockSize := hbs
    have hsbp : (persist { s with fat := fat }).sb = s.sb := persist_sb _ hbs2
    obtain ⟨u, hu⟩ : ∃ u : FS, u = persist { s with fat := fat } := ⟨_, rfl⟩
    rw [← hu] at hfree hsbp
    have hu2 : (freeBlocks h s).2 = u := by rw [hfree]
    have hge : 0 ≤ h := by
      have := hh2.1
      rw [dataAddress, hda] at this
      have hnn : (0 : Int) ≤ ((8192 / s.sb.blockSize : Nat) : Int) := Int.ofNat_nonneg _
      omega
    refine ⟨h.toNat, (freeBlocks h s).2, by omega, ?_, ?_, ?_, fun hx => absurd hx hm,
      fun _ => rfl, ?_⟩
    · rw [hu2]; exact hsbp
    · simp [freedFat, lastBlockMarker, hm]
    · rw [if_neg hm]; omega
    · obtain ⟨a, l, rfl⟩ : ∃ a l, buffer = a :: l := by
        cases buffer with
        | nil => exact absurd rfl hne
        | cons a l => exact ⟨a, l, rfl⟩
      have e : ((h.toNat : Nat) : Int) = h := by omega
      rw [e, hu2, writeBlocks, bind_ok _ _ _ _ _ (get_run s), ite_run,
        if_neg (show ¬ h = lastBlockMarker from hm), bind_ok _ _ _ _ _ hfree,
        bind_ok _ _ _ _ _ (pure_run _ u)]
      beta_reduce
      rw [ite_run, if_neg (by simp)]

/-- The scan of `writeBlocks` from its first step, for a table `t` and a non-empty buffer. -/
theorem scan_from_start (buffer : List Byte) (start : Nat) (hstart : start < 4096) (t : FS)
    (hbs : validBlockSize t.sb.blockSize) (hne : buffer ≠ []) :
    (freeBlockCount t.fat < blocksNeeded buffer.length t.sb.blockSize →
      ∃ u, writeBlocksLoop buffer start fatSize start (-1) (-1) 0 t
        = (Except.error Error.fileSystemFull, u)) ∧
    (blocksNeeded buffer.length t.sb.blockSize ≤ freeBlockCount t.fat →
      writeBlocksLoop buffer start fatSize start (-1) (-1) 0 t =
        (Except.ok (((freeIn t.fat (scanFrom start 0)).headD 0 : Nat) : Int),
          persist (setFat
            (allocChain buffer t (-1) 0
              ((freeIn t.fat (scanFrom start 0)).take (blocksNeeded buffer.length t.sb.blockSize)))
            (((freeIn t.fat (scanFrom start 0)).take
              (blocksNeeded buffer.length t.sb.blockSize)).getLastD 0)
            lastBlockMarker))) := by
  have hlen : 0 < buffer.length := List.length_pos.mpr hne
  have h := scan_spec buffer start hstart 4095 0 t (-1) (-1) 0 rfl hbs hlen (Or.inl rfl)
  have e0 : (start + 0) % 4096 = start := by omega
  rw [e0, freeIn_scan_length t.fat start hstart, Nat.sub_zero] at h
  exact h

/-- C9: on a well-formed table, with a hint that is -1 or a data block address, and a
non-empty buffer of n bytes, `writeBlocks` fails with the file-system-full error exactly
when the FREE entries counted after the hint's chain has been freed are fewer than
ceil(n / blockSize); otherwise it returns a first block. The scan never runs out of its
4096 steps, so the call always returns or throws. -/
theorem writeBlocks_full_iff (s : FS) (h : Int) (buffer : List Byte)
    (hbs : validBlockSize s.sb.blockSize) (hwf : wellFormedFat s.sb.blockSize s.fat)
    (hh : h = -1 ∨ (dataAddress s ≤ h ∧ h ≤ 4095)) (hne : buffer ≠ []) :
    ((writeBlocks h buffer s).1 = Except.error Error.fileSystemFull ↔
        freeBlockCount (freedFat s h) < blocksNeeded buffer.length s.sb.blockSize) ∧
    (¬ freeBlockCount (freedFat s h) < blocksNeeded buffer.length s.sb.blockSize →
        ∃ a : Int, (writeBlocks h buffer s).1 = Except.ok a) ∧
    (writeBlocks h buffer s).1 ≠ Except.error Error.diverges := by
  have h0 : s.fat 0 = -1 := by
    have hda := (dataAddressOf_valid hbs).1
    have hda2 := (dataAddressOf_valid hbs).2.2.1
    apply hwf.2 0
    rw [hda]
    omega
  obtain ⟨start, t, hstart, hsb, hfat, _, _, _, hrun⟩ :=
    writeBlocks_scan s h buffer hne hbs hwf.1 h0 hh
  obtain ⟨hfull, hok⟩ := scan_from_start buffer start hstart t (hsb ▸ hbs) hne
  rw [hsb, hfat] at hfull hok
  rw [hrun]
  by_cases hlt : freeBlockCount (freedFat s h) < blocksNeeded buffer.length s.sb.blockSize
  · obtain ⟨u, hu⟩ := hfull hlt
    rw [hu]
    exact ⟨⟨fun _ => hlt, fun _ => rfl⟩, fun hx => absurd hlt hx, by simp⟩
  · rw [hok (by omega)]
    exact ⟨⟨fun hx => by simp at hx, fun hx => absurd hx hlt⟩, fun _ => ⟨_, rfl⟩, by simp⟩

/-! ## The chain the scan builds -/

theorem allocChain_sb (buffer : List Byte) (cs : List Nat) :
    ∀ (s : FS) (prev : Int) (offset : Nat), (allocChain buffer s prev offset cs).sb = s.sb := by
  induction cs with
  | nil => intro s prev offset; rfl
  | cons c r ih =>
    intro s prev offset
    simp only [allocChain]
    rw [ih, linkPrev_sb]
    rfl

theorem allocChain_fat (buffer : List Byte) (cs : List Nat) :
    ∀ (s : FS) (prev : Int) (offset : Nat),
      (allocChain buffer s prev offset cs).fat = linkFat s.fat prev cs := by
  induction cs with
  | nil => intro s prev offset; rfl
  | cons c r ih =>
    intro s prev offset
    simp only [allocChain, linkFat]
    rw [ih]
    unfold linkPrev
    split <;> rfl

theorem linkFat_other (cs : List Nat) :
    ∀ (fat : Fat) (p x : Nat), x ≠ p → x ∉ cs → linkFat fat (p : Int) cs x = fat x := by
  induction cs with
  | nil => intro fat p x _ _; rfl
  | cons c r ih =>
    intro fat p x hp hx
    have hpne : (p : Int) ≠ -1 := by omega
    simp only [linkFat, if_pos hpne, Int.toNat_ofNat]
    rw [ih _ c x (fun h => hx (h ▸ List.mem_cons_self _ _)) (fun h => hx (List.mem_cons_of_mem _ h))]
    simp only [fatSet, if_neg hp]

theorem chainOf_link (cs : List Nat) :
    ∀ (fat : Fat) (p : Nat) (fuel : Nat), (p :: cs).Nodup → (∀ x ∈ p :: cs, x < 4096) →
      cs.length + 2 ≤ fuel →
      chainOf (fatSet (linkFat fat (p : Int) cs) ((p :: cs).getLast (List.cons_ne_nil p cs))
        lastBlockMarker) fuel p = some (p :: cs) := by
  induction cs with
  | nil =>
    intro fat p fuel _ hlt hfuel
    obtain ⟨f1, rfl⟩ : ∃ k, fuel = k + 1 + 1 := ⟨fuel - 2, by simp at hfuel; omega⟩
    have hp : p < 4096 := hlt p (List.mem_cons_self _ _)
    have h1 : ¬ ((p : Int) = lastBlockMarker) := by simp only [lastBlockMarker]; omega
    have h2 : (0 : Int) ≤ p ∧ (p : Int) < fatSize := ⟨by omega, by simp only [fatSize]; omega⟩
    simp only [chainOf, if_neg h1, if_pos h2, Int.toNat_ofNat, List.getLast_singleton, linkFat,
      fatSet, if_true, if_pos rfl, Option.map_some']
  | cons c r ih =>
    intro fat p fuel hnd hlt hfuel
    obtain ⟨f1, rfl⟩ : ∃ k, fuel = k + 1 := ⟨fuel - 1, by simp at hfuel; omega⟩
    have hp : p < 4096 := hlt p (List.mem_cons_self _ _)
    have h1 : ¬ ((p : Int) = lastBlockMarker) := by simp only [lastBlockMarker]; omega
    have h2 : (0 : Int) ≤ p ∧ (p : Int) < fatSize := ⟨by omega, by simp only [fatSize]; omega⟩
    have hpne : (p : Int) ≠ -1 := by omega
    have hnd2 : (c :: r).Nodup := (List.nodup_cons.mp hnd).2
    have hpnot : p ∉ c :: r := (List.nodup_cons.mp hnd).1
    have hlast : (p :: c :: r).getLast (List.cons_ne_nil p (c :: r))
        = (c :: r).getLast (List.cons_ne_nil c r) := List.getLast_cons (List.cons_ne_nil c r)
    have hlastmem : (c :: r).getLast (List.cons_ne_nil c r) ∈ c :: r := List.getLast_mem _
    have hne : p ≠ (c :: r).getLast (List.cons_ne_nil c r) := fun h => hpnot (h ▸ hlastmem)
    have hrec := ih (fatSet fat p c) c f1 hnd2 (fun x hx => hlt x (List.mem_cons_of_mem _ hx))
      (by simp only [List.length_cons] at hfuel; omega)
    rw [hlast]
    simp only [linkFat, if_pos hpne, Int.toNat_ofNat]
    rw [chainOf, if_neg h1, if_pos h2]
    simp only [Int.toNat_ofNat]
    have hval : fatSet (linkFat (fatSet fat p c) (c : Int) r)
        ((c :: r).getLast (List.cons_ne_nil c r)) lastBlockMarker p = c := by
      have hpc : p ≠ c := fun h => hpnot (h ▸ List.mem_cons_self _ _)
      have hpr : p ∉ r := fun h => hpnot (List.mem_cons_of_mem _ h)
      conv_lhs => unfold fatSet
      rw [if_neg hne, linkFat_other r _ c p hpc hpr]
      simp only [fatSet, if_true, if_pos rfl]
    rw [hval, hrec]
    rfl

/-! ## Reading a chain back -/

theorem blockOf_eq_of_disk (s t : FS) (b : Nat) (hd : t.disk = s.disk) (hsb : t.sb = s.sb) :
    blockOf t b = blockOf s b := by
  unfold blockOf
  rw [hd, hsb]

theorem linkPrev_blockOf (s : FS) (prev : Int) (c b : Nat) :
    blockOf (linkPrev s prev c) b = blockOf s b := by
  apply blockOf_eq_of_disk
  · unfold linkPrev; split <;> rfl
  · exact linkPrev_sb s prev c

theorem setFat_blockOf (s : FS) (i : Nat) (v : Int) (b : Nat) :
    blockOf (setFat s i v) b = blockOf s b :=
  blockOf_eq_of_disk _ _ _ rfl rfl

theorem putBlock_blockOf_same (s : FS) (b : Nat) (bytes : List Byte)
    (hbs : validBlockSize s.sb.blockSize) (hlen : bytes.length = s.sb.blockSize) :
    blockOf (putBlock s b bytes) b = bytes :=
  blockOf_writeSectors_same s b bytes (dataAddressOf_valid hbs).2.2.2.2.1 hlen

theorem putBlock_blockOf_other (s : FS) (b c : Nat) (bytes : List Byte) (hne : c ≠ b) :
    blockOf (putBlock s b bytes) c = blockOf s c :=
  blockOf_writeSectors_other s b c bytes hne

/-- Persisting the table leaves the data blocks as they were. -/
theorem persist_blockOf (s : FS) (b : Nat) (hbs : validBlockSize s.sb.blockSize)
    (hb : 8192 / s.sb.blockSize ≤ b) : blockOf (persist s) b = blockOf s b := by
  obtain ⟨d, hd, hframe⟩ := persist_eq s hbs
  rw [hd]
  refine blockOf_congr s _ b rfl ?_
  intro a h1 _
  apply hframe
  right
  have h16 := (dataAddressOf_valid hbs).2.2.2.2.2
  simp only [sectorSize] at *
  have : 8192 / s.sb.blockSize * (s.sb.blockSize / 512) ≤ b * (s.sb.blockSize / 512) :=
    Nat.mul_le_mul_right _ hb
  omega

theorem allocChain_blockOf_other (buffer : List Byte) (cs : List Nat) :
    ∀ (s : FS) (prev : Int) (offset : Nat) (b : Nat), b ∉ cs →
      blockOf (allocChain buffer s prev offset cs) b = blockOf s b := by
  induction cs with
  | nil => intro s prev offset b _; rfl
  | cons c r ih =>
    intro s prev offset b hb
    simp only [allocChain]
    rw [ih _ _ _ b (fun h => hb (List.mem_cons_of_mem _ h)), linkPrev_blockOf,
      putBlock_blockOf_other _ _ _ _ (fun h => hb (by rw [h]; exact List.mem_cons_self _ _))]

/-- The blocks the scan allocated hold the slices of the buffer, in order. -/
theorem allocChain_flatMap (buffer : List Byte) (cs : List Nat) :
    ∀ (s : FS) (prev : Int) (offset : Nat) (u : FS), cs.Nodup → validBlockSize s.sb.blockSize →
      (∀ b ∈ cs, blockOf u b = blockOf (allocChain buffer s prev offset cs) b) →
      cs.flatMap (blockOf u) = slices buffer s.sb.blockSize offset cs.length := by
  induction cs with
  | nil => intro s prev offset u _ _ _; rfl
  | cons c r ih =>
    intro s prev offset u hnd hbs hu
    have hc : c ∉ r := (List.nodup_cons.mp hnd).1
    have hsb : (linkPrev (putBlock s c (Block.slice buffer offset s.sb.blockSize).bytes) prev c).sb
        = s.sb := by rw [linkPrev_sb]; rfl
    have hrec := ih (linkPrev (putBlock s c (Block.slice buffer offset s.sb.blockSize).bytes) prev c)
      c (offset + s.sb.blockSize) u (List.nodup_cons.mp hnd).2 (by rw [hsb]; exact hbs)
      (fun b hb => hu b (List.mem_cons_of_mem _ hb))
    rw [hsb] at hrec
    simp only [List.flatMap_cons, List.length_cons, slices]
    rw [hrec, hu c (List.mem_cons_self _ _)]
    simp only [allocChain]
    rw [allocChain_blockOf_other _ _ _ _ _ _ hc, linkPrev_blockOf,
      putBlock_blockOf_same _ _ _ hbs (Block.slice buffer offset s.sb.blockSize).size_eq]

theorem resize_append_of_le (l : List Byte) (n m : Nat) :
    resize (l.take n) n ++ resize (l.drop n) m = resize l (n + m) := by
  unfold resize
  rcases Nat.le_total n l.length with h | h
  · have e1 : (l.take n).length = n := by rw [List.length_take]; omega
    have e2 : (l.take n).take n = l.take n := by rw [List.take_take]; simp
    rw [e1, e2, Nat.sub_self, List.replicate_zero, List.append_nil, List.length_drop,
      List.take_add, List.append_assoc]
    have e3 : m - (l.length - n) = n + m - l.length := by omega
    rw [e3]
  · have e1 : l.take n = l := List.take_of_length_le h
    have e2 : l.drop n = [] := List.drop_of_length_le h
    have e3 : l.take (n + m) = l := List.take_of_length_le (by omega)
    rw [e1, e2, e3, e1, List.take_nil, List.length_nil, Nat.sub_zero, List.nil_append,
      List.append_assoc, ← List.replicate_add]
    have e4 : n - l.length + m = n + m - l.length := by omega
    rw [e4]

theorem slices_eq_resize (buffer : List Byte) (bs : Nat) (k : Nat) :
    ∀ offset, slices buffer bs offset k = resize (buffer.drop offset) (k * bs) := by
  induction k with
  | zero => intro offset; simp [slices, resize]
  | succ k ih =>
    intro offset
    simp only [slices, Block.slice]
    rw [ih, ← List.drop_drop, resize_append_of_le]
    congr 1
    ring

theorem readBlocksLoop_chain (s : FS) (fuel : Nat) :
    ∀ (a : Int) (cs : List Nat) (acc : List Byte), chainOf s.fat fuel a = some cs →
      readBlocksLoop fuel a acc s = (Except.ok (acc ++ cs.flatMap (blockOf s)), s) := by
  induction fuel with
  | zero => intro a cs acc h; simp [chainOf] at h
  | succ fuel ih =>
    intro a cs acc h
    rw [chainOf] at h
    by_cases ha : a = lastBlockMarker
    · rw [if_pos ha] at h
      cases h
      rw [readBlocksLoop]
      simp [ha]
    · rw [if_neg ha] at h
      by_cases hr : 0 ≤ a ∧ a < fatSize
      · rw [if_pos hr] at h
        simp only [fatSize] at hr
        obtain ⟨n, rfl⟩ : ∃ n : Nat, a = n := ⟨a.toNat, by omega⟩
        simp only [Int.toNat_ofNat] at h
        cases hrec : chainOf s.fat fuel (s.fat n) with
        | none => rw [hrec] at h; simp at h
        | some r =>
          rw [hrec] at h
          simp only [Option.map_some', Option.some.injEq] at h
          subst h
          rw [readBlocksLoop, if_pos ha]
          simp only [bind_run, readBlock_run (n : Int) s (by omega) (by omega), get_run,
            fatGet_ok _ _ (show n < 4096 by omega), liftE_ok_run, Int.toNat_ofNat]
          rw [ih _ _ _ hrec]
          simp [List.flatMap_cons, List.append_assoc]
      · rw [if_neg hr] at h
        simp at h

theorem blocksNeeded_mul_ge (n bs : Nat) (hbs : 0 < bs) : n ≤ blocksNeeded n bs * bs := by
  unfold blocksNeeded
  have h1 := Nat.div_add_mod (n + bs - 1) bs
  have h2 := Nat.mod_lt (n + bs - 1) hbs
  rw [Nat.mul_comm]
  generalize bs * ((n + bs - 1) / bs) = q at *
  omega

theorem resize_of_le (l : List Byte) (n : Nat) (h : l.length ≤ n) :
    resize l n = l ++ List.replicate (n - l.length) 0 := by
  unfold resize
  rw [List.take_of_length_le h]

theorem scanFrom_zero_nodup (start : Nat) (hstart : start < 4096) : (scanFrom start 0).Nodup :=
  (scanFrom_zero_perm start hstart).nodup_iff.mpr (List.nodup_range _)

theorem freeIn_sublist (fat : Fat) (l : List Nat) : (freeIn fat l).Sublist l :=
  List.filter_sublist l

theorem mem_freeIn {fat : Fat} {l : List Nat} {c : Nat} (h : c ∈ freeIn fat l) :
    c ∈ l ∧ fat c = 0 := by
  unfold freeIn at h
  simpa using h

/-- The state `writeBlocks` reaches when it returns on a non-empty buffer: the first
`blocksNeeded` FREE entries in scan order have been written, linked and the table
persisted. -/
theorem writeBlocks_ok_state (s : FS) (h : Int) (buffer : List Byte) (a : Int) (u : FS)
    (hbs : validBlockSize s.sb.blockSize) (hwf : wellFormedFat s.sb.blockSize s.fat)
    (hh : h = -1 ∨ (dataAddress s ≤ h ∧ h ≤ 4095)) (hne : buffer ≠ [])
    (hrun : writeBlocks h buffer s = (Except.ok a, u)) :
    ∃ (t : FS) (c : Nat) (r : List Nat), t.sb = s.sb ∧ t.fat = freedFat s h ∧
      (freeIn (freedFat s h) (scanFrom (scanStart s h) 0)).take
        (blocksNeeded buffer.length s.sb.blockSize) = c :: r ∧
      (c :: r).length = blocksNeeded buffer.length s.sb.blockSize ∧
      scanStart s h < 4096 ∧
      a = (c : Int) ∧
      u = persist (setFat (allocChain buffer t (-1) 0 (c :: r))
        ((c :: r).getLast (List.cons_ne_nil c r)) lastBlockMarker) := by
  have hda := (dataAddressOf_valid hbs).1
  have hda2 := (dataAddressOf_valid hbs).2.2.1
  have hbpos : 0 < s.sb.blockSize := by rcases hbs with h | h | h | h <;> omega
  have h0 : s.fat 0 = -1 := by
    apply hwf.2 0
    rw [hda]
    omega
  obtain ⟨start, t, hstart, hsb, hfat, hst, _, _, hloop⟩ :=
    writeBlocks_scan s h buffer hne hbs hwf.1 h0 hh
  have hss : scanStart s h = start := by
    unfold scanStart
    simp only [lastBlockMarker]
    rw [← hst]
    simp
  obtain ⟨hfull, hok⟩ := scan_from_start buffer start hstart t (hsb ▸ hbs) hne
  rw [hsb, hfat] at hfull hok
  rw [hloop] at hrun
  by_cases hlt : freeBlockCount (freedFat s h) < blocksNeeded buffer.length s.sb.blockSize
  · obtain ⟨v, hv⟩ := hfull hlt
    rw [hv] at hrun
    simp at hrun
  · have hle : blocksNeeded buffer.length s.sb.blockSize ≤ freeBlockCount (freedFat s h) := by
      omega
    rw [hok hle] at hrun
    have hkpos := blocksNeeded_pos hbpos (List.length_pos.mpr hne)
    have hlen : ((freeIn (freedFat s h) (scanFrom start 0)).take
        (blocksNeeded buffer.length s.sb.blockSize)).length
        = blocksNeeded buffer.length s.sb.blockSize := by
      rw [List.length_take, freeIn_scan_length _ _ hstart]
      omega
    rw [hss]
    cases hcs : (freeIn (freedFat s h) (scanFrom start 0)).take
        (blocksNeeded buffer.length s.sb.blockSize) with
    | nil => rw [hcs] at hlen; simp at hlen; omega
    | cons c r =>
      rw [hcs] at hrun hlen
      have hhead : (freeIn (freedFat s h) (scanFrom start 0)).headD 0 = c := by
        cases hf : freeIn (freedFat s h) (scanFrom start 0) with
        | nil => rw [hf] at hcs; simp at hcs
        | cons x l =>
          rw [hf] at hcs
          obtain ⟨k, hk⟩ : ∃ k, blocksNeeded buffer.length s.sb.blockSize = k + 1 :=
            ⟨blocksNeeded buffer.length s.sb.blockSize - 1, by omega⟩
          rw [hk, List.take_succ_cons] at hcs
          simp only [List.cons.injEq] at hcs
          simp [hcs.1]
      rw [hhead] at hrun
      have hlast : (c :: r).getLastD 0 = (c :: r).getLast (List.cons_ne_nil c r) := by
        rw [List.getLastD_eq_getLast?, List.getLast?_eq_getLast _ (List.cons_ne_nil c r)]
        rfl
      rw [hlast] at hrun
      simp only [Prod.mk.injEq, Except.ok.injEq] at hrun
      exact ⟨t, c, r, hsb, hfat, rfl, hlen, hstart, hrun.1.symm, hrun.2.symm⟩

theorem readBlocks_last (t : FS) : readBlocks lastBlockMarker t = (Except.ok [], t) := by
  have hassert : decide (lastBlockMarker ≥ dataAddress t ∧ lastBlockMarker ≤ maxAddress
      ∨ lastBlockMarker = lastBlockMarker) = true := decide_eq_true (Or.inr rfl)
  have e : chainFuel = 4097 + 1 := by decide
  rw [readBlocks, bind_ok _ _ _ _ _ (get_run t), hassert, bind_ok _ _ _ _ _ (assert_true_run t),
    e, readBlocksLoop, if_neg (fun h => h rfl)]
  rfl

theorem writeBlocks_empty (s : FS) (h : Int) (hbs : validBlockSize s.sb.blockSize)
    (hwf : wellFormedFat s.sb.blockSize s.fat) (hh : h = -1 ∨ (dataAddress s ≤ h ∧ h ≤ 4095)) :
    (writeBlocks h [] s).1 = Except.ok lastBlockMarker := by
  have hda := (dataAddressOf_valid hbs).1
  have hda2 := (dataAddressOf_valid hbs).2.2.1
  have h0 : s.fat 0 = -1 := by
    apply hwf.2 0
    rw [hda]
    omega
  by_cases hm : h = -1
  · subst hm; rfl
  · have hh2 : dataAddress s ≤ h ∧ h ≤ 4095 := by
      rcases hh with hh | hh
      · exact absurd hh hm
      · exact hh
    obtain ⟨fat, hfree, _⟩ := freeBlocks_run s h hbs hwf.1 h0 (Or.inl hh2)
    unfold writeBlocks
    rw [bind_run, get_run]
    dsimp only
    rw [ite_run, if_neg (show ¬ h = lastBlockMarker from hm), bind_run, hfree]
    rfl

/-! ## Concrete instances for the allocator -/

theorem sampleFS_wellFormed : wellFormedFat sampleFS.sb.blockSize sampleFS.fat := by
  constructor
  · intro i _
    show -1 ≤ (if i ≤ 16 then (-1 : Int) else 0) ∧ (if i ≤ 16 then (-1 : Int) else 0) ≤ 4095
    split <;> omega
  · intro i hi
    have hda : dataAddressOf sampleFS.sb.blockSize = 16 := by decide
    rw [hda] at hi
    show (if i ≤ 16 then (-1 : Int) else 0) = -1
    rw [if_pos (by omega)]

/-- Witness for C9: a one-byte buffer written with hint -1 on a freshly formatted table. -/
theorem writeBlocks_full_iff_witness :
    ((writeBlocks (-1) [1] sampleFS).1 = Except.error Error.fileSystemFull ↔
        freeBlockCount (freedFat sampleFS (-1)) < blocksNeeded [(1 : Byte)].length sampleFS.sb.blockSize) ∧
    (¬ freeBlockCount (freedFat sampleFS (-1)) < blocksNeeded [(1 : Byte)].length sampleFS.sb.blockSize →
        ∃ a : Int, (writeBlocks (-1) [1] sampleFS).1 = Except.ok a) ∧
    (writeBlocks (-1) [1] sampleFS).1 ≠ Except.error Error.diverges :=
  writeBlocks_full_iff sampleFS (-1) [1] (by decide) sampleFS_wellFormed (Or.inl rfl) (by simp)

/-- Counterexample to C10 as stated: on a freshly formatted table the hint 4095 is a data
block address whose entry is FREE; freeing "its chain" turns entry 0 FREE, the scan then
allocates blocks 4095 and 0 for a 513-byte buffer, and block 0 is overwritten by the
persisted table, so `readBlocks` does not return the buffer. -/
theorem writeBlocks_postcondition_counterexample :
    validBlockSize sampleFS.sb.blockSize ∧
    (dataAddress sampleFS ≤ 4095 ∧ sampleFS.fat 4095 = freeBlockMarker) ∧
    (writeBlocks 4095 (List.replicate 513 1) sampleFS).1 = Except.ok 4095 ∧
    (writeBlocks 4095 (List.replicate 513 1) sampleFS).2.fat 4095 = 0 ∧
    (writeBlocks 4095 (List.replicate 513 1) sampleFS).2.fat 0 = -1 ∧
    (readBlocks 4095 (writeBlocks 4095 (List.replicate 513 1) sampleFS).2).1
      ≠ Except.ok (List.replicate 513 1 ++ List.replicate 511 0) := by
  decide!

/-! ## Scenarios on a fresh image -/

/-- C1, at its failing input: on a fresh image `writeFile("/x", {})` creates an empty file
whose entry has no first block; `writeFile("/x", {5, 6})` then takes the overwrite branch,
which drops the block `writeBlocks` returns, so the entry still has first block -1 and
`readFile("/x")` returns two zero bytes instead of the data written. -/
theorem writeFile_readFile_loses_data :
    (writeFile pathX [] image512).1 = Except.ok () ∧
    (writeFile pathX [5, 6] emptyFileImage).1 = Except.ok () ∧
    (readFile pathX rewrittenEmptyFileImage).1 = Except.ok [0, 0] ∧
    entryBlocks (readDirectory [rootName] rewrittenEmptyFileImage).1 = Except.ok [-1] := by
  decide!

/-- C2, at its failing input: after `writeFile("/x", {1})`, `writeFile("/x", {})` and
`deleteFile("/x")`, all of which succeed, entry 0 of the table is FREE although
`dataAddress` is 16. -/
theorem deleteFile_frees_fat_entry_zero :
    (writeFile pathX [1] image512).1 = Except.ok () ∧
    (writeFile pathX [] oneFileImage).1 = Except.ok () ∧
    (deleteFile pathX truncatedFileImage).1 = Except.ok () ∧
    dataAddress truncatedDeletedImage = 16 ∧
    image512.fat 0 = lastBlockMarker ∧
    truncatedDeletedImage.fat 0 = freeBlockMarker := by
  decide!

/-- C3, at its failing input: after `writeFile("/x", {1})` and `writeFile("/x", {})` the
entry of `/x` still names block 17, whose table entry is FREE; a following
`writeFile("/y", {2})` is given block 17 too, so two entries root at the same block. -/
theorem shared_first_block_after_truncate :
    (writeFile pathY [2] truncatedFileImage).1 = Except.ok () ∧
    entryBlocks (readDirectory [rootName] truncatedFileImage).1 = Except.ok [17] ∧
    truncatedFileImage.fat 17 = freeBlockMarker ∧
    entryNames (readDirectory [rootName] sharedBlockImage).1 = Except.ok [nameX, nameY] ∧
    entryBlocks (readDirectory [rootName] sharedBlockImage).1 = Except.ok [17, 17] := by
  decide!

/-- C5, at its failing inputs: `deleteDirectory("/")` on a fresh image succeeds and leaves
the root container with no entry, size 0 and a FREE block at `dataAddress`;
`createDirectory("d")`, a path without a leading slash, succeeds and leaves the root
container with two entries. -/
theorem deleteDirectory_root_empties_container :
    (deleteDirectory 2 [rootName] image512).1 = Except.ok () ∧
    rootDeletedImage.sb.rootDirectoryEntrySize = 0 ∧
    (readDirectory [] rootDeletedImage).1 = Except.ok [] ∧
    rootDeletedImage.fat 16 = freeBlockMarker ∧
    (createDirectory [nameD] image512).1 = Except.ok () ∧
    entryNames (readDirectory [] relativeDirImage).1 = Except.ok [rootName, nameD] := by
  decide!

/-- Counterexample to C6: deleting the only file of the root directory frees the block of
the file's chain and also the block of the root directory's own chain, so the FREE count
grows by 2 while the file's chain has 1 block. -/
theorem deleteFile_reclaims_more_than_chain :
    (deleteFile pathX oneFileImage).1 = Except.ok () ∧
    (pathToAddressAndSize pathX oneFileImage).1 = Except.ok (17, 1) ∧
    chainOf oneFileImage.fat chainFuel 17 = some [17] ∧
    freeBlockCount oneFileImage.fat = 4077 ∧
    freeBlockCount oneFileDeletedImage.fat = 4079 := by
  decide!

/-- An error after a mutation: `deleteDirectory("/d")` where `/d` holds the writable
`a` and then the non-writable `b` reports Permission after it has already removed `a`:
the listing of `/d` and the sector that stores it differ from before the call, so the
error is not reported before the mutations are persisted. -/
theorem deleteDirectory_error_not_atomic :
    (deleteDirectory 3 pathD guardedTreeImage).1 = Except.error Error.permission ∧
    entryNames (readDirectory pathD guardedTreeImage).1 = Except.ok [nameA, nameB] ∧
    entryNames (readDirectory pathD (deleteDirectory 3 pathD guardedTreeImage).2).1
      = Except.ok [nameB] ∧
    (deleteDirectory 3 pathD guardedTreeImage).2.disk 19 ≠ guardedTreeImage.disk 19 := by
  decide!

/-- Counterexample to C16: `chmod` accepts the mode strings `-rw`, `+` and `+-r`, none of
which is a concatenation of the tokens `+r`, `-r`, `+w`, `-w`; `-rw` clears both bits. -/
theorem chmod_accepts_unpaired_tokens :
    (readAttributes pathX oneFileImage).1.map (fun a => (a.canRead, a.canWrite))
      = Except.ok (true, true) ∧
    (chmod pathX ['-', 'r', 'w'] oneFileImage).1 = Except.ok () ∧
    (readAttributes pathX (chmod pathX ['-', 'r', 'w'] oneFileImage).2).1.map
      (fun a => (a.canRead, a.canWrite)) = Except.ok (false, false) ∧
    (chmod pathX ['+'] oneFileImage).1 = Except.ok () ∧
    (chmod pathX ['+', '-', 'r'] oneFileImage).1 = Except.ok () := by
  decide!

/-- C20, at its failing input: after `write /x {1}` and `write /x {}` the entry of `/x`
still names block 17; `mkdir /d`, `mkdir /d/a`, `mkdir /d/b` place the directory `/d` in
block 17; a `write /x` of 64 bytes then overwrites that block, and `/d` lists two entries
of the same name. -/
theorem duplicate_names_after_clobber :
    entryNames (readDirectory pathD clobberedDirImage).1 = Except.ok [nameA, nameA] := by
  decide!

theorem readOnly_pure {α : Type} (a : α) : ReadOnly (pure a : M α) := fun _ => rfl

theorem readOnly_throw {α : Type} (e : Error) : ReadOnly (throw e : M α) := fun _ => rfl

theorem readOnly_get : ReadOnly get := fun _ => rfl

theorem readOnly_assert (c : Bool) : ReadOnly (assert c) := by
  intro s; cases c <;> rfl

theorem readOnly_liftE {α : Type} (x : Except Error α) : ReadOnly (liftE x) := by
  intro s; cases x <;> rfl

theorem readOnly_bind {α β : Type} {m : M α} {f : α → M β} (hm : ReadOnly m)
    (hf : ∀ a, ReadOnly (f a)) : ReadOnly (m >>= f) := by
  intro s
  have h := hm s
  rw [bind_run]
  cases hr : m s with
  | mk r t =>
    rw [hr] at h
    simp only at h
    subst h
    cases r with
    | ok a => exact hf a t
    | error e => rfl

theorem readOnly_ite {α : Type} (c : Prop) [Decidable c] {m n : M α} (hm : ReadOnly m)
    (hn : ReadOnly n) : ReadOnly (if c then m else n) := by
  split
  · exact hm
  · exact hn

theorem readBlock_readOnly (b : Int) : ReadOnly (readBlock b) := by
  unfold readBlock
  exact readOnly_bind (readOnly_assert _) fun _ => readOnly_bind readOnly_get fun _ => readOnly_pure _

theorem readBlocksLoop_readOnly (fuel : Nat) : ∀ (a : Int) (acc : List Byte),
    ReadOnly (readBlocksLoop fuel a acc) := by
  induction fuel with
  | zero => intro a acc; rw [readBlocksLoop]; exact readOnly_throw _
  | succ fuel ih =>
    intro a acc
    rw [readBlocksLoop]
    exact readOnly_ite _ (readOnly_bind (readBlock_readOnly _) fun _ => readOnly_bind readOnly_get
      fun _ => readOnly_bind (readOnly_liftE _) fun _ => ih _ _) (readOnly_pure _)

theorem readBlocks_readOnly (a : Int) : ReadOnly (readBlocks a) := by
  unfold readBlocks
  exact readOnly_bind readOnly_get fun _ => readOnly_bind (readOnly_assert _) fun _ =>
    readBlocksLoop_readOnly _ _ _

theorem readDirectoryAt_readOnly (a size : Int) : ReadOnly (readDirectoryAt a size) := by
  unfold readDirectoryAt
  exact readOnly_bind (readBlocks_readOnly _) fun _ => readOnly_liftE _

theorem resolveLoop_readOnly (path : List Name) : ∀ (directory : List DirectoryEntry)
    (fileFound : Bool) (address size : Int),
    ReadOnly (resolveLoop path directory fileFound address size) := by
  induction path with
  | nil => intro d f a sz; rw [resolveLoop]; exact readOnly_pure _
  | cons name rest ih =>
    intro d f a sz
    rw [resolveLoop]
    refine readOnly_ite _ (readOnly_throw _) ?_
    split
    · exact readOnly_ite _ (readOnly_bind (readDirectoryAt_readOnly _ _) fun _ => ih _ _ _ _)
        (ih _ _ _ _)
    · exact readOnly_throw _

theorem pathToAddressAndSize_readOnly (path : Path) : ReadOnly (pathToAddressAndSize path) := by
  unfold pathToAddressAndSize
  exact readOnly_bind readOnly_get fun _ => readOnly_ite _ (readOnly_pure _)
    (readOnly_bind (readDirectoryAt_readOnly _ _) fun _ => resolveLoop_readOnly _ _ _ _ _)

theorem pathToName_readOnly (path : Path) : ReadOnly (pathToName path) := by
  unfold pathToName
  exact readOnly_bind (readOnly_assert _) fun _ => readOnly_ite _ (readOnly_pure _)
    (readOnly_ite _ (readOnly_pure _) (readOnly_pure _))

theorem parentPath_readOnly (path : Path) : ReadOnly (parentPath path) := by
  unfold parentPath
  exact readOnly_bind (readOnly_assert _) fun _ => readOnly_ite _ (readOnly_pure _) (readOnly_pure _)

theorem readDirectoryEntryWith_readOnly (rd : Path → M (List DirectoryEntry))
    (hrd : ∀ p, ReadOnly (rd p)) (path : Path) : ReadOnly (readDirectoryEntryWith rd path) := by
  unfold readDirectoryEntryWith
  refine readOnly_bind (parentPath_readOnly _) fun _ => readOnly_bind (hrd _) fun _ =>
    readOnly_bind (pathToName_readOnly _) fun _ => ?_
  split
  · exact readOnly_pure _
  · exact readOnly_throw _

theorem checkIsDirectoryWith_readOnly (rd : Path → M (List DirectoryEntry))
    (hrd : ∀ p, ReadOnly (rd p)) (path : Path) (b : Bool) :
    ReadOnly (checkIsDirectoryWith rd path b) := by
  unfold checkIsDirectoryWith
  have hjp : ∀ isDirectory : Bool, ReadOnly
      (if (b && !isDirectory) = true then throw Error.notADirectory
       else if (!b && isDirectory) = true then throw Error.isADirectory else (pure () : M Unit)) := by
    intro isDirectory
    split
    · exact readOnly_throw _
    · split
      · exact readOnly_throw _
      · exact readOnly_pure _
  exact readOnly_ite (path = []) (readOnly_bind (readOnly_pure _) fun y => hjp y)
    (readOnly_bind (readDirectoryEntryWith_readOnly rd hrd _) fun _ =>
      readOnly_bind (readOnly_pure _) fun y => hjp y)

theorem readDirectoryAux_readOnly (fuel : Nat) : ∀ path, ReadOnly (readDirectoryAux fuel path) := by
  induction fuel with
  | zero => intro p; rw [readDirectoryAux]; exact readOnly_throw _
  | succ fuel ih =>
    intro p
    rw [readDirectoryAux]
    refine readOnly_bind (checkIsDirectoryWith_readOnly _ ih _ _) fun _ =>
      readOnly_bind (pathToAddressAndSize_readOnly _) fun x => ?_
    exact readDirectoryAt_readOnly _ _

theorem readDirectory_readOnly (path : Path) : ReadOnly (readDirectory path) :=
  readDirectoryAux_readOnly _ _

theorem readDirectoryEntry_readOnly (path : Path) : ReadOnly (readDirectoryEntry path) :=
  readDirectoryEntryWith_readOnly _ readDirectory_readOnly _

theorem checkIsDirectory_readOnly (path : Path) (b : Bool) : ReadOnly (checkIsDirectory path b) :=
  checkIsDirectoryWith_readOnly _ readDirectory_readOnly _ _

theorem readAttributes_readOnly (path : Path) : ReadOnly (readAttributes path) := by
  unfold readAttributes
  exact readOnly_bind (readDirectoryEntry_readOnly _) fun _ => readOnly_pure _

theorem checkPermission_readOnly (path : Path) (p : Permission) :
    ReadOnly (checkPermission path p) := by
  unfold checkPermission
  refine readOnly_ite _ (readOnly_pure _) (readOnly_bind (readAttributes_readOnly _) fun _ => ?_)
  split
  · exact readOnly_throw _
  · exact readOnly_pure _

theorem pureNoCheckError_ok {α : Type} (a : α) : PureNoCheckError (Except.ok a : Except Error α) := by
  intro e h; cases h

theorem pureNoCheckError_pure {α : Type} (a : α) : PureNoCheckError (pure a : Except Error α) := by
  intro e h; cases h

theorem pureNoCheckError_bind {α β : Type} {x : Except Error α} {f : α → Except Error β}
    (hx : PureNoCheckError x) (hf : ∀ a, PureNoCheckError (f a)) : PureNoCheckError (x >>= f) := by
  intro e h
  cases x with
  | ok a => exact hf a e h
  | error e2 =>
    have : e2 = e := by cases h; rfl
    exact hx e (this ▸ rfl)

theorem readBytes_noCheckError (buffer : List Byte) (offset n : Nat) :
    PureNoCheckError (readBytes buffer offset n) := by
  intro e h
  unfold readBytes at h
  split at h
  · cases h
  · cases h; simp [checkError]

theorem fatGet_noCheckError (fat : Fat) (i : Int) : PureNoCheckError (fatGet fat i) := by
  intro e h
  unfold fatGet at h
  split at h
  · cases h
  · cases h; simp [checkError]

theorem deserializeEntry_noCheckError (buffer : List Byte) (offset : Nat) :
    PureNoCheckError (deserializeEntry buffer offset) := by
  unfold deserializeEntry deserializeBool deserializeString deserializeI16 deserializeI64
  repeat (first
    | exact pureNoCheckError_pure _
    | refine pureNoCheckError_bind ?_ (fun _ => ?_)
    | exact readBytes_noCheckError _ _ _)

theorem deserializeDirectory_noCheckError (buffer : List Byte) (size fuel : Nat) :
    ∀ (offset : Nat) (directory : List DirectoryEntry),
      PureNoCheckError (deserializeDirectory buffer size fuel offset directory) := by
  induction fuel with
  | zero =>
    intro offset directory e h
    rw [deserializeDirectory] at h
    cases h; simp [checkError]
  | succ fuel ih =>
    intro offset directory
    rw [deserializeDirectory]
    split
    · exact pureNoCheckError_bind (deserializeEntry_noCheckError _ _) fun _ => ih _ _
    · exact pureNoCheckError_pure _

theorem noCheckError_pure {α : Type} (a : α) : NoCheckError (pure a : M α) := by
  intro s e h; cases h

theorem noCheckError_get : NoCheckError get := by
  intro s e h; cases h

theorem noCheckError_modify (f : FS → FS) : NoCheckError (modify f) := by
  intro s e h; cases h

theorem noCheckError_getNow : NoCheckError getNow := by
  intro s e h; cases h

theorem noCheckError_throw {α : Type} (e : Error) (he : ¬ checkError e) :
    NoCheckError (throw e : M α) := by
  intro s e2 h; cases h; exact he

theorem noCheckError_assert (c : Bool) : NoCheckError (assert c) := by
  intro s e h
  cases c
  · cases h; simp [checkError]
  · cases h

theorem noCheckError_liftE {α : Type} {x : Except Error α} (hx : PureNoCheckError x) :
    NoCheckError (liftE x) := by
  intro s e h
  cases x with
  | ok a => cases h
  | error e2 => cases h; exact hx _ rfl

theorem noCheckError_bind {α β : Type} {m : M α} {f : α → M β} (hm : NoCheckError m)
    (hf : ∀ a, NoCheckError (f a)) : NoCheckError (m >>= f) := by
  intro s e h
  rw [bind_run] at h
  cases hr : m s with
  | mk r t =>
    rw [hr] at h
    cases r with
    | ok a => exact hf a t e h
    | error e2 =>
      simp only at h
      cases h
      exact hm s _ (by rw [hr])

theorem noCheckError_ite {α : Type} (c : Prop) [Decidable c] {m n : M α} (hm : NoCheckError m)
    (hn : NoCheckError n) : NoCheckError (if c then m else n) := by
  split
  · exact hm
  · exact hn

theorem writeBlock_noCheckError (b : Int) {n : Nat} (block : Block n) :
    NoCheckError (writeBlock b block) := by
  unfold writeBlock
  exact noCheckError_bind (noCheckError_assert _) fun _ => noCheckError_bind noCheckError_get
    fun _ => noCheckError_bind (noCheckError_assert _) fun _ => noCheckError_modify _

theorem writeFatBlocks_noCheckError (buffer : List Byte) (n : Nat) :
    NoCheckError (writeFatBlocks buffer n) := by
  induction n with
  | zero => rw [writeFatBlocks]; exact noCheckError_pure _
  | succ n ih =>
    rw [writeFatBlocks]
    exact noCheckError_bind ih fun _ => noCheckError_bind noCheckError_get fun _ =>
      writeBlock_noCheckError _ _

theorem writeFat_noCheckError : NoCheckError writeFat := by
  unfold writeFat
  exact noCheckError_bind noCheckError_get fun _ => writeFatBlocks_noCheckError _ _

theorem writeSuperblock_noCheckError : NoCheckError writeSuperblock := by
  unfold writeSuperblock
  exact noCheckError_bind noCheckError_get fun _ => noCheckError_modify _

theorem freeBlocksLoop_noCheckError (fuel : Nat) : ∀ a : Int, NoCheckError (freeBlocksLoop fuel a) := by
  induction fuel with
  | zero => intro a; rw [freeBlocksLoop]; exact noCheckError_throw _ (by simp [checkError])
  | succ fuel ih =>
    intro a
    rw [freeBlocksLoop]
    exact noCheckError_ite _ (noCheckError_bind noCheckError_get fun _ =>
      noCheckError_bind (noCheckError_liftE (fatGet_noCheckError _ _)) fun _ =>
      noCheckError_bind (noCheckError_modify _) fun _ => ih _) (noCheckError_pure _)

theorem freeBlocks_noCheckError (a : Int) : NoCheckError (freeBlocks a) := by
  unfold freeBlocks
  exact noCheckError_bind noCheckError_get fun _ => noCheckError_bind (noCheckError_assert _)
    fun _ => noCheckError_bind (freeBlocksLoop_noCheckError _ _) fun _ => writeFat_noCheckError

theorem writeBlocksLoop_noCheckError (buffer : List Byte) (start : Int) (fuel : Nat) :
    ∀ (curr prev first : Int) (offset : Nat),
      NoCheckError (writeBlocksLoop buffer start fuel curr prev first offset) := by
  induction fuel with
  | zero => intro c p f o; rw [writeBlocksLoop]; exact noCheckError_throw _ (by simp [checkError])
  | succ fuel ih =>
    intro c p f o
    rw [writeBlocksLoop]
    refine noCheckError_bind noCheckError_get fun s => noCheckError_bind
      (noCheckError_liftE (fatGet_noCheckError _ _)) fun entry => ?_
    have hnext : ∀ (p f : Int) (o : Nat), NoCheckError
        (if wrap16 ((toSizeT (c + 1) % fatSize : Nat) : Int) = start then throw Error.fileSystemFull
         else writeBlocksLoop buffer start fuel (wrap16 ((toSizeT (c + 1) % fatSize : Nat) : Int))
           p f o) := fun p f o =>
      noCheckError_ite _ (noCheckError_throw _ (by simp [checkError])) (ih _ _ _ _)
    exact noCheckError_ite (entry = freeBlockMarker)
      (noCheckError_bind (writeBlock_noCheckError _ _) fun _ =>
        noCheckError_ite (p ≠ -1)
          (noCheckError_bind (noCheckError_modify _) fun _ =>
            noCheckError_ite (o + s.sb.blockSize ≥ buffer.length)
              (noCheckError_bind (noCheckError_modify _) fun _ =>
                noCheckError_bind writeFat_noCheckError fun _ => noCheckError_pure _)
              (hnext _ _ _))
          (noCheckError_bind (noCheckError_pure _) fun _ =>
            noCheckError_ite (o + s.sb.blockSize ≥ buffer.length)
              (noCheckError_bind (noCheckError_modify _) fun _ =>
                noCheckError_bind writeFat_noCheckError fun _ => noCheckError_pure _)
              (hnext _ _ _)))
      (hnext _ _ _)

theorem writeBlocks_noCheckError (a : Int) (buffer : List Byte) :
    NoCheckError (writeBlocks a buffer) := by
  unfold writeBlocks
  have hjp : ∀ blockAddress : Int, NoCheckError
      (if buffer.isEmpty = true then (pure lastBlockMarker : M Int)
       else writeBlocksLoop buffer blockAddress fatSize blockAddress (-1) (-1) 0) := by
    intro blockAddress
    split
    · exact noCheckError_pure _
    · exact writeBlocksLoop_noCheckError _ _ _ _ _ _ _
  exact noCheckError_bind noCheckError_get fun s =>
    noCheckError_ite (a = lastBlockMarker) (noCheckError_bind (noCheckError_pure _) fun y => hjp y)
      (noCheckError_bind (freeBlocks_noCheckError _) fun _ =>
        noCheckError_bind (noCheckError_pure _) fun y => hjp y)

theorem readBlock_noCheckError (b : Int) : NoCheckError (readBlock b) := by
  unfold readBlock
  exact noCheckError_bind (noCheckError_assert _) fun _ => noCheckError_bind noCheckError_get
    fun _ => noCheckError_pure _

theorem readBlocksLoop_noCheckError (fuel : Nat) : ∀ (a : Int) (acc : List Byte),
    NoCheckError (readBlocksLoop fuel a acc) := by
  induction fuel with
  | zero => intro a acc; rw [readBlocksLoop]; exact noCheckError_throw _ (by simp [checkError])
  | succ fuel ih =>
    intro a acc
    rw [readBlocksLoop]
    exact noCheckError_ite _ (noCheckError_bind (readBlock_noCheckError _) fun _ =>
      noCheckError_bind noCheckError_get fun _ =>
      noCheckError_bind (noCheckError_liftE (fatGet_noCheckError _ _)) fun _ => ih _ _)
      (noCheckError_pure _)

theorem readBlocks_noCheckError (a : Int) : NoCheckError (readBlocks a) := by
  unfold readBlocks
  exact noCheckError_bind noCheckError_get fun _ => noCheckError_bind (noCheckError_assert _)
    fun _ => readBlocksLoop_noCheckError _ _ _

theorem readDirectoryAt_noCheckError (a size : Int) : NoCheckError (readDirectoryAt a size) := by
  unfold readDirectoryAt
  exact noCheckError_bind (readBlocks_noCheckError _) fun _ =>
    noCheckError_liftE (deserializeDirectory_noCheckError _ _ _ _ _)

theorem resolveLoop_noCheckError (path : List Name) : ∀ (directory : List DirectoryEntry)
    (fileFound : Bool) (address size : Int),
    NoCheckError (resolveLoop path directory fileFound address size) := by
  induction path with
  | nil => intro d f a sz; rw [resolveLoop]; exact noCheckError_pure _
  | cons name rest ih =>
    intro d f a sz
    rw [resolveLoop]
    refine noCheckError_ite _ (noCheckError_throw _ (by simp [checkError])) ?_
    split
    · exact noCheckError_ite _
        (noCheckError_bind (readDirectoryAt_noCheckError _ _) fun _ => ih _ _ _ _) (ih _ _ _ _)
    · exact noCheckError_throw _ (by simp [checkError])

theorem pathToAddressAndSize_noCheckError (path : Path) :
    NoCheckError (pathToAddressAndSize path) := by
  unfold pathToAddressAndSize
  exact noCheckError_bind noCheckError_get fun _ => noCheckError_ite _ (noCheckError_pure _)
    (noCheckError_bind (readDirectoryAt_noCheckError _ _) fun _ =>
      resolveLoop_noCheckError _ _ _ _ _)

theorem pathToName_noCheckError (path : Path) : NoCheckError (pathToName path) := by
  unfold pathToName
  exact noCheckError_bind (noCheckError_assert _) fun _ => noCheckError_ite _ (noCheckError_pure _)
    (noCheckError_ite _ (noCheckError_pure _) (noCheckError_pure _))

theorem parentPath_noCheckError (path : Path) : NoCheckError (parentPath path) := by
  unfold parentPath
  exact noCheckError_bind (noCheckError_assert _) fun _ =>
    noCheckError_ite _ (noCheckError_pure _) (noCheckError_pure _)

theorem readDirectoryEntryWith_noCheckError (rd : Path → M (List DirectoryEntry))
    (hrd : ∀ p, NoCheckError (rd p)) (path : Path) :
    NoCheckError (readDirectoryEntryWith rd path) := by
  unfold readDirectoryEntryWith
  refine noCheckError_bind (parentPath_noCheckError _) fun _ => noCheckError_bind (hrd _) fun _ =>
    noCheckError_bind (pathToName_noCheckError _) fun _ => ?_
  split
  · exact noCheckError_pure _
  · exact noCheckError_throw _ (by simp [checkError])

/-- A check that the path is a directory never reports a check error: it reports
NotADirectory. -/
theorem checkIsDirectoryWith_noCheckError (rd : Path → M (List DirectoryEntry))
    (hrd : ∀ p, NoCheckError (rd p)) (path : Path) :
    NoCheckError (checkIsDirectoryWith rd path true) := by
  unfold checkIsDirectoryWith
  have hjp : ∀ isDirectory : Bool, NoCheckError
      (if (true && !isDirectory) = true then throw Error.notADirectory
       else if (!true && isDirectory) = true then throw Error.isADirectory
       else (pure () : M Unit)) := by
    intro isDirectory
    split
    · exact noCheckError_throw _ (by simp [checkError])
    · split
      · rename_i h; simp at h
      · exact noCheckError_pure _
  exact noCheckError_ite (path = []) (noCheckError_bind (noCheckError_pure _) fun y => hjp y)
    (noCheckError_bind (readDirectoryEntryWith_noCheckError rd hrd _) fun _ =>
      noCheckError_bind (noCheckError_pure _) fun y => hjp y)

theorem readDirectoryAux_noCheckError (fuel : Nat) :
    ∀ path, NoCheckError (readDirectoryAux fuel path) := by
  induction fuel with
  | zero => intro p; rw [readDirectoryAux]; exact noCheckError_throw _ (by simp [checkError])
  | succ fuel ih =>
    intro p
    rw [readDirectoryAux]
    exact noCheckError_bind (checkIsDirectoryWith_noCheckError _ ih _) fun _ =>
      noCheckError_bind (pathToAddressAndSize_noCheckError _) fun _ =>
        readDirectoryAt_noCheckError _ _

theorem readDirectory_noCheckError (path : Path) : NoCheckError (readDirectory path) :=
  readDirectoryAux_noCheckError _ _

theorem readDirectoryEntry_noCheckError (path : Path) : NoCheckError (readDirectoryEntry path) :=
  readDirectoryEntryWith_noCheckError _ readDirectory_noCheckError _

theorem checkIsDirectory_noCheckError (path : Path) : NoCheckError (checkIsDirectory path true) :=
  checkIsDirectoryWith_noCheckError _ readDirectory_noCheckError _

theorem writeDirectoryEntryWith_noCheckError (wd : Path → List DirectoryEntry → Bool → M Int)
    (hwd : ∀ p d u, NoCheckError (wd p d u)) (path : Path) (entry : DirectoryEntry) :
    NoCheckError (writeDirectoryEntryWith wd path entry) := by
  unfold writeDirectoryEntryWith
  refine noCheckError_bind (parentPath_noCheckError _) fun _ =>
    noCheckError_bind (readDirectory_noCheckError _) fun _ =>
    noCheckError_bind (pathToName_noCheckError _) fun _ => ?_
  split
  · exact noCheckError_bind (parentPath_noCheckError _) fun _ =>
      noCheckError_bind (hwd _ _ _) fun _ => noCheckError_pure _
  · exact noCheckError_throw _ (by simp [checkError])

theorem writeDirectoryAux_noCheckError (fuel : Nat) :
    ∀ (path : Path) (directory : List DirectoryEntry) (u : Bool),
      NoCheckError (writeDirectoryAux fuel path directory u) := by
  induction fuel with
  | zero => intro p d u; rw [writeDirectoryAux]; exact noCheckError_throw _ (by simp [checkError])
  | succ fuel ih =>
    intro p d u
    rw [writeDirectoryAux]
    refine noCheckError_bind (checkIsDirectory_noCheckError _) fun _ =>
      noCheckError_bind (pathToAddressAndSize_noCheckError _) fun x => ?_
    obtain ⟨address, sz⟩ := x
    dsimp only
    refine noCheckError_bind (writeBlocks_noCheckError _ _) fun address2 => ?_
    refine noCheckError_ite (p = []) (noCheckError_bind (noCheckError_modify _) fun _ =>
      noCheckError_bind writeSuperblock_noCheckError fun _ => noCheckError_pure _) ?_
    refine noCheckError_bind (readDirectoryEntry_noCheckError _) fun entry => ?_
    have hjp : ∀ (c : Bool) (e : DirectoryEntry), NoCheckError
        (if (c || u) = true then
          (writeDirectoryEntryWith (writeDirectoryAux fuel) p e >>= fun _ =>
            (pure (wrap16 ((serializeDirectory d).length : Int)) : M Int))
         else ((pure PUnit.unit : M PUnit) >>= fun _ =>
            (pure (wrap16 ((serializeDirectory d).length : Int)) : M Int))) := fun c e =>
      noCheckError_ite ((c || u) = true)
        (noCheckError_bind (writeDirectoryEntryWith_noCheckError _ ih _ _) fun _ =>
          noCheckError_pure _)
        (noCheckError_bind (noCheckError_pure _) fun _ => noCheckError_pure _)
    exact noCheckError_ite (u = true)
      (noCheckError_bind noCheckError_getNow fun now =>
        noCheckError_bind (noCheckError_pure _) fun y => hjp _ y)
      (noCheckError_bind (noCheckError_pure _) fun y => hjp _ y)

theorem writeDirectory_noCheckError (path : Path) (directory : List DirectoryEntry) (u : Bool) :
    NoCheckError (writeDirectory path directory u) :=
  writeDirectoryAux_noCheckError _ _ _ _

theorem writeDirectoryEntry_noCheckError (path : Path) (entry : DirectoryEntry) :
    NoCheckError (writeDirectoryEntry path entry) :=
  writeDirectoryEntryWith_noCheckError _ (fun p d u => writeDirectory_noCheckError p d u) _ _

theorem writeAttributes_noCheckError (path : Path) (attributes : FileAttributes) :
    NoCheckError (writeAttributes path attributes) := by
  unfold writeAttributes
  exact noCheckError_bind (readDirectoryEntry_noCheckError _) fun _ =>
    writeDirectoryEntry_noCheckError _ _

theorem freeBlocksPath_noCheckError (path : Path) : NoCheckError (freeBlocksPath path) := by
  unfold freeBlocksPath
  refine noCheckError_bind (pathToAddressAndSize_noCheckError _) fun x => ?_
  obtain ⟨address, sz⟩ := x
  exact freeBlocks_noCheckError _

theorem checkAtomic_of_readOnly {α : Type} {m : M α} (h : ReadOnly m) : CheckAtomic m :=
  fun s _ _ _ => h s

theorem checkAtomic_of_noCheckError {α : Type} {m : M α} (h : NoCheckError m) : CheckAtomic m :=
  fun s e he hc => absurd hc (h s e he)

theorem checkAtomic_bind {α β : Type} {m : M α} {f : α → M β} (hm : ReadOnly m)
    (hf : ∀ a, CheckAtomic (f a)) : CheckAtomic (m >>= f) := by
  intro s e he hc
  rw [bind_run] at he ⊢
  cases hr : m s with
  | mk r t =>
    have h : t = s := by have h2 := hm s; rw [hr] at h2; exact h2
    subst h
    rw [hr] at he
    cases r with
    | ok a => exact hf a t e he hc
    | error e2 => rfl

theorem readOnly_run_eq {α : Type} {m : M α} (h : ReadOnly m) (s : FS) : m s = ((m s).1, s) := by
  cases hr : m s with
  | mk r t =>
    have h2 := h s
    rw [hr] at h2
    simp only at h2
    rw [h2]

theorem createDirectory_checkAtomic (path : Path) : CheckAtomic (createDirectory path) := by
  unfold createDirectory
  refine checkAtomic_bind (parentPath_readOnly _) fun _ =>
    checkAtomic_bind (checkPermission_readOnly _ _) fun _ =>
    checkAtomic_bind (parentPath_readOnly _) fun _ =>
    checkAtomic_bind (readDirectory_readOnly _) fun parent =>
    checkAtomic_bind (pathToName_readOnly _) fun name => ?_
  split
  · exact checkAtomic_of_readOnly (readOnly_throw _)
  · exact checkAtomic_of_noCheckError (noCheckError_bind noCheckError_getNow fun _ =>
      noCheckError_bind (parentPath_noCheckError _) fun _ =>
      noCheckError_bind (writeDirectory_noCheckError _ _ _) fun _ => noCheckError_pure _)

theorem deleteFile_checkAtomic (path : Path) : CheckAtomic (deleteFile path) := by
  unfold deleteFile
  refine checkAtomic_bind (checkIsDirectory_readOnly _ _) fun _ =>
    checkAtomic_bind (checkPermission_readOnly _ _) fun _ =>
    checkAtomic_bind (parentPath_readOnly _) fun _ =>
    checkAtomic_bind (readDirectory_readOnly _) fun parent =>
    checkAtomic_bind (pathToName_readOnly _) fun name => ?_
  refine checkAtomic_of_noCheckError (noCheckError_bind (freeBlocksPath_noCheckError _) fun _ => ?_)
  split
  · exact noCheckError_bind (parentPath_noCheckError _) fun _ =>
      noCheckError_bind (writeDirectory_noCheckError _ _ _) fun _ => noCheckError_pure _
  · exact noCheckError_pure _

theorem checkPermission_error (path : Path) (p : Permission) (s : FS) (e : Error)
    (h : (checkPermission path p s).1 = Except.error e) (hc : checkError e) :
    e = Error.permission := by
  unfold checkPermission at h
  by_cases hp : path = []
  · rw [if_pos hp] at h; cases h
  · rw [if_neg hp, bind_run] at h
    cases hr : readAttributes path s with
    | mk r t =>
      rw [hr] at h
      cases r with
      | ok a =>
        simp only at h
        split at h
        · cases h; rfl
        · cases h
      | error e2 =>
        simp only at h
        cases h
        exact absurd hc (readDirectoryEntry_noCheckError path |> fun hn =>
          (noCheckError_bind hn fun _ => noCheckError_pure _) s _ (by
            have : readAttributes path = (readDirectoryEntry path >>= fun entry => pure entry.attributes) := rfl
            rw [← this, hr]))

theorem tryCatchNoSuchFile_cases {α : Type} (body handler : M α) (s : FS) :
    (tryCatchNoSuchFile body handler s = body s ∧
      (body s).1 ≠ Except.error Error.noSuchFileOrDirectory) ∨
    (∃ t, body s = (Except.error Error.noSuchFileOrDirectory, t) ∧
      tryCatchNoSuchFile body handler s = handler t) := by
  unfold tryCatchNoSuchFile
  cases hr : body s with
  | mk r t =>
    cases r with
    | ok a => left; exact ⟨rfl, by simp⟩
    | error e =>
      by_cases he : e = Error.noSuchFileOrDirectory
      · subst he; right; exact ⟨t, rfl, rfl⟩
      · left
        refine ⟨?_, by simpa using he⟩
        cases e <;> first | rfl | exact absurd rfl he

theorem writeFile_body_checkAtomic (path : Path) (data : List Byte) :
    CheckAtomic (do
      checkIsDirectory path false
      checkPermission path Permission.w
      let (address, _) ← pathToAddressAndSize path
      let _ ← writeBlocks address data
      let attributes ← readAttributes path
      let now ← getNow
      writeAttributes path { attributes with size := wrap16 data.length, lastModified := now }) := by
  refine checkAtomic_bind (checkIsDirectory_readOnly _ _) fun _ =>
    checkAtomic_bind (checkPermission_readOnly _ _) fun _ =>
    checkAtomic_bind (pathToAddressAndSize_readOnly _) fun x => ?_
  obtain ⟨address, sz⟩ := x
  exact checkAtomic_of_noCheckError (noCheckError_bind (writeBlocks_noCheckError _ _) fun _ =>
    noCheckError_bind (noCheckError_bind (readDirectoryEntry_noCheckError _) fun _ =>
      noCheckError_pure _) fun _ =>
    noCheckError_bind noCheckError_getNow fun _ => writeAttributes_noCheckError _ _)

theorem writeFile_handler_error (path : Path) (data : List Byte) (name : Name)
    (parent : List DirectoryEntry) (t : FS) (e : Error)
    (h : (((do
      checkPermission (← parentPath path) Permission.w
      let address ← writeBlocks lastBlockMarker data
      let now ← getNow
      let entry : DirectoryEntry :=
        { attributes := { isDirectory := false, name := name, size := wrap16 data.length,
                          created := now, lastModified := now },
          firstBlockAddress := address }
      let _ ← writeDirectory (← parentPath path) (parent ++ [entry]) true
      pure ()) : M Unit) t).1 = Except.error e) (hc : checkError e) :
    e = Error.permission := by
  rw [bind_run] at h
  cases hr : parentPath path t with
  | mk r u =>
    rw [hr] at h
    cases r with
    | error e2 =>
      simp only at h
      cases h
      exact absurd hc (parentPath_noCheckError path t _ (by rw [hr]))
    | ok pp =>
      simp only at h
      rw [bind_run] at h
      cases hr2 : checkPermission pp Permission.w u with
      | mk r2 u2 =>
        rw [hr2] at h
        cases r2 with
        | error e2 =>
          simp only at h
          cases h
          exact checkPermission_error pp Permission.w u _ (by rw [hr2]) hc
        | ok x =>
          simp only at h
          exact absurd hc ((noCheckError_bind (writeBlocks_noCheckError _ _) fun _ =>
            noCheckError_bind noCheckError_getNow fun _ =>
            noCheckError_bind (parentPath_noCheckError _) fun _ =>
            noCheckError_bind (writeDirectory_noCheckError _ _ _) fun _ =>
              noCheckError_pure _) u2 e h)

theorem writeFile_isADirectory_state (path : Path) (data : List Byte) (s : FS)
    (h : (writeFile path data s).1 = Except.error Error.isADirectory) :
    (writeFile path data s).2 = s := by
  have hc : checkError Error.isADirectory := Or.inr (Or.inr (Or.inl rfl))
  unfold writeFile at h ⊢
  rw [bind_run] at h ⊢
  have h1 := readOnly_run_eq (parentPath_readOnly path) s
  rw [h1] at h ⊢
  cases hr1 : (parentPath path s).1 with
  | error e2 => rfl
  | ok pp =>
    rw [hr1] at h
    simp only at h ⊢
    rw [bind_run] at h ⊢
    have h2 := readOnly_run_eq (readDirectory_readOnly pp) s
    rw [h2] at h ⊢
    cases hr2 : (readDirectory pp s).1 with
    | error e2 => rfl
    | ok parent =>
      rw [hr2] at h
      simp only at h ⊢
      rw [bind_run] at h ⊢
      have h3 := readOnly_run_eq (pathToName_readOnly path) s
      rw [h3] at h ⊢
      cases hr3 : (pathToName path s).1 with
      | error e2 => rfl
      | ok name =>
        rw [hr3] at h
        simp only at h ⊢
        rcases tryCatchNoSuchFile_cases _ _ s with ⟨heq, -⟩ | ⟨t, -, heq⟩
        · rw [heq] at h ⊢
          exact writeFile_body_checkAtomic path data s _ h hc
        · rw [heq] at h
          have := writeFile_handler_error path data name parent t _ h hc
          cases this

theorem chmod_checkAtomic (path : Path) (permissions : List Char) :
    CheckAtomic (chmod path permissions) := by
  unfold chmod
  refine checkAtomic_bind (readAttributes_readOnly _) fun attributes => ?_
  split
  · exact checkAtomic_of_readOnly (readOnly_throw _)
  · exact checkAtomic_bind (readOnly_liftE _) fun _ =>
      checkAtomic_of_noCheckError (writeAttributes_noCheckError _ _)

theorem deleteDirectory_own_check (fuel : Nat) (path : Path) (s : FS) (e : Error)
    (h : (checkPermission path Permission.w s).1 = Except.error e) :
    deleteDirectory (fuel + 1) path s = (Except.error e, s) := by
  rw [deleteDirectory, bind_run, readOnly_run_eq (checkPermission_readOnly path _) s, h]

/-- Claim C12. When the parent of `path` is a directory the caller may write to and
its entry list `es` already holds an entry named like the last component of `path`,
`createDirectory(path)` fails with `FileExists` and the state it leaves is the state it
started from: the parent still lists `es`, and the table and the superblock are the
same. -/
theorem createDirectory_existing_name (path parent : Path) (name : Name)
    (es : List DirectoryEntry) (s : FS)
    (hparent : (parentPath path s).1 = Except.ok parent)
    (hwritable : (checkPermission parent Permission.w s).1 = Except.ok ())
    (hlist : (readDirectory parent s).1 = Except.ok es)
    (hname : (pathToName path s).1 = Except.ok name)
    (hexists : ∃ entry ∈ es, entry.attributes.name = name) :
    createDirectory path s = (Except.error Error.fileExists, s) ∧
    (readDirectory parent (createDirectory path s).2).1 = Except.ok es ∧
    (createDirectory path s).2.fat = s.fat ∧ (createDirectory path s).2.sb = s.sb ∧
    (createDirectory path s).2.disk = s.disk := by
  have h1 : parentPath path s = (Except.ok parent, s) := by
    rw [readOnly_run_eq (parentPath_readOnly path) s, hparent]
  have h2 : checkPermission parent Permission.w s = (Except.ok (), s) := by
    rw [readOnly_run_eq (checkPermission_readOnly parent _) s, hwritable]
  have h3 : readDirectory parent s = (Except.ok es, s) := by
    rw [readOnly_run_eq (readDirectory_readOnly parent) s, hlist]
  have h4 : pathToName path s = (Except.ok name, s) := by
    rw [readOnly_run_eq (pathToName_readOnly path) s, hname]
  have hany : (es.any fun entry => decide (entry.attributes.name = name)) = true := by
    obtain ⟨entry, hmem, hn⟩ := hexists
    exact List.any_eq_true.mpr ⟨entry, hmem, by simpa using hn⟩
  have hrun : createDirectory path s = (Except.error Error.fileExists, s) := by
    unfold createDirectory
    rw [bind_run, h1]
    simp only
    rw [bind_run, h2]
    simp only
    rw [bind_run, h1]
    simp only
    rw [bind_run, h3]
    simp only
    rw [bind_run, h4]
    simp only
    rw [if_pos hany]
    rfl
  rw [hrun]
  exact ⟨rfl, hlist, rfl, rfl, rfl⟩

theorem createDirectory_existing_name_witness :
    ((parentPath pathX oneFileImage).1 = Except.ok [rootName] ∧
      (checkPermission [rootName] Permission.w oneFileImage).1 = Except.ok () ∧
      (readDirectory [rootName] oneFileImage).1 = Except.ok [fileXEntry] ∧
      (pathToName pathX oneFileImage).1 = Except.ok nameX ∧
      ∃ entry ∈ [fileXEntry], entry.attributes.name = nameX) ∧
    (createDirectory pathX oneFileImage = (Except.error Error.fileExists, oneFileImage) ∧
      (readDirectory [rootName] (createDirectory pathX oneFileImage).2).1
        = Except.ok [fileXEntry] ∧
      (createDirectory pathX oneFileImage).2.fat = oneFileImage.fat ∧
      (createDirectory pathX oneFileImage).2.sb = oneFileImage.sb ∧
      (createDirectory pathX oneFileImage).2.disk = oneFileImage.disk) :=
  have h : (parentPath pathX oneFileImage).1 = Except.ok [rootName] ∧
      (checkPermission [rootName] Permission.w oneFileImage).1 = Except.ok () ∧
      (readDirectory [rootName] oneFileImage).1 = Except.ok [fileXEntry] ∧
      (pathToName pathX oneFileImage).1 = Except.ok nameX := by decide!
  have he : ∃ entry ∈ [fileXEntry], entry.attributes.name = nameX :=
    ⟨fileXEntry, List.mem_singleton.mpr rfl, rfl⟩
  ⟨⟨h.1, h.2.1, h.2.2.1, h.2.2.2, he⟩,
    createDirectory_existing_name pathX [rootName] nameX [fileXEntry] oneFileImage
      h.1 h.2.1 h.2.2.1 h.2.2.2 he⟩

theorem chmodLoop_all (mode : List Char) :
    ∀ (add : Bool) (attributes : FileAttributes),
      (mode.all modeChar = true → ∃ a, chmodLoop mode add attributes = Except.ok a) ∧
      (mode.all modeChar = false → chmodLoop mode add attributes = Except.error Error.invalidMode) := by
  induction mode with
  | nil => intro add attributes; exact ⟨fun _ => ⟨attributes, rfl⟩, fun h => by simp at h⟩
  | cons c rest ih =>
    intro add attributes
    rw [chmodLoop]
    by_cases h1 : c = '+'
    · rw [if_pos h1]
      have : modeChar c = true := by simp [modeChar, h1]
      simpa [List.all_cons, this] using ih true attributes
    · rw [if_neg h1]
      by_cases h2 : c = '-'
      · rw [if_pos h2]
        have : modeChar c = true := by simp [modeChar, h2]
        simpa [List.all_cons, this] using ih false attributes
      · rw [if_neg h2]
        by_cases h3 : c = 'r'
        · rw [if_pos h3]
          have : modeChar c = true := by simp [modeChar, h3]
          simpa [List.all_cons, this] using ih add { attributes with canRead := add }
        · rw [if_neg h3]
          by_cases h4 : c = 'w'
          · rw [if_pos h4]
            have : modeChar c = true := by simp [modeChar, h4]
            simpa [List.all_cons, this] using ih add { attributes with canWrite := add }
          · rw [if_neg h4]
            have : modeChar c = false := by simp [modeChar, h1, h2, h3, h4]
            simp [List.all_cons, this]

theorem isTokenString_accepted (mode : List Char) :
    isTokenString mode = true → modeAccepted mode = true := by
  have key : ∀ (n : Nat) (m : List Char), m.length ≤ n → isTokenString m = true →
      m.all modeChar = true ∧ (m.headD (Char.ofNat 0) = '+' ∨ m.headD (Char.ofNat 0) = '-') := by
    intro n
    induction n with
    | zero =>
      intro m hm h
      cases m with
      | nil => simp [isTokenString] at h
      | cons a r => simp at hm
    | succ n ih =>
      intro m hm h
      match m, hm, h with
      | [], _, h => simp [isTokenString] at h
      | [_], _, h => simp [isTokenString] at h
      | [a, b], _, h =>
        simp only [isTokenString, Bool.and_eq_true, Bool.or_eq_true, decide_eq_true_eq] at h
        refine ⟨?_, by simpa using h.1⟩
        simp only [List.all_cons, List.all_nil, Bool.and_true, Bool.and_eq_true, modeChar,
          Bool.or_eq_true, decide_eq_true_eq]
        rcases h with ⟨ha | ha, hb | hb⟩ <;> simp [ha, hb]
      | a :: b :: c :: r, hm, h =>
        simp only [isTokenString, Bool.and_eq_true, Bool.or_eq_true, decide_eq_true_eq] at h
        have hrec := ih (c :: r) (by simp at hm ⊢; omega) h.2
        refine ⟨?_, by simpa using h.1.1⟩
        simp only [List.all_cons, Bool.and_eq_true]
        refine ⟨?_, ?_, ?_⟩
        · rcases h.1.1 with ha | ha <;> simp [modeChar, ha]
        · rcases h.1.2 with hb | hb <;> simp [modeChar, hb]
        · simpa [List.all_cons] using hrec.1
  intro h
  have := key mode.length mode le_rfl h
  simp only [modeAccepted, Bool.and_eq_true, Bool.or_eq_true, decide_eq_true_eq]
  exact ⟨this.2, this.1⟩

theorem chmod_run (path : Path) (mode : List Char) (attributes : FileAttributes) (s : FS)
    (hattr : (readAttributes path s).1 = Except.ok attributes) :
    (modeAccepted mode = false → chmod path mode s = (Except.error Error.invalidMode, s)) ∧
    (modeAccepted mode = true → ∃ a, chmodLoop mode false attributes = Except.ok a ∧
      chmod path mode s = writeAttributes path a s) := by
  have hrun : readAttributes path s = (Except.ok attributes, s) := by
    rw [readOnly_run_eq (readAttributes_readOnly path) s, hattr]
  have hloop := chmodLoop_all mode false attributes
  unfold chmod
  rw [bind_run, hrun]
  simp only
  by_cases hhead : mode.headD (Char.ofNat 0) ≠ '+' ∧ mode.headD (Char.ofNat 0) ≠ '-'
  · rw [if_pos hhead]
    refine ⟨fun _ => rfl, fun h => ?_⟩
    simp only [modeAccepted, Bool.and_eq_true, Bool.or_eq_true, decide_eq_true_eq] at h
    rcases h.1 with h1 | h1
    · exact absurd h1 hhead.1
    · exact absurd h1 hhead.2
  · rw [if_neg hhead]
    have hsign : (mode.headD (Char.ofNat 0) = '+' || mode.headD (Char.ofNat 0) = '-') = true := by
      simp only [Bool.or_eq_true, decide_eq_true_eq]
      by_contra hcon
      exact hhead ⟨fun h => hcon (Or.inl h), fun h => hcon (Or.inr h)⟩
    constructor
    · intro h
      have hall : mode.all modeChar = false := by
        unfold modeAccepted at h
        rw [hsign, Bool.true_and] at h
        exact h
      rw [bind_run, hloop.2 hall]
      rfl
    · intro h
      have hall : mode.all modeChar = true := by
        unfold modeAccepted at h
        rw [hsign, Bool.true_and] at h
        exact h
      obtain ⟨a, ha⟩ := hloop.1 hall
      refine ⟨a, ha, ?_⟩
      rw [bind_run, ha]
      rfl

/-- Claim C16, amended. For an existing path, `chmod` rejects a mode string with
`InvalidMode` exactly when its first character is not a sign or some character is
outside `+`, `-`, `r`, `w`; a rejected string leaves the state unchanged; every
concatenation of the tokens `+r`, `-r`, `+w`, `-w` is accepted. -/
theorem chmod_mode_validation (path : Path) (mode : List Char) (attributes : FileAttributes)
    (s : FS) (hattr : (readAttributes path s).1 = Except.ok attributes) :
    ((chmod path mode s).1 = Except.error Error.invalidMode ↔ modeAccepted mode = false) ∧
    (modeAccepted mode = false → (chmod path mode s).2 = s) ∧
    (isTokenString mode = true → modeAccepted mode = true) := by
  have hrun := chmod_run path mode attributes s hattr
  refine ⟨⟨fun h => ?_, fun h => by rw [hrun.1 h]⟩, fun h => by rw [hrun.1 h],
    isTokenString_accepted mode⟩
  by_contra hacc
  have hacc2 : modeAccepted mode = true := by simpa using hacc
  obtain ⟨a, -, hw⟩ := hrun.2 hacc2
  rw [hw] at h
  exact writeAttributes_noCheckError path a s _ h (Or.inr (Or.inr (Or.inr rfl)))

theorem chmod_mode_validation_witness :
    (readAttributes pathX oneFileImage).1 = Except.ok fileXEntry.attributes ∧
    (((chmod pathX ['+', 'r', 'x'] oneFileImage).1 = Except.error Error.invalidMode ↔
        modeAccepted ['+', 'r', 'x'] = false) ∧
      (modeAccepted ['+', 'r', 'x'] = false →
        (chmod pathX ['+', 'r', 'x'] oneFileImage).2 = oneFileImage) ∧
      (isTokenString ['+', 'r', 'x'] = true → modeAccepted ['+', 'r', 'x'] = true)) :=
  have h : (readAttributes pathX oneFileImage).1 = Except.ok fileXEntry.attributes := by decide!
  ⟨h, chmod_mode_validation pathX ['+', 'r', 'x'] fileXEntry.attributes oneFileImage h⟩

theorem resolveLoop_cons_irrel (name : Name) (rest : List Name) (directory : List DirectoryEntry)
    (b : Bool) (a1 z1 a2 z2 : Int) :
    resolveLoop (name :: rest) directory b a1 z1 = resolveLoop (name :: rest) directory b a2 z2 := by
  rw [resolveLoop, resolveLoop]

theorem resolveLoop_walk (s : FS) (c : Name) (rest : List Name) :
    ∀ (ds : List Name) (directory reached : List DirectoryEntry) (a z : Int),
      walkDirs s ds directory = some reached →
      resolveLoop (ds ++ c :: rest) directory false a z s
        = resolveLoop (c :: rest) reached false a z s := by
  intro ds
  induction ds with
  | nil =>
    intro directory reached a z h
    simp only [walkDirs, Option.some.injEq] at h
    subst h
    rfl
  | cons d ds ih =>
    intro directory reached a z h
    rw [walkDirs] at h
    rw [List.cons_append, resolveLoop]
    simp only [Bool.false_eq_true, if_false]
    cases hf : findEntry directory d with
    | none => rw [hf] at h; cases h
    | some entry =>
      rw [hf] at h
      simp only at h ⊢
      by_cases hd : entry.attributes.isDirectory = true
      · rw [if_pos hd] at h ⊢
        have hro := readOnly_run_eq
          (readDirectoryAt_readOnly entry.firstBlockAddress entry.attributes.size) s
        cases hr : (readDirectoryAt entry.firstBlockAddress entry.attributes.size s).1 with
        | error e => rw [hr] at h; cases h
        | ok sub =>
          rw [hr] at h hro
          simp only at h
          rw [bind_run, hro]
          simp only
          rw [ih sub reached _ _ h]
          exact congrFun (resolveLoop_cons_irrel c rest reached false _ _ a z) s
      · rw [if_neg hd] at h
        cases h

theorem resolveLoop_last (s : FS) (c : Name) (rest : List Name) (reached : List DirectoryEntry)
    (a z : Int) :
    (findEntry reached c = none →
      resolveLoop (c :: rest) reached false a z s = (Except.error Error.noSuchFileOrDirectory, s)) ∧
    (∀ entry, findEntry reached c = some entry → entry.attributes.isDirectory = false →
      rest ≠ [] →
      resolveLoop (c :: rest) reached false a z s = (Except.error Error.notADirectory, s)) ∧
    (∀ entry, findEntry reached c = some entry → rest = [] →
      (entry.attributes.isDirectory = true →
        ∃ sub, (readDirectoryAt entry.firstBlockAddress entry.attributes.size s).1
          = Except.ok sub) →
      resolveLoop (c :: rest) reached false a z s
        = (Except.ok (entry.firstBlockAddress, entry.attributes.size), s)) := by
  refine ⟨fun h => ?_, fun entry h hfile hrest => ?_, fun entry h hrest hread => ?_⟩
  · rw [resolveLoop]
    simp only [Bool.false_eq_true, if_false]
    rw [h]
    rfl
  · rw [resolveLoop]
    simp only [Bool.false_eq_true, if_false]
    rw [h]
    simp only
    rw [if_neg (by simp [hfile])]
    cases rest with
    | nil => exact absurd rfl hrest
    | cons r rs =>
      rw [resolveLoop]
      simp only [if_true]
      rfl
  · subst hrest
    rw [resolveLoop]
    simp only [Bool.false_eq_true, if_false]
    rw [h]
    simp only
    by_cases hd : entry.attributes.isDirectory = true
    · rw [if_pos hd]
      obtain ⟨sub, hsub⟩ := hread hd
      have hro := readOnly_run_eq
        (readDirectoryAt_readOnly entry.firstBlockAddress entry.attributes.size) s
      rw [hsub] at hro
      rw [bind_run, hro]
      simp only
      rw [resolveLoop]
      rfl
    · rw [if_neg hd, resolveLoop]
      rfl

/-- Claim C11. Resolution of a path. The empty path yields `(dataAddress,
rootDirectoryEntrySize)`. For a path `ds ++ c :: rest` whose components `ds` all name
readable directories, starting from the root container, and lead to the directory
`reached`: when `c` is absent from `reached` the result is `NoSuchFileOrDirectory`; when
`c` names a file and is not the last component the result is `NotADirectory`; when `c`
is the last component and names an entry (a file, or a directory that can be read) the
result is that entry's `(firstBlockAddress, size)`. In particular `"/"` yields the pair
stored in the entry of the root container. The state is never changed. -/
theorem pathToAddressAndSize_spec (s : FS) (ds : List Name) (c : Name) (rest : List Name)
    (container reached : List DirectoryEntry)
    (hroot : (readDirectoryAt (dataAddress s) s.sb.rootDirectoryEntrySize s).1
      = Except.ok container)
    (hwalk : walkDirs s ds container = some reached) :
    pathToAddressAndSize [] s = (Except.ok (dataAddress s, s.sb.rootDirectoryEntrySize), s) ∧
    (findEntry reached c = none →
      pathToAddressAndSize (ds ++ c :: rest) s
        = (Except.error Error.noSuchFileOrDirectory, s)) ∧
    (∀ entry, findEntry reached c = some entry → entry.attributes.isDirectory = false →
      rest ≠ [] →
      pathToAddressAndSize (ds ++ c :: rest) s = (Except.error Error.notADirectory, s)) ∧
    (∀ entry, findEntry reached c = some entry → rest = [] →
      (entry.attributes.isDirectory = true →
        ∃ sub, (readDirectoryAt entry.firstBlockAddress entry.attributes.size s).1
          = Except.ok sub) →
      pathToAddressAndSize (ds ++ c :: rest) s
        = (Except.ok (entry.firstBlockAddress, entry.attributes.size), s)) ∧
    (∀ entry, container = [entry] → entry.attributes.name = rootName →
      (entry.attributes.isDirectory = true →
        ∃ sub, (readDirectoryAt entry.firstBlockAddress entry.attributes.size s).1
          = Except.ok sub) →
      pathToAddressAndSize [rootName] s
        = (Except.ok (entry.firstBlockAddress, entry.attributes.size), s)) := by
  have hro := readOnly_run_eq
    (readDirectoryAt_readOnly (dataAddress s) s.sb.rootDirectoryEntrySize) s
  rw [hroot] at hro
  have hgen : ∀ p : Path, p ≠ [] → pathToAddressAndSize p s
      = resolveLoop p container false (dataAddress s) s.sb.rootDirectoryEntrySize s := by
    intro p hp
    rw [pathToAddressAndSize, bind_ok _ _ _ _ _ (get_run s)]
    rw [ite_run, if_neg hp, bind_ok _ _ _ _ _ hro]
  have hne : ds ++ c :: rest ≠ [] := by simp
  have hlast := resolveLoop_last s c rest reached (dataAddress s) s.sb.rootDirectoryEntrySize
  have hw := resolveLoop_walk s c rest ds container reached (dataAddress s)
    s.sb.rootDirectoryEntrySize hwalk
  refine ⟨rfl, fun h => ?_, fun entry h hf hr => ?_, fun entry h hr hread => ?_,
    fun entry hc hn hread => ?_⟩
  · rw [hgen _ hne, hw]; exact hlast.1 h
  · rw [hgen _ hne, hw]; exact hlast.2.1 entry h hf hr
  · rw [hgen _ hne, hw]; exact hlast.2.2 entry h hr hread
  · rw [hgen [rootName] (by simp)]
    refine (resolveLoop_last s rootName [] container _ _).2.2 entry ?_ rfl hread
    subst hc
    simp [findEntry, hn]

theorem pathToAddressAndSize_spec_witness :
    ((readDirectoryAt (dataAddress oneFileImage) oneFileImage.sb.rootDirectoryEntrySize
        oneFileImage).1 = Except.ok [rootEntryOneFile] ∧
      walkDirs oneFileImage [rootName] [rootEntryOneFile] = some [fileXEntry]) ∧
    pathToAddressAndSize ([rootName] ++ nameX :: []) oneFileImage
      = (Except.ok (17, 1), oneFileImage) ∧
    pathToAddressAndSize ([rootName] ++ nameY :: []) oneFileImage
      = (Except.error Error.noSuchFileOrDirectory, oneFileImage) ∧
    pathToAddressAndSize ([rootName] ++ nameX :: [nameY]) oneFileImage
      = (Except.error Error.notADirectory, oneFileImage) :=
  have h : (readDirectoryAt (dataAddress oneFileImage) oneFileImage.sb.rootDirectoryEntrySize
        oneFileImage).1 = Except.ok [rootEntryOneFile] ∧
      walkDirs oneFileImage [rootName] [rootEntryOneFile] = some [fileXEntry] := by decide!
  ⟨h,
    (pathToAddressAndSize_spec oneFileImage [rootName] nameX [] [rootEntryOneFile] [fileXEntry]
      h.1 h.2).2.2.2.1 fileXEntry (by decide) rfl (fun hd => absurd hd (by decide)),
    (pathToAddressAndSize_spec oneFileImage [rootName] nameY [] [rootEntryOneFile] [fileXEntry]
      h.1 h.2).2.1 (by decide),
    (pathToAddressAndSize_spec oneFileImage [rootName] nameX [nameY] [rootEntryOneFile]
      [fileXEntry] h.1 h.2).2.2.1 fileXEntry (by decide) (by decide) (by simp)⟩

/-- Claim C24. For a valid block size, a block address `b` in `[0, 4095]` and a block of
`blockSize` bytes, `writeBlock(b, bytes)` succeeds and changes the device exactly on the
`blockSize / 512` sectors from sector `1 + b * (blockSize / 512)` on, which receive the
consecutive 512-byte pieces of `bytes`; a following `readBlock(b)` returns `bytes`;
sector 0 and the contents of every other block are unchanged, and so are the superblock
and the table in memory. -/
theorem writeBlock_framing (s : FS) (b : Int) {n : Nat} (block : Block n)
    (hbs : validBlockSize s.sb.blockSize) (hn : n = s.sb.blockSize)
    (h0 : 0 ≤ b) (h1 : b ≤ 4095) :
    ∃ t : FS, writeBlock b block s = (Except.ok (), t) ∧ t.sb = s.sb ∧ t.fat = s.fat ∧
      (∀ a, t.disk a =
        if 1 + b.toNat * (s.sb.blockSize / 512) ≤ a
            ∧ a < 1 + b.toNat * (s.sb.blockSize / 512) + s.sb.blockSize / 512 then
          (block.bytes.drop ((a - (1 + b.toNat * (s.sb.blockSize / 512))) * 512)).take 512
        else s.disk a) ∧
      readBlock b t = (Except.ok block.bytes, t) ∧
      t.disk 0 = s.disk 0 ∧
      ∀ c : Int, 0 ≤ c → c ≤ 4095 → c ≠ b →
        readBlock c t = (Except.ok (blockOf s c.toNat), t) ∧
        readBlock c s = (Except.ok (blockOf s c.toNat), s) := by
  have hv := dataAddressOf_valid hbs
  refine ⟨_, writeBlock_run b block s h0 h1 hn, rfl, rfl, ?_, ?_, ?_, ?_⟩
  · intro a
    simp only
    rw [writeSectors_apply]
    rfl
  · rw [readBlock_run b _ h0 h1]
    have := blockOf_writeSectors_same s b.toNat block.bytes hv.2.2.2.2.1
      (by rw [block.size_eq, hn])
    rw [this]
  · simp only
    rw [writeSectors_apply, if_neg]
    omega
  · intro c hc0 hc1 hne
    refine ⟨?_, readBlock_run c s hc0 hc1⟩
    rw [readBlock_run c _ hc0 hc1]
    have hne2 : c.toNat ≠ b.toNat := by omega
    rw [blockOf_writeSectors_other s b.toNat c.toNat block.bytes hne2]

theorem writeBlock_framing_witness :
    (validBlockSize sampleFS.sb.blockSize ∧ 512 = sampleFS.sb.blockSize
      ∧ (0 : Int) ≤ 20 ∧ (20 : Int) ≤ 4095) ∧
    ∃ t : FS, writeBlock 20 (Block.slice [1, 2, 3] 0 512) sampleFS = (Except.ok (), t) ∧
      t.sb = sampleFS.sb ∧ t.fat = sampleFS.fat ∧
      (∀ a, t.disk a =
        if 1 + (20 : Int).toNat * (sampleFS.sb.blockSize / 512) ≤ a
            ∧ a < 1 + (20 : Int).toNat * (sampleFS.sb.blockSize / 512)
                + sampleFS.sb.blockSize / 512 then
          ((Block.slice [1, 2, 3] 0 512).bytes.drop
            ((a - (1 + (20 : Int).toNat * (sampleFS.sb.blockSize / 512))) * 512)).take 512
        else sampleFS.disk a) ∧
      readBlock 20 t = (Except.ok (Block.slice [1, 2, 3] 0 512).bytes, t) ∧
      t.disk 0 = sampleFS.disk 0 ∧
      ∀ c : Int, 0 ≤ c → c ≤ 4095 → c ≠ 20 →
        readBlock c t = (Except.ok (blockOf sampleFS c.toNat), t) ∧
        readBlock c sampleFS = (Except.ok (blockOf sampleFS c.toNat), sampleFS) :=
  ⟨⟨by decide, rfl, by decide, by decide⟩,
    writeBlock_framing sampleFS 20 (Block.slice [1, 2, 3] 0 512) (by decide) rfl
      (by decide) (by decide)⟩

theorem chainOf_last (fat : Fat) (fuel : Nat) : chainOf fat (fuel + 1) (-1) = some [] := by
  rw [chainOf]; simp [lastBlockMarker]

theorem chainOf_step (fat : Fat) (fuel : Nat) (a : Int) (cs : List Nat)
    (h : chainOf fat (fuel + 1) a = some cs) (ha : a ≠ -1) :
    0 ≤ a ∧ a < 4096 ∧ ∃ r, cs = a.toNat :: r ∧ chainOf fat fuel (fat a.toNat) = some r := by
  rw [chainOf] at h
  rw [if_neg (by simpa [lastBlockMarker] using ha)] at h
  by_cases hr : 0 ≤ a ∧ a < fatSize
  · rw [if_pos hr] at h
    cases hc : chainOf fat fuel (fat a.toNat) with
    | none => rw [hc] at h; cases h
    | some r =>
      rw [hc] at h
      simp only [Option.map_some', Option.some.injEq] at h
      exact ⟨hr.1, by simpa [fatSize] using hr.2, r, h.symm, rfl⟩
  · rw [if_neg hr] at h; cases h

theorem chainOf_cons (fat : Fat) (fuel : Nat) (a : Nat) (r : List Nat) (ha : a < 4096)
    (h : chainOf fat fuel (fat a) = some r) :
    chainOf fat (fuel + 1) (a : Int) = some (a :: r) := by
  rw [chainOf]
  rw [if_neg (by unfold lastBlockMarker; omega), if_pos ⟨by omega, by unfold fatSize; omega⟩]
  simp [h]

theorem chainOf_mono (fat : Fat) (fuel : Nat) :
    ∀ (a : Int) (cs : List Nat), chainOf fat fuel a = some cs →
      chainOf fat (fuel + 1) a = some cs := by
  induction fuel with
  | zero => intro a cs h; rw [chainOf] at h; cases h
  | succ fuel ih =>
    intro a cs h
    by_cases ha : a = -1
    · subst ha
      rw [chainOf_last] at h ⊢
      exact h
    · obtain ⟨h0, h1, r, hcs, hr⟩ := chainOf_step fat fuel a cs h ha
      subst hcs
      have := chainOf_cons fat (fuel + 1) a.toNat r (by omega) (ih _ _ hr)
      rwa [Int.toNat_of_nonneg h0] at this

theorem chainOf_mono_le (fat : Fat) (a : Int) (cs : List Nat) (f f2 : Nat) (hle : f ≤ f2)
    (h : chainOf fat f a = some cs) : chainOf fat f2 a = some cs := by
  induction hle with
  | refl => exact h
  | step _ ih => exact chainOf_mono fat _ a cs ih

theorem chainOf_tight (fat : Fat) (fuel : Nat) :
    ∀ (a : Int) (cs : List Nat), chainOf fat fuel a = some cs →
      chainOf fat (cs.length + 1) a = some cs := by
  induction fuel with
  | zero => intro a cs h; rw [chainOf] at h; cases h
  | succ fuel ih =>
    intro a cs h
    by_cases ha : a = -1
    · subst ha
      rw [chainOf_last] at h
      cases h
      exact chainOf_last fat 0
    · obtain ⟨h0, h1, r, hcs, hr⟩ := chainOf_step fat fuel a cs h ha
      subst hcs
      have := chainOf_cons fat (r.length + 1) a.toNat r (by omega) (ih _ _ hr)
      rwa [Int.toNat_of_nonneg h0] at this

theorem chainOf_mem_lt (fat : Fat) (fuel : Nat) :
    ∀ (a : Int) (cs : List Nat), chainOf fat fuel a = some cs → ∀ c ∈ cs, c < 4096 := by
  induction fuel with
  | zero => intro a cs h; rw [chainOf] at h; cases h
  | succ fuel ih =>
    intro a cs h
    by_cases ha : a = -1
    · subst ha
      rw [chainOf_last] at h
      cases h
      simp
    · obtain ⟨h0, h1, r, hcs, hr⟩ := chainOf_step fat fuel a cs h ha
      subst hcs
      intro c hc
      rcases List.mem_cons.mp hc with hc | hc
      · omega
      · exact ih _ _ hr c hc

theorem chainOf_congr (fat fat2 : Fat) (fuel : Nat) :
    ∀ (a : Int) (cs : List Nat), chainOf fat fuel a = some cs →
      (∀ c ∈ cs, fat2 c = fat c) → chainOf fat2 fuel a = some cs := by
  induction fuel with
  | zero => intro a cs h; rw [chainOf] at h; cases h
  | succ fuel ih =>
    intro a cs h hag
    by_cases ha : a = -1
    · subst ha
      rw [chainOf_last] at h ⊢
      exact h
    · obtain ⟨h0, h1, r, hcs, hr⟩ := chainOf_step fat fuel a cs h ha
      subst hcs
      have e : fat2 a.toNat = fat a.toNat := hag _ (List.mem_cons_self _ _)
      have := chainOf_cons fat2 fuel a.toNat r (by omega)
        (by rw [e]; exact ih _ _ hr fun c hc => hag c (List.mem_cons_of_mem _ hc))
      rwa [Int.toNat_of_nonneg h0] at this

theorem chainOf_suffix (fat : Fat) (fuel : Nat) :
    ∀ (a : Int) (pre : List Nat) (x : Nat) (post : List Nat),
      chainOf fat fuel a = some (pre ++ x :: post) →
      chainOf fat fuel (x : Int) = some (x :: post) := by
  induction fuel with
  | zero => intro a pre x post h; rw [chainOf] at h; cases h
  | succ fuel ih =>
    intro a pre x post h
    by_cases ha : a = -1
    · subst ha
      rw [chainOf_last] at h
      cases pre <;> cases h
    · obtain ⟨h0, h1, r, hcs, hr⟩ := chainOf_step fat fuel a _ h ha
      cases pre with
      | nil =>
        simp only [List.nil_append, List.cons.injEq] at hcs
        obtain ⟨hx, hpost⟩ := hcs
        subst hpost
        have e : (x : Int) = a := by omega
        rw [e]
        exact h
      | cons p pre =>
        simp only [List.cons_append, List.cons.injEq] at hcs
        obtain ⟨-, hr2⟩ := hcs
        subst hr2
        exact chainOf_mono fat fuel _ _ (ih _ pre x post hr)

theorem chainOf_nodup (fat : Fat) (fuel : Nat) :
    ∀ (a : Int) (cs : List Nat), chainOf fat fuel a = some cs → cs.Nodup := by
  induction fuel with
  | zero => intro a cs h; rw [chainOf] at h; cases h
  | succ fuel ih =>
    intro a cs h
    by_cases ha : a = -1
    · subst ha
      rw [chainOf_last] at h
      cases h
      exact List.nodup_nil
    · obtain ⟨h0, h1, r, hcs, hr⟩ := chainOf_step fat fuel a cs h ha
      subst hcs
      refine List.nodup_cons.mpr ⟨fun hmem => ?_, ih _ _ hr⟩
      obtain ⟨pre, post, hsplit⟩ := List.append_of_mem hmem
      rw [hsplit] at hr
      have h2 := chainOf_mono fat fuel _ _ (chainOf_suffix fat fuel _ pre a.toNat post hr)
      rw [Int.toNat_of_nonneg h0, h, hsplit] at h2
      have := congrArg (fun o => (o.map List.length)) h2
      simp at this
      omega

theorem clearChain_nil (fat : Fat) : clearChain fat [] = fat := by
  funext i; simp [clearChain]

theorem clearChain_cons (fat : Fat) (c : Nat) (r : List Nat) :
    clearChain fat (c :: r) = clearChain (fatSet fat c freeBlockMarker) r := by
  funext i
  simp only [clearChain, fatSet, List.mem_cons]
  by_cases h1 : i = c
  · simp [h1]
  · by_cases h2 : i ∈ r
    · simp [h2]
    · simp [h1, h2]

theorem freeBlocksLoop_chain (fuel : Nat) :
    ∀ (a : Int) (s : FS) (cs : List Nat), chainOf s.fat fuel a = some cs →
      freeBlocksLoop fuel a s = (Except.ok (), { s with fat := clearChain s.fat cs }) := by
  induction fuel with
  | zero => intro a s cs h; rw [chainOf] at h; cases h
  | succ fuel ih =>
    intro a s cs h
    by_cases ha : a = -1
    · subst ha
      rw [chainOf_last] at h
      cases h
      rw [freeBlocksLoop_end, clearChain_nil]
    · have hnd := chainOf_nodup _ _ _ _ h
      obtain ⟨h0, h1, r, hcs, hr⟩ := chainOf_step s.fat fuel a cs h ha
      subst hcs
      have hnotin : a.toNat ∉ r := (List.nodup_cons.mp hnd).1
      have hstep := freeBlocksLoop_step fuel a.toNat s (by omega)
      rw [Int.toNat_of_nonneg h0] at hstep
      rw [hstep]
      have hr2 : chainOf (setFat s a.toNat freeBlockMarker).fat fuel (s.fat a.toNat) = some r := by
        refine chainOf_congr s.fat _ fuel _ r hr fun c hc => ?_
        simp only [setFat, fatSet]
        rw [if_neg]
        intro hca
        exact hnotin (hca ▸ hc)
      rw [ih _ _ r hr2, clearChain_cons]
      rfl

theorem freeBlockCount_clearChain (cs : List Nat) :
    ∀ fat : Fat, cs.Nodup → (∀ c ∈ cs, c < 4096 ∧ fat c ≠ freeBlockMarker) →
      freeBlockCount (clearChain fat cs) = freeBlockCount fat + cs.length := by
  induction cs with
  | nil => intro fat _ _; rw [clearChain_nil, List.length_nil, Nat.add_zero]
  | cons c r ih =>
    intro fat hnd hc
    have hnotin : c ∉ r := (List.nodup_cons.mp hnd).1
    rw [clearChain_cons, ih _ (List.nodup_cons.mp hnd).2]
    · have hone : freeBlockCount fat + 1 = freeBlockCount (fatSet fat c freeBlockMarker) := by
        have hlt : c < fatSize := by unfold fatSize; exact (hc c (List.mem_cons_self _ _)).1
        unfold freeBlockCount
        refine countP_range_update _ _ fatSize c hlt ?_ ?_ ?_
        · simp [fatSet]
        · simpa using (hc c (List.mem_cons_self _ _)).2
        · intro i hi
          simp [fatSet, hi]
      rw [← hone, List.length_cons]
      omega
    · intro x hx
      refine ⟨(hc x (List.mem_cons_of_mem _ hx)).1, ?_⟩
      simp only [fatSet]
      rw [if_neg (fun (h : x = c) => hnotin (h ▸ hx))]
      exact (hc x (List.mem_cons_of_mem _ hx)).2

theorem freeBlocks_chain (s : FS) (start : Int) (cs : List Nat)
    (hbs : validBlockSize s.sb.blockSize)
    (hstart : dataAddress s ≤ start ∧ start ≤ 4095 ∨ start = -1)
    (hchain : chainOf s.fat chainFuel start = some cs) :
    freeBlocks start s = (Except.ok (), persist { s with fat := clearChain s.fat cs }) := by
  have hassert : decide (start ≥ dataAddress s ∧ start ≤ maxAddress ∨ start = lastBlockMarker)
      = true := by
    rw [maxAddress_eq]; exact decide_eq_true hstart
  unfold freeBlocks
  simp only [bind_run, get_run, hassert, assert_true_run, freeBlocksLoop_chain _ _ _ _ hchain]
  exact writeFat_persist _ hbs

/-- Claim C26. When `start` is END-OF-CHAIN or a data-block address and roots a chain
`cs` that ends in END-OF-CHAIN, `freeBlocks(start)` returns, its loop needs exactly
`cs.length` iterations, the entries of `cs` and no others become FREE (nothing changes
for `start = -1`), and the table is persisted. On every table with entries in
`[-1, 4095]` and `FAT[0] = -1` the call returns for every admissible `start`, also when
the walk runs into a FREE entry. -/
theorem freeBlocks_frees_exactly_chain (s : FS) (start : Int) (cs : List Nat)
    (hbs : validBlockSize s.sb.blockSize)
    (hstart : dataAddress s ≤ start ∧ start ≤ 4095 ∨ start = -1)
    (hchain : chainOf s.fat chainFuel start = some cs) :
    freeBlocks start s = (Except.ok (), persist { s with fat := clearChain s.fat cs }) ∧
    freeBlocksLoop (cs.length + 1) start s
      = (Except.ok (), { s with fat := clearChain s.fat cs }) ∧
    (∀ i, i ∈ cs → (freeBlocks start s).2.fat i = freeBlockMarker) ∧
    (∀ i, i ∉ cs → (freeBlocks start s).2.fat i = s.fat i) ∧
    (start = -1 → (freeBlocks start s).2.fat = s.fat) ∧
    (fatInRange s.fat → s.fat 0 = -1 →
      ∀ a : Int, dataAddress s ≤ a ∧ a ≤ 4095 ∨ a = -1 →
        ∃ t, freeBlocks a s = (Except.ok (), t)) := by
  have hrun := freeBlocks_chain s start cs hbs hstart hchain
  have hfat : (freeBlocks start s).2.fat = clearChain s.fat cs := by
    rw [hrun]
    exact persist_fat { s with fat := clearChain s.fat cs } hbs
  refine ⟨hrun, freeBlocksLoop_chain _ _ _ _ (chainOf_tight _ _ _ _ hchain), ?_, ?_, ?_, ?_⟩
  · intro i hi
    rw [hfat]
    simp [clearChain, hi]
  · intro i hi
    rw [hfat]
    simp [clearChain, hi]
  · intro h1
    subst h1
    have e : chainFuel = 4097 + 1 := by decide
    rw [e, chainOf_last] at hchain
    cases hchain
    rw [hfat, clearChain_nil]
  · intro hr h0 a ha
    obtain ⟨fat, hf, -⟩ := freeBlocks_run s a hbs hr h0 ha
    exact ⟨_, hf⟩

theorem freeBlocks_frees_exactly_chain_witness :
    (validBlockSize sampleFS.sb.blockSize ∧
      (dataAddress sampleFS ≤ 16 ∧ (16 : Int) ≤ 4095 ∨ (16 : Int) = -1) ∧
      chainOf sampleFS.fat chainFuel 16 = some [16]) ∧
    (freeBlocks 16 sampleFS).2.fat 16 = freeBlockMarker ∧
    (freeBlocks 16 sampleFS).2.fat 15 = sampleFS.fat 15 :=
  have h1 : validBlockSize sampleFS.sb.blockSize := by decide
  have h2 : dataAddress sampleFS ≤ 16 ∧ (16 : Int) ≤ 4095 ∨ (16 : Int) = -1 := by decide
  have h3 : chainOf sampleFS.fat chainFuel 16 = some [16] := by decide
  ⟨⟨h1, h2, h3⟩,
    (freeBlocks_frees_exactly_chain sampleFS 16 [16] h1 h2 h3).2.2.1 16 (by simp),
    (freeBlocks_frees_exactly_chain sampleFS 16 [16] h1 h2 h3).2.2.2.1 15 (by simp)⟩

/-- The step of `deleteFile` and `deleteDirectory` that frees the
chain of `path`, `freeBlocks(path)`: when `path` resolves to the first block of a chain
`cs` whose entries are not FREE, the number of FREE entries grows by exactly
`cs.length`, the entries outside `cs` are unchanged, and the table is persisted. -/
theorem freeBlocksPath_reclaims_chain (path : Path) (s : FS) (address size : Int)
    (cs : List Nat) (hbs : validBlockSize s.sb.blockSize)
    (hresolve : (pathToAddressAndSize path s).1 = Except.ok (address, size))
    (hstart : dataAddress s ≤ address ∧ address ≤ 4095 ∨ address = -1)
    (hchain : chainOf s.fat chainFuel address = some cs)
    (hbusy : ∀ c ∈ cs, s.fat c ≠ freeBlockMarker) :
    freeBlocksPath path s = (Except.ok (), persist { s with fat := clearChain s.fat cs }) ∧
    freeBlockCount (freeBlocksPath path s).2.fat = freeBlockCount s.fat + cs.length ∧
    (∀ i, i ∉ cs → (freeBlocksPath path s).2.fat i = s.fat i) := by
  have hres : pathToAddressAndSize path s = (Except.ok (address, size), s) := by
    rw [readOnly_run_eq (pathToAddressAndSize_readOnly path) s, hresolve]
  have hrun : freeBlocksPath path s
      = (Except.ok (), persist { s with fat := clearChain s.fat cs }) := by
    unfold freeBlocksPath
    rw [bind_run, hres]
    exact freeBlocks_chain s address cs hbs hstart hchain
  have hfat : (freeBlocksPath path s).2.fat = clearChain s.fat cs := by
    rw [hrun]
    exact persist_fat { s with fat := clearChain s.fat cs } hbs
  refine ⟨hrun, ?_, ?_⟩
  · rw [hfat]
    exact freeBlockCount_clearChain cs s.fat (chainOf_nodup _ _ _ _ hchain)
      fun c hc => ⟨chainOf_mem_lt _ _ _ _ hchain c hc, hbusy c hc⟩
  · intro i hi
    rw [hfat]
    simp [clearChain, hi]

theorem writeBlocks_success (s : FS) (h : Int) (buffer : List Byte)
    (hbs : validBlockSize s.sb.blockSize) (hwf : wellFormedFat s.sb.blockSize s.fat)
    (hh : h = -1 ∨ (dataAddress s ≤ h ∧ h ≤ 4095)) (hne : buffer ≠ [])
    (hspace : blocksNeeded buffer.length s.sb.blockSize ≤ freeBlockCount (freedFat s h)) :
    ∃ (a : Int) (u : FS), writeBlocks h buffer s = (Except.ok a, u) := by
  have hda := (dataAddressOf_valid hbs).1
  have h0 : s.fat 0 = -1 := by
    apply hwf.2 0
    rw [hda]
    have := (dataAddressOf_valid hbs).2.2.1
    omega
  obtain ⟨start, t, hstart, hsb, hfat, hst, _, _, hloop⟩ :=
    writeBlocks_scan s h buffer hne hbs hwf.1 h0 hh
  obtain ⟨-, hok⟩ := scan_from_start buffer start hstart t (hsb ▸ hbs) hne
  rw [hsb, hfat] at hok
  exact ⟨_, _, by rw [hloop, hok hspace]⟩

theorem writeBlocks_ok_fat (s : FS) (h : Int) (buffer : List Byte) (a : Int) (u : FS)
    (hbs : validBlockSize s.sb.blockSize) (hwf : wellFormedFat s.sb.blockSize s.fat)
    (hh : h = -1 ∨ (dataAddress s ≤ h ∧ h ≤ 4095)) (hne : buffer ≠ [])
    (hrun : writeBlocks h buffer s = (Except.ok a, u)) :
    ∃ (c : Nat) (r : List Nat),
      (freeIn (freedFat s h) (scanFrom (scanStart s h) 0)).take
        (blocksNeeded buffer.length s.sb.blockSize) = c :: r ∧
      (c :: r).length = blocksNeeded buffer.length s.sb.blockSize ∧
      scanStart s h < 4096 ∧ a = (c : Int) ∧ u.sb = s.sb ∧
      u.fat = fatSet (linkFat (freedFat s h) (c : Int) r)
        ((c :: r).getLast (List.cons_ne_nil c r)) lastBlockMarker ∧
      blocksNeeded buffer.length s.sb.blockSize ≤ freeBlockCount (freedFat s h) := by
  obtain ⟨t, c, r, hsb, hfat, hcs, hlen, hstart, ha, hu⟩ :=
    writeBlocks_ok_state s h buffer a u hbs hwf hh hne hrun
  have hbsA : validBlockSize (setFat (allocChain buffer t (-1) 0 (c :: r))
      ((c :: r).getLast (List.cons_ne_nil c r)) lastBlockMarker).sb.blockSize := by
    show validBlockSize (allocChain buffer t (-1) 0 (c :: r)).sb.blockSize
    rw [allocChain_sb, hsb]
    exact hbs
  have hufat : u.fat = fatSet (linkFat t.fat (c : Int) r)
      ((c :: r).getLast (List.cons_ne_nil c r)) lastBlockMarker := by
    rw [hu, persist_fat _ hbsA]
    show fatSet (allocChain buffer t (-1) 0 (c :: r)).fat _ _ = _
    rw [allocChain_fat]
    rfl
  have husb : u.sb = s.sb := by
    rw [hu, persist_sb _ hbsA]
    show (allocChain buffer t (-1) 0 (c :: r)).sb = _
    rw [allocChain_sb, hsb]
  refine ⟨c, r, hcs, hlen, hstart, ha, husb, by rw [hufat, hfat], ?_⟩
  have h1 := congrArg List.length hcs
  rw [List.length_take, freeIn_scan_length _ _ hstart] at h1
  rw [← hlen, ← h1]
  exact Nat.min_le_right _ _

theorem linkFat_values (cs : List Nat) :
    ∀ (fat : Fat) (p : Int) (i : Nat),
      linkFat fat p cs i = fat i ∨ ∃ x ∈ cs, linkFat fat p cs i = (x : Int) := by
  induction cs with
  | nil => intro fat p i; left; rfl
  | cons c r ih =>
    intro fat p i
    rw [linkFat]
    rcases ih (if p ≠ -1 then fatSet fat p.toNat c else fat) c i with h | ⟨x, hx, h⟩
    · rw [h]
      by_cases hp : p ≠ -1
      · rw [if_pos hp]
        simp only [fatSet]
        by_cases hi : i = p.toNat
        · rw [if_pos hi]
          exact Or.inr ⟨c, List.mem_cons_self _ _, rfl⟩
        · rw [if_neg hi]
          exact Or.inl rfl
      · rw [if_neg hp]
        exact Or.inl rfl
    · exact Or.inr ⟨x, List.mem_cons_of_mem _ hx, h⟩

theorem allocated_fat_frame (fat : Fat) (c : Nat) (r : List Nat) (i : Nat) (hi : i ∉ c :: r) :
    fatSet (linkFat fat (c : Int) r) ((c :: r).getLast (List.cons_ne_nil c r)) lastBlockMarker i
      = fat i := by
  simp only [fatSet]
  rw [if_neg (fun (h : i = (c :: r).getLast (List.cons_ne_nil c r)) =>
    hi (h ▸ List.getLast_mem _))]
  exact linkFat_other r fat c i (fun h => hi (h ▸ List.mem_cons_self _ _))
    (fun h => hi (List.mem_cons_of_mem _ h))

theorem allocated_fat_inRange (fat : Fat) (c : Nat) (r : List Nat) (hr : fatInRange fat)
    (hlt : ∀ x ∈ c :: r, x < 4096) :
    fatInRange (fatSet (linkFat fat (c : Int) r) ((c :: r).getLast (List.cons_ne_nil c r))
      lastBlockMarker) := by
  intro i hi
  simp only [fatSet]
  by_cases h : i = (c :: r).getLast (List.cons_ne_nil c r)
  · rw [if_pos h]
    simp [lastBlockMarker]
  · rw [if_neg h]
    rcases linkFat_values r fat c i with h2 | ⟨x, hx, h2⟩
    · rw [h2]; exact hr i hi
    · rw [h2]
      have := hlt x (List.mem_cons_of_mem _ hx)
      omega

theorem clearChain_inRange (fat : Fat) (cs : List Nat) (hr : fatInRange fat) :
    fatInRange (clearChain fat cs) := by
  intro i hi
  simp only [clearChain]
  by_cases h : i ∈ cs
  · rw [if_pos h]; simp [freeBlockMarker]
  · rw [if_neg h]; exact hr i hi

theorem freedFat_chain (s : FS) (h : Int) (cs : List Nat)
    (hbs : validBlockSize s.sb.blockSize) (hh : dataAddress s ≤ h ∧ h ≤ 4095)
    (hchain : chainOf s.fat chainFuel h = some cs) :
    freedFat s h = clearChain s.fat cs := by
  have hda := (dataAddressOf_valid hbs).1
  have hda2 := (dataAddressOf_valid hbs).2.2.1
  have hne : h ≠ lastBlockMarker := by
    unfold lastBlockMarker
    unfold dataAddress at hh
    omega
  unfold freedFat
  rw [if_neg hne, freeBlocks_chain s h cs hbs (Or.inl hh) hchain]
  exact persist_fat { s with fat := clearChain s.fat cs } hbs

theorem take_freeIn_head (fat : Fat) (start k : Nat) (c : Nat) (r : List Nat)
    (hstart : start < 4096) (hfree : fat start = 0)
    (hcs : (freeIn fat (scanFrom start 0)).take k = c :: r) : c = start := by
  rw [scanFrom_cons start 0 (by omega)] at hcs
  have hmod : (start + 0) % 4096 = start := by
    rw [Nat.add_zero]; exact Nat.mod_eq_of_lt hstart
  rw [hmod] at hcs
  unfold freeIn at hcs
  rw [List.filter_cons_of_pos (by simpa using hfree)] at hcs
  cases k with
  | zero => simp at hcs
  | succ k =>
    rw [List.take_succ_cons] at hcs
    simp only [List.cons.injEq] at hcs
    exact hcs.1.symm

/-- Claim C18. On a well-formed table, for a hint `h` in `[dataAddress, 4095]` that roots
a chain of data blocks and a non-empty buffer, a successful `writeBlocks(h, B)` returns
`h`; the same call repeated immediately afterwards succeeds, returns `h` again and
leaves a table equal to the one after the first call. -/
theorem writeBlocks_rewrite_in_place (s : FS) (h : Int) (buffer : List Byte) (a : Int)
    (u : FS) (cs : List Nat)
    (hbs : validBlockSize s.sb.blockSize) (hwf : wellFormedFat s.sb.blockSize s.fat)
    (hh : dataAddress s ≤ h ∧ h ≤ 4095)
    (hchain : chainOf s.fat chainFuel h = some cs)
    (hdata : ∀ c ∈ cs, dataAddress s ≤ (c : Int))
    (hne : buffer ≠ [])
    (hrun : writeBlocks h buffer s = (Except.ok a, u)) :
    a = h ∧ ∃ u2, writeBlocks h buffer u = (Except.ok h, u2) ∧ u2.fat = u.fat := by
  have hda := (dataAddressOf_valid hbs).1
  have hda2 := (dataAddressOf_valid hbs).2.2.1
  have hh0 : 0 ≤ h := by unfold dataAddress at hh; omega
  have hhne : h ≠ -1 := by omega
  have hF := freedFat_chain s h cs hbs hh hchain
  have hfuel : chainFuel = 4097 + 1 := by decide
  have hmem : h.toNat ∈ cs := by
    rw [hfuel] at hchain
    obtain ⟨_, _, r0, hr0, _⟩ := chainOf_step s.fat 4097 h cs hchain hhne
    rw [hr0]
    exact List.mem_cons_self _ _
  have hFh : freedFat s h h.toNat = 0 := by
    rw [hF]
    simp [clearChain, hmem, freeBlockMarker]
  have hFpin : fatPinned s.sb.blockSize (freedFat s h) := by
    intro i hi
    rw [hF]
    simp only [clearChain]
    rw [if_neg]
    · exact hwf.2 i hi
    · intro hic
      have := hdata i hic
      unfold dataAddress at this
      omega
  have hFrange : fatInRange (freedFat s h) := by
    rw [hF]; exact clearChain_inRange _ _ hwf.1
  obtain ⟨c, r, hcs, hlen, hstart, ha, husb, hufat, hspace⟩ :=
    writeBlocks_ok_fat s h buffer a u hbs hwf (Or.inr hh) hne hrun
  have hss : scanStart s h = h.toNat := by
    unfold scanStart
    rw [if_neg (by simpa [lastBlockMarker] using hhne)]
  have hssu : scanStart u h = h.toNat := by
    unfold scanStart
    rw [if_neg (by simpa [lastBlockMarker] using hhne)]
  rw [hss] at hcs hstart
  have hc : c = h.toNat := take_freeIn_head _ _ _ c r hstart hFh hcs
  have hah : a = h := by rw [ha, hc]; exact Int.toNat_of_nonneg hh0
  have hsub : (c :: r).Sublist (scanFrom h.toNat 0) := by
    rw [← hcs]
    exact (List.take_sublist _ _).trans (freeIn_sublist _ _)
  have hnd : (c :: r).Nodup := hsub.nodup (scanFrom_zero_nodup _ hstart)
  have hfreeAll : ∀ x ∈ c :: r, freedFat s h x = 0 := by
    intro x hx
    rw [← hcs] at hx
    exact (mem_freeIn (List.mem_of_mem_take hx)).2
  have hltAll : ∀ x ∈ c :: r, x < 4096 := by
    intro x hx
    obtain ⟨k, _, rfl⟩ := mem_scanFrom (hsub.subset hx)
    exact Nat.mod_lt _ (by decide)
  have hlen4096 : (c :: r).length ≤ 4096 := by
    have := hsub.length_le
    simpa [scanFrom, fatSize] using this
  have hbsu : validBlockSize u.sb.blockSize := by rw [husb]; exact hbs
  have hwfu : wellFormedFat u.sb.blockSize u.fat := by
    rw [husb, hufat]
    refine ⟨allocated_fat_inRange _ c r hFrange hltAll, ?_⟩
    intro i hi
    rw [allocated_fat_frame _ c r i]
    · exact hFpin i hi
    · intro hic
      have h1 := hFpin i hi
      rw [hfreeAll i hic] at h1
      simp [lastBlockMarker] at h1
  have hhu : dataAddress u ≤ h ∧ h ≤ 4095 := by
    unfold dataAddress at hh ⊢
    rw [husb]
    exact hh
  have hchainu : chainOf u.fat chainFuel h = some (c :: r) := by
    have hcc : (c : Int) = h := by rw [hc]; exact Int.toNat_of_nonneg hh0
    rw [← hcc, hufat]
    exact chainOf_link r (freedFat s h) c chainFuel hnd hltAll (by
      simp only [List.length_cons] at hlen4096
      simp only [chainFuel, fatSize]
      omega)
  have hFu : freedFat u h = freedFat s h := by
    rw [freedFat_chain u h (c :: r) hbsu hhu hchainu]
    funext i
    simp only [clearChain]
    by_cases hi : i ∈ c :: r
    · rw [if_pos hi, hfreeAll i hi]; rfl
    · rw [if_neg hi, hufat, allocated_fat_frame _ c r i hi]
  have hspaceu : blocksNeeded buffer.length u.sb.blockSize ≤ freeBlockCount (freedFat u h) := by
    rw [husb, hFu]; exact hspace
  obtain ⟨a2, u2, hrun2⟩ := writeBlocks_success u h buffer hbsu hwfu (Or.inr hhu) hne hspaceu
  obtain ⟨c2, r2, hcs2, -, -, ha2, -, hufat2, -⟩ :=
    writeBlocks_ok_fat u h buffer a2 u2 hbsu hwfu (Or.inr hhu) hne hrun2
  rw [hFu, hssu, husb, hcs] at hcs2
  simp only [List.cons.injEq] at hcs2
  obtain ⟨hc2, hr2⟩ := hcs2
  subst hc2
  subst hr2
  refine ⟨hah, u2, ?_, ?_⟩
  · rw [hrun2, ha2, ← ha, hah]
  · rw [hufat2, hFu, hufat]

theorem writeBlocks_rewrite_in_place_witness :
    (validBlockSize sampleFS.sb.blockSize ∧ wellFormedFat sampleFS.sb.blockSize sampleFS.fat ∧
      (dataAddress sampleFS ≤ 16 ∧ (16 : Int) ≤ 4095) ∧
      chainOf sampleFS.fat chainFuel 16 = some [16] ∧
      (∀ c ∈ ([16] : List Nat), dataAddress sampleFS ≤ (c : Int)) ∧
      ([1, 2, 3] : List Byte) ≠ [] ∧
      writeBlocks 16 [1, 2, 3] sampleFS
        = (Except.ok 16, (writeBlocks 16 [1, 2, 3] sampleFS).2)) ∧
    ((16 : Int) = 16 ∧ ∃ u2, writeBlocks 16 [1, 2, 3] (writeBlocks 16 [1, 2, 3] sampleFS).2
      = (Except.ok 16, u2) ∧ u2.fat = (writeBlocks 16 [1, 2, 3] sampleFS).2.fat) :=
  have h1 : validBlockSize sampleFS.sb.blockSize := by decide
  have h3 : dataAddress sampleFS ≤ 16 ∧ (16 : Int) ≤ 4095 := by decide
  have h4 : chainOf sampleFS.fat chainFuel 16 = some [16] := by decide
  have h5 : ∀ c ∈ ([16] : List Nat), dataAddress sampleFS ≤ (c : Int) := by decide
  have h6 : ([1, 2, 3] : List Byte) ≠ [] := by decide
  have h7 : (writeBlocks 16 [1, 2, 3] sampleFS).1 = Except.ok 16 := by decide!
  have h8 : writeBlocks 16 [1, 2, 3] sampleFS
      = (Except.ok 16, (writeBlocks 16 [1, 2, 3] sampleFS).2) := by
    rw [← h7]
  ⟨⟨h1, sampleFS_wellFormed, h3, h4, h5, h6, h8⟩,
    writeBlocks_rewrite_in_place sampleFS 16 [1, 2, 3] 16 _ [16] h1 sampleFS_wellFormed h3 h4
      h5 h6 h8⟩

/-- Claim C22, evaluated on the code. Overwriting the empty file `/x` with two bytes
succeeds and `writeBlocks` puts the data in a chain that starts at block 18, yet the
entry of `/x` still records `-1`; overwriting the one-block file `/x` with empty data
succeeds, frees block 17, and the entry still records 17. -/
theorem overwrite_keeps_stale_first_block :
    (pathToAddressAndSize pathX emptyFileImage).1 = Except.ok (-1, 0) ∧
    (writeBlocks (-1) [5, 6] emptyFileImage).1 = Except.ok 18 ∧
    (writeFile pathX [5, 6] emptyFileImage).1 = Except.ok () ∧
    (pathToAddressAndSize pathX rewrittenEmptyFileImage).1 = Except.ok (-1, 2) ∧
    (pathToAddressAndSize pathX oneFileImage).1 = Except.ok (17, 1) ∧
    (writeFile pathX [] oneFileImage).1 = Except.ok () ∧
    (pathToAddressAndSize pathX truncatedFileImage).1 = Except.ok (17, 0) ∧
    truncatedFileImage.fat 17 = freeBlockMarker := by
  decide!

/-- Claim C23, evaluated on the code. After `write /x {1}`, `write /x {}` and
`write /y {2}`, all successful on a fresh image, the file `/y` reads `{2}`; the successful `write /x {5}` that follows
changes what `/y` reads to `{5}`. -/
theorem writeFile_disturbs_other_file :
    (writeFile pathX [1] image512).1 = Except.ok () ∧
    (writeFile pathX [] oneFileImage).1 = Except.ok () ∧
    (writeFile pathY [2] truncatedFileImage).1 = Except.ok () ∧
    (readFile pathY sharedBlockImage).1 = Except.ok [2] ∧
    (writeFile pathX [5] sharedBlockImage).1 = Except.ok () ∧
    (readFile pathY overwrittenSharedImage).1 = Except.ok [5] := by
  decide!

theorem renderRuns_tailText (more : List (Nat × Nat)) :
    ∀ a e : Nat, renderRuns ((a, e) :: more) = toString a ++ tailText a e more := by
  induction more with
  | nil =>
    intro a e
    simp only [renderRuns, renderRun, tailText]
    by_cases h : a = e
    · rw [if_pos h, if_neg (by simpa using h.symm), String.append_empty]
    · rw [if_neg h, if_pos (fun h2 => h h2.symm), String.append_assoc]
  | cons r more ih =>
    intro a e
    obtain ⟨b2, e2⟩ := r
    rw [renderRuns, ih b2 e2]
    simp only [renderRun, tailText]
    by_cases h : a = e
    · rw [if_pos h, if_neg (by simpa using h.symm)]
      simp only [String.append_assoc, String.empty_append]
    · rw [if_neg h, if_pos (fun h2 => h h2.symm)]
      simp only [String.append_assoc]

theorem runsOf_cons (a : Nat) (rest : List Nat) :
    ∃ e more, runsOf (a :: rest) = (a, e) :: more := by
  rw [runsOf]
  cases runsOf rest with
  | nil => exact ⟨a, [], rfl⟩
  | cons r more =>
    obtain ⟨b, e⟩ := r
    simp only
    by_cases h : b = a + 1
    · rw [if_pos h]; exact ⟨e, more, rfl⟩
    · rw [if_neg h]; exact ⟨a, _, rfl⟩

theorem chainOf_nil (fat : Fat) (fuel : Nat) (a : Int) (h : chainOf fat fuel a = some []) :
    a = -1 ∧ ∃ f, fuel = f + 1 := by
  cases fuel with
  | zero => rw [chainOf] at h; cases h
  | succ f =>
    refine ⟨?_, f, rfl⟩
    by_contra ha
    obtain ⟨_, _, r, hr, _⟩ := chainOf_step fat f a [] h ha
    cases hr

theorem toString_natCast (n : Nat) : toString ((n : Nat) : Int) = toString n := rfl

theorem chainLabelLoop_chain (fat : Fat) (fuel : Nat) :
    ∀ (address : Int) (a : Nat) (rest : List Nat) (e : Nat) (more : List (Nat × Nat)) (b : Nat),
      chainOf fat fuel address = some (a :: rest) → runsOf (a :: rest) = (a, e) :: more →
      chainLabelLoop fat fuel address (b : Int) = Except.ok (tailText b e more) := by
  induction fuel with
  | zero => intro address a rest e more b h; rw [chainOf] at h; cases h
  | succ fuel ih =>
    intro address a rest e more b h hruns
    have hne : address ≠ -1 := by
      intro h1
      subst h1
      rw [chainOf_last] at h
      cases h
    obtain ⟨h0, h1, r, hr, hchain⟩ := chainOf_step fat fuel address _ h hne
    simp only [List.cons.injEq] at hr
    obtain ⟨ha, hrest⟩ := hr
    subst hrest
    have haddr : address = (a : Int) := by omega
    subst haddr
    rw [chainLabelLoop, if_pos (by unfold lastBlockMarker; exact hne)]
    have hget : fatGet fat (a : Int) = Except.ok (fat a) := fatGet_ok fat a (by omega)
    rw [hget]
    simp only [Int.toNat_ofNat] at hchain
    cases rest with
    | nil =>
      obtain ⟨hnext, f, hf⟩ := chainOf_nil fat fuel _ hchain
      subst hf
      simp only [runsOf, List.cons.injEq, Prod.mk.injEq, true_and] at hruns
      obtain ⟨he, hmore⟩ := hruns
      subst he
      subst hmore
      show (if fat a ≠ (a : Int) + 1 then _ else _) = _
      rw [if_pos (by omega)]
      show (if fat a ≠ lastBlockMarker then _ else _) = _
      rw [if_neg (by simp [lastBlockMarker, hnext]), hnext]
      simp only [chainLabelLoop, lastBlockMarker, ne_eq, not_true_eq_false, if_false]
      simp only [tailText]
      by_cases hab : a = b
      · subst hab
        simp
        rfl
      · have : (a : Int) ≠ (b : Int) := by omega
        simp [hab, this, toString_natCast]
        rfl
    | cons c rest2 =>
      have hnext1 : fat a ≠ -1 := by
        intro h2
        rw [h2] at hchain
        cases fuel with
        | zero => rw [chainOf] at hchain; cases hchain
        | succ f => rw [chainOf_last] at hchain; cases hchain
      have hstep : ∃ f, fuel = f + 1 := by
        cases fuel with
        | zero => rw [chainOf] at hchain; cases hchain
        | succ f => exact ⟨f, rfl⟩
      obtain ⟨f, hf⟩ := hstep
      have hchain2 := hchain
      rw [hf] at hchain2
      obtain ⟨hn0, hn1, r2, hr2, -⟩ := chainOf_step fat f _ _ hchain2 hnext1
      simp only [List.cons.injEq] at hr2
      have hc : fat a = (c : Int) := by omega
      obtain ⟨e2, more2, hruns2⟩ := runsOf_cons c rest2
      rw [runsOf, hruns2] at hruns
      simp only at hruns
      by_cases hcons : c = a + 1
      · rw [if_pos hcons] at hruns
        simp only [List.cons.injEq, Prod.mk.injEq, true_and] at hruns
        obtain ⟨he, hmore⟩ := hruns
        subst he
        subst hmore
        show (if fat a ≠ (a : Int) + 1 then _ else _) = _
        rw [if_neg (by rw [hc]; simp; omega)]
        exact ih _ c rest2 e2 more2 b hchain hruns2
      · rw [if_neg hcons] at hruns
        simp only [List.cons.injEq, Prod.mk.injEq, true_and] at hruns
        obtain ⟨he, hmore⟩ := hruns
        subst he
        subst hmore
        show (if fat a ≠ (a : Int) + 1 then _ else _) = _
        rw [if_pos (by rw [hc]; omega)]
        show (if fat a ≠ lastBlockMarker then _ else _) = _
        rw [if_pos (by simpa [lastBlockMarker] using hnext1)]
        have hrec := ih (fat a) c rest2 e2 more2 c hchain hruns2
        rw [← hc] at hrec
        rw [hrec]
        simp only [tailText, hc, toString_natCast]
        by_cases hab : a = b
        · subst hab
          simp
        · have : (a : Int) ≠ (b : Int) := by omega
          simp [hab, this]

theorem foldl_count (p : Nat → Prop) [DecidablePred p] (l : List Nat) :
    ∀ k : Nat, l.foldl (fun count i => if p i then count + 1 else count) k
      = k + l.countP fun i => decide (p i) := by
  induction l with
  | nil => intro k; simp
  | cons x l ih =>
    intro k
    rw [List.foldl_cons, ih, List.countP_cons]
    by_cases h : p x
    · simp [h]; omega
    · simp [h]

theorem dumpFreeBlockCount_eq (fat : Fat) : dumpFreeBlockCount fat = freeBlockCount fat := by
  unfold dumpFreeBlockCount freeBlockCount
  rw [foldl_count (fun i => fat i = freeBlockMarker)]
  omega

theorem chainLabel_chain (fat : Fat) (first : Int) (cs : List Nat)
    (hchain : chainOf fat chainFuel first = some cs) :
    chainLabel fat first = Except.ok (renderRuns (runsOf cs)) := by
  unfold chainLabel
  cases cs with
  | nil =>
    obtain ⟨h1, f, hf⟩ := chainOf_nil fat _ _ hchain
    subst h1
    rw [hf, chainLabelLoop]
    simp [lastBlockMarker, runsOf, renderRuns]
    rfl
  | cons a rest =>
    have hfuel : chainFuel = 4097 + 1 := by decide
    have hne : first ≠ -1 := by
      intro h1
      subst h1
      rw [hfuel, chainOf_last] at hchain
      cases hchain
    have hchain2 := hchain
    rw [hfuel] at hchain2
    obtain ⟨h0, h1, r, hr, -⟩ := chainOf_step fat 4097 first _ hchain2 hne
    simp only [List.cons.injEq] at hr
    have hfirst : first = (a : Int) := by omega
    obtain ⟨e, more, hruns⟩ := runsOf_cons a rest
    have hloop := chainLabelLoop_chain fat chainFuel first a rest e more a hchain hruns
    rw [← hfirst] at hloop
    rw [hloop, hruns, renderRuns_tailText, if_pos hne, hfirst]
    rfl

theorem mapResult_bind {α β γ : Type} (φ : β → γ) (m : M α) (f : α → M β) (g : α → M γ)
    (h : ∀ a, mapResult φ (f a) = g a) : mapResult φ (m >>= f) = m >>= g := by
  funext s
  unfold mapResult
  rw [bind_run, bind_run]
  cases hr : m s with
  | mk r t =>
    cases r with
    | ok a =>
      simp only
      have := congrFun (h a) t
      unfold mapResult at this
      exact this
    | error e => rfl

theorem mapResult_pure {α β : Type} (φ : α → β) (a : α) :
    mapResult φ (pure a : M α) = pure (φ a) := rfl

theorem mapResult_throw {α β : Type} (φ : α → β) (e : Error) :
    mapResult φ (throw e : M α) = throw e := rfl

theorem mapResult_ite {α β : Type} (φ : α → β) (c : Prop) [Decidable c] (m n : M α) :
    mapResult φ (if c then m else n) = if c then mapResult φ m else mapResult φ n := by
  split <;> rfl

theorem mapResult_bind2 {α α2 β γ : Type} (φ : β → γ) (ψ : α → α2) (m : M α) (m2 : M α2)
    (f : α → M β) (g : α2 → M γ) (hm : mapResult ψ m = m2)
    (h : ∀ a, mapResult φ (f a) = g (ψ a)) : mapResult φ (m >>= f) = m2 >>= g := by
  subst hm
  funext s
  unfold mapResult
  rw [bind_run, bind_run]
  cases hr : m s with
  | mk r t =>
    cases r with
    | ok a =>
      simp only
      have := congrFun (h a) t
      unfold mapResult at this
      exact this
    | error e => rfl

theorem writeDirectoryEntryCounting_erase
    (cb : Path → List DirectoryEntry → Bool → M (Int × Nat))
    (cb2 : Path → List DirectoryEntry → Bool → M Int)
    (h : ∀ p d u, mapResult Prod.fst (cb p d u) = cb2 p d u) (path : Path)
    (entry : DirectoryEntry) :
    mapResult (fun _ => ()) (writeDirectoryEntryCounting cb path entry)
      = writeDirectoryEntryWith cb2 path entry := by
  unfold writeDirectoryEntryCounting writeDirectoryEntryWith
  refine mapResult_bind _ _ _ _ fun pp => mapResult_bind _ _ _ _ fun parent =>
    mapResult_bind _ _ _ _ fun name => ?_
  cases replaceEntry name entry parent with
  | none => rfl
  | some parent2 =>
    refine mapResult_bind _ _ _ _ fun pp2 => ?_
    exact mapResult_bind2 _ Prod.fst _ _ _ _ (h _ _ _) fun a => rfl

theorem writeDirectoryCounting_erase (fuel : Nat) :
    ∀ (path : Path) (d : List DirectoryEntry) (u : Bool),
      mapResult Prod.fst (writeDirectoryCounting fuel path d u) = writeDirectoryAux fuel path d u := by
  induction fuel with
  | zero => intro path d u; rfl
  | succ fuel ih =>
    intro path d u
    rw [writeDirectoryCounting, writeDirectoryAux]
    refine mapResult_bind _ _ _ _ fun _ => mapResult_bind _ _ _ _ fun x => ?_
    obtain ⟨address, sz⟩ := x
    refine mapResult_bind _ _ _ _ fun address2 => ?_
    have hnest := fun e => writeDirectoryEntryCounting_erase (writeDirectoryCounting fuel)
      (writeDirectoryAux fuel) ih path e
    by_cases hp : path = []
    · rw [if_pos hp, if_pos hp]
      exact mapResult_bind _ _ _ _ fun _ => mapResult_bind _ _ _ _ fun _ => rfl
    · rw [if_neg hp, if_neg hp]
      refine mapResult_bind _ _ _ _ fun entry => ?_
      cases u with
      | true =>
        refine mapResult_bind _ _ _ _ fun now => mapResult_bind _ _ _ _ fun y => ?_
        simp only [Bool.or_true, if_true]
        exact mapResult_bind2 _ _ _ _ _ _ (hnest _) fun a => rfl
      | false =>
        simp only [Bool.or_false, Bool.false_eq_true, if_false]
        refine mapResult_bind _ _ _ _ fun y => ?_
        by_cases hc : decide (toSizeT entry.attributes.size ≠ (serializeDirectory d).length
            ∨ entry.firstBlockAddress ≠ address2) = true
        · simp only [hc, if_true]
          exact mapResult_bind2 _ _ _ _ _ _ (hnest _) fun a => rfl
        · simp only [hc, if_false]
          rfl

theorem parentPath_length (path pp : Path) (s t : FS)
    (h : parentPath path s = (Except.ok pp, t)) : pp.length + 1 = path.length := by
  unfold parentPath at h
  by_cases hp : path = []
  · subst hp
    simp [assert, bind_run, throw] at h
  · have hassert : decide (path ≠ []) = true := decide_eq_true hp
    rw [bind_run, hassert, assert_true_run] at h
    simp only at h
    by_cases hr : path = path.rootPath
    · rw [if_pos hr] at h
      cases h
      cases path with
      | nil => exact absurd rfl hp
      | cons n r =>
        unfold Path.rootPath at hr
        simp only at hr
        by_cases hn : n = rootName
        · rw [if_pos hn] at hr
          simp only [List.cons.injEq] at hr
          rw [hr.2]
          rfl
        · rw [if_neg hn] at hr
          cases hr
    · rw [if_neg hr] at h
      cases h
      unfold Path.parent
      by_cases hq : path = [] ∨ path = [rootName]
      · rcases hq with hq | hq
        · exact absurd hq hp
        · exfalso
          apply hr
          rw [hq]
          simp [Path.rootPath]
      · rw [if_neg hq, List.length_dropLast]
        have := List.length_pos.mpr hp
        omega

theorem bind_congr_run {α β : Type} (m : M α) (f g : α → M β) (s : FS)
    (h : ∀ a t, m s = (Except.ok a, t) → f a t = g a t) : (m >>= f) s = (m >>= g) s := by
  rw [bind_run, bind_run]
  cases hr : m s with
  | mk r t =>
    cases r with
    | ok a => exact h a t hr
    | error e => rfl

theorem writeDirectoryEntryCounting_congr
    (cb1 cb2 : Path → List DirectoryEntry → Bool → M (Int × Nat)) (path : Path)
    (h : ∀ pp : Path, pp.length + 1 = path.length → ∀ d u, cb1 pp d u = cb2 pp d u)
    (entry : DirectoryEntry) :
    writeDirectoryEntryCounting cb1 path entry = writeDirectoryEntryCounting cb2 path entry := by
  funext s
  unfold writeDirectoryEntryCounting
  refine bind_congr_run _ _ _ s fun pp t hpp => ?_
  refine bind_congr_run _ _ _ t fun parent t2 _ => ?_
  refine bind_congr_run _ _ _ t2 fun name t3 _ => ?_
  cases replaceEntry name entry parent with
  | none => rfl
  | some parent2 =>
    refine bind_congr_run _ _ _ t3 fun pp2 t4 hpp2 => ?_
    rw [h pp2 (parentPath_length path pp2 t3 t4 hpp2)]

theorem writeDirectoryCounting_fuel_succ (fuel : Nat) :
    ∀ (path : Path) (d : List DirectoryEntry) (u : Bool), path.length + 1 ≤ fuel →
      writeDirectoryCounting (fuel + 1) path d u = writeDirectoryCounting fuel path d u := by
  induction fuel with
  | zero => intro path d u h; omega
  | succ fuel ih =>
    intro path d u h
    have key : ∀ e, writeDirectoryEntryCounting (writeDirectoryCounting (fuel + 1)) path e
        = writeDirectoryEntryCounting (writeDirectoryCounting fuel) path e := fun e =>
      writeDirectoryEntryCounting_congr _ _ path
        (fun pp hpp d2 u2 => ih pp d2 u2 (by omega)) e
    conv_lhs => rw [writeDirectoryCounting]
    conv_rhs => rw [writeDirectoryCounting]
    simp only [key]

theorem writeDirectoryCounting_fuel (path : Path) (d : List DirectoryEntry) (u : Bool)
    (fuel : Nat) (h : path.length + 1 ≤ fuel) :
    writeDirectoryCounting fuel path d u = writeDirectoryCounting (path.length + 1) path d u := by
  induction fuel with
  | zero => omega
  | succ fuel ih =>
    by_cases h2 : path.length + 1 ≤ fuel
    · rw [writeDirectoryCounting_fuel_succ fuel path d u h2, ih h2]
    · have : fuel = path.length := by omega
      rw [this]

theorem countAtMost_bind {α : Type} {k : Nat} {m : M α} {f : α → M (Int × Nat)}
    (h : ∀ a, CountAtMost k (f a)) : CountAtMost k (m >>= f) := by
  intro s r n t hrun
  rw [bind_run] at hrun
  cases hr : m s with
  | mk x t2 =>
    rw [hr] at hrun
    cases x with
    | ok a => exact h a t2 r n t hrun
    | error e => cases hrun

theorem countAtMost_nested {k : Nat} {m : M Nat} (r : Int) (h : NestedAtMost k m) :
    CountAtMost (k + 1) (m >>= fun y => pure (r, 1 + y)) := by
  intro s r2 n t hrun
  rw [bind_run] at hrun
  cases hr : m s with
  | mk x t2 =>
    rw [hr] at hrun
    cases x with
    | ok a =>
      simp only [pure_run, Prod.mk.injEq, Except.ok.injEq] at hrun
      have := h s a t2 hr
      omega
    | error e => cases hrun

theorem nestedAtMost_zero (k : Nat) : NestedAtMost k (pure 0) := by
  intro s n t h
  simp only [pure_run, Prod.mk.injEq, Except.ok.injEq] at h
  omega

theorem nestedAtMost_bind_run {α : Type} {k : Nat} {m : M α} {f : α → M Nat}
    (h : ∀ a s t, m s = (Except.ok a, t) → NestedAtMost k (f a)) :
    NestedAtMost k (m >>= f) := by
  intro s n t hrun
  rw [bind_run] at hrun
  cases hr : m s with
  | mk x t2 =>
    rw [hr] at hrun
    cases x with
    | ok a => exact h a s t2 hr t2 n t hrun
    | error e => cases hrun

theorem writeDirectoryEntryCounting_nested
    (cb : Path → List DirectoryEntry → Bool → M (Int × Nat)) (path : Path)
    (h : ∀ pp : Path, pp.length + 1 = path.length → ∀ d u, CountAtMost path.length (cb pp d u))
    (entry : DirectoryEntry) :
    NestedAtMost path.length (writeDirectoryEntryCounting cb path entry) := by
  unfold writeDirectoryEntryCounting
  refine nestedAtMost_bind_run fun pp _ _ _ => nestedAtMost_bind_run fun parent _ _ _ =>
    nestedAtMost_bind_run fun name _ _ _ => ?_
  cases replaceEntry name entry parent with
  | none => intro s n t h; cases h
  | some parent2 =>
    refine nestedAtMost_bind_run fun pp2 s2 t2 hpp2 => ?_
    intro s n t hrun
    rw [bind_run] at hrun
    cases hr : cb pp2 parent2 false s with
    | mk x t3 =>
      rw [hr] at hrun
      cases x with
      | ok a =>
        obtain ⟨r, c⟩ := a
        simp only [pure_run, Prod.mk.injEq, Except.ok.injEq] at hrun
        have := (h pp2 (parentPath_length path pp2 s2 t2 hpp2) parent2 false s r c t3 hr).2
        omega
      | error e => cases hrun

theorem writeDirectoryCounting_count (fuel : Nat) :
    ∀ (path : Path) (d : List DirectoryEntry) (u : Bool),
      CountAtMost (path.length + 1) (writeDirectoryCounting fuel path d u) := by
  induction fuel with
  | zero => intro path d u s r n t h; cases h
  | succ fuel ih =>
    intro path d u
    rw [writeDirectoryCounting]
    refine countAtMost_bind fun _ => countAtMost_bind fun x => ?_
    obtain ⟨address, sz⟩ := x
    refine countAtMost_bind fun address2 => ?_
    have hnest := fun e => writeDirectoryEntryCounting_nested (writeDirectoryCounting fuel) path
      (fun pp hpp d2 u2 => by rw [← hpp]; exact ih pp d2 u2) e
    by_cases hp : path = []
    · rw [if_pos hp]
      exact countAtMost_bind fun _ => countAtMost_bind fun _ =>
        countAtMost_nested _ (nestedAtMost_zero _)
    · rw [if_neg hp]
      refine countAtMost_bind fun entry => ?_
      cases u with
      | true =>
        refine countAtMost_bind fun now => countAtMost_bind fun y => ?_
        simp only [Bool.or_true, if_true]
        exact countAtMost_nested _ (hnest _)
      | false =>
        simp only [Bool.or_false, Bool.false_eq_true, if_false]
        refine countAtMost_bind fun y => ?_
        by_cases hc : decide (toSizeT entry.attributes.size ≠ (serializeDirectory d).length
            ∨ entry.firstBlockAddress ≠ address2) = true
        · simp only [hc, if_true]
          exact countAtMost_nested _ (hnest _)
        · simp only [hc, if_false]
          exact countAtMost_nested _ (nestedAtMost_zero _)

theorem writeDirectoryCounting_unchanged (fuel : Nat) (path : Path) (d : List DirectoryEntry)
    (s t : FS) (address size address2 : Int) (entry : DirectoryEntry) (hp : path ≠ [])
    (h1 : (checkIsDirectory path true s).1 = Except.ok ())
    (h2 : (pathToAddressAndSize path s).1 = Except.ok (address, size))
    (h3 : writeBlocks address (serializeDirectory d) s = (Except.ok address2, t))
    (h4 : (readDirectoryEntry path t).1 = Except.ok entry)
    (hsame : toSizeT entry.attributes.size = (serializeDirectory d).length
      ∧ entry.firstBlockAddress = address2) :
    writeDirectoryCounting (fuel + 1) path d false s
      = (Except.ok (wrap16 (serializeDirectory d).length, 1), t) := by
  have r1 : checkIsDirectory path true s = (Except.ok (), s) := by
    rw [readOnly_run_eq (checkIsDirectory_readOnly path true) s, h1]
  have r2 : pathToAddressAndSize path s = (Except.ok (address, size), s) := by
    rw [readOnly_run_eq (pathToAddressAndSize_readOnly path) s, h2]
  have r4 : readDirectoryEntry path t = (Except.ok entry, t) := by
    rw [readOnly_run_eq (readDirectoryEntry_readOnly path) t, h4]
  have hc : decide (toSizeT entry.attributes.size ≠ (serializeDirectory d).length
      ∨ entry.firstBlockAddress ≠ address2) = false := by
    simp [hsame.1, hsame.2]
  rw [writeDirectoryCounting, bind_run, r1]
  simp only
  rw [bind_run, r2]
  simp only
  rw [bind_run, h3]
  simp only
  rw [if_neg hp, bind_run, r4]
  simp only [Bool.false_eq_true, if_false, Bool.or_false, hc, bind_run, pure_run]

/-! ## Serialisation round trips -/

theorem leBytes_length (n : Nat) : ∀ x, (leBytes n x).length = n := by
  induction n with
  | zero => intro x; rfl
  | succ n ih => intro x; rw [leBytes, List.length_cons, ih]

theorem leValue_leBytes (n : Nat) : ∀ x, leValue (leBytes n x) = x % 256 ^ n := by
  induction n with
  | zero => intro x; simp [leBytes, leValue, Nat.mod_one]
  | succ n ih =>
    intro x
    have : (Fin.ofNat (x % 256) : Fin 256).val = x % 256 := by
      show (x % 256) % 256 = x % 256
      exact Nat.mod_mod _ _
    rw [leBytes, leValue, ih, this, pow_succ', Nat.mod_mul]

theorem readBytes_middle (a f b : List Byte) :
    readBytes (a ++ (f ++ b)) a.length f.length = Except.ok f := by
  unfold readBytes
  rw [if_pos (by simp)]
  simp

theorem deserializeBool_middle (a b : List Byte) (v : Bool) :
    deserializeBool (a ++ (serializeBool [] v ++ b)) a.length
      = Except.ok (v, (a ++ serializeBool [] v).length) := by
  unfold deserializeBool
  have h := readBytes_middle a (serializeBool [] v) b
  have hl : (serializeBool [] v).length = 1 := by simp [serializeBool]
  rw [hl] at h
  rw [h]
  cases v <;> simp [serializeBool, leValue]

theorem deserializeI16_middle (a b : List Byte) (v : Int) (h0 : -32768 ≤ v) (h1 : v ≤ 32767) :
    deserializeI16 (a ++ (serializeI16 [] v ++ b)) a.length
      = Except.ok (v, (a ++ serializeI16 [] v).length) := by
  unfold deserializeI16
  have h := readBytes_middle a (serializeI16 [] v) b
  have hl : (serializeI16 [] v).length = 2 := by simp [serializeI16, leBytes_length]
  rw [hl] at h
  rw [h]
  have hv : wrap16 ((leValue (serializeI16 [] v) : Nat) : Int) = v := by
    simp only [serializeI16, List.nil_append, leValue_leBytes]
    unfold wrap16
    omega
  simp only [List.length_append, hl]
  show Except.ok (wrap16 ((leValue (serializeI16 [] v) : Nat) : Int), a.length + 2) = _
  rw [hv]

theorem deserializeI64_middle (a b : List Byte) (v : Int) (h0 : -9223372036854775808 ≤ v)
    (h1 : v ≤ 9223372036854775807) :
    deserializeI64 (a ++ (serializeI64 [] v ++ b)) a.length
      = Except.ok (v, (a ++ serializeI64 [] v).length) := by
  unfold deserializeI64
  have h := readBytes_middle a (serializeI64 [] v) b
  have hl : (serializeI64 [] v).length = 8 := by simp [serializeI64, leBytes_length]
  rw [hl] at h
  rw [h]
  have hv : wrap64 ((leValue (serializeI64 [] v) : Nat) : Int) = v := by
    simp only [serializeI64, List.nil_append, leValue_leBytes]
    unfold wrap64
    omega
  simp only [List.length_append, hl]
  show Except.ok (wrap64 ((leValue (serializeI64 [] v) : Nat) : Int), a.length + 8) = _
  rw [hv]

theorem deserializeString_middle (a b : List Byte) (v : List Byte)
    (hv : v.length < 18446744073709551616) :
    deserializeString (a ++ (serializeString [] v ++ b)) a.length
      = Except.ok (v, (a ++ serializeString [] v).length) := by
  unfold deserializeString
  have e : a ++ (serializeString [] v ++ b) = a ++ (leBytes 8 v.length ++ (v ++ b)) := by
    simp [serializeString]
  have h := readBytes_middle a (leBytes 8 v.length) (v ++ b)
  rw [leBytes_length] at h
  rw [e, h]
  have hval : leValue (leBytes 8 v.length) = v.length := by
    rw [leValue_leBytes]
    exact Nat.mod_eq_of_lt (by norm_num; exact hv)
  have e2 : a ++ (leBytes 8 v.length ++ (v ++ b)) = (a ++ leBytes 8 v.length) ++ (v ++ b) := by
    simp
  have h2 := readBytes_middle (a ++ leBytes 8 v.length) v b
  rw [List.length_append, leBytes_length] at h2
  simp only [bind, Except.bind, hval]
  rw [e2, h2]
  simp [serializeString, leBytes_length, pure, Except.pure]
  omega

theorem serializeEntry_eq (buffer : List Byte) (entry : DirectoryEntry) :
    serializeEntry buffer entry = buffer ++ entryBytes entry := by
  simp [serializeEntry, entryBytes, serializeBool, serializeString, serializeI16, serializeI64]

theorem entryBytes_length (entry : DirectoryEntry) :
    (entryBytes entry).length = 31 + entry.attributes.name.length := by
  simp [entryBytes, serializeBool, serializeString, serializeI16, serializeI64, leBytes_length]
  omega

theorem deserializeEntry_middle (a b : List Byte) (entry : DirectoryEntry)
    (h : entryInRange entry) :
    deserializeEntry (a ++ (entryBytes entry ++ b)) a.length
      = Except.ok (entry, (a ++ entryBytes entry).length) := by
  obtain ⟨hn, hs, hc, hm, hf⟩ := h
  unfold deserializeEntry entryBytes
  simp only [List.append_assoc]
  rw [deserializeBool_middle]
  simp only [bind, Except.bind]
  rw [← List.append_assoc a, deserializeString_middle _ _ _ hn]
  simp only
  rw [← List.append_assoc (a ++ _), deserializeI16_middle _ _ _ hs.1 hs.2]
  simp only
  rw [← List.append_assoc (a ++ _ ++ _), deserializeBool_middle]
  simp only
  rw [← List.append_assoc (a ++ _ ++ _ ++ _), deserializeBool_middle]
  simp only
  rw [← List.append_assoc (a ++ _ ++ _ ++ _ ++ _), deserializeI64_middle _ _ _ hc.1 hc.2]
  simp only
  rw [← List.append_assoc (a ++ _ ++ _ ++ _ ++ _ ++ _), deserializeI64_middle _ _ _ hm.1 hm.2]
  simp only
  rw [← List.append_assoc (a ++ _ ++ _ ++ _ ++ _ ++ _ ++ _),
    deserializeI16_middle _ _ _ hf.1 hf.2]
  simp only [pure, Except.pure, List.append_assoc]

theorem serializeDirectory_eq (es : List DirectoryEntry) :
    serializeDirectory es = es.flatMap entryBytes := by
  unfold serializeDirectory
  have key : ∀ (l : List DirectoryEntry) (acc : List Byte),
      l.foldl serializeEntry acc = acc ++ l.flatMap entryBytes := by
    intro l
    induction l with
    | nil => intro acc; simp
    | cons e r ih =>
      intro acc
      rw [List.foldl_cons, ih, serializeEntry_eq, List.flatMap_cons, List.append_assoc]
  rw [key]
  rfl

theorem serializeDirectory_length (es : List DirectoryEntry) :
    (serializeDirectory es).length = (es.map fun e => 31 + e.attributes.name.length).sum := by
  rw [serializeDirectory_eq]
  induction es with
  | nil => rfl
  | cons e r ih =>
    rw [List.flatMap_cons, List.length_append, ih, entryBytes_length, List.map_cons,
      List.sum_cons]

theorem length_le_flatMap_entryBytes (es : List DirectoryEntry) :
    es.length ≤ (es.flatMap entryBytes).length := by
  induction es with
  | nil => simp
  | cons e r ih =>
    rw [List.flatMap_cons, List.length_append, entryBytes_length, List.length_cons]
    omega

theorem deserializeDirectory_loop (todo : List DirectoryEntry) :
    ∀ (done acc : List DirectoryEntry) (pad : List Byte) (fuel : Nat),
      (∀ e ∈ todo, entryInRange e) → todo.length < fuel →
      deserializeDirectory ((done ++ todo).flatMap entryBytes ++ pad)
          ((done ++ todo).flatMap entryBytes).length fuel (done.flatMap entryBytes).length acc
        = Except.ok (acc ++ todo) := by
  induction todo with
  | nil =>
    intro done acc pad fuel _ hfuel
    obtain ⟨f, rfl⟩ : ∃ f, fuel = f + 1 := ⟨fuel - 1, by simp at hfuel; omega⟩
    rw [deserializeDirectory, List.append_nil, if_neg (Nat.lt_irrefl _), List.append_nil]
    rfl
  | cons e r ih =>
    intro done acc pad fuel hr hfuel
    obtain ⟨f, rfl⟩ : ∃ f, fuel = f + 1 := ⟨fuel - 1, by simp at hfuel; omega⟩
    rw [deserializeDirectory]
    have hlt : (done.flatMap entryBytes).length < ((done ++ e :: r).flatMap entryBytes).length := by
      rw [List.flatMap_append, List.flatMap_cons, List.length_append, List.length_append,
        entryBytes_length]
      omega
    rw [if_pos hlt]
    have hbuf : (done ++ e :: r).flatMap entryBytes ++ pad
        = done.flatMap entryBytes ++ (entryBytes e ++ (r.flatMap entryBytes ++ pad)) := by
      simp [List.flatMap_append, List.flatMap_cons]
    have hent := deserializeEntry_middle (done.flatMap entryBytes) (r.flatMap entryBytes ++ pad) e
      (hr e (List.mem_cons_self _ _))
    rw [← hbuf] at hent
    rw [hent]
    simp only [bind, Except.bind]
    have hsplit : done ++ e :: r = (done ++ [e]) ++ r := by simp
    have hoff : (done.flatMap entryBytes ++ entryBytes e).length
        = ((done ++ [e]).flatMap entryBytes).length := by
      simp [List.flatMap_append]
    rw [hoff, hsplit, ih (done ++ [e]) (acc ++ [e]) pad f
      (fun x hx => hr x (List.mem_cons_of_mem _ hx)) (by simp at hfuel; omega)]
    simp

theorem deserializeDirectory_serialize (es : List DirectoryEntry) (pad : List Byte)
    (hr : ∀ e ∈ es, entryInRange e) :
    deserializeDirectory (serializeDirectory es ++ pad) (serializeDirectory es).length
        ((serializeDirectory es ++ pad).length + 1) 0 []
      = Except.ok es := by
  rw [serializeDirectory_eq]
  have h := deserializeDirectory_loop es [] [] pad ((es.flatMap entryBytes ++ pad).length + 1) hr
    (by
      have := length_le_flatMap_entryBytes es
      rw [List.length_append]
      omega)
  rw [List.nil_append] at h
  exact h

theorem persist_aux (s : FS) (hbs : validBlockSize s.sb.blockSize) :
    (persist s).clock = s.clock ∧ (persist s).tick = s.tick ∧ (persist s).disk 0 = s.disk 0 := by
  obtain ⟨d, hd, hframe⟩ := persist_eq s hbs
  rw [hd]
  exact ⟨rfl, rfl, hframe 0 (Or.inl (by omega))⟩

theorem allocChain_aux (buffer : List Byte) (cs : List Nat) :
    ∀ (s : FS) (prev : Int) (offset : Nat),
      (allocChain buffer s prev offset cs).clock = s.clock
        ∧ (allocChain buffer s prev offset cs).tick = s.tick
        ∧ (allocChain buffer s prev offset cs).disk 0 = s.disk 0 := by
  induction cs with
  | nil => intro s prev offset; exact ⟨rfl, rfl, rfl⟩
  | cons c r ih =>
    intro s prev offset
    simp only [allocChain]
    obtain ⟨h1, h2, h3⟩ := ih (linkPrev (putBlock s c (Block.slice buffer offset s.sb.blockSize).bytes)
      prev c) c (offset + s.sb.blockSize)
    rw [h1, h2, h3]
    unfold linkPrev
    split
    · refine ⟨rfl, rfl, ?_⟩
      show (putBlock s c _).disk 0 = s.disk 0
      unfold putBlock
      simp only
      rw [writeSectors_apply, if_neg (by omega)]
    · refine ⟨rfl, rfl, ?_⟩
      unfold putBlock
      simp only
      rw [writeSectors_apply, if_neg (by omega)]

theorem freeBlocks_frame (s : FS) (h : Int) (hbs : validBlockSize s.sb.blockSize)
    (hr : fatInRange s.fat) (h0 : s.fat 0 = -1) (hh : dataAddress s ≤ h ∧ h ≤ 4095 ∨ h = -1) :
    (freeBlocks h s).2.sb = s.sb ∧ (freeBlocks h s).2.clock = s.clock
      ∧ (freeBlocks h s).2.tick = s.tick ∧ (freeBlocks h s).2.disk 0 = s.disk 0
      ∧ ∀ b, 8192 / s.sb.blockSize ≤ b → blockOf (freeBlocks h s).2 b = blockOf s b := by
  obtain ⟨fat, hfree, _⟩ := freeBlocks_run s h hbs hr h0 hh
  have hbs2 : validBlockSize ({ s with fat := fat } : FS).sb.blockSize := hbs
  obtain ⟨h1, h2, h3⟩ := persist_aux { s with fat := fat } hbs2
  have h4 := persist_sb _ hbs2
  have h5 : ∀ b, 8192 / s.sb.blockSize ≤ b →
      blockOf (persist { s with fat := fat }) b = blockOf { s with fat := fat } b :=
    fun b hb => persist_blockOf _ b hbs2 hb
  obtain ⟨u, hu⟩ : ∃ u : FS, u = persist { s with fat := fat } := ⟨_, rfl⟩
  rw [← hu] at hfree h1 h2 h3 h4 h5
  rw [hfree]
  exact ⟨h4, h1, h2, h3, h5⟩

/-- Everything a successful `writeBlocks` on a non-empty buffer does: the chain it
builds, the table it leaves, what a read of the chain returns, and what it leaves
unchanged. -/
theorem writeBlocks_effect (s : FS) (h : Int) (buffer : List Byte) (a : Int) (u : FS)
    (hbs : validBlockSize s.sb.blockSize) (hwf : wellFormedFat s.sb.blockSize s.fat)
    (hh : h = -1 ∨ (dataAddress s ≤ h ∧ h ≤ 4095))
    (hpin : fatPinned s.sb.blockSize (freedFat s h)) (hne : buffer ≠ [])
    (hrun : writeBlocks h buffer s = (Except.ok a, u)) :
    ∃ (c : Nat) (r : List Nat),
      (freeIn (freedFat s h) (scanFrom (scanStart s h) 0)).take
        (blocksNeeded buffer.length s.sb.blockSize) = c :: r ∧
      (c :: r).length = blocksNeeded buffer.length s.sb.blockSize ∧
      a = (c : Int) ∧ u.sb = s.sb ∧ u.clock = s.clock ∧ u.tick = s.tick ∧
      u.disk 0 = s.disk 0 ∧
      u.fat = fatSet (linkFat (freedFat s h) (c : Int) r)
        ((c :: r).getLast (List.cons_ne_nil c r)) lastBlockMarker ∧
      (c :: r).Nodup ∧
      (∀ x ∈ c :: r, freedFat s h x = 0 ∧ x < 4096 ∧ 8192 / s.sb.blockSize ≤ x) ∧
      chainOf u.fat chainFuel a = some (c :: r) ∧
      readBlocks a u = (Except.ok (buffer ++ List.replicate
        (blocksNeeded buffer.length s.sb.blockSize * s.sb.blockSize - buffer.length) 0), u) ∧
      (∀ b, 8192 / s.sb.blockSize ≤ b → b ∉ c :: r → blockOf u b = blockOf s b) := by
  have hda := (dataAddressOf_valid hbs).1
  have hda2 := (dataAddressOf_valid hbs).2.2.1
  have hbpos : 0 < s.sb.blockSize := by rcases hbs with h | h | h | h <;> omega
  have h0 : s.fat 0 = -1 := by
    apply hwf.2 0
    rw [hda]
    omega
  obtain ⟨start, t, hstart, hsb, hfat, hst, ht1, ht2, hloop⟩ :=
    writeBlocks_scan s h buffer hne hbs hwf.1 h0 hh
  have htframe : t.clock = s.clock ∧ t.tick = s.tick ∧ t.disk 0 = s.disk 0
      ∧ ∀ b, 8192 / s.sb.blockSize ≤ b → blockOf t b = blockOf s b := by
    by_cases hm : h = -1
    · rw [ht1 hm]
      exact ⟨rfl, rfl, rfl, fun _ _ => rfl⟩
    · rw [ht2 hm]
      have hh2 : dataAddress s ≤ h ∧ h ≤ 4095 := by
        rcases hh with hh | hh
        · exact absurd hh hm
        · exact hh
      obtain ⟨-, f2, f3, f4, f5⟩ := freeBlocks_frame s h hbs hwf.1 h0 (Or.inl hh2)
      exact ⟨f2, f3, f4, f5⟩
  have hss : scanStart s h = start := by
    unfold scanStart
    simp only [lastBlockMarker]
    rw [← hst]
    simp
  obtain ⟨hfull, hok⟩ := scan_from_start buffer start hstart t (hsb ▸ hbs) hne
  rw [hsb, hfat] at hfull hok
  rw [hloop] at hrun
  by_cases hlt : freeBlockCount (freedFat s h) < blocksNeeded buffer.length s.sb.blockSize
  · obtain ⟨v, hv⟩ := hfull hlt
    rw [hv] at hrun
    simp at hrun
  · have hle : blocksNeeded buffer.length s.sb.blockSize ≤ freeBlockCount (freedFat s h) := by
      omega
    rw [hok hle] at hrun
    have hkpos := blocksNeeded_pos hbpos (List.length_pos.mpr hne)
    have hlen : ((freeIn (freedFat s h) (scanFrom start 0)).take
        (blocksNeeded buffer.length s.sb.blockSize)).length
        = blocksNeeded buffer.length s.sb.blockSize := by
      rw [List.length_take, freeIn_scan_length _ _ hstart]
      omega
    rw [hss]
    cases hcs : (freeIn (freedFat s h) (scanFrom start 0)).take
        (blocksNeeded buffer.length s.sb.blockSize) with
    | nil => rw [hcs] at hlen; simp at hlen; omega
    | cons c r =>
      rw [hcs] at hrun hlen
      have hhead : (freeIn (freedFat s h) (scanFrom start 0)).headD 0 = c := by
        cases hf : freeIn (freedFat s h) (scanFrom start 0) with
        | nil => rw [hf] at hcs; simp at hcs
        | cons x l =>
          rw [hf] at hcs
          obtain ⟨k, hk⟩ : ∃ k, blocksNeeded buffer.length s.sb.blockSize = k + 1 :=
            ⟨blocksNeeded buffer.length s.sb.blockSize - 1, by omega⟩
          rw [hk, List.take_succ_cons] at hcs
          simp only [List.cons.injEq] at hcs
          simp [hcs.1]
      rw [hhead] at hrun
      have hlast : (c :: r).getLastD 0 = (c :: r).getLast (List.cons_ne_nil c r) := by
        rw [List.getLastD_eq_getLast?, List.getLast?_eq_getLast _ (List.cons_ne_nil c r)]
        rfl
      rw [hlast] at hrun
      simp only [Prod.mk.injEq, Except.ok.injEq] at hrun
      have ha : a = (c : Int) := hrun.1.symm
      have hu : u = persist (setFat (allocChain buffer t (-1) 0 (c :: r))
        ((c :: r).getLast (List.cons_ne_nil c r)) lastBlockMarker) := hrun.2.symm
      have hsub : (c :: r).Sublist (scanFrom start 0) := by
        rw [← hcs]
        exact (List.take_sublist _ _).trans (freeIn_sublist _ _)
      have hnd : (c :: r).Nodup := hsub.nodup (scanFrom_zero_nodup _ hstart)
      have hfreeAll : ∀ x ∈ c :: r, freedFat s h x = 0 := by
        intro x hx
        rw [← hcs] at hx
        exact (mem_freeIn (List.mem_of_mem_take hx)).2
      have hltAll : ∀ x ∈ c :: r, x < 4096 := by
        intro x hx
        obtain ⟨k, _, rfl⟩ := mem_scanFrom (hsub.subset hx)
        exact Nat.mod_lt _ (by decide)
      have hgeAll : ∀ x ∈ c :: r, 8192 / s.sb.blockSize ≤ x := by
        intro x hx
        by_contra hcon
        have h1 := hpin x (by rw [hda]; omega)
        rw [hfreeAll x hx] at h1
        simp [lastBlockMarker] at h1
      have hbsA : validBlockSize (setFat (allocChain buffer t (-1) 0 (c :: r))
          ((c :: r).getLast (List.cons_ne_nil c r)) lastBlockMarker).sb.blockSize := by
        show validBlockSize (allocChain buffer t (-1) 0 (c :: r)).sb.blockSize
        rw [allocChain_sb, hsb]
        exact hbs
      have hufat : u.fat = fatSet (linkFat t.fat (c : Int) r)
          ((c :: r).getLast (List.cons_ne_nil c r)) lastBlockMarker := by
        rw [hu, persist_fat _ hbsA]
        show fatSet (allocChain buffer t (-1) 0 (c :: r)).fat _ _ = _
        rw [allocChain_fat]
        rfl
      have husb : u.sb = s.sb := by
        rw [hu, persist_sb _ hbsA]
        show (allocChain buffer t (-1) 0 (c :: r)).sb = _
        rw [allocChain_sb, hsb]
      have huaux : u.clock = s.clock ∧ u.tick = s.tick ∧ u.disk 0 = s.disk 0 := by
        obtain ⟨p1, p2, p3⟩ := persist_aux _ hbsA
        obtain ⟨q1, q2, q3⟩ := allocChain_aux buffer (c :: r) t (-1) 0
        rw [hu, p1, p2, p3]
        exact ⟨q1.trans htframe.1, q2.trans htframe.2.1, q3.trans htframe.2.2.1⟩
      have hlen4096 : (c :: r).length ≤ 4096 := by
        have := hsub.length_le
        simpa [scanFrom, fatSize] using this
      have hchain : chainOf u.fat chainFuel (c : Int) = some (c :: r) := by
        rw [hufat]
        apply chainOf_link r _ c chainFuel hnd hltAll
        simp only [List.length_cons] at hlen4096
        simp only [chainFuel, fatSize]
        omega
      have hblocks : ∀ b ∈ c :: r,
          blockOf u b = blockOf (allocChain buffer t (-1) 0 (c :: r)) b := by
        intro b hb
        rw [hu, persist_blockOf _ _ hbsA, setFat_blockOf]
        show 8192 / (allocChain buffer t (-1) 0 (c :: r)).sb.blockSize ≤ b
        rw [allocChain_sb, hsb]
        exact hgeAll b hb
      have hother : ∀ b, 8192 / s.sb.blockSize ≤ b → b ∉ c :: r → blockOf u b = blockOf s b := by
        intro b hb hnot
        rw [hu, persist_blockOf _ _ hbsA, setFat_blockOf, allocChain_blockOf_other _ _ _ _ _ _ hnot]
        · exact htframe.2.2.2 b hb
        · show 8192 / (allocChain buffer t (-1) 0 (c :: r)).sb.blockSize ≤ b
          rw [allocChain_sb, hsb]
          exact hb
      have hflat := allocChain_flatMap buffer (c :: r) t (-1) 0 u hnd (hsb ▸ hbs) hblocks
      rw [hsb, slices_eq_resize, List.drop_zero, hlen,
        resize_of_le _ _ (blocksNeeded_mul_ge _ _ hbpos)] at hflat
      refine ⟨c, r, rfl, hlen, ha, husb, huaux.1, huaux.2.1, huaux.2.2, by rw [hufat, hfat], hnd,
        fun x hx => ⟨hfreeAll x hx, hltAll x hx, hgeAll x hx⟩, ha ▸ hchain, ?_, hother⟩
      have hassert : decide ((c : Int) ≥ dataAddress u ∧ (c : Int) ≤ maxAddress
          ∨ (c : Int) = lastBlockMarker) = true := by
        apply decide_eq_true
        left
        have h1 := hgeAll c (List.mem_cons_self _ _)
        have h2 := hltAll c (List.mem_cons_self _ _)
        rw [maxAddress_eq, dataAddress, husb, hda]
        omega
      rw [ha, readBlocks, bind_ok _ _ _ _ _ (get_run u), hassert,
        bind_ok _ _ _ _ _ (assert_true_run u), readBlocksLoop_chain u chainFuel _ _ [] hchain,
        hflat]
      rfl

theorem toSizeT_natCast (n : Nat) (h : n < 18446744073709551616) : toSizeT (n : Int) = n := by
  unfold toSizeT
  omega

theorem readDirectoryAt_of_readBlocks (a size : Int) (u : FS) (buffer : List Byte)
    (h : readBlocks a u = (Except.ok buffer, u)) :
    readDirectoryAt a size u
      = liftE (deserializeDirectory buffer (toSizeT size) (buffer.length + 1) 0 []) u := by
  unfold readDirectoryAt
  rw [bind_run, h]

theorem readDirectoryAt_last (t : FS) : readDirectoryAt lastBlockMarker 0 t = (Except.ok [], t) := by
  rw [readDirectoryAt_of_readBlocks _ _ _ [] (readBlocks_last t)]
  rfl

theorem writeSuperblock_run (s : FS) :
    writeSuperblock s = (Except.ok (), { s with
      disk := s.disk.write 0 (superblockSector s.sb (s.uninit s.uninitUsed)),
      uninitUsed := s.uninitUsed + 1 }) := rfl

theorem pathToAddressAndSize_nil (s : FS) :
    pathToAddressAndSize [] s = (Except.ok (dataAddress s, s.sb.rootDirectoryEntrySize), s) := rfl

theorem checkIsDirectory_nil (s : FS) : checkIsDirectory [] true s = (Except.ok (), s) := rfl

theorem writeDirectory_root (s : FS) (es : List DirectoryEntry) (upd : Bool) (p q a : Int)
    (u : FS) (hres : pathToAddressAndSize [] s = (Except.ok (p, q), s))
    (hrun : writeBlocks p (serializeDirectory es) s = (Except.ok a, u)) :
    writeDirectory [] es upd s
      = (Except.ok (wrap16 (serializeDirectory es).length),
          setRootSize u (wrap16 (serializeDirectory es).length)) := by
  unfold writeDirectory
  rw [List.length_nil, writeDirectoryAux, bind_ok _ _ _ _ _ (checkIsDirectory_nil s),
    bind_ok _ _ _ _ _ hres]
  simp only [writeDirectoryAux.match_1]
  rw [bind_ok _ _ _ _ _ hrun, if_pos True.intro]
  rfl

theorem setRootSize_eq (s : FS) (size : Int) :
    setRootSize s size = { s with
      sb := { s.sb with rootDirectoryEntrySize := size },
      disk := s.disk.write 0
        (superblockSector { s.sb with rootDirectoryEntrySize := size }
          (s.uninit s.uninitUsed)),
      uninitUsed := s.uninitUsed + 1 } := rfl

theorem setRootSize_sector (s : FS) (size : Int) :
    (setRootSize s size).disk 0
      = superblockSector (setRootSize s size).sb (s.uninit s.uninitUsed) := rfl

theorem setRootSize_fat (s : FS) (size : Int) : (setRootSize s size).fat = s.fat := rfl

theorem setRootSize_blockSize (s : FS) (size : Int) :
    (setRootSize s size).sb.blockSize = s.sb.blockSize := rfl

theorem setRootSize_rootSize (s : FS) (size : Int) :
    (setRootSize s size).sb.rootDirectoryEntrySize = size := rfl

theorem setRootSize_partitionId (s : FS) (size : Int) :
    (setRootSize s size).sb.partitionId = s.sb.partitionId := rfl

theorem setRootSize_blockOf (s : FS) (size : Int) (b : Nat) :
    blockOf (setRootSize s size) b = blockOf s b := by
  refine blockOf_congr s _ b rfl ?_
  intro a h1 _
  rw [setRootSize_eq]
  show (s.disk.write 0 _) a = s.disk a
  unfold Disk.write
  rw [if_neg (by omega)]

theorem readBlocks_chain (s : FS) (a : Int) (cs : List Nat)
    (ha : dataAddress s ≤ a ∧ a ≤ 4095 ∨ a = -1)
    (hchain : chainOf s.fat chainFuel a = some cs) :
    readBlocks a s = (Except.ok (cs.flatMap (blockOf s)), s) := by
  have hassert : decide (a ≥ dataAddress s ∧ a ≤ maxAddress ∨ a = lastBlockMarker) = true := by
    rw [maxAddress_eq]; exact decide_eq_true ha
  unfold readBlocks
  rw [bind_ok _ _ _ _ _ (get_run s), hassert, bind_ok _ _ _ _ _ (assert_true_run s), readBlocksLoop_chain s chainFuel a cs [] hchain]
  rfl

theorem wrap64_range (x : Int) :
    -9223372036854775808 ≤ wrap64 x ∧ wrap64 x ≤ 9223372036854775807 := by
  unfold wrap64
  omega

theorem wrap16_range (x : Int) : -32768 ≤ wrap16 x ∧ wrap16 x ≤ 32767 := by
  unfold wrap16
  omega

theorem getNow_run (s : FS) :
    getNow s = (Except.ok (wrap64 (s.clock s.tick)), { s with tick := s.tick + 1 }) := rfl

theorem format_eq (b : Nat) (hb : validBlockSize b) (s : FS) (size : Int) (t : FS)
    (hdir : writeDirectory [] [rootDirectoryEntry (wrap64 (s.clock s.tick))] false
      (formatStart b s) = (Except.ok size, t)) :
    format b s = writeFat (setRootSize t size) := by
  obtain ⟨hda, -, -, hle, -⟩ := dataAddressOf_valid hb
  have hassert : decide (b = 512 ∨ b = 1024 ∨ b = 2048 ∨ b = 4096) = true := decide_eq_true hb
  unfold format
  rw [bind_ok _ _ _ _ _ (modify_run _ _)]
  generalize hS1 : ({ s with sb := { blockSize := b } } : FS) = S1
  rw [hassert, bind_ok _ _ _ _ _ (assert_true_run _), bind_ok _ _ _ _ _ (modify_run _ _)]
  generalize hS2 : ({ S1 with fat := fun _ => freeBlockMarker } : FS) = S2
  rw [bind_ok _ _ _ _ _ (modify_run _ _)]
  generalize hS3 : ({ S2 with
    fat := (fun i => if (i : Int) < dataAddress S2 then lastBlockMarker else S2.fat i) } : FS) = S3
  have hsb1 : S1.sb = { blockSize := b } := (congrArg FS.sb hS1).symm
  have hsb2 : S2.sb = S1.sb := (congrArg FS.sb hS2).symm
  have hsb3 : S3.sb = S2.sb := (congrArg FS.sb hS3).symm
  have hb3 : S3.sb.blockSize = b := by rw [hsb3, hsb2, hsb1]
  rw [bind_ok _ _ _ _ _ (get_run _)]
  have hget : liftE (fatGet S3.fat (dataAddress S3)) S3
      = (Except.ok (S3.fat (8192 / b)), S3) := by
    unfold dataAddress
    rw [hb3, hda, fatGet_ok _ _ (by omega)]
    rfl
  rw [bind_ok _ _ _ _ _ hget, bind_ok _ _ _ _ _ (modify_run _ _)]
  generalize hS4 : ({ S3 with fat := fatSet S3.fat (dataAddress S3).toNat lastBlockMarker } : FS)
    = S4
  rw [bind_ok _ _ _ _ _ (getNow_run _)]
  generalize hS5 : ({ S4 with tick := S4.tick + 1 } : FS) = S5
  have hsb4 : S4.sb = S3.sb := (congrArg FS.sb hS4).symm
  have hc4 : S4.clock = s.clock := by
    rw [← congrArg FS.clock hS4, ← congrArg FS.clock hS3, ← congrArg FS.clock hS2,
      ← congrArg FS.clock hS1]
  have ht4 : S4.tick = s.tick := by
    rw [← congrArg FS.tick hS4, ← congrArg FS.tick hS3, ← congrArg FS.tick hS2,
      ← congrArg FS.tick hS1]
  have hd4 : S4.disk = s.disk := by
    rw [← congrArg FS.disk hS4, ← congrArg FS.disk hS3, ← congrArg FS.disk hS2,
      ← congrArg FS.disk hS1]
  have hf2 : S2.fat = fun _ => freeBlockMarker := (congrArg FS.fat hS2).symm
  have hf3 := congrArg FS.fat hS3
  have hf4 := congrArg FS.fat hS4
  dsimp only at hf3 hf4
  have hf4b : S4.fat = formatTable b := by
    rw [← hf4, ← hf3, hf2]
    unfold dataAddress formatTable
    rw [hb3, hsb2, hsb1]
  have hu4 : S4.uninit = s.uninit := by
    rw [← congrArg FS.uninit hS4, ← congrArg FS.uninit hS3, ← congrArg FS.uninit hS2,
      ← congrArg FS.uninit hS1]
  have hv4 : S4.uninitUsed = s.uninitUsed := by
    rw [← congrArg FS.uninitUsed hS4, ← congrArg FS.uninitUsed hS3,
      ← congrArg FS.uninitUsed hS2, ← congrArg FS.uninitUsed hS1]
  have h5 : S5 = formatStart b s := by
    rw [← hS5, hc4, ht4, hd4, hsb4, hsb3, hsb2, hsb1, hf4b, hu4, hv4]
    rfl
  have hnow : wrap64 (S4.clock S4.tick) = wrap64 (s.clock s.tick) := by
    rw [hc4, ht4]
  rw [h5, hnow]
  have hdir2 := hdir
  unfold rootDirectoryEntry at hdir2
  rw [bind_ok _ _ _ _ _ hdir2]
  rw [bind_ok _ _ _ _ _ (modify_run _ _), bind_ok _ _ _ _ _ (writeSuperblock_run _)]
  rfl

theorem formatTable_apply (b : Nat) (hb : validBlockSize b) (i : Nat) :
    formatTable b i = if i ≤ 8192 / b then lastBlockMarker else freeBlockMarker := by
  obtain ⟨hda, -⟩ := dataAddressOf_valid hb
  unfold formatTable fatSet
  rw [hda, Int.toNat_ofNat]
  by_cases h1 : i = 8192 / b
  · rw [if_pos h1, if_pos (by omega)]
  · rw [if_neg h1]
    show (if (i : Int) < ((8192 / b : Nat) : Int) then lastBlockMarker else freeBlockMarker) = _
    by_cases h2 : i ≤ 8192 / b
    · rw [if_pos (by omega), if_pos h2]
    · rw [if_neg (by omega), if_neg h2]

theorem formatTable_wellFormed (b : Nat) (hb : validBlockSize b) :
    wellFormedFat b (formatTable b) := by
  obtain ⟨hda, -⟩ := dataAddressOf_valid hb
  constructor
  · intro i _
    rw [formatTable_apply b hb]
    unfold lastBlockMarker freeBlockMarker
    split <;> omega
  · intro i hi
    rw [hda] at hi
    rw [formatTable_apply b hb, if_pos (by omega)]

theorem formatTable_chain (b : Nat) (hb : validBlockSize b) :
    chainOf (formatTable b) chainFuel ((8192 / b : Nat) : Int) = some [8192 / b] := by
  obtain ⟨hda, -, -, hle, -⟩ := dataAddressOf_valid hb
  have e : chainFuel = 4096 + 1 + 1 := by decide
  rw [e]
  refine chainOf_cons _ _ _ _ (by omega) ?_
  rw [formatTable_apply b hb, if_pos (Nat.le_refl _)]
  exact chainOf_last _ _

theorem countP_range_gt (d : Nat) : ∀ n : Nat,
    ((List.range n).countP fun i => decide (d < i)) = n - (d + 1) := by
  intro n
  induction n with
  | zero => simp
  | succ n ih =>
    rw [List.range_succ, List.countP_append, ih, List.countP_cons, List.countP_nil]
    by_cases h : d < n
    · rw [if_pos (decide_eq_true h)]
      omega
    · rw [if_neg (by simpa using h)]
      omega

theorem freeBlockCount_formatTable (b : Nat) (hb : validBlockSize b) :
    freeBlockCount (formatTable b) = 4095 - 8192 / b := by
  unfold freeBlockCount
  have e : (fun i => decide (formatTable b i = freeBlockMarker))
      = fun i => decide (8192 / b < i) := by
    funext i
    rw [formatTable_apply b hb]
    by_cases h : i ≤ 8192 / b
    · rw [if_pos h]
      have h2 : ¬ 8192 / b < i := by omega
      rw [decide_eq_false h2]
      rfl
    · rw [if_neg h]
      have h2 : 8192 / b < i := by omega
      rw [decide_eq_true h2]
      rfl
  rw [e, countP_range_gt]
  unfold fatSize
  omega

theorem rootDirectoryEntry_length (now : Int) :
    (serializeDirectory [rootDirectoryEntry now]).length = 32 := by
  rw [serializeDirectory_length]
  rfl

theorem rootDirectoryEntry_inRange (x : Int) : entryInRange (rootDirectoryEntry (wrap64 x)) := by
  have h := wrap64_range x
  unfold entryInRange rootDirectoryEntry
  refine ⟨?_, ?_, h, h, ?_⟩ <;> (dsimp only; decide)

/-- The run of the formatting constructor: the state `u` its `writeBlocks` call leaves,
and the two updates of the superblock and the table write that follow. -/
theorem format_run (b : Nat) (hb : validBlockSize b) (s : FS) :
    ∃ u : FS,
      format b s = (Except.ok (), persist (setRootSize (setRootSize u 32) 32)) ∧
      u.sb = { blockSize := b } ∧ u.fat = formatTable b ∧
      u.clock = s.clock ∧ u.tick = s.tick + 1 ∧
      readBlocks ((8192 / b : Nat) : Int) u
        = (Except.ok (serializeDirectory [rootDirectoryEntry (wrap64 (s.clock s.tick))]
            ++ List.replicate (b - 32) 0), u) := by
  obtain ⟨hda, hmul, h2, hle, -⟩ := dataAddressOf_valid hb
  have hb512 : 512 ≤ b := by rcases hb with h | h | h | h <;> omega
  obtain ⟨S, hS⟩ : ∃ S : FS, S = formatStart b s := ⟨_, rfl⟩
  have hsb : S.sb = { blockSize := b } := by rw [hS]; rfl
  have hbsz : S.sb.blockSize = b := by rw [hsb]
  have hfat : S.fat = formatTable b := by rw [hS]; rfl
  have hclock : S.clock = s.clock := by rw [hS]; rfl
  have htick : S.tick = s.tick + 1 := by rw [hS]; rfl
  have hbS : validBlockSize S.sb.blockSize := by rw [hbsz]; exact hb
  have hdaS : dataAddress S = ((8192 / b : Nat) : Int) := by
    unfold dataAddress
    rw [hbsz, hda]
  have hwf : wellFormedFat S.sb.blockSize S.fat := by
    rw [hbsz, hfat]
    exact formatTable_wellFormed b hb
  obtain ⟨e, he⟩ : ∃ e : DirectoryEntry, e = rootDirectoryEntry (wrap64 (s.clock s.tick)) :=
    ⟨_, rfl⟩
  have hlen : (serializeDirectory [e]).length = 32 := by
    rw [he]
    exact rootDirectoryEntry_length _
  have hne : serializeDirectory [e] ≠ [] := by
    intro h
    rw [h] at hlen
    cases hlen
  have hrange : dataAddress S ≤ dataAddress S ∧ dataAddress S ≤ 4095 :=
    ⟨le_refl _, by rw [hdaS]; omega⟩
  have hchain : chainOf S.fat chainFuel (dataAddress S) = some [8192 / b] := by
    rw [hfat, hdaS]
    exact formatTable_chain b hb
  have hfreed : freedFat S (dataAddress S) = clearChain (formatTable b) [8192 / b] := by
    rw [freedFat_chain S _ _ hbS hrange hchain, hfat]
  have hfreedv : ∀ i : Nat, freedFat S (dataAddress S) i
      = if i < 8192 / b then lastBlockMarker else freeBlockMarker := by
    intro i
    rw [hfreed]
    unfold clearChain
    rw [formatTable_apply b hb]
    by_cases h1 : i = 8192 / b
    · rw [if_pos (by rw [h1]; exact List.mem_singleton_self _), if_neg (by omega)]
    · rw [if_neg (by rw [List.mem_singleton]; exact h1)]
      by_cases h3 : i < 8192 / b
      · rw [if_pos (by omega), if_pos h3]
      · rw [if_neg (by omega), if_neg h3]
  have hpin : fatPinned S.sb.blockSize (freedFat S (dataAddress S)) := by
    intro i hi
    rw [hbsz, hda] at hi
    rw [hfreedv, if_pos (by omega)]
  have hk : blocksNeeded (serializeDirectory [e]).length S.sb.blockSize = 1 := by
    rw [hlen, hbsz]
    unfold blocksNeeded
    exact Nat.div_eq_of_lt_le (by omega) (by omega)
  have hcount : 1 ≤ freeBlockCount (freedFat S (dataAddress S)) := by
    rw [hfreed, freeBlockCount_clearChain [8192 / b] _ (List.nodup_singleton _)
      (by
        intro c hc
        rw [List.mem_singleton] at hc
        rw [hc, formatTable_apply b hb, if_pos (Nat.le_refl _)]
        exact ⟨by omega, by decide⟩)]
    rw [List.length_singleton]
    omega
  obtain ⟨a, u, hrun⟩ := writeBlocks_success S (dataAddress S) (serializeDirectory [e]) hbS hwf
    (Or.inr hrange) hne (by rw [hk]; exact hcount)
  obtain ⟨c, r, htake, hlen2, ha, husb, huclock, hutick, -, hufat, -, -, -, hread, -⟩ :=
    writeBlocks_effect S (dataAddress S) (serializeDirectory [e]) a u hbS hwf (Or.inr hrange)
      hpin hne hrun
  rw [hk] at htake hlen2 hread
  have hr : r = [] := by
    cases r with
    | nil => rfl
    | cons x y => simp at hlen2
  have hstart : scanStart S (dataAddress S) = 8192 / b := by
    unfold scanStart
    rw [if_neg (by rw [hdaS]; unfold lastBlockMarker; omega), hdaS, Int.toNat_ofNat]
  rw [hstart] at htake
  have hc : c = 8192 / b :=
    take_freeIn_head _ _ _ _ _ (by omega) (by rw [hfreedv, if_neg (by omega)]; rfl) htake
  have hufat2 : u.fat = formatTable b := by
    rw [hufat]
    funext i
    simp only [hr, List.getLast_singleton, linkFat]
    unfold fatSet
    rw [hfreedv, formatTable_apply b hb, hc]
    by_cases h1 : i = 8192 / b
    · rw [if_pos h1, if_pos (by omega)]
    · rw [if_neg h1]
      by_cases h3 : i < 8192 / b
      · rw [if_pos h3, if_pos (by omega)]
      · rw [if_neg h3, if_neg (by omega)]
  have hdirrun := writeDirectory_root S [e] false (dataAddress S) S.sb.rootDirectoryEntrySize a u
    (pathToAddressAndSize_nil S) hrun
  rw [hlen] at hdirrun
  have hw : wrap16 ((32 : Nat) : Int) = 32 := by decide
  rw [hw, hS, he] at hdirrun
  have hformat := format_eq b hb s _ _ hdirrun
  have hbu : u.sb.blockSize = b := by rw [husb, hbsz]
  refine ⟨u, ?_, by rw [husb, hsb], hufat2, by rw [huclock, hclock], by rw [hutick, htick], ?_⟩
  · rw [hformat]
    exact writeFat_persist _ (by
      rw [setRootSize_blockSize, setRootSize_blockSize, hbu]
      exact hb)
  · rw [ha, hc, hlen, hbsz] at hread
    rw [← he, hread]
    have e2 : 1 * b - 32 = b - 32 := by omega
    rw [e2]

/-- Claim C4. For every allowed block size `b` and every device, the formatting
constructor returns and leaves a state with `dataAddress = 8192 / b` (an exact quotient, so
equal to the rounded-up quotient), table entries `[0, dataAddress]` END-OF-CHAIN and all
others FREE, hence `4095 - 8192 / b` FREE entries (4079 for `b = 512`); reading the chain
at `dataAddress` with length `rootDirectoryEntrySize` yields exactly the one entry the
constructor built, named `"/"` with `isDirectory = true`, and `rootDirectoryEntrySize` is
the serialized length of that entry, 32. -/
theorem format_postcondition (b : Nat) (hb : validBlockSize b) (s : FS) :
    ∃ t : FS, format b s = (Except.ok (), t) ∧
      t.sb.blockSize = b ∧ t.sb.partitionId = 1 ∧
      dataAddress t = ((8192 / b : Nat) : Int) ∧ 8192 / b * b = 8192 ∧
      (8192 + b - 1) / b = 8192 / b ∧
      (∀ i : Nat, i ≤ 8192 / b → t.fat i = lastBlockMarker) ∧
      (∀ i : Nat, 8192 / b < i → t.fat i = freeBlockMarker) ∧
      freeBlockCount t.fat = 4095 - 8192 / b ∧
      (b = 512 → dataAddress t = 16 ∧ freeBlockCount t.fat = 4079) ∧
      t.sb.rootDirectoryEntrySize = 32 ∧
      (∃ e : DirectoryEntry,
        readDirectoryAt (dataAddress t) t.sb.rootDirectoryEntrySize t = (Except.ok [e], t) ∧
        e.attributes.name = rootName ∧ e.attributes.isDirectory = true ∧
        e.firstBlockAddress = lastBlockMarker ∧ e.attributes.size = 0 ∧
        ((serializeDirectory [e]).length : Int) = t.sb.rootDirectoryEntrySize) := by
  obtain ⟨hda, hmul, h2, hle, -⟩ := dataAddressOf_valid hb
  have hb512 : 512 ≤ b := by rcases hb with h | h | h | h <;> omega
  obtain ⟨u, hformat, husb, hufat, -, -, hread⟩ := format_run b hb s
  have hbu : u.sb.blockSize = b := by rw [husb]
  obtain ⟨v, hv⟩ : ∃ v : FS, v = setRootSize (setRootSize u 32) 32 := ⟨_, rfl⟩
  have hvbs : v.sb.blockSize = b := by
    rw [hv, setRootSize_blockSize, setRootSize_blockSize, hbu]
  have hvb : validBlockSize v.sb.blockSize := by rw [hvbs]; exact hb
  have hvfat : v.fat = formatTable b := by
    rw [hv, setRootSize_fat, setRootSize_fat, hufat]
  rw [← hv] at hformat
  obtain ⟨t, ht⟩ : ∃ t : FS, t = persist v := ⟨_, rfl⟩
  rw [← ht] at hformat
  have htsb : t.sb = v.sb := by rw [ht, persist_sb v hvb]
  have htbs : t.sb.blockSize = b := by rw [htsb, hvbs]
  have htfat : t.fat = formatTable b := by rw [ht, persist_fat v hvb, hvfat]
  have htroot : t.sb.rootDirectoryEntrySize = 32 := by
    rw [htsb, hv, setRootSize_rootSize]
  have htpid : t.sb.partitionId = 1 := by
    rw [htsb, hv, setRootSize_partitionId, setRootSize_partitionId, husb]
  have htda : dataAddress t = ((8192 / b : Nat) : Int) := by
    unfold dataAddress
    rw [htbs, hda]
  have hcount := freeBlockCount_formatTable b hb
  have hblock : blockOf t (8192 / b) = blockOf u (8192 / b) := by
    rw [ht, persist_blockOf v _ hvb (by rw [hvbs]), hv, setRootSize_blockOf, setRootSize_blockOf]
  have hreadu := readBlocks_chain u ((8192 / b : Nat) : Int) [8192 / b]
    (Or.inl ⟨by unfold dataAddress; rw [hbu, hda], by omega⟩)
    (by rw [hufat]; exact formatTable_chain b hb)
  rw [hread] at hreadu
  have hbytes : blockOf u (8192 / b)
      = serializeDirectory [rootDirectoryEntry (wrap64 (s.clock s.tick))]
        ++ List.replicate (b - 32) 0 := by
    have h3 := congrArg Prod.fst hreadu
    simp only [Except.ok.injEq, List.flatMap_cons, List.flatMap_nil, List.append_nil] at h3
    exact h3.symm
  have hreadt := readBlocks_chain t ((8192 / b : Nat) : Int) [8192 / b]
    (Or.inl ⟨by rw [htda], by omega⟩) (by rw [htfat]; exact formatTable_chain b hb)
  simp only [List.flatMap_cons, List.flatMap_nil, List.append_nil] at hreadt
  rw [hblock, hbytes] at hreadt
  refine ⟨t, hformat, htbs, htpid, htda, hmul, ?_, ?_, ?_, ?_, ?_, htroot,
    rootDirectoryEntry (wrap64 (s.clock s.tick)), ?_, rfl, rfl, rfl, rfl, ?_⟩
  · rcases hb with h | h | h | h <;> rw [h]
  · intro i hi
    rw [htfat, formatTable_apply b hb, if_pos hi]
  · intro i hi
    rw [htfat, formatTable_apply b hb, if_neg (by omega)]
  · rw [htfat, hcount]
  · intro h512
    rw [htda, htfat, hcount, h512]
    exact ⟨rfl, rfl⟩
  · have hts : toSizeT 32 = 32 := by decide
    rw [htda, htroot, readDirectoryAt_of_readBlocks _ _ _ _ hreadt, hts]
    have hl := rootDirectoryEntry_length (wrap64 (s.clock s.tick))
    have hd := deserializeDirectory_serialize [rootDirectoryEntry (wrap64 (s.clock s.tick))]
      (List.replicate (b - 32) 0)
      (by
        intro e he
        rw [List.mem_singleton] at he
        rw [he]
        exact rootDirectoryEntry_inRange _)
    rw [hl] at hd
    rw [hd]
    rfl
  · rw [htroot, rootDirectoryEntry_length]
    rfl

theorem format_postcondition_witness :
    validBlockSize 512 ∧
    ∃ t : FS, format 512 (blank 0) = (Except.ok (), t) ∧ t.fat 16 = lastBlockMarker ∧
      t.fat 17 = freeBlockMarker ∧ freeBlockCount t.fat = 4079 ∧
      t.sb.rootDirectoryEntrySize = 32 :=
  have h : validBlockSize 512 := by decide
  match format_postcondition 512 h (blank 0) with
  | ⟨t, h1, _, _, _, _, _, h7, h8, h9, _, h11, _⟩ =>
    ⟨h, t, h1, h7 16 (by decide), h8 17 (by decide), h9, h11⟩

theorem writeFatBlocks_content (buffer : List Byte) (n : Nat) (s : FS) (hn : n ≤ 4096)
    (hbs : validBlockSize s.sb.blockSize) :
    ∃ d : Disk, writeFatBlocks buffer n s = (Except.ok (), { s with disk := d }) ∧
      ∀ k, k < n → blockOf { s with disk := d } k
        = (Block.slice buffer (k * s.sb.blockSize) s.sb.blockSize).bytes := by
  induction n with
  | zero => exact ⟨s.disk, rfl, fun k hk => absurd hk (Nat.not_lt_zero k)⟩
  | succ n ih =>
    obtain ⟨d, hd, hcontent⟩ := ih (by omega)
    obtain ⟨t, ht⟩ : ∃ t : FS, t = { s with disk := d } := ⟨_, rfl⟩
    have htsb : t.sb = s.sb := by rw [ht]
    have htfat : t.fat = s.fat := by rw [ht]
    rw [← ht] at hd hcontent
    have hw := writeBlock_run (n : Int) (Block.slice buffer (n * t.sb.blockSize) t.sb.blockSize)
      t (by omega) (by omega) rfl
    rw [Int.toNat_ofNat] at hw
    refine ⟨writeSectors t.disk (1 + n * (t.sb.blockSize / sectorSize))
      (Block.slice buffer (n * t.sb.blockSize) t.sb.blockSize).bytes
      (t.sb.blockSize / sectorSize), ?_, ?_⟩
    · rw [writeFatBlocks, bind_ok _ _ _ _ _ hd, bind_ok _ _ _ _ _ (get_run t), hw, ht]
    · intro k hk
      have hbt : validBlockSize t.sb.blockSize := by rw [htsb]; exact hbs
      have e : ({ s with disk := (writeSectors t.disk (1 + n * (t.sb.blockSize / sectorSize))
          (Block.slice buffer (n * t.sb.blockSize) t.sb.blockSize).bytes
          (t.sb.blockSize / sectorSize)) } : FS)
          = putBlock t n (Block.slice buffer (n * t.sb.blockSize) t.sb.blockSize).bytes := by
        rw [ht]
        rfl
      rw [e]
      by_cases hkn : k = n
      · rw [hkn, putBlock_blockOf_same t n _ hbt (Block.slice _ _ _).size_eq, htsb]
      · rw [putBlock_blockOf_other t n k _ hkn, hcontent k (by omega)]

theorem writeFat_eq (s : FS) (hbs : validBlockSize s.sb.blockSize) :
    writeFat s = writeFatBlocks (serializeFat s.fat fatSize) (8192 / s.sb.blockSize) s := by
  obtain ⟨hda, -, -, hle, -⟩ := dataAddressOf_valid hbs
  have e : (dataAddress s - fatAddress).toNat = 8192 / s.sb.blockSize := by
    unfold dataAddress fatAddress
    rw [hda, sub_zero, Int.toNat_ofNat]
  unfold writeFat
  rw [bind_ok _ _ _ _ _ (get_run s), e]

theorem persist_disk (s : FS) (hbs : validBlockSize s.sb.blockSize) (d : Disk)
    (hd : writeFatBlocks (serializeFat s.fat fatSize) (8192 / s.sb.blockSize) s
      = (Except.ok (), { s with disk := d })) :
    persist s = { s with disk := d } := by
  have h1 := writeFat_persist s hbs
  rw [writeFat_eq s hbs, hd] at h1
  exact (Prod.mk.inj h1).2.symm

theorem persist_content (s : FS) (hbs : validBlockSize s.sb.blockSize) (k : Nat)
    (hk : k < 8192 / s.sb.blockSize) :
    blockOf (persist s) k
      = (Block.slice (serializeFat s.fat fatSize) (k * s.sb.blockSize) s.sb.blockSize).bytes := by
  obtain ⟨hda, -, -, hle, -⟩ := dataAddressOf_valid hbs
  obtain ⟨d, hd, hcontent⟩ := writeFatBlocks_content (serializeFat s.fat fatSize)
    (8192 / s.sb.blockSize) s (by omega) hbs
  rw [persist_disk s hbs d hd]
  exact hcontent k hk

theorem serializeFat_succ (fat : Fat) (n : Nat) :
    serializeFat fat (n + 1) = serializeFat fat n ++ serializeI16 [] (fat n) := by
  unfold serializeFat
  rw [List.range_succ, List.flatMap_append, List.flatMap_singleton]

theorem serializeI16_length (v : Int) : (serializeI16 [] v).length = 2 := by
  simp [serializeI16, leBytes_length]

theorem serializeFat_length (fat : Fat) (n : Nat) : (serializeFat fat n).length = 2 * n := by
  induction n with
  | zero => rfl
  | succ n ih =>
    rw [serializeFat_succ, List.length_append, ih, serializeI16_length]
    omega

theorem serializeFat_split (fat : Fat) (n k : Nat) (h : k < n) :
    ∃ b, serializeFat fat n = serializeFat fat k ++ (serializeI16 [] (fat k) ++ b) := by
  induction n with
  | zero => exact absurd h (Nat.not_lt_zero k)
  | succ n ih =>
    by_cases hk : k = n
    · exact ⟨[], by rw [hk, serializeFat_succ, List.append_nil]⟩
    · obtain ⟨b, hb⟩ := ih (by omega)
      exact ⟨b ++ serializeI16 [] (fat n), by
        rw [serializeFat_succ, hb, List.append_assoc, List.append_assoc]⟩

/-- Reading the serialised table back entry by entry. -/
theorem deserializeFat_serialize (fat : Fat) (m : Nat)
    (hr : ∀ i, i < m → -32768 ≤ fat i ∧ fat i ≤ 32767) :
    ∀ n, n ≤ m → ∃ g : Fat, deserializeFat (serializeFat fat m) n = Except.ok g ∧
      ∀ i, i < n → g i = fat i := by
  intro n
  induction n with
  | zero => exact fun _ => ⟨_, rfl, fun i hi => absurd hi (Nat.not_lt_zero i)⟩
  | succ n ih =>
    intro hn
    obtain ⟨g, hg, hval⟩ := ih (by omega)
    obtain ⟨b, hb⟩ := serializeFat_split fat m n (by omega)
    have h16 := deserializeI16_middle (serializeFat fat n) b (fat n) (hr n (by omega)).1
      (hr n (by omega)).2
    rw [← hb, serializeFat_length] at h16
    refine ⟨fatSet g n (fat n), ?_, ?_⟩
    · rw [deserializeFat, hg]
      show (deserializeI16 (serializeFat fat m) (2 * n) >>= fun x => pure (fatSet g n x.1)) = _
      rw [h16]
      rfl
    · intro i hi
      unfold fatSet
      by_cases h : i = n
      · rw [if_pos h, h]
      · rw [if_neg h]
        exact hval i (by omega)

theorem readFatBlocks_run (n : Nat) (s : FS) (hn : n ≤ 4096) :
    readFatBlocks n s = (Except.ok ((List.range n).flatMap (blockOf s)), s) := by
  induction n with
  | zero => rfl
  | succ n ih =>
    have hr := readBlock_run (n : Int) s (by omega) (by omega)
    rw [Int.toNat_ofNat] at hr
    rw [readFatBlocks, bind_ok _ _ _ _ _ (ih (by omega)), bind_ok _ _ _ _ _ hr,
      List.range_succ, List.flatMap_append, List.flatMap_singleton]
    rfl

theorem flatMap_slices (buffer : List Byte) (bs : Nat) (n : Nat) :
    ∀ offset, (List.range n).flatMap (fun k => (Block.slice buffer (offset + k * bs) bs).bytes)
      = slices buffer bs offset n := by
  induction n with
  | zero => intro offset; rfl
  | succ n ih =>
    intro offset
    rw [List.range_succ_eq_map, List.flatMap_cons, List.flatMap_map, slices]
    have e : (fun k => (Block.slice buffer (offset + (k + 1) * bs) bs).bytes)
        = fun k => (Block.slice buffer (offset + bs + k * bs) bs).bytes := by
      funext k
      have : offset + (k + 1) * bs = offset + bs + k * bs := by ring
      rw [this]
    rw [Nat.zero_mul, Nat.add_zero]
    show _ ++ (List.range n).flatMap (fun k => (Block.slice buffer (offset + (k + 1) * bs) bs).bytes)
      = _
    rw [e, ih]

/-- The blocks `[0, dataAddress)` of the image after `writeFat`, concatenated, are the
serialised table. -/
theorem persist_table (s : FS) (hbs : validBlockSize s.sb.blockSize) :
    (List.range (8192 / s.sb.blockSize)).flatMap (blockOf (persist s))
      = serializeFat s.fat fatSize := by
  obtain ⟨-, hmul, -⟩ := dataAddressOf_valid hbs
  have e : (List.range (8192 / s.sb.blockSize)).flatMap (blockOf (persist s))
      = (List.range (8192 / s.sb.blockSize)).flatMap
          (fun k => (Block.slice (serializeFat s.fat fatSize) (0 + k * s.sb.blockSize)
            s.sb.blockSize).bytes) := by
    apply List.flatMap_congr
    intro k hk
    rw [List.mem_range] at hk
    rw [persist_content s hbs k hk, Nat.zero_add]
  have hlen : (serializeFat s.fat fatSize).length = 8192 / s.sb.blockSize * s.sb.blockSize := by
    rw [serializeFat_length, hmul]
    rfl
  rw [e, flatMap_slices, slices_eq_resize, List.drop_zero, resize_of_length hlen]

theorem deserializeU8_middle (a b : List Byte) (v : Nat) (hv : v < 256) :
    deserializeU8 (a ++ (leBytes 1 v ++ b)) a.length = Except.ok (v, a.length + 1) := by
  unfold deserializeU8
  have h := readBytes_middle a (leBytes 1 v) b
  rw [leBytes_length] at h
  rw [h]
  show Except.ok (leValue (leBytes 1 v), a.length + 1) = _
  rw [leValue_leBytes, Nat.mod_eq_of_lt (by omega)]

theorem deserializeU16_middle (a b : List Byte) (v : Nat) (hv : v < 65536) :
    deserializeU16 (a ++ (leBytes 2 v ++ b)) a.length = Except.ok (v, a.length + 2) := by
  unfold deserializeU16
  have h := readBytes_middle a (leBytes 2 v) b
  rw [leBytes_length] at h
  rw [h]
  show Except.ok (leValue (leBytes 2 v), a.length + 2) = _
  rw [leValue_leBytes, Nat.mod_eq_of_lt (by omega)]

theorem resize_append_left (a b : List Byte) (n : Nat) (h : a.length ≤ n) :
    resize (a ++ b) n = a ++ resize b (n - a.length) := by
  unfold resize
  have e : n - (a.length + b.length) = n - a.length - b.length := by omega
  rw [List.take_append_eq_append_take, List.take_of_length_le h, List.length_append,
    List.append_assoc, e]

theorem superblockSector_eq (sb : Superblock) (g : List Byte) :
    superblockSector sb g = leBytes 1 sb.partitionId ++ (leBytes 2 sb.blockSize
      ++ (serializeI16 [] sb.rootDirectoryEntrySize ++ resize (g.drop 5) 507)) := by
  unfold superblockSector
  have hl : (serializeI16 (serializeU16 (serializeU8 [] sb.partitionId) sb.blockSize)
      sb.rootDirectoryEntrySize).length = 5 := by
    simp [serializeI16, serializeU16, serializeU8, leBytes_length]
  have e : sectorSize - 5 = 507 := by decide
  rw [resize_append_left _ _ _ (by rw [hl]; decide), hl, e]
  simp only [serializeI16, serializeU16, serializeU8, List.nil_append, List.append_assoc]

theorem superblockSector_length (sb : Superblock) (g : List Byte) :
    (superblockSector sb g).length = sectorSize :=
  resize_length _ _

/-- Reading the superblock back from a sector 0 that `writeSuperblock` wrote. -/
theorem readSuperblock_run (s : FS) (sb : Superblock) (g : List Byte)
    (hsec : s.disk 0 = superblockSector sb g)
    (hpid : sb.partitionId < 256) (hbs : sb.blockSize < 65536)
    (hroot : -32768 ≤ sb.rootDirectoryEntrySize ∧ sb.rootDirectoryEntrySize ≤ 32767) :
    readSuperblock s = (Except.ok (), { s with sb := sb }) := by
  have hread : s.disk.read 0 = superblockSector sb g := by
    unfold Disk.read
    rw [hsec, resize_of_length (superblockSector_length sb g)]
  have h1 := deserializeU8_middle [] (leBytes 2 sb.blockSize
      ++ (serializeI16 [] sb.rootDirectoryEntrySize ++ resize (g.drop 5) 507)) sb.partitionId
      hpid
  have h2 := deserializeU16_middle (leBytes 1 sb.partitionId)
      (serializeI16 [] sb.rootDirectoryEntrySize ++ resize (g.drop 5) 507) sb.blockSize hbs
  have h3 := deserializeI16_middle (leBytes 1 sb.partitionId ++ leBytes 2 sb.blockSize)
      (resize (g.drop 5) 507) sb.rootDirectoryEntrySize hroot.1 hroot.2
  rw [List.nil_append, ← superblockSector_eq, List.length_nil, Nat.zero_add] at h1
  rw [← superblockSector_eq, leBytes_length] at h2
  rw [List.append_assoc, ← superblockSector_eq, List.length_append, leBytes_length,
    leBytes_length] at h3
  unfold readSuperblock
  rw [bind_ok _ _ _ _ _ (get_run s)]
  dsimp only
  rw [hread, h1]
  rw [bind_ok _ _ _ _ _ (liftE_ok_run _ s)]
  dsimp only
  rw [h2, bind_ok _ _ _ _ _ (liftE_ok_run _ s)]
  dsimp only
  rw [h3, bind_ok _ _ _ _ _ (liftE_ok_run _ s)]
  rfl

/-- Reading the table back from blocks that hold the serialised table `fat`. -/
theorem readFat_run (s : FS) (fat : Fat) (hbs : validBlockSize s.sb.blockSize)
    (htable : (List.range (8192 / s.sb.blockSize)).flatMap (blockOf s)
      = serializeFat fat fatSize)
    (hr : ∀ i, i < fatSize → -32768 ≤ fat i ∧ fat i ≤ 32767) :
    readFat s
      = (Except.ok (), { s with fat := fun i => if i < fatSize then fat i else s.fat i }) := by
  obtain ⟨hda, -, -, hle, -⟩ := dataAddressOf_valid hbs
  have e : (dataAddress s - fatAddress).toNat = 8192 / s.sb.blockSize := by
    unfold dataAddress fatAddress
    rw [hda, sub_zero, Int.toNat_ofNat]
  obtain ⟨g, hg, hval⟩ := deserializeFat_serialize fat fatSize hr fatSize (Nat.le_refl _)
  have hfun : (fun i => if i < fatSize then g i else s.fat i)
      = fun i => if i < fatSize then fat i else s.fat i := by
    funext i
    by_cases h : i < fatSize
    · rw [if_pos h, if_pos h, hval i h]
    · rw [if_neg h, if_neg h]
  rw [readFat, bind_ok _ _ _ _ _ (get_run s), e,
    bind_ok _ _ _ _ _ (readFatBlocks_run _ s (by omega)), htable, hg,
    bind_ok _ _ _ _ _ (liftE_ok_run _ s), ← hfun]
  rfl

/-- Opening an image that holds the state `s` gives the new object the superblock and
the 4096 table entries of `s`, whatever its fields held before. -/
theorem openImage_persisted (s : FS) (hp : Persisted s) (sb0 : Superblock) (fat0 : Fat) :
    openImage { s with sb := sb0, fat := fat0 }
      = (Except.ok (), { s with fat := fun i => if i < fatSize then s.fat i else fat0 i }) := by
  obtain ⟨⟨hbs, hpid, hroot, hrange, hsec⟩, htable⟩ := hp
  have hb : s.sb.blockSize < 65536 := by rcases hbs with h | h | h | h <;> omega
  obtain ⟨x, hx⟩ : ∃ x : FS, x = { s with sb := sb0, fat := fat0 } := ⟨_, rfl⟩
  have hxd : x.disk = s.disk := by rw [hx]
  obtain ⟨g, hsec⟩ := hsec
  have h1 := readSuperblock_run x s.sb g (by rw [hxd]; exact hsec) (by omega) hb hroot
  obtain ⟨y, hy⟩ : ∃ y : FS, y = { x with sb := s.sb } := ⟨_, rfl⟩
  have hyd : y.disk = s.disk := by rw [hy, ← hxd]
  have hysb : y.sb = s.sb := by rw [hy]
  have hyfat : y.fat = fat0 := by rw [hy, hx]
  have hyc : y.clock = s.clock := by rw [hy, hx]
  have hyt : y.tick = s.tick := by rw [hy, hx]
  have hblocks : (List.range (8192 / y.sb.blockSize)).flatMap (blockOf y)
      = serializeFat s.fat fatSize := by
    rw [← htable, hysb]
    apply List.flatMap_congr
    intro k _
    exact blockOf_eq_of_disk s y k hyd hysb
  have h2 := readFat_run y s.fat (by rw [hysb]; exact hbs) hblocks hrange
  rw [← hx]
  unfold openImage
  have hyu : y.uninit = s.uninit := by rw [hy, hx]
  have hyv : y.uninitUsed = s.uninitUsed := by rw [hy, hx]
  rw [bind_ok _ _ _ _ _ h1, ← hy, h2, hyd, hysb, hyfat, hyc, hyt, hyu, hyv]

theorem run_ok_inj {α : Type} {a : α} {s : FS} {r : Except Error α} {t : FS}
    (h : (Except.ok a, s) = (r, t)) : r = Except.ok a ∧ t = s := by
  cases h
  exact ⟨rfl, rfl⟩

theorem run_error_inj {α : Type} {e : Error} {s : FS} {r : Except Error α} {t : FS}
    (h : ((Except.error e : Except Error α), s) = (r, t)) : r = Except.error e ∧ t = s := by
  cases h
  exact ⟨rfl, rfl⟩

/-! ### Steady -/

theorem steady_pure {α : Type} (a : α) : Steady (pure a : M α) := by
  intro s r t hs h
  obtain ⟨h1, h2⟩ := run_ok_inj h
  rw [h1, h2]
  exact ⟨hs, fun hc => by cases hc⟩

theorem steady_get : Steady get := by
  intro s r t hs h
  obtain ⟨h1, h2⟩ := run_ok_inj h
  rw [h1, h2]
  exact ⟨hs, fun hc => by cases hc⟩

theorem steady_throw {α : Type} (e : Error) (he : e ≠ Error.noSuchFileOrDirectory) :
    Steady (throw e : M α) := by
  intro s r t hs h
  obtain ⟨h1, h2⟩ := run_error_inj h
  rw [h1, h2]
  exact ⟨hs, fun hc => he (by cases hc; rfl)⟩

theorem steady_assert (c : Bool) : Steady (assert c) := by
  cases c
  · exact steady_throw _ (by decide)
  · exact steady_pure _

theorem steady_modify (f : FS → FS) (hf : ∀ s, SuperblockSaved s → SuperblockSaved (f s)) :
    Steady (modify f) := by
  intro s r t hs h
  obtain ⟨h1, h2⟩ := run_ok_inj h
  rw [h1, h2]
  exact ⟨hf s hs, fun hc => by cases hc⟩

theorem steady_bind {α β : Type} {m : M α} {f : α → M β} (hm : Steady m)
    (hf : ∀ a, Steady (f a)) : Steady (m >>= f) := by
  intro s r t hs h
  rw [bind_run] at h
  cases hr : m s with
  | mk r1 t1 =>
    rw [hr] at h
    obtain ⟨h1, h2⟩ := hm s r1 t1 hs hr
    cases r1 with
    | ok a => exact hf a t1 r t h1 h
    | error e =>
      obtain ⟨h3, h4⟩ := run_error_inj h
      rw [h3, h4]
      exact ⟨h1, fun hc => h2 (by cases hc; rfl)⟩

theorem steady_ite {α : Type} (c : Prop) [Decidable c] {m n : M α} (hm : Steady m)
    (hn : Steady n) : Steady (if c then m else n) := by
  split
  · exact hm
  · exact hn

/-- A bind after a pure fallible step: the continuation is only needed for the values
the step can return. -/
theorem steady_bind_liftE {α β : Type} {x : Except Error α} {f : α → M β}
    (hx : x ≠ Except.error Error.noSuchFileOrDirectory)
    (hf : ∀ a, x = Except.ok a → Steady (f a)) : Steady (liftE x >>= f) := by
  cases x with
  | ok a => exact hf a rfl
  | error e =>
    intro s r t hs h
    obtain ⟨h3, h4⟩ := run_error_inj h
    rw [h3, h4]
    exact ⟨hs, fun hc => hx (by cases hc; rfl)⟩

/-! ### Settles -/

theorem settles_throw {α : Type} (e : Error) (he : e ≠ Error.noSuchFileOrDirectory) :
    Settles (throw e : M α) := by
  intro s r t hs h
  obtain ⟨h1, h2⟩ := run_error_inj h
  rw [h1]
  exact ⟨fun hc => he (by cases hc; rfl), fun a ha => by cases ha⟩

theorem settles_bind {α β : Type} {m : M α} {f : α → M β} (hm : Steady m)
    (hf : ∀ a, Settles (f a)) : Settles (m >>= f) := by
  intro s r t hs h
  rw [bind_run] at h
  cases hr : m s with
  | mk r1 t1 =>
    rw [hr] at h
    obtain ⟨h1, h2⟩ := hm s r1 t1 hs hr
    cases r1 with
    | ok a => exact hf a t1 r t h1 h
    | error e =>
      obtain ⟨h3, h4⟩ := run_error_inj h
      rw [h3]
      exact ⟨fun hc => h2 (by cases hc; rfl), fun a ha => by cases ha⟩

theorem settles_ite {α : Type} (c : Prop) [Decidable c] {m n : M α} (hm : Settles m)
    (hn : Settles n) : Settles (if c then m else n) := by
  split
  · exact hm
  · exact hn

theorem settles_bind_liftE {α β : Type} {x : Except Error α} {f : α → M β}
    (hx : x ≠ Except.error Error.noSuchFileOrDirectory)
    (hf : ∀ a, x = Except.ok a → Settles (f a)) : Settles (liftE x >>= f) := by
  cases x with
  | ok a => exact hf a rfl
  | error e =>
    intro s r t hs h
    obtain ⟨h3, h4⟩ := run_error_inj h
    rw [h3]
    exact ⟨fun hc => hx (by cases hc; rfl), fun a ha => by cases ha⟩

/-- After `writeFat` the image holds the whole state. -/
theorem persisted_persist (s : FS) (hs : SuperblockSaved s) : Persisted (persist s) := by
  obtain ⟨hbs, hpid, hroot, hrange, hsec⟩ := hs
  obtain ⟨d, hd, hframe⟩ := persist_eq s hbs
  have hsb : (persist s).sb = s.sb := persist_sb s hbs
  have hfat : (persist s).fat = s.fat := persist_fat s hbs
  have hdisk : (persist s).disk 0 = s.disk 0 := by
    rw [hd]
    exact hframe 0 (Or.inl (by omega))
  refine ⟨⟨by rw [hsb]; exact hbs, by rw [hsb]; exact hpid, by rw [hsb]; exact hroot,
    by rw [hfat]; exact hrange, by rw [hdisk, hsb]; exact hsec⟩, ?_⟩
  rw [hsb, hfat]
  exact persist_table s hbs

theorem settles_writeFat : Settles writeFat := by
  intro s r t hs h
  rw [writeFat_persist s hs.1] at h
  obtain ⟨h1, h2⟩ := run_ok_inj h
  rw [h1, h2]
  exact ⟨fun hc => (by cases hc), fun _ _ => persisted_persist s hs⟩

theorem settles_writeFat_pure {α : Type} (a : α) :
    Settles (writeFat >>= fun _ => (pure a : M α)) := by
  intro s r t hs h
  rw [bind_ok _ _ _ _ _ (writeFat_persist s hs.1)] at h
  obtain ⟨h1, h2⟩ := run_ok_inj h
  rw [h1, h2]
  exact ⟨fun hc => (by cases hc), fun _ _ => persisted_persist s hs⟩

/-! ### Preserves -/

theorem preserves_of_settles {α : Type} {m : M α} (h : Settles m) : Preserves m := by
  intro s r t hp hrun hr
  obtain ⟨h1, h2⟩ := h s r t hp.1 hrun
  rcases hr with hr | ⟨a, ha⟩
  · exact absurd hr h1
  · exact h2 a ha

theorem preserves_of_readOnly {α : Type} {m : M α} (h : ReadOnly m) : Preserves m := by
  intro s r t hp hrun _
  have h2 := h s
  rw [hrun] at h2
  have h3 : t = s := h2
  rw [h3]
  exact hp

theorem preserves_pure {α : Type} (a : α) : Preserves (pure a : M α) :=
  preserves_of_readOnly (readOnly_pure a)

theorem preserves_throw {α : Type} (e : Error) : Preserves (throw e : M α) :=
  preserves_of_readOnly (readOnly_throw e)

theorem preserves_bind {α β : Type} {m : M α} {f : α → M β} (hm : Preserves m)
    (hf : ∀ a, Preserves (f a)) : Preserves (m >>= f) := by
  intro s r t hp h hr
  rw [bind_run] at h
  cases hrun : m s with
  | mk r1 t1 =>
    rw [hrun] at h
    cases r1 with
    | ok a => exact hf a t1 r t (hm s _ t1 hp hrun (Or.inr ⟨a, rfl⟩)) h hr
    | error e =>
      obtain ⟨h3, h4⟩ := run_error_inj h
      rw [h4]
      refine hm s _ t1 hp hrun (Or.inl ?_)
      rcases hr with hr | ⟨a, ha⟩
      · rw [h3] at hr
        cases hr
        rfl
      · rw [h3] at ha
        cases ha

theorem preserves_ite {α : Type} (c : Prop) [Decidable c] {m n : M α} (hm : Preserves m)
    (hn : Preserves n) : Preserves (if c then m else n) := by
  split
  · exact hm
  · exact hn

theorem persisted_tick (s : FS) (n : Nat) (hp : Persisted s) :
    Persisted { s with tick := n } := hp

theorem preserves_getNow : Preserves getNow := by
  intro s r t hp h _
  obtain ⟨-, h2⟩ := run_ok_inj h
  rw [h2]
  exact persisted_tick s _ hp

theorem preserves_tryCatch {α : Type} {body handler : M α} (hb : Preserves body)
    (hh : Preserves handler) : Preserves (tryCatchNoSuchFile body handler) := by
  intro s r t hp h hr
  cases hrun : body s with
  | mk r1 t1 =>
    by_cases hmiss : r1 = Except.error Error.noSuchFileOrDirectory
    · have h2 : tryCatchNoSuchFile body handler s = handler t1 := by
        unfold tryCatchNoSuchFile
        rw [hrun, hmiss]
      rw [h2] at h
      exact hh t1 r t (hb s r1 t1 hp hrun (Or.inl hmiss)) h hr
    · have h2 : tryCatchNoSuchFile body handler s = (r1, t1) := by
        unfold tryCatchNoSuchFile
        rw [hrun]
        cases r1 with
        | ok a => rfl
        | error e =>
          cases e <;> first | rfl | exact absurd rfl hmiss
      rw [h2] at h
      obtain ⟨h3, h4⟩ := Prod.mk.inj h
      rw [← h4]
      exact hb s r1 t1 hp hrun (by rw [h3]; exact hr)

/-! ### The primitives -/

theorem superblockSaved_fatSet (s : FS) (i : Nat) (v : Int) (hv : -32768 ≤ v ∧ v ≤ 32767)
    (hs : SuperblockSaved s) : SuperblockSaved { s with fat := fatSet s.fat i v } := by
  obtain ⟨hbs, hpid, hroot, hrange, hsec⟩ := hs
  refine ⟨hbs, hpid, hroot, ?_, hsec⟩
  intro j hj
  show -32768 ≤ fatSet s.fat i v j ∧ fatSet s.fat i v j ≤ 32767
  unfold fatSet
  split
  · exact hv
  · exact hrange j hj

theorem superblockSaved_writeSectors (s : FS) (st : Nat) (bytes : List Byte) (n : Nat)
    (hst : 1 ≤ st) (hs : SuperblockSaved s) :
    SuperblockSaved { s with disk := writeSectors s.disk st bytes n } := by
  obtain ⟨hbs, hpid, hroot, hrange, g, hsec⟩ := hs
  refine ⟨hbs, hpid, hroot, hrange, g, ?_⟩
  show writeSectors s.disk st bytes n 0 = superblockSector s.sb g
  rw [writeSectors_apply, if_neg (by omega)]
  exact hsec

theorem writeBlock_steady (b : Int) {n : Nat} (block : Block n) : Steady (writeBlock b block) := by
  rw [writeBlock]
  exact steady_bind (steady_assert _) fun _ => steady_bind steady_get fun _ =>
    steady_bind (steady_assert _) fun _ =>
      steady_modify _ fun s hs => superblockSaved_writeSectors s _ _ _ (by omega) hs

theorem fatGet_ok_range (fat : Fat) (i v : Int) (h : fatGet fat i = Except.ok v) :
    0 ≤ i ∧ i < 4096 := by
  unfold fatGet at h
  split at h
  · rename_i hc
    exact hc
  · cases h

theorem fatGet_ne_missing (fat : Fat) (i : Int) :
    fatGet fat i ≠ Except.error Error.noSuchFileOrDirectory := by
  unfold fatGet
  split
  · intro h; cases h
  · intro h; cases h

theorem freeBlocksLoop_steady (fuel : Nat) : ∀ a : Int, Steady (freeBlocksLoop fuel a) := by
  induction fuel with
  | zero => intro a; rw [freeBlocksLoop]; exact steady_throw _ (by decide)
  | succ fuel ih =>
    intro a
    rw [freeBlocksLoop]
    exact steady_ite _ (steady_bind steady_get fun _ =>
      steady_bind_liftE (fatGet_ne_missing _ _) fun _ _ =>
      steady_bind (steady_modify _ fun s hs => superblockSaved_fatSet s _ _ (by decide) hs)
        fun _ => ih _) (steady_pure _)

theorem freeBlocks_settles (a : Int) : Settles (freeBlocks a) := by
  rw [freeBlocks]
  exact settles_bind steady_get fun _ => settles_bind (steady_assert _) fun _ =>
    settles_bind (freeBlocksLoop_steady _ _) fun _ => settles_writeFat

theorem writeBlocksLoop_settles (buffer : List Byte) (start : Int) (fuel : Nat) :
    ∀ (curr prev first : Int) (offset : Nat),
      Settles (writeBlocksLoop buffer start fuel curr prev first offset) := by
  induction fuel with
  | zero => intro c p f o; rw [writeBlocksLoop]; exact settles_throw _ (by decide)
  | succ fuel ih =>
    intro c p f o
    rw [writeBlocksLoop]
    refine settles_bind steady_get fun s => settles_bind_liftE (fatGet_ne_missing _ _)
      fun entry hentry => ?_
    obtain ⟨hc0, hc1⟩ := fatGet_ok_range _ _ _ hentry
    have hcr : -32768 ≤ c ∧ c ≤ 32767 := ⟨by omega, by omega⟩
    have hnext : ∀ (p f : Int) (o : Nat), Settles
        (if wrap16 ((toSizeT (c + 1) % fatSize : Nat) : Int) = start then throw Error.fileSystemFull
         else writeBlocksLoop buffer start fuel (wrap16 ((toSizeT (c + 1) % fatSize : Nat) : Int))
           p f o) := fun p f o =>
      settles_ite _ (settles_throw _ (by decide)) (ih _ _ _ _)
    have hend : ∀ f : Int, Settles
        (modify (fun s => { s with fat := fatSet s.fat c.toNat lastBlockMarker }) >>= fun _ =>
          writeFat >>= fun _ => (pure f : M Int)) := fun f =>
      settles_bind (steady_modify _ fun s hs => superblockSaved_fatSet s _ _ (by decide) hs)
        fun _ => settles_writeFat_pure _
    exact settles_ite (entry = freeBlockMarker)
      (settles_bind (writeBlock_steady _ _) fun _ =>
        settles_ite (p ≠ -1)
          (settles_bind (steady_modify _ fun s hs => superblockSaved_fatSet s _ _ hcr hs) fun _ =>
            settles_ite (o + s.sb.blockSize ≥ buffer.length) (hend _) (hnext _ _ _))
          (settles_bind (steady_pure _) fun _ =>
            settles_ite (o + s.sb.blockSize ≥ buffer.length) (hend _) (hnext _ _ _)))
      (hnext _ _ _)

theorem writeBlocks_preserves (a : Int) (buffer : List Byte) :
    Preserves (writeBlocks a buffer) := by
  rw [writeBlocks]
  have hjp : ∀ blockAddress : Int, Preserves
      (if buffer.isEmpty = true then (pure lastBlockMarker : M Int)
       else writeBlocksLoop buffer blockAddress fatSize blockAddress (-1) (-1) 0) := by
    intro blockAddress
    split
    · exact preserves_pure _
    · exact preserves_of_settles (writeBlocksLoop_settles _ _ _ _ _ _ _)
  exact preserves_bind (preserves_of_readOnly readOnly_get) fun s =>
    preserves_ite (a = lastBlockMarker) (preserves_bind (preserves_pure _) fun y => hjp y)
      (preserves_bind (preserves_of_settles (freeBlocks_settles _)) fun _ =>
        preserves_bind (preserves_pure _) fun y => hjp y)

theorem persisted_setRootSize (s : FS) (n : Int) (hn : -32768 ≤ n ∧ n ≤ 32767)
    (hp : Persisted s) : Persisted (setRootSize s n) := by
  obtain ⟨⟨hbs, hpid, hroot, hrange, hsec⟩, htable⟩ := hp
  have hsb : (setRootSize s n).sb.blockSize = s.sb.blockSize := setRootSize_blockSize s n
  have hfat : (setRootSize s n).fat = s.fat := setRootSize_fat s n
  refine ⟨⟨by rw [hsb]; exact hbs, by rw [setRootSize_partitionId]; exact hpid,
    by rw [setRootSize_rootSize]; exact hn, by rw [hfat]; exact hrange, ?_⟩, ?_⟩
  · exact ⟨_, setRootSize_sector s n⟩
  · rw [hsb, hfat, ← htable]
    apply List.flatMap_congr
    intro k _
    exact setRootSize_blockOf s n k

theorem preserves_setRoot {α : Type} (n : Int) (a : α) :
    Preserves (modify (fun s => { s with sb := { s.sb with rootDirectoryEntrySize := wrap16 n } })
      >>= fun _ => writeSuperblock >>= fun _ => (pure a : M α)) := by
  intro s r t hp h _
  rw [bind_ok _ _ _ _ _ (modify_run _ _), bind_ok _ _ _ _ _ (writeSuperblock_run _)] at h
  obtain ⟨-, h2⟩ := run_ok_inj h
  rw [h2]
  exact persisted_setRootSize s (wrap16 n) (wrap16_range n) hp

theorem writeDirectoryEntryWith_preserves (wd : Path → List DirectoryEntry → Bool → M Int)
    (hwd : ∀ p d u, Preserves (wd p d u)) (path : Path) (entry : DirectoryEntry) :
    Preserves (writeDirectoryEntryWith wd path entry) := by
  unfold writeDirectoryEntryWith
  refine preserves_bind (preserves_of_readOnly (parentPath_readOnly _)) fun _ =>
    preserves_bind (preserves_of_readOnly (readDirectory_readOnly _)) fun _ =>
    preserves_bind (preserves_of_readOnly (pathToName_readOnly _)) fun _ => ?_
  split
  · exact preserves_bind (preserves_of_readOnly (parentPath_readOnly _)) fun _ =>
      preserves_bind (hwd _ _ _) fun _ => preserves_pure _
  · exact preserves_throw _

theorem writeDirectoryAux_preserves (fuel : Nat) :
    ∀ (path : Path) (directory : List DirectoryEntry) (u : Bool),
      Preserves (writeDirectoryAux fuel path directory u) := by
  induction fuel with
  | zero => intro p d u; rw [writeDirectoryAux]; exact preserves_throw _
  | succ fuel ih =>
    intro p d u
    rw [writeDirectoryAux]
    refine preserves_bind (preserves_of_readOnly (checkIsDirectory_readOnly _ _)) fun _ =>
      preserves_bind (preserves_of_readOnly (pathToAddressAndSize_readOnly _)) fun x => ?_
    obtain ⟨address, sz⟩ := x
    dsimp only
    refine preserves_bind (writeBlocks_preserves _ _) fun address2 => ?_
    refine preserves_ite (p = []) (preserves_setRoot _ _) ?_
    refine preserves_bind (preserves_of_readOnly (readDirectoryEntry_readOnly _)) fun entry => ?_
    have hjp : ∀ (c : Bool) (e : DirectoryEntry), Preserves
        (if (c || u) = true then
          (writeDirectoryEntryWith (writeDirectoryAux fuel) p e >>= fun _ =>
            (pure (wrap16 ((serializeDirectory d).length : Int)) : M Int))
         else ((pure PUnit.unit : M PUnit) >>= fun _ =>
            (pure (wrap16 ((serializeDirectory d).length : Int)) : M Int))) := fun c e =>
      preserves_ite ((c || u) = true)
        (preserves_bind (writeDirectoryEntryWith_preserves _ ih _ _) fun _ =>
          preserves_pure _)
        (preserves_bind (preserves_pure _) fun _ => preserves_pure _)
    exact preserves_ite (u = true)
      (preserves_bind preserves_getNow fun now =>
        preserves_bind (preserves_pure _) fun y => hjp _ y)
      (preserves_bind (preserves_pure _) fun y => hjp _ y)

theorem writeDirectory_preserves (path : Path) (directory : List DirectoryEntry) (u : Bool) :
    Preserves (writeDirectory path directory u) :=
  writeDirectoryAux_preserves _ _ _ _

theorem writeDirectoryEntry_preserves (path : Path) (entry : DirectoryEntry) :
    Preserves (writeDirectoryEntry path entry) :=
  writeDirectoryEntryWith_preserves _ (fun p d u => writeDirectory_preserves p d u) _ _

theorem writeAttributes_preserves (path : Path) (attributes : FileAttributes) :
    Preserves (writeAttributes path attributes) := by
  unfold writeAttributes
  exact preserves_bind (preserves_of_readOnly (readDirectoryEntry_readOnly _)) fun _ =>
    writeDirectoryEntry_preserves _ _

theorem freeBlocksPath_preserves (path : Path) : Preserves (freeBlocksPath path) := by
  unfold freeBlocksPath
  refine preserves_bind (preserves_of_readOnly (pathToAddressAndSize_readOnly _)) fun x => ?_
  obtain ⟨address, sz⟩ := x
  exact preserves_of_settles (freeBlocks_settles _)

theorem createDirectory_preserves (path : Path) : Preserves (createDirectory path) := by
  unfold createDirectory
  refine preserves_bind (preserves_of_readOnly (parentPath_readOnly _)) fun _ =>
    preserves_bind (preserves_of_readOnly (checkPermission_readOnly _ _)) fun _ =>
    preserves_bind (preserves_of_readOnly (parentPath_readOnly _)) fun _ =>
    preserves_bind (preserves_of_readOnly (readDirectory_readOnly _)) fun parent =>
    preserves_bind (preserves_of_readOnly (pathToName_readOnly _)) fun name => ?_
  split
  · exact preserves_throw _
  · exact preserves_bind preserves_getNow fun _ =>
      preserves_bind (preserves_of_readOnly (parentPath_readOnly _)) fun _ =>
      preserves_bind (writeDirectory_preserves _ _ _) fun _ => preserves_pure _

theorem deleteFile_preserves (path : Path) : Preserves (deleteFile path) := by
  unfold deleteFile
  refine preserves_bind (preserves_of_readOnly (checkIsDirectory_readOnly _ _)) fun _ =>
    preserves_bind (preserves_of_readOnly (checkPermission_readOnly _ _)) fun _ =>
    preserves_bind (preserves_of_readOnly (parentPath_readOnly _)) fun _ =>
    preserves_bind (preserves_of_readOnly (readDirectory_readOnly _)) fun parent =>
    preserves_bind (preserves_of_readOnly (pathToName_readOnly _)) fun name =>
    preserves_bind (freeBlocksPath_preserves _) fun _ => ?_
  split
  · exact preserves_bind (preserves_of_readOnly (parentPath_readOnly _)) fun _ =>
      preserves_bind (writeDirectory_preserves _ _ _) fun _ => preserves_pure _
  · exact preserves_pure _

theorem deleteChildren_preserves (dd : Path → M Unit) (hdd : ∀ p, Preserves (dd p))
    (path : Path) : ∀ entries : List DirectoryEntry, Preserves (deleteChildren dd path entries) := by
  intro entries
  induction entries with
  | nil => rw [deleteChildren]; exact preserves_pure _
  | cons entry rest ih =>
    rw [deleteChildren]
    exact preserves_ite (entry.attributes.isDirectory = true)
      (preserves_bind (hdd _) fun _ => ih)
      (preserves_bind (preserves_of_settles (freeBlocks_settles _)) fun _ => ih)

theorem deleteDirectory_preserves (fuel : Nat) :
    ∀ path : Path, Preserves (deleteDirectory fuel path) := by
  induction fuel with
  | zero => intro p; rw [deleteDirectory]; exact preserves_throw _
  | succ fuel ih =>
    intro p
    rw [deleteDirectory]
    refine preserves_bind (preserves_of_readOnly (checkPermission_readOnly _ _)) fun _ =>
      preserves_bind (preserves_of_readOnly (readDirectory_readOnly _)) fun self =>
      preserves_bind (preserves_of_readOnly (parentPath_readOnly _)) fun _ =>
      preserves_bind (preserves_of_readOnly (readDirectory_readOnly _)) fun parent =>
      preserves_bind (preserves_of_readOnly (pathToName_readOnly _)) fun name =>
      preserves_bind (deleteChildren_preserves _ ih _ _) fun _ =>
      preserves_bind (freeBlocksPath_preserves _) fun _ => ?_
    split
    · exact preserves_bind (preserves_of_readOnly (parentPath_readOnly _)) fun _ =>
        preserves_bind (writeDirectory_preserves _ _ _) fun _ => preserves_pure _
    · exact preserves_pure _

theorem writeFile_preserves (path : Path) (data : List Byte) :
    Preserves (writeFile path data) := by
  unfold writeFile
  refine preserves_bind (preserves_of_readOnly (parentPath_readOnly _)) fun _ =>
    preserves_bind (preserves_of_readOnly (readDirectory_readOnly _)) fun parent =>
    preserves_bind (preserves_of_readOnly (pathToName_readOnly _)) fun name =>
    preserves_tryCatch ?_ ?_
  · refine preserves_bind (preserves_of_readOnly (checkIsDirectory_readOnly _ _)) fun _ =>
      preserves_bind (preserves_of_readOnly (checkPermission_readOnly _ _)) fun _ =>
      preserves_bind (preserves_of_readOnly (pathToAddressAndSize_readOnly _)) fun x => ?_
    obtain ⟨address, sz⟩ := x
    exact preserves_bind (writeBlocks_preserves _ _) fun _ =>
      preserves_bind (preserves_of_readOnly (readAttributes_readOnly _)) fun _ =>
      preserves_bind preserves_getNow fun _ => writeAttributes_preserves _ _
  · exact preserves_bind (preserves_of_readOnly (parentPath_readOnly _)) fun _ =>
      preserves_bind (preserves_of_readOnly (checkPermission_readOnly _ _)) fun _ =>
      preserves_bind (writeBlocks_preserves _ _) fun _ =>
      preserves_bind preserves_getNow fun _ =>
      preserves_bind (preserves_of_readOnly (parentPath_readOnly _)) fun _ =>
      preserves_bind (writeDirectory_preserves _ _ _) fun _ => preserves_pure _

theorem chmod_preserves (path : Path) (mode : List Char) : Preserves (chmod path mode) := by
  unfold chmod
  refine preserves_bind (preserves_of_readOnly (readAttributes_readOnly _)) fun _ => ?_
  split
  · exact preserves_throw _
  · exact preserves_bind (preserves_of_readOnly (readOnly_liftE _)) fun _ =>
      writeAttributes_preserves _ _

theorem listDirectory_readOnly (path : Path) : ReadOnly (listDirectory path) := by
  unfold listDirectory
  refine readOnly_bind (checkPermission_readOnly _ _) fun _ =>
    readOnly_bind (readAttributes_readOnly _) fun _ => ?_
  split
  · exact readOnly_pure _
  · exact readOnly_bind (readDirectory_readOnly _) fun _ => readOnly_pure _

theorem readFile_readOnly (path : Path) : ReadOnly (readFile path) := by
  unfold readFile
  refine readOnly_bind (checkIsDirectory_readOnly _ _) fun _ =>
    readOnly_bind (checkPermission_readOnly _ _) fun _ =>
    readOnly_bind (pathToAddressAndSize_readOnly _) fun x => ?_
  obtain ⟨address, sz⟩ := x
  refine readOnly_bind (readBlocks_readOnly _) fun _ => ?_
  split
  · exact readOnly_throw _
  · exact readOnly_pure _

theorem dumpEntries_readOnly (dd : Path → Nat → Int × Int → M (String × (Int × Int)))
    (hdd : ∀ p i c, ReadOnly (dd p i c)) (path : Path) (indent : Nat) :
    ∀ (entries : List DirectoryEntry) (counts : Int × Int),
      ReadOnly (dumpEntries dd path indent entries counts) := by
  intro entries
  induction entries with
  | nil => intro counts; rw [dumpEntries]; exact readOnly_pure _
  | cons entry rest ih =>
    intro counts
    obtain ⟨fc, dc⟩ := counts
    rw [dumpEntries]
    refine readOnly_bind readOnly_get fun _ => readOnly_bind (readOnly_liftE _) fun _ => ?_
    dsimp only
    have hjp : ∀ (line : String) (x : String × (Int × Int)), ReadOnly
        (match x with
          | (sub, counts) => do
            let __discr ← dumpEntries dd path indent rest counts
            match __discr with
              | (tail, counts) => pure (line ++ sub ++ tail, counts)) := by
      intro line x
      obtain ⟨sub, counts⟩ := x
      refine readOnly_bind (ih _) fun y => ?_
      obtain ⟨tail, counts2⟩ := y
      exact readOnly_pure _
    exact readOnly_ite (entry.attributes.isDirectory = true)
      (readOnly_bind (hdd _ _ _) fun x => hjp _ x)
      (readOnly_bind (readOnly_pure _) fun x => hjp _ x)

theorem dumpDirectory_readOnly (fuel : Nat) :
    ∀ (path : Path) (indent : Nat) (counts : Int × Int),
      ReadOnly (dumpDirectory fuel path indent counts) := by
  induction fuel with
  | zero => intro p i c; rw [dumpDirectory]; exact readOnly_throw _
  | succ fuel ih =>
    intro p i c
    rw [dumpDirectory]
    exact readOnly_bind (readDirectory_readOnly _) fun _ => dumpEntries_readOnly _ ih _ _ _ _

theorem dump_readOnly (fuel : Nat) : ReadOnly (dump fuel) := by
  unfold dump
  refine readOnly_bind readOnly_get fun _ =>
    readOnly_bind (dumpDirectory_readOnly _ _ _ _) fun x => ?_
  obtain ⟨d, fc, dc⟩ := x
  exact readOnly_pure _

theorem formatTable_range (b : Nat) (hb : validBlockSize b) (i : Nat) :
    -32768 ≤ formatTable b i ∧ formatTable b i ≤ 32767 := by
  rw [formatTable_apply b hb]
  unfold lastBlockMarker freeBlockMarker
  split <;> omega

/-- The image the formatting constructor leaves holds the state it leaves. -/
theorem format_persisted (b : Nat) (hb : validBlockSize b) (s : FS) :
    ∃ t : FS, format b s = (Except.ok (), t) ∧ Persisted t := by
  obtain ⟨u, hformat, husb, hufat, -, -, -⟩ := format_run b hb s
  refine ⟨_, hformat, persisted_persist _ ?_⟩
  have hbs : (setRootSize (setRootSize u 32) 32).sb.blockSize = b := by
    rw [setRootSize_blockSize, setRootSize_blockSize, husb]
  refine ⟨by rw [hbs]; exact hb, ?_, ?_, ?_, ?_⟩
  · rw [setRootSize_partitionId, setRootSize_partitionId, husb]
  · rw [setRootSize_rootSize]
    decide
  · intro i _
    rw [setRootSize_fat, setRootSize_fat, hufat]
    exact formatTable_range b hb i
  · exact ⟨_, setRootSize_sector _ _⟩

/-- Reading the table back right after `writeFat` returns the entries written. -/
theorem readFat_writeFat (s t : FS) (hbs : validBlockSize s.sb.blockSize)
    (hr : ∀ i, i < fatSize → -32768 ≤ s.fat i ∧ s.fat i ≤ 32767)
    (hw : writeFat s = (Except.ok (), t)) (fat0 : Fat) :
    readFat { t with fat := fat0 }
      = (Except.ok (), { t with fat := fun i => if i < fatSize then s.fat i else fat0 i }) := by
  have ht : persist s = t := by
    have h1 := writeFat_persist s hbs
    rw [hw] at h1
    exact (Prod.mk.inj h1).2.symm
  have htsb : t.sb = s.sb := by rw [← ht]; exact persist_sb s hbs
  have htable := persist_table s hbs
  rw [ht] at htable
  obtain ⟨x, hx⟩ : ∃ x : FS, x = { t with fat := fat0 } := ⟨_, rfl⟩
  have hxsb : x.sb = t.sb := by rw [hx]
  have hxd : x.disk = t.disk := by rw [hx]
  have hblocks : (List.range (8192 / x.sb.blockSize)).flatMap (blockOf x)
      = serializeFat s.fat fatSize := by
    rw [← htable, hxsb, htsb]
    apply List.flatMap_congr
    intro k _
    exact blockOf_eq_of_disk t x k hxd hxsb
  have h := readFat_run x s.fat (by rw [hxsb, htsb]; exact hbs) hblocks hr
  rw [← hx, h, hx]

/-- Claim C19. Persistence round trip. `Persisted s` says that the image holds the state:
sector 0 holds the superblock (partitionId 1, an allowed block size,
rootDirectoryEntrySize) and the blocks `[0, dataAddress)`, concatenated, are the 4096
table entries as consecutive 16-bit little-endian values. The formatting constructor
returns and establishes it; every public operation (and `chmod`) that returns when
started on such an image leaves such an image; opening such an image (`readSuperblock`
then `readFat`) gives the new object the same superblock and the same 4096 table entries;
the serialised table is 8192 = dataAddress * blockSize bytes; and `readFat` after
`writeFat` returns the entries written. -/
theorem persistence_round_trip :
    (∀ (b : Nat) (s : FS), validBlockSize b →
      ∃ t : FS, format b s = (Except.ok (), t) ∧ Persisted t) ∧
    (∀ s : FS, Persisted s →
      (∀ (sb0 : Superblock) (fat0 : Fat),
        openImage { s with sb := sb0, fat := fat0 }
          = (Except.ok (), { s with fat := fun i => if i < fatSize then s.fat i else fat0 i })) ∧
      s.sb.partitionId = 1 ∧
      (List.range (8192 / s.sb.blockSize)).flatMap (blockOf s) = serializeFat s.fat fatSize ∧
      (serializeFat s.fat fatSize).length = 8192 ∧
      dataAddress s = ((8192 / s.sb.blockSize : Nat) : Int) ∧
      8192 / s.sb.blockSize * s.sb.blockSize = 8192 ∧
      (∀ p r t, createDirectory p s = (Except.ok r, t) → Persisted t) ∧
      (∀ fuel p r t, deleteDirectory fuel p s = (Except.ok r, t) → Persisted t) ∧
      (∀ p d r t, writeFile p d s = (Except.ok r, t) → Persisted t) ∧
      (∀ p r t, deleteFile p s = (Except.ok r, t) → Persisted t) ∧
      (∀ p a r t, writeAttributes p a s = (Except.ok r, t) → Persisted t) ∧
      (∀ p m r t, chmod p m s = (Except.ok r, t) → Persisted t) ∧
      (∀ p r t, listDirectory p s = (r, t) → t = s) ∧
      (∀ p r t, readFile p s = (r, t) → t = s) ∧
      (∀ p r t, readAttributes p s = (r, t) → t = s) ∧
      (∀ fuel r t, dump fuel s = (r, t) → t = s)) ∧
    (∀ (s t : FS) (fat0 : Fat), validBlockSize s.sb.blockSize →
      (∀ i, i < fatSize → -32768 ≤ s.fat i ∧ s.fat i ≤ 32767) →
      writeFat s = (Except.ok (), t) →
      readFat { t with fat := fat0 }
        = (Except.ok (), { t with fat := fun i => if i < fatSize then s.fat i else fat0 i })) := by
  refine ⟨fun b s hb => format_persisted b hb s, fun s hp => ?_,
    fun s t fat0 hbs hr hw => readFat_writeFat s t hbs hr hw fat0⟩
  have hro : ∀ {α : Type} (m : M α), ReadOnly m → ∀ r t, m s = (r, t) → t = s := by
    intro α m hm r t h
    have h2 := hm s
    rw [h] at h2
    exact h2
  obtain ⟨hda, hmul, -⟩ := dataAddressOf_valid hp.1.1
  refine ⟨openImage_persisted s hp, hp.1.2.1, hp.2, ?_, hda, hmul,
    fun p r t h => createDirectory_preserves p s _ t hp h (Or.inr ⟨r, rfl⟩),
    fun fuel p r t h => deleteDirectory_preserves fuel p s _ t hp h (Or.inr ⟨r, rfl⟩),
    fun p d r t h => writeFile_preserves p d s _ t hp h (Or.inr ⟨r, rfl⟩),
    fun p r t h => deleteFile_preserves p s _ t hp h (Or.inr ⟨r, rfl⟩),
    fun p a r t h => writeAttributes_preserves p a s _ t hp h (Or.inr ⟨r, rfl⟩),
    fun p m r t h => chmod_preserves p m s _ t hp h (Or.inr ⟨r, rfl⟩),
    fun p => hro _ (listDirectory_readOnly p),
    fun p => hro _ (readFile_readOnly p),
    fun p => hro _ (readAttributes_readOnly p),
    fun fuel => hro _ (dump_readOnly fuel)⟩
  rw [serializeFat_length]
  rfl

theorem persistence_round_trip_witness :
    validBlockSize 512 ∧
    ∃ t : FS, format 512 (blank 0) = (Except.ok (), t) ∧ Persisted t ∧
      openImage { t with sb := { blockSize := 0 }, fat := fun _ => 0 }
        = (Except.ok (), { t with fat := fun i => if i < fatSize then t.fat i else 0 }) :=
  have h : validBlockSize 512 := by decide
  match persistence_round_trip.1 512 (blank 0) h with
  | ⟨t, h1, h2⟩ => ⟨h, t, h1, h2, (persistence_round_trip.2.1 t h2).1 _ _⟩

/-- The entries of a chain of blocks at positive addresses are not FREE. -/
theorem chain_nonfree (fat : Fat) (fuel : Nat) :
    ∀ (a : Int) (cs : List Nat), chainOf fat fuel a = some cs → (∀ c ∈ cs, 1 ≤ c) →
      ∀ c ∈ cs, fat c ≠ 0 := by
  induction fuel with
  | zero => intro a cs h; rw [chainOf] at h; cases h
  | succ fuel ih =>
    intro a cs h hpos c hc
    by_cases ha : a = -1
    · rw [ha, chainOf_last] at h
      cases h
      cases hc
    · obtain ⟨h0, h1, r, hcs, hr⟩ := chainOf_step fat fuel a cs h ha
      rw [hcs] at hc hpos
      rcases List.mem_cons.mp hc with hc | hc
      · intro hz
        rw [hc] at hz
        rw [hz] at hr
        cases fuel with
        | zero => rw [chainOf] at hr; cases hr
        | succ f =>
          obtain ⟨-, -, r2, hr2, -⟩ := chainOf_step fat f 0 r hr (by decide)
          have := hpos 0 (by rw [hr2]; simp)
          omega
      · exact ih _ r hr (fun x hx => hpos x (List.mem_cons_of_mem _ hx)) c hc

theorem blocksNeeded_zero (bs : Nat) (hbs : 0 < bs) : blocksNeeded 0 bs = 0 := by
  unfold blocksNeeded
  rw [Nat.zero_add]
  exact Nat.div_eq_of_lt (by omega)

theorem freedFat_eq (s : FS) (h : Int) (cs : List Nat) (hbs : validBlockSize s.sb.blockSize)
    (hh : h = -1 ∨ (dataAddress s ≤ h ∧ h ≤ 4095))
    (hchain : chainOf s.fat chainFuel h = some cs) :
    freedFat s h = clearChain s.fat cs := by
  by_cases hm : h = -1
  · have e : chainFuel = 4097 + 1 := by decide
    rw [hm, e, chainOf_last] at hchain
    cases hchain
    rw [clearChain_nil, hm]
    unfold freedFat
    exact if_pos (rfl : (-1 : Int) = lastBlockMarker)
  · rcases hh with hh | hh
    · exact absurd hh hm
    · exact freedFat_chain s h cs hbs hh hchain

theorem writeBlocks_nil_run (s : FS) (h : Int) (cs : List Nat)
    (hbs : validBlockSize s.sb.blockSize)
    (hh : h = -1 ∨ (dataAddress s ≤ h ∧ h ≤ 4095))
    (hchain : chainOf s.fat chainFuel h = some cs) :
    (h = -1 → writeBlocks h [] s = (Except.ok (-1), s)) ∧
    (h ≠ -1 → writeBlocks h [] s
      = (Except.ok (-1), persist { s with fat := clearChain s.fat cs })) := by
  constructor
  · intro hm
    rw [hm]
    rfl
  · intro hm
    have hh2 : dataAddress s ≤ h ∧ h ≤ 4095 := by
      rcases hh with hh | hh
      · exact absurd hh hm
      · exact hh
    have hfree := freeBlocks_chain s h cs hbs (Or.inl hh2) hchain
    rw [writeBlocks, bind_ok _ _ _ _ _ (get_run s), if_neg (show ¬ h = lastBlockMarker from hm),
      bind_ok _ _ _ _ _ hfree]
    rfl

theorem clearChain_apply (fat : Fat) (cs : List Nat) (x : Nat) :
    clearChain fat cs x = if x ∈ cs then freeBlockMarker else fat x := rfl

/-- Everything `writeBlocks(h, buffer)` does when `h` roots a well-formed chain `cs` of
data blocks (or is -1) and there is room once that chain is freed: it returns, the new
chain `cs'` has `ceil(n / blockSize)` blocks taken from `cs` and the FREE entries, it
holds the buffer, entries and blocks outside `cs` and `cs'` are untouched, and the FREE
count changes by `|cs| - |cs'|`. -/
theorem writeBlocks_spec (s : FS) (h : Int) (cs : List Nat) (buffer : List Byte)
    (hbs : validBlockSize s.sb.blockSize) (hwf : wellFormedFat s.sb.blockSize s.fat)
    (hh : h = -1 ∨ (dataAddress s ≤ h ∧ h ≤ 4095))
    (hchain : chainOf s.fat chainFuel h = some cs)
    (hdata : ∀ c ∈ cs, 8192 / s.sb.blockSize ≤ c)
    (hspace : blocksNeeded buffer.length s.sb.blockSize ≤ freeBlockCount s.fat + cs.length) :
    ∃ (a : Int) (u : FS) (cs' : List Nat),
      writeBlocks h buffer s = (Except.ok a, u) ∧
      u.sb = s.sb ∧ u.clock = s.clock ∧ u.tick = s.tick ∧ u.disk 0 = s.disk 0 ∧
      wellFormedFat u.sb.blockSize u.fat ∧
      chainOf u.fat chainFuel a = some cs' ∧
      cs'.length = blocksNeeded buffer.length s.sb.blockSize ∧
      (a = -1 ∨ (dataAddress s ≤ a ∧ a ≤ 4095)) ∧
      (buffer = [] → a = -1) ∧ (buffer ≠ [] → h ≠ -1 → a = h) ∧
      (∀ c ∈ cs', 8192 / s.sb.blockSize ≤ c ∧ c < 4096 ∧ (s.fat c = 0 ∨ c ∈ cs)) ∧
      cs'.flatMap (blockOf u)
        = buffer ++ List.replicate (cs'.length * s.sb.blockSize - buffer.length) 0 ∧
      (∀ x, x ∉ cs → x ∉ cs' → u.fat x = s.fat x) ∧
      (∀ x, 8192 / s.sb.blockSize ≤ x → x ∉ cs' → blockOf u x = blockOf s x) ∧
      freeBlockCount u.fat + cs'.length = freeBlockCount s.fat + cs.length := by
  obtain ⟨hda, hmul, h2, hle, -⟩ := dataAddressOf_valid hbs
  have hbpos : 0 < s.sb.blockSize := by rcases hbs with h | h | h | h <;> omega
  have hcslt := chainOf_mem_lt s.fat chainFuel h cs hchain
  have hcsnd := chainOf_nodup s.fat chainFuel h cs hchain
  have hcsnf := chain_nonfree s.fat chainFuel h cs hchain (fun c hc => by
    have := hdata c hc
    omega)
  have hfreed := freedFat_eq s h cs hbs hh hchain
  have hfcount : freeBlockCount (freedFat s h) = freeBlockCount s.fat + cs.length := by
    rw [hfreed]
    exact freeBlockCount_clearChain cs s.fat hcsnd (fun c hc => ⟨hcslt c hc, hcsnf c hc⟩)
  have hpin : fatPinned s.sb.blockSize (freedFat s h) := by
    intro i hi
    rw [hfreed, clearChain_apply, if_neg, hwf.2 i hi]
    intro hmem
    have := hdata i hmem
    rw [hda] at hi
    omega
  by_cases hne : buffer = []
  · -- nothing to write
    rw [hne] at hspace ⊢
    have hk : blocksNeeded ([] : List Byte).length s.sb.blockSize = 0 :=
      blocksNeeded_zero _ hbpos
    obtain ⟨hr1, hr2⟩ := writeBlocks_nil_run s h cs hbs hh hchain
    have hlast : ∀ fat : Fat, chainOf fat chainFuel (-1) = some [] := by
      intro fat
      have e : chainFuel = 4097 + 1 := by decide
      rw [e]
      exact chainOf_last fat _
    by_cases hm : h = -1
    · have hcs : cs = [] := by
        rw [hm, hlast] at hchain
        cases hchain
        rfl
      refine ⟨-1, s, [], hr1 hm, rfl, rfl, rfl, rfl, hwf, hlast _, hk.symm, Or.inl rfl,
        fun _ => rfl, fun hx => absurd rfl hx, fun c hc => (by cases hc), ?_,
        fun _ _ _ => rfl, fun _ _ _ => rfl, by rw [hcs]⟩
      rw [List.flatMap_nil, List.length_nil, Nat.zero_mul, Nat.zero_sub]
      rfl
    · obtain ⟨u, hu⟩ : ∃ u : FS, u = persist { s with fat := clearChain s.fat cs } := ⟨_, rfl⟩
      have hbs2 : validBlockSize ({ s with fat := clearChain s.fat cs } : FS).sb.blockSize := hbs
      have husb : u.sb = s.sb := by rw [hu]; exact persist_sb _ hbs2
      have hufat : u.fat = clearChain s.fat cs := by rw [hu]; exact persist_fat _ hbs2
      obtain ⟨pc, pt, pd⟩ := persist_aux { s with fat := clearChain s.fat cs } hbs2
      rw [← hu] at pc pt pd
      have hrun := hr2 hm
      rw [← hu] at hrun
      refine ⟨-1, u, [], hrun, husb, pc, pt, pd, ?_, hlast _, hk.symm, Or.inl rfl,
        fun _ => rfl, fun hx => absurd rfl hx, fun c hc => (by cases hc), ?_, ?_, ?_, ?_⟩
      · rw [husb, hufat]
        refine ⟨clearChain_inRange _ _ hwf.1, ?_⟩
        rw [← hfreed]
        exact hpin
      · rw [List.flatMap_nil, List.length_nil, Nat.zero_mul, Nat.zero_sub]
        rfl
      · intro x hx _
        rw [hufat, clearChain_apply, if_neg hx]
      · intro x hx _
        rw [hu, persist_blockOf _ x hbs2 hx]
        exact blockOf_eq_of_disk s _ x rfl rfl
      · rw [hufat, ← hfreed, hfcount, List.length_nil, Nat.add_zero]
  · -- a non-empty buffer
    have hsp : blocksNeeded buffer.length s.sb.blockSize ≤ freeBlockCount (freedFat s h) := by
      rw [hfcount]
      exact hspace
    obtain ⟨a, u, hrun⟩ := writeBlocks_success s h buffer hbs hwf hh hne hsp
    obtain ⟨c, r, htake, hlen, ha, husb, huclock, hutick, hudisk, hufat, hnodup, hfree, huchain,
      hread, hframe⟩ := writeBlocks_effect s h buffer a u hbs hwf hh hpin hne hrun
    have hinfo : ∀ x ∈ c :: r, 8192 / s.sb.blockSize ≤ x ∧ x < 4096 ∧ (s.fat x = 0 ∨ x ∈ cs) := by
      intro x hx
      obtain ⟨f1, f2, f3⟩ := hfree x hx
      refine ⟨f3, f2, ?_⟩
      rw [hfreed, clearChain_apply] at f1
      by_cases hmem : x ∈ cs
      · exact Or.inr hmem
      · rw [if_neg hmem] at f1
        exact Or.inl f1
    have hother : ∀ x, x ∉ c :: r → u.fat x = freedFat s h x := by
      intro x hx
      rw [hufat]
      exact allocated_fat_frame _ c r x hx
    have hc4 : c < 4096 := (hinfo c (List.mem_cons_self _ _)).2.1
    have hcda : 8192 / s.sb.blockSize ≤ c := (hinfo c (List.mem_cons_self _ _)).1
    have hnew_nf : ∀ x ∈ c :: r, u.fat x ≠ 0 := by
      rw [ha] at huchain
      exact chain_nonfree u.fat chainFuel _ _ huchain (fun x hx => by
        have := (hinfo x hx).1
        omega)
    have hclear : clearChain u.fat (c :: r) = freedFat s h := by
      funext x
      rw [clearChain_apply]
      by_cases hx : x ∈ c :: r
      · rw [if_pos hx, (hfree x hx).1]
        rfl
      · rw [if_neg hx, hother x hx]
    have hcount2 : freeBlockCount (freedFat s h) = freeBlockCount u.fat + (c :: r).length := by
      rw [← hclear]
      exact freeBlockCount_clearChain (c :: r) u.fat hnodup
        (fun x hx => ⟨(hinfo x hx).2.1, hnew_nf x hx⟩)
    have hreadc := readBlocks_chain u a (c :: r)
      (Or.inl ⟨by unfold dataAddress; rw [husb, hda, ha]; omega, by rw [ha]; omega⟩) huchain
    rw [hread] at hreadc
    have hbytes := (congrArg Prod.fst hreadc)
    simp only [Except.ok.injEq] at hbytes
    refine ⟨a, u, c :: r, hrun, husb, huclock, hutick, hudisk, ?_, huchain, hlen, ?_,
      fun hx => absurd hx hne, ?_, hinfo, ?_, ?_, hframe, ?_⟩
    · rw [husb, hufat]
      refine ⟨allocated_fat_inRange _ c r (by rw [hfreed]; exact clearChain_inRange _ _ hwf.1)
        (fun x hx => (hinfo x hx).2.1), ?_⟩
      intro i hi
      rw [allocated_fat_frame _ c r i, hpin i hi]
      intro hmem
      have := (hinfo i hmem).1
      rw [hda] at hi
      omega
    · right
      rw [ha]
      unfold dataAddress
      rw [hda]
      omega
    · intro _ hm
      have hh2 : dataAddress s ≤ h ∧ h ≤ 4095 := by
        rcases hh with hh | hh
        · exact absurd hh hm
        · exact hh
      have hh0 : 0 ≤ h := by
        have := hh2.1
        unfold dataAddress at this
        rw [hda] at this
        omega
      obtain ⟨-, -, r0, hcs0, -⟩ := chainOf_step s.fat (4097) h cs hchain hm
      have hstart : scanStart s h = h.toNat := by
        unfold scanStart
        rw [if_neg (show ¬ h = lastBlockMarker from hm)]
      rw [hstart] at htake
      have hz : freedFat s h h.toNat = 0 := by
        rw [hfreed, clearChain_apply, if_pos (by rw [hcs0]; exact List.mem_cons_self _ _)]
        rfl
      have hc := take_freeIn_head _ _ _ _ _ (by omega) hz htake
      rw [ha, hc]
      omega
    · rw [← hbytes, hlen]
    · intro x hx1 hx2
      rw [hother x hx2, hfreed, clearChain_apply, if_neg hx1]
    · rw [← hcount2, hfcount]

theorem readDirectoryAt_level (s : FS) (L : Level) (h : LevelOk s L) :
    readDirectoryAt L.address L.size s = (Except.ok L.entries, s) := by
  obtain ⟨hchain, hrange, -, ⟨pad, hpad⟩, hsize, hlen, hr, -⟩ := h
  have hread := readBlocks_chain s L.address L.chain (by
    rcases hrange with h | h
    · exact Or.inr h
    · exact Or.inl h) hchain
  rw [hpad] at hread
  rw [readDirectoryAt_of_readBlocks _ _ _ _ hread, hsize, toSizeT_natCast _ (by omega),
    deserializeDirectory_serialize L.entries pad hr]
  rfl

theorem parentPath_snoc (q : Path) (n : Name) (s : FS) (hn : n ≠ []) :
    parentPath (q ++ [n]) s = (Except.ok q, s) := by
  have hne : q ++ [n] ≠ [] := by simp
  rw [parentPath, decide_eq_true hne, bind_ok _ _ _ _ _ (assert_true_run s)]
  by_cases hroot : q ++ [n] = (q ++ [n]).rootPath
  · rw [if_pos hroot]
    have hq : q = [] := by
      cases q with
      | nil => rfl
      | cons x q2 =>
        exfalso
        have h1 := congrArg List.length hroot
        unfold Path.rootPath at h1
        simp only [List.cons_append] at h1
        split at h1 <;> simp at h1
    rw [hq]
    rfl
  · rw [if_neg hroot]
    have hp : (q ++ [n]).parent = q := by
      unfold Path.parent
      rw [if_neg, List.dropLast_concat]
      intro h
      rcases h with h | h
      · exact hne h
      · apply hroot
        rw [h]
        rfl
    rw [hp]
    rfl

theorem pathToName_snoc (q : Path) (n : Name) (s : FS) (hn : n ≠ []) :
    pathToName (q ++ [n]) s = (Except.ok n, s) := by
  have hne : q ++ [n] ≠ [] := by simp
  rw [pathToName, decide_eq_true hne, bind_ok _ _ _ _ _ (assert_true_run s)]
  by_cases hroot : q ++ [n] = (q ++ [n]).rootPath
  · rw [if_pos hroot]
    have hq : q ++ [n] = [rootName] := by
      cases q with
      | nil =>
        unfold Path.rootPath at hroot
        simp only [List.nil_append] at hroot ⊢
        split at hroot
        · exact hroot
        · cases hroot
      | cons x q2 =>
        exfalso
        have h1 := congrArg List.length hroot
        unfold Path.rootPath at h1
        simp only [List.cons_append] at h1
        split at h1 <;> simp at h1
    have hn2 : n = rootName := by
      have := congrArg List.getLast? hq
      simpa using this
    rw [hn2]
    rfl
  · rw [if_neg hroot]
    have hf : (q ++ [n]).filename = n := by
      cases q with
      | nil =>
        show Path.filename [n] = n
        unfold Path.filename
        have hnr : n ≠ rootName := by
          intro h
          apply hroot
          rw [h]
          rfl
        show (if n = rootName then [] else n) = n
        rw [if_neg hnr]
      | cons x q2 =>
        cases hq2 : q2 ++ [n] with
        | nil => simp at hq2
        | cons m r =>
          show Path.filename (x :: (q2 ++ [n])) = n
          rw [hq2]
          show (m :: r).getLast _ = n
          have : (m :: r).getLast? = some n := by rw [← hq2]; simp
          rw [List.getLast?_eq_getLast _ (List.cons_ne_nil m r)] at this
          exact Option.some.inj this
    have hhas : (q ++ [n]).hasFilename = true := by
      unfold Path.hasFilename
      rw [hf]
      exact decide_eq_true hn
    rw [hhas, if_pos rfl, hf]
    rfl

theorem walkDirs_snoc (s : FS) (n : Name) (q : List Name) :
    ∀ d r : List DirectoryEntry, walkDirs s q d = some r →
      walkDirs s (q ++ [n]) d = walkDirs s [n] r := by
  induction q with
  | nil =>
    intro d r h
    rw [walkDirs] at h
    cases h
    rfl
  | cons x q ih =>
    intro d r h
    rw [walkDirs] at h
    rw [List.cons_append, walkDirs]
    cases hf : findEntry d x with
    | none => rw [hf] at h; cases h
    | some entry =>
      rw [hf] at h
      simp only at h ⊢
      by_cases hd : entry.attributes.isDirectory = true
      · rw [if_pos hd] at h ⊢
        cases hr : (readDirectoryAt entry.firstBlockAddress entry.attributes.size s).1 with
        | error e => rw [hr] at h; cases h
        | ok sub =>
          rw [hr] at h
          simp only at h ⊢
          exact ih sub r h
      · rw [if_neg hd] at h
        cases h

theorem walkDirs_single (s : FS) (n : Name) (d : List DirectoryEntry) (e : DirectoryEntry)
    (L2 : Level) (hfind : findEntry d n = some e) (hdir : e.attributes.isDirectory = true)
    (ha : e.firstBlockAddress = L2.address) (hz : e.attributes.size = L2.size)
    (hL : LevelOk s L2) : walkDirs s [n] d = some L2.entries := by
  have hread := readDirectoryAt_level s L2 hL
  rw [walkDirs, hfind]
  simp only
  rw [if_pos hdir, ha, hz, hread]
  rfl

/-- The root container of a resolved path and the walk from it. -/
theorem resolved_walk (s : FS) (p : Path) (Ls : List Level) (L : Level)
    (h : Resolved s p Ls L) :
    ∃ L0 : Level, LevelOk s L0 ∧ L0.address = dataAddress s ∧
      L0.size = s.sb.rootDirectoryEntrySize ∧ walkDirs s p L0.entries = some L.entries := by
  induction h with
  | root L hL ha hz => exact ⟨L, hL, ha, hz, rfl⟩
  | step q Ls L n e L2 hq hn hfind hdir ha hz hL hdisj ih =>
    obtain ⟨L0, h0, ha0, hz0, hwalk⟩ := ih
    exact ⟨L0, h0, ha0, hz0, by
      rw [walkDirs_snoc s n q _ _ hwalk]
      exact walkDirs_single s n _ e L2 hfind hdir ha hz hL⟩

theorem pathToAddressAndSize_cons (s : FS) (p : Path) (hne : p ≠ []) (L0 : Level)
    (h0 : LevelOk s L0) (ha0 : L0.address = dataAddress s)
    (hz0 : L0.size = s.sb.rootDirectoryEntrySize) :
    pathToAddressAndSize p s
      = resolveLoop p L0.entries false (dataAddress s) s.sb.rootDirectoryEntrySize s := by
  have hread := readDirectoryAt_level s L0 h0
  rw [ha0, hz0] at hread
  rw [pathToAddressAndSize, bind_ok _ _ _ _ _ (get_run s), if_neg hne, bind_ok _ _ _ _ _ hread]

/-- Resolution of the path of a stored directory. -/
theorem resolved_address (s : FS) (p : Path) (Ls : List Level) (L : Level)
    (h : Resolved s p Ls L) :
    pathToAddressAndSize p s = (Except.ok (L.address, L.size), s) := by
  cases h with
  | root _ hL ha hz =>
    rw [pathToAddressAndSize_nil, ha, hz]
  | step q Ls L1 n e _ hq hn hfind hdir ha hz hL hdisj =>
    obtain ⟨L0, h0, ha0, hz0, hwalk⟩ := resolved_walk s q Ls L1 hq
    rw [pathToAddressAndSize_cons s _ (by simp) L0 h0 ha0 hz0,
      resolveLoop_walk s n [] q L0.entries L1.entries _ _ hwalk,
      (resolveLoop_last s n [] L1.entries _ _).2.2 e hfind rfl
        (fun _ => ⟨L.entries, by rw [ha, hz, readDirectoryAt_level s L hL]⟩), ha, hz]

/-- Resolution of a name in a stored directory whose entry is a file or a directory that
can be read. -/
theorem resolved_child_address (s : FS) (q : Path) (Ls : List Level) (L : Level)
    (h : Resolved s q Ls L) (n : Name) (e : DirectoryEntry)
    (hfind : findEntry L.entries n = some e)
    (hread : e.attributes.isDirectory = true →
      ∃ sub, (readDirectoryAt e.firstBlockAddress e.attributes.size s).1 = Except.ok sub) :
    pathToAddressAndSize (q ++ [n]) s
      = (Except.ok (e.firstBlockAddress, e.attributes.size), s) := by
  obtain ⟨L0, h0, ha0, hz0, hwalk⟩ := resolved_walk s q Ls L h
  rw [pathToAddressAndSize_cons s _ (by simp) L0 h0 ha0 hz0,
    resolveLoop_walk s n [] q L0.entries L.entries _ _ hwalk,
    (resolveLoop_last s n [] L.entries _ _).2.2 e hfind rfl hread]

theorem readDirectoryEntryWith_found (rd : Path → M (List DirectoryEntry)) (q : Path)
    (n : Name) (s : FS) (hn : n ≠ []) (d : List DirectoryEntry) (e : DirectoryEntry)
    (hrd : rd q s = (Except.ok d, s)) (hfind : findEntry d n = some e) :
    readDirectoryEntryWith rd (q ++ [n]) s = (Except.ok e, s) := by
  rw [readDirectoryEntryWith, bind_ok _ _ _ _ _ (parentPath_snoc q n s hn),
    bind_ok _ _ _ _ _ hrd, bind_ok _ _ _ _ _ (pathToName_snoc q n s hn), hfind]
  rfl

theorem readDirectoryEntryWith_missing (rd : Path → M (List DirectoryEntry)) (q : Path)
    (n : Name) (s : FS) (hn : n ≠ []) (d : List DirectoryEntry)
    (hrd : rd q s = (Except.ok d, s)) (hfind : findEntry d n = none) :
    readDirectoryEntryWith rd (q ++ [n]) s = (Except.error Error.noSuchFileOrDirectory, s) := by
  rw [readDirectoryEntryWith, bind_ok _ _ _ _ _ (parentPath_snoc q n s hn),
    bind_ok _ _ _ _ _ hrd, bind_ok _ _ _ _ _ (pathToName_snoc q n s hn), hfind]
  rfl

theorem checkIsDirectoryWith_found (rd : Path → M (List DirectoryEntry)) (q : Path)
    (n : Name) (s : FS) (hn : n ≠ []) (d : List DirectoryEntry) (e : DirectoryEntry)
    (hrd : rd q s = (Except.ok d, s)) (hfind : findEntry d n = some e) (b : Bool) :
    checkIsDirectoryWith rd (q ++ [n]) b s
      = if e.attributes.isDirectory = b then (Except.ok (), s)
        else if b = true then (Except.error Error.notADirectory, s)
        else (Except.error Error.isADirectory, s) := by
  have hne : q ++ [n] ≠ [] := by simp
  rw [checkIsDirectoryWith, if_neg hne,
    bind_ok _ _ _ _ _ (readDirectoryEntryWith_found rd q n s hn d e hrd hfind),
    bind_ok _ _ _ _ _ (pure_run _ s)]
  cases b <;> cases e.attributes.isDirectory <;> rfl

theorem checkIsDirectoryWith_missing (rd : Path → M (List DirectoryEntry)) (q : Path)
    (n : Name) (s : FS) (hn : n ≠ []) (d : List DirectoryEntry)
    (hrd : rd q s = (Except.ok d, s)) (hfind : findEntry d n = none) (b : Bool) :
    checkIsDirectoryWith rd (q ++ [n]) b s = (Except.error Error.noSuchFileOrDirectory, s) := by
  have hne : q ++ [n] ≠ [] := by simp
  rw [checkIsDirectoryWith, if_neg hne,
    bind_error _ _ _ _ _ (readDirectoryEntryWith_missing rd q n s hn d hrd hfind)]

/-- Reading a stored directory through its path. -/
theorem resolved_readDirectory (s : FS) (p : Path) (Ls : List Level) (L : Level)
    (h : Resolved s p Ls L) : readDirectory p s = (Except.ok L.entries, s) := by
  induction h with
  | root L hL ha hz =>
    have hread := readDirectoryAt_level s L hL
    rw [ha, hz] at hread
    show readDirectoryAux (0 + 1) [] s = _
    have hc : checkIsDirectoryWith (readDirectoryAux 0) [] true s = (Except.ok (), s) := rfl
    rw [readDirectoryAux, bind_ok _ _ _ _ _ hc, bind_ok _ _ _ _ _ (pathToAddressAndSize_nil s)]
    exact hread
  | step q Ls L n e L2 hq hn hfind hdir ha hz hL hdisj ih =>
    have hlen : (q ++ [n]).length + 1 = (q.length + 1) + 1 := by
      rw [List.length_append, List.length_singleton]
    have hcheck := checkIsDirectoryWith_found (readDirectoryAux (q.length + 1)) q n s hn
      L.entries e ih hfind true
    rw [if_pos hdir] at hcheck
    have haddr := resolved_address s _ _ L2
      (Resolved.step q Ls L n e L2 hq hn hfind hdir ha hz hL hdisj)
    unfold readDirectory
    rw [hlen, readDirectoryAux, bind_ok _ _ _ _ _ hcheck, bind_ok _ _ _ _ _ haddr]
    exact readDirectoryAt_level s L2 hL

theorem resolved_entry (s : FS) (q : Path) (Ls : List Level) (L : Level)
    (h : Resolved s q Ls L) (n : Name) (hn : n ≠ []) (e : DirectoryEntry)
    (hfind : findEntry L.entries n = some e) :
    readDirectoryEntry (q ++ [n]) s = (Except.ok e, s) :=
  readDirectoryEntryWith_found readDirectory q n s hn L.entries e
    (resolved_readDirectory s q Ls L h) hfind

theorem resolved_entry_missing (s : FS) (q : Path) (Ls : List Level) (L : Level)
    (h : Resolved s q Ls L) (n : Name) (hn : n ≠ [])
    (hfind : findEntry L.entries n = none) :
    readDirectoryEntry (q ++ [n]) s = (Except.error Error.noSuchFileOrDirectory, s) :=
  readDirectoryEntryWith_missing readDirectory q n s hn L.entries
    (resolved_readDirectory s q Ls L h) hfind

theorem resolved_attributes (s : FS) (q : Path) (Ls : List Level) (L : Level)
    (h : Resolved s q Ls L) (n : Name) (hn : n ≠ []) (e : DirectoryEntry)
    (hfind : findEntry L.entries n = some e) :
    readAttributes (q ++ [n]) s = (Except.ok e.attributes, s) := by
  rw [readAttributes, bind_ok _ _ _ _ _ (resolved_entry s q Ls L h n hn e hfind)]
  rfl

theorem resolved_checkIsDirectory (s : FS) (q : Path) (Ls : List Level) (L : Level)
    (h : Resolved s q Ls L) (n : Name) (hn : n ≠ []) (e : DirectoryEntry)
    (hfind : findEntry L.entries n = some e) (b : Bool) :
    checkIsDirectory (q ++ [n]) b s
      = if e.attributes.isDirectory = b then (Except.ok (), s)
        else if b = true then (Except.error Error.notADirectory, s)
        else (Except.error Error.isADirectory, s) :=
  checkIsDirectoryWith_found readDirectory q n s hn L.entries e
    (resolved_readDirectory s q Ls L h) hfind b

theorem resolved_checkPermission (s : FS) (q : Path) (Ls : List Level) (L : Level)
    (h : Resolved s q Ls L) (n : Name) (hn : n ≠ []) (e : DirectoryEntry)
    (hfind : findEntry L.entries n = some e) (perm : Permission) :
    checkPermission (q ++ [n]) perm s
      = if (perm = Permission.r ∧ e.attributes.canRead = false)
            ∨ (perm = Permission.w ∧ e.attributes.canWrite = false)
        then (Except.error Error.permission, s) else (Except.ok (), s) := by
  have hne : q ++ [n] ≠ [] := by simp
  rw [checkPermission, if_neg hne,
    bind_ok _ _ _ _ _ (resolved_attributes s q Ls L h n hn e hfind)]
  cases perm <;> cases e.attributes.canRead <;> cases e.attributes.canWrite <;> rfl

theorem findEntry_name (d : List DirectoryEntry) (n : Name) (e : DirectoryEntry)
    (h : findEntry d n = some e) : e.attributes.name = n ∧ e ∈ d := by
  unfold findEntry at h
  have h1 := List.find?_some h
  exact ⟨of_decide_eq_true h1, List.mem_of_find?_eq_some h⟩

theorem replaceEntry_some (n : Name) (e2 : DirectoryEntry) :
    ∀ (d : List DirectoryEntry) (e : DirectoryEntry), findEntry d n = some e →
      ∃ d2, replaceEntry n e2 d = some d2 := by
  intro d
  induction d with
  | nil => intro e h; cases h
  | cons x r ih =>
    intro e h
    rw [replaceEntry]
    by_cases hx : x.attributes.name = n
    · rw [if_pos hx]
      exact ⟨_, rfl⟩
    · rw [if_neg hx]
      have h2 : findEntry r n = some e := by
        unfold findEntry at h ⊢
        rw [List.find?_cons_of_neg _ (by simpa using hx)] at h
        exact h
      obtain ⟨d2, hd2⟩ := ih e h2
      rw [hd2]
      exact ⟨_, rfl⟩

theorem replaceEntry_names (n : Name) (e2 : DirectoryEntry) (hname : e2.attributes.name = n) :
    ∀ (d d2 : List DirectoryEntry), replaceEntry n e2 d = some d2 →
      (d2.map fun x => x.attributes.name) = d.map fun x => x.attributes.name := by
  intro d
  induction d with
  | nil => intro d2 h; cases h
  | cons x r ih =>
    intro d2 h
    rw [replaceEntry] at h
    by_cases hx : x.attributes.name = n
    · rw [if_pos hx] at h
      cases h
      rw [List.map_cons, List.map_cons, hname, hx]
    · rw [if_neg hx] at h
      cases hr : replaceEntry n e2 r with
      | none => rw [hr] at h; cases h
      | some r2 =>
        rw [hr] at h
        cases h
        rw [List.map_cons, List.map_cons, ih r2 hr]

theorem replaceEntry_spec (n : Name) (e2 : DirectoryEntry) (hname : e2.attributes.name = n) :
    ∀ (d d2 : List DirectoryEntry), replaceEntry n e2 d = some d2 →
      findEntry d2 n = some e2 ∧ d2 ≠ [] ∧
      (serializeDirectory d2).length = (serializeDirectory d).length ∧
      (∀ x ∈ d2, x = e2 ∨ x ∈ d) ∧
      (∀ m, m ≠ n → findEntry d2 m = findEntry d m) ∧
      d2.length = d.length := by
  intro d
  induction d with
  | nil => intro d2 h; cases h
  | cons x r ih =>
    intro d2 h
    rw [replaceEntry] at h
    by_cases hx : x.attributes.name = n
    · rw [if_pos hx] at h
      cases h
      refine ⟨?_, List.cons_ne_nil _ _, ?_, ?_, ?_, rfl⟩
      · unfold findEntry
        rw [List.find?_cons_of_pos _ (by simpa using hname)]
      · rw [serializeDirectory_length, serializeDirectory_length, List.map_cons, List.map_cons,
          List.sum_cons, List.sum_cons, hname, hx]
      · intro y hy
        rcases List.mem_cons.mp hy with hy | hy
        · exact Or.inl hy
        · exact Or.inr (List.mem_cons_of_mem _ hy)
      · intro m hm
        unfold findEntry
        rw [List.find?_cons_of_neg _ (by rw [hname]; simpa using Ne.symm hm),
          List.find?_cons_of_neg _ (by rw [hx]; simpa using Ne.symm hm)]
    · rw [if_neg hx] at h
      cases hr : replaceEntry n e2 r with
      | none => rw [hr] at h; cases h
      | some r2 =>
        rw [hr] at h
        cases h
        obtain ⟨h1, h2, h3, h4, h5, h6⟩ := ih r2 hr
        refine ⟨?_, List.cons_ne_nil _ _, ?_, ?_, ?_, by rw [List.length_cons, List.length_cons, h6]⟩
        · unfold findEntry at h1 ⊢
          rw [List.find?_cons_of_neg _ (by simpa using hx)]
          exact h1
        · rw [serializeDirectory_length, serializeDirectory_length] at h3 ⊢
          rw [List.map_cons, List.map_cons, List.sum_cons, List.sum_cons, h3]
        · intro y hy
          rcases List.mem_cons.mp hy with hy | hy
          · exact Or.inr (by rw [hy]; exact List.mem_cons_self _ _)
          · rcases h4 y hy with h | h
            · exact Or.inl h
            · exact Or.inr (List.mem_cons_of_mem _ h)
        · intro m hm
          unfold findEntry
          by_cases hxm : x.attributes.name = m
          · rw [List.find?_cons_of_pos _ (by simpa using hxm),
              List.find?_cons_of_pos _ (by simpa using hxm)]
          · rw [List.find?_cons_of_neg _ (by simpa using hxm),
              List.find?_cons_of_neg _ (by simpa using hxm)]
            exact h5 m hm

theorem dataAddress_congr (s t : FS) (h : t.sb.blockSize = s.sb.blockSize) :
    dataAddress t = dataAddress s := by
  unfold dataAddress
  rw [h]

/-- A stored directory stays stored when the entries and the blocks of its chain are left
as they were. -/
theorem levelOk_frame (s t : FS) (L : Level) (hL : LevelOk s L)
    (hbs : t.sb.blockSize = s.sb.blockSize)
    (hfat : ∀ c ∈ L.chain, t.fat c = s.fat c)
    (hblk : ∀ c ∈ L.chain, blockOf t c = blockOf s c) : LevelOk t L := by
  obtain ⟨hchain, hrange, hdata, ⟨pad, hpad⟩, hsize, hlen, hr, hk⟩ := hL
  refine ⟨chainOf_congr s.fat t.fat chainFuel _ _ hchain hfat, ?_, ?_, ⟨pad, ?_⟩, hsize, hlen, hr,
    ?_⟩
  · rw [dataAddress_congr s t hbs]
    exact hrange
  · rw [hbs]
    exact hdata
  · rw [← hpad]
    exact List.flatMap_congr hblk
  · rw [hbs]
    exact hk

theorem mem_chainsOf {Ls : List Level} {c : Nat} :
    c ∈ chainsOf Ls ↔ ∃ M ∈ Ls, c ∈ M.chain := by
  unfold chainsOf
  exact List.mem_flatMap

theorem resolved_frame (s t : FS) (p : Path) (Ls : List Level) (L : Level)
    (h : Resolved s p Ls L) (hbs : t.sb.blockSize = s.sb.blockSize)
    (hroot : t.sb.rootDirectoryEntrySize = s.sb.rootDirectoryEntrySize)
    (hframe : ∀ c ∈ chainsOf (Ls ++ [L]), t.fat c = s.fat c ∧ blockOf t c = blockOf s c) :
    Resolved t p Ls L := by
  induction h with
  | root L hL ha hz =>
    refine Resolved.root L (levelOk_frame s t L hL hbs ?_ ?_) ?_ (by rw [hroot]; exact hz)
    · intro c hc
      exact (hframe c (mem_chainsOf.mpr ⟨L, by simp, hc⟩)).1
    · intro c hc
      exact (hframe c (mem_chainsOf.mpr ⟨L, by simp, hc⟩)).2
    · rw [dataAddress_congr s t hbs]
      exact ha
  | step q Ls L n e L2 hq hn hfind hdir ha hz hL hdisj ih =>
    refine Resolved.step q Ls L n e L2 (ih ?_) hn hfind hdir ha hz
      (levelOk_frame s t L2 hL hbs ?_ ?_) hdisj
    · intro c hc
      obtain ⟨M, hM, hcM⟩ := mem_chainsOf.mp hc
      exact hframe c (mem_chainsOf.mpr ⟨M, List.mem_append_left _ hM, hcM⟩)
    · intro c hc
      exact (hframe c (mem_chainsOf.mpr ⟨L2, by simp, hc⟩)).1
    · intro c hc
      exact (hframe c (mem_chainsOf.mpr ⟨L2, by simp, hc⟩)).2

/-- The entries of the chains on the way to a stored directory are not FREE, and the
chains consist of data blocks. -/
theorem resolved_chains (s : FS) (p : Path) (Ls : List Level) (L : Level)
    (h : Resolved s p Ls L) (hbs : validBlockSize s.sb.blockSize) :
    ∀ c ∈ chainsOf (Ls ++ [L]), s.fat c ≠ 0 ∧ 8192 / s.sb.blockSize ≤ c ∧ c < 4096 := by
  have hlevel : ∀ M : Level, LevelOk s M → ∀ c ∈ M.chain,
      s.fat c ≠ 0 ∧ 8192 / s.sb.blockSize ≤ c ∧ c < 4096 := by
    intro M hM c hc
    obtain ⟨hchain, -, hdata, -⟩ := hM
    have h2 := (dataAddressOf_valid hbs).2.2.1
    exact ⟨chain_nonfree s.fat chainFuel _ _ hchain (fun x hx => by
      have := hdata x hx
      omega) c hc, hdata c hc, chainOf_mem_lt s.fat chainFuel _ _ hchain c hc⟩
  induction h with
  | root L hL ha hz =>
    intro c hc
    obtain ⟨M, hM, hcM⟩ := mem_chainsOf.mp hc
    simp only [List.nil_append, List.mem_singleton] at hM
    rw [hM] at hcM
    exact hlevel L hL c hcM
  | step q Ls L n e L2 hq hn hfind hdir ha hz hL hdisj ih =>
    intro c hc
    obtain ⟨M, hM, hcM⟩ := mem_chainsOf.mp hc
    rcases List.mem_append.mp hM with hM | hM
    · exact ih c (mem_chainsOf.mpr ⟨M, hM, hcM⟩)
    · rw [List.mem_singleton] at hM
      rw [hM] at hcM
      exact hlevel L2 hL c hcM

/-- The run of `writeDirectory` on the root container, given the run of its
`writeBlocks`. -/
theorem writeDirectoryAux_root_run (f : Nat) (s : FS) (es : List DirectoryEntry) (upd : Bool)
    (p q a : Int) (u : FS)
    (hres : pathToAddressAndSize [] s = (Except.ok (p, q), s))
    (hrun : writeBlocks p (serializeDirectory es) s = (Except.ok a, u)) :
    writeDirectoryAux (f + 1) [] es upd s
      = (Except.ok (wrap16 (serializeDirectory es).length),
          setRootSize u (wrap16 (serializeDirectory es).length)) := by
  rw [writeDirectoryAux, bind_ok _ _ _ _ _ (checkIsDirectory_nil s), bind_ok _ _ _ _ _ hres]
  simp only [writeDirectoryAux.match_1]
  rw [bind_ok _ _ _ _ _ hrun, if_pos True.intro]
  rfl

/-- The run of `writeDirectoryEntry`, given the listing of the parent and the run of the
`writeDirectory` it ends with. -/
theorem writeDirectoryEntryWith_run (wd : Path → List DirectoryEntry → Bool → M Int)
    (q : Path) (n : Name) (hn : n ≠ []) (e2 : DirectoryEntry) (s t : FS)
    (d d2 : List DirectoryEntry) (r : Int)
    (hread : readDirectory q s = (Except.ok d, s))
    (hrep : replaceEntry n e2 d = some d2)
    (hwd : wd q d2 false s = (Except.ok r, t)) :
    writeDirectoryEntryWith wd (q ++ [n]) e2 s = (Except.ok (), t) := by
  rw [writeDirectoryEntryWith, bind_ok _ _ _ _ _ (parentPath_snoc q n s hn),
    bind_ok _ _ _ _ _ hread, bind_ok _ _ _ _ _ (pathToName_snoc q n s hn), hrep]
  dsimp only
  rw [bind_ok _ _ _ _ _ (parentPath_snoc q n s hn), bind_ok _ _ _ _ _ hwd]
  rfl

/-- The entry `writeDirectory` passes up after the chain of the directory was written. -/
theorem writeDirectoryAux_step_same (f : Nat) (P : Path) (hP : P ≠ []) (es : List DirectoryEntry)
    (s u : FS) (a0 z0 a : Int) (e : DirectoryEntry)
    (hcheck : checkIsDirectory P true s = (Except.ok (), s))
    (hres : pathToAddressAndSize P s = (Except.ok (a0, z0), s))
    (hrun : writeBlocks a0 (serializeDirectory es) s = (Except.ok a, u))
    (hentry : readDirectoryEntry P u = (Except.ok e, u))
    (hsame : ¬ (toSizeT e.attributes.size ≠ (serializeDirectory es).length
      ∨ e.firstBlockAddress ≠ a)) :
    writeDirectoryAux (f + 1) P es false s
      = (Except.ok (wrap16 (serializeDirectory es).length), u) := by
  rw [writeDirectoryAux, bind_ok _ _ _ _ _ hcheck, bind_ok _ _ _ _ _ hres]
  simp only [writeDirectoryAux.match_1]
  rw [bind_ok _ _ _ _ _ hrun, if_neg hP, bind_ok _ _ _ _ _ hentry, decide_eq_false hsame]
  rfl

theorem writeDirectoryAux_step_changed (f : Nat) (P : Path) (hP : P ≠ [])
    (es : List DirectoryEntry) (s u t : FS) (a0 z0 a : Int) (e : DirectoryEntry)
    (hcheck : checkIsDirectory P true s = (Except.ok (), s))
    (hres : pathToAddressAndSize P s = (Except.ok (a0, z0), s))
    (hrun : writeBlocks a0 (serializeDirectory es) s = (Except.ok a, u))
    (hentry : readDirectoryEntry P u = (Except.ok e, u))
    (hchg : toSizeT e.attributes.size ≠ (serializeDirectory es).length
      ∨ e.firstBlockAddress ≠ a)
    (hup : writeDirectoryEntryWith (writeDirectoryAux f) P
      { attributes := { e.attributes with size := wrap16 (serializeDirectory es).length },
        firstBlockAddress := a } u = (Except.ok (), t)) :
    writeDirectoryAux (f + 1) P es false s
      = (Except.ok (wrap16 (serializeDirectory es).length), t) := by
  rw [writeDirectoryAux, bind_ok _ _ _ _ _ hcheck, bind_ok _ _ _ _ _ hres]
  simp only [writeDirectoryAux.match_1]
  rw [bind_ok _ _ _ _ _ hrun, if_neg hP, bind_ok _ _ _ _ _ hentry, decide_eq_true hchg]
  refine (bind_ok _ _ _ _ _ (?_ : _ = (Except.ok (), t))).trans rfl
  exact (bind_ok _ _ u u _ rfl).trans hup

theorem writeDirectoryAux_step_stamp (f : Nat) (P : Path) (hP : P ≠ [])
    (es : List DirectoryEntry) (s u t : FS) (a0 z0 a : Int) (e e1 : DirectoryEntry)
    (hcheck : checkIsDirectory P true s = (Except.ok (), s))
    (hres : pathToAddressAndSize P s = (Except.ok (a0, z0), s))
    (hrun : writeBlocks a0 (serializeDirectory es) s = (Except.ok a, u))
    (hentry : readDirectoryEntry P u = (Except.ok e, u))
    (he1 : e1 = if decide (toSizeT e.attributes.size ≠ (serializeDirectory es).length
        ∨ e.firstBlockAddress ≠ a) = true then
      { attributes := { e.attributes with size := wrap16 (serializeDirectory es).length },
        firstBlockAddress := a } else e)
    (hup : writeDirectoryEntryWith (writeDirectoryAux f) P
      { e1 with attributes := { e1.attributes with lastModified := wrap64 (u.clock u.tick) } }
      { u with tick := u.tick + 1 } = (Except.ok (), t)) :
    writeDirectoryAux (f + 1) P es true s
      = (Except.ok (wrap16 (serializeDirectory es).length), t) := by
  rw [writeDirectoryAux, bind_ok _ _ _ _ _ hcheck, bind_ok _ _ _ _ _ hres]
  simp only [writeDirectoryAux.match_1]
  rw [bind_ok _ _ _ _ _ hrun, if_neg hP, bind_ok _ _ _ _ _ hentry, ← he1, Bool.or_true]
  refine (bind_ok _ _ _ _ _ (?_ : _ = (Except.ok (), t))).trans rfl
  exact hup

theorem mem_chainsOf_snoc (Ls : List Level) (L : Level) (c : Nat) :
    c ∈ chainsOf (Ls ++ [L]) ↔ c ∈ chainsOf Ls ∨ c ∈ L.chain := by
  unfold chainsOf
  simp

theorem chainsOf_nil_snoc (L : Level) (c : Nat) : c ∈ chainsOf ([] ++ [L]) ↔ c ∈ L.chain := by
  unfold chainsOf
  simp

theorem resolved_levelOk (s : FS) (p : Path) (Ls : List Level) (L : Level)
    (h : Resolved s p Ls L) : LevelOk s L := by
  cases h with
  | root _ hL ha hz => exact hL
  | step q Ls L1 n e _ hq hn hfind hdir ha hz hL hdisj => exact hL

theorem resolved_nil (s : FS) (p : Path) (Ls : List Level) (L : Level)
    (h : Resolved s p Ls L) (hp : p = []) :
    Ls = [] ∧ L.address = dataAddress s ∧ L.size = s.sb.rootDirectoryEntrySize := by
  cases h with
  | root _ hL ha hz => exact ⟨rfl, ha, hz⟩
  | step q Ls L1 n e _ hq hn hfind hdir ha hz hL hdisj => simp at hp

theorem serializeDirectory_ne_nil (es : List DirectoryEntry) (h : es ≠ []) :
    serializeDirectory es ≠ [] := by
  intro hc
  have hl := serializeDirectory_length es
  rw [hc] at hl
  cases es with
  | nil => exact h rfl
  | cons e r =>
    rw [List.map_cons, List.sum_cons, List.length_nil] at hl
    omega

theorem wrap16_natCast (n : Nat) (h : n ≤ 32767) : wrap16 (n : Int) = n := by
  unfold wrap16
  omega

/-- A directory just written by `writeBlocks` is a stored directory. -/
theorem levelOk_written (s u : FS) (es : List DirectoryEntry) (a : Int) (cs : List Nat)
    (hsb : u.sb = s.sb)
    (hchain : chainOf u.fat chainFuel a = some cs)
    (hlen : cs.length = blocksNeeded (serializeDirectory es).length s.sb.blockSize)
    (ha : a = -1 ∨ (dataAddress s ≤ a ∧ a ≤ 4095))
    (hcs : ∀ c ∈ cs, 8192 / s.sb.blockSize ≤ c)
    (hdata : cs.flatMap (blockOf u) = serializeDirectory es
      ++ List.replicate (cs.length * s.sb.blockSize - (serializeDirectory es).length) 0)
    (hr : ∀ e ∈ es, entryInRange e) (hle : (serializeDirectory es).length ≤ 32767) :
    LevelOk u { address := a, size := ((serializeDirectory es).length : Int), entries := es,
                chain := cs } := by
  have hda : dataAddress u = dataAddress s := dataAddress_congr s u (congrArg Superblock.blockSize hsb)
  have hb : u.sb.blockSize = s.sb.blockSize := congrArg Superblock.blockSize hsb
  refine ⟨hchain, ?_, ?_, ⟨_, hdata⟩, rfl, hle, hr, ?_⟩
  · rw [hda]; exact ha
  · rw [hb]; exact hcs
  · rw [hb]; exact hlen

theorem setRootSize_clock (s : FS) (size : Int) : (setRootSize s size).clock = s.clock := rfl

theorem setRootSize_tick (s : FS) (size : Int) : (setRootSize s size).tick = s.tick := rfl

theorem readAttributes_nil (s : FS) :
    readAttributes [] s = (Except.error Error.assertion, s) := rfl

theorem run_ok_eq {α : Type} (a b : α) (s t : FS)
    (h1 : (Except.ok a, s) = ((Except.ok b, t) : Except Error α × FS)) : a = b :=
  Except.ok.inj (congrArg Prod.fst h1)

/-- The rewrite of the root container. -/
theorem writeDirectoryAux_root_spec (f : Nat) (L : Level) (s : FS) (es : List DirectoryEntry)
    (upd : Bool) (hbs : validBlockSize s.sb.blockSize)
    (hwf : wellFormedFat s.sb.blockSize s.fat) (h : Resolved s [] [] L)
    (hr : ∀ e ∈ es, entryInRange e) (hle : (serializeDirectory es).length ≤ 32767)
    (hne : es ≠ [])
    (hspace : blocksNeeded (serializeDirectory es).length s.sb.blockSize
      ≤ freeBlockCount s.fat + L.chain.length) :
    ∃ (t : FS) (L2 : Level),
      writeDirectoryAux (f + 1) [] es upd s
        = (Except.ok (wrap16 (serializeDirectory es).length), t) ∧
      WritePost s [] [] L es t [] L2 := by
  obtain ⟨-, ha, hz⟩ := resolved_nil s [] [] L h rfl
  obtain ⟨hchain, hrange, hdatal, -, -, -, -, hclen⟩ := resolved_levelOk s [] [] L h
  obtain ⟨hda, -, h2, h16, -⟩ := dataAddressOf_valid hbs
  obtain ⟨a, u, cs', hrun, hsb, hclk, htick, hd0, hwfu, hchu, hlenu, hrangea, hnil, hsame, hcs',
    hdata, hfat, hblk, hcount⟩ := writeBlocks_spec s L.address L.chain (serializeDirectory es)
      hbs hwf hrange hchain hdatal hspace
  have hbuf := serializeDirectory_ne_nil es hne
  have hdas : dataAddress s = ((8192 / s.sb.blockSize : Nat) : Int) := hda
  have haa : a = dataAddress s := by
    rw [← ha]
    refine hsame hbuf ?_
    rw [ha, hdas]
    omega
  rw [ha] at hrun
  have hW := writeDirectoryAux_root_run f s es upd _ _ a u (pathToAddressAndSize_nil s) hrun
  have hb : u.sb.blockSize = s.sb.blockSize := congrArg Superblock.blockSize hsb
  have hLu := levelOk_written s u es a cs' hsb hchu hlenu hrangea (fun c hc => (hcs' c hc).1)
    (by rw [hlenu] at hdata ⊢; exact hdata) hr hle
  obtain ⟨t, ht⟩ : ∃ t : FS, t = setRootSize u (wrap16 (serializeDirectory es).length) := ⟨_, rfl⟩
  rw [← ht] at hW
  have htf : t.fat = u.fat := by rw [ht]; exact setRootSize_fat u _
  have htb : t.sb.blockSize = u.sb.blockSize := by rw [ht]; exact setRootSize_blockSize u _
  have htr : t.sb.rootDirectoryEntrySize = wrap16 (serializeDirectory es).length := by
    rw [ht]; exact setRootSize_rootSize u _
  have htc : t.clock = u.clock := by rw [ht]; exact setRootSize_clock u _
  have htt : t.tick = u.tick := by rw [ht]; exact setRootSize_tick u _
  have htblk : ∀ b, blockOf t b = blockOf u b := by
    intro b; rw [ht]; exact setRootSize_blockOf u _ b
  have hLt := levelOk_frame u t _ hLu htb (fun c _ => by rw [htf]) (fun c _ => htblk c)
  refine ⟨t, _, hW, Resolved.root _ hLt ?_ ?_, rfl, htb.trans hb, ?_, ?_, ?_, ?_, ?_, ?_, ?_⟩
  · show a = dataAddress t
    rw [dataAddress_congr s t (htb.trans hb)]
    exact haa
  · show ((serializeDirectory es).length : Int) = t.sb.rootDirectoryEntrySize
    rw [htr, wrap16_natCast _ hle]
  · rw [htb, htf]; exact hwfu
  · intro x hx hx2
    rw [chainsOf_nil_snoc] at hx hx2
    rw [htf]
    exact hfat x hx hx2
  · intro x hx1 hx hx2
    rw [chainsOf_nil_snoc] at hx hx2
    rw [htblk]
    exact hblk x hx1 hx2
  · intro c hc
    rw [chainsOf_nil_snoc] at hc ⊢
    exact (hcs' c hc).2.2
  · rw [htf]; exact hcount
  · rw [htc]; exact hclk
  · refine ⟨?_, ?_, List.Forall₂.nil, List.Forall₂.nil⟩
    · rw [htt, htick]
    · intro a0 h0
      rw [readAttributes_nil] at h0
      exact absurd (congrArg Prod.fst h0) (fun hc => by cases hc)

/-- A chain write below the directory `q`: `writeBlocks` on a chain that shares no block
with the directories on the way to `q` leaves these directories as they are stored, and
the new chain shares no block with them either. -/
theorem writeBlocks_under (s : FS) (q : Path) (Ls0 : List Level) (L0 : Level) (h : Int)
    (cs : List Nat) (buffer : List Byte)
    (hbs : validBlockSize s.sb.blockSize) (hwf : wellFormedFat s.sb.blockSize s.fat)
    (hq : Resolved s q Ls0 L0)
    (hh : h = -1 ∨ (dataAddress s ≤ h ∧ h ≤ 4095))
    (hchain : chainOf s.fat chainFuel h = some cs)
    (hdata : ∀ c ∈ cs, 8192 / s.sb.blockSize ≤ c)
    (hdisj : ∀ c ∈ chainsOf (Ls0 ++ [L0]), c ∉ cs)
    (hspace : blocksNeeded buffer.length s.sb.blockSize ≤ freeBlockCount s.fat + cs.length) :
    ∃ (a : Int) (u : FS) (cs' : List Nat),
      writeBlocks h buffer s = (Except.ok a, u) ∧
      u.sb = s.sb ∧ u.clock = s.clock ∧ u.tick = s.tick ∧
      wellFormedFat u.sb.blockSize u.fat ∧
      chainOf u.fat chainFuel a = some cs' ∧
      cs'.length = blocksNeeded buffer.length s.sb.blockSize ∧
      (a = -1 ∨ (dataAddress s ≤ a ∧ a ≤ 4095)) ∧
      (buffer = [] → a = -1) ∧ (buffer ≠ [] → h ≠ -1 → a = h) ∧
      (∀ c ∈ cs', 8192 / s.sb.blockSize ≤ c ∧ c < 4096 ∧ (s.fat c = 0 ∨ c ∈ cs)) ∧
      cs'.flatMap (blockOf u)
        = buffer ++ List.replicate (cs'.length * s.sb.blockSize - buffer.length) 0 ∧
      (∀ x, x ∉ cs → x ∉ cs' → u.fat x = s.fat x) ∧
      (∀ x, 8192 / s.sb.blockSize ≤ x → x ∉ cs' → blockOf u x = blockOf s x) ∧
      freeBlockCount u.fat + cs'.length = freeBlockCount s.fat + cs.length ∧
      Resolved u q Ls0 L0 ∧ (∀ c ∈ chainsOf (Ls0 ++ [L0]), c ∉ cs') ∧
      (∀ c ∈ cs', u.fat c ≠ 0) := by
  obtain ⟨a, u, cs', hrun, hsb, hclk, htick, hd0, hwfu, hchu, hlenu, hrangea, hnil, hsame, hcs',
    hdat, hfat, hblk, hcount⟩ := writeBlocks_spec s h cs buffer hbs hwf hh hchain hdata hspace
  obtain ⟨hda, -, h2, h16, -⟩ := dataAddressOf_valid hbs
  have hanc := resolved_chains s q Ls0 L0 hq hbs
  have hnew : ∀ c ∈ chainsOf (Ls0 ++ [L0]), c ∉ cs' := by
    intro c hc hc2
    rcases (hcs' c hc2).2.2 with h0 | h0
    · exact (hanc c hc).1 h0
    · exact hdisj c hc h0
  have hb : u.sb.blockSize = s.sb.blockSize := congrArg Superblock.blockSize hsb
  refine ⟨a, u, cs', hrun, hsb, hclk, htick, hwfu, hchu, hlenu, hrangea, hnil, hsame, hcs',
    hdat, hfat, hblk, hcount, ?_, hnew, ?_⟩
  · refine resolved_frame s u q Ls0 L0 hq hb (congrArg Superblock.rootDirectoryEntrySize hsb) ?_
    intro c hc
    exact ⟨hfat c (hdisj c hc) (hnew c hc), hblk c (hanc c hc).2.1 (hnew c hc)⟩
  · refine chain_nonfree u.fat chainFuel a cs' hchu ?_
    intro c hc
    have := (hcs' c hc).1
    omega

/-- The run of `writeDirectoryEntry` on an existing entry of the stored directory `q`:
the entry is replaced in the listing of `q`, which is rewritten in the same number of
blocks. -/
theorem writeDirectoryEntryWith_spec (f : Nat) (ih : WritesDirectory f)
    (wd : Path → List DirectoryEntry → Bool → M Int)
    (v : FS) (q : Path) (Ls0 : List Level) (L0 : Level) (n : Name) (e e2 : DirectoryEntry)
    (hwd : ∀ d, wd q d false v = writeDirectoryAux f q d false v)
    (hf : q.length + 1 ≤ f) (hbs : validBlockSize v.sb.blockSize)
    (hwf : wellFormedFat v.sb.blockSize v.fat) (hq : Resolved v q Ls0 L0) (hn : n ≠ [])
    (hfind : findEntry L0.entries n = some e) (hname : e2.attributes.name = n)
    (hr2 : entryInRange e2) :
    ∃ (t : FS) (Ls1 : List Level) (L1 : Level) (d2 : List DirectoryEntry),
      replaceEntry n e2 L0.entries = some d2 ∧
      writeDirectoryEntryWith wd (q ++ [n]) e2 v = (Except.ok (), t) ∧
      WritePost v q Ls0 L0 d2 t Ls1 L1 ∧ L1.chain.length = L0.chain.length := by
  obtain ⟨d2, hrep⟩ := replaceEntry_some n e2 L0.entries e hfind
  obtain ⟨hf2, hne2, hlen2, hmem2, hoth, hl⟩ := replaceEntry_spec n e2 hname L0.entries d2 hrep
  obtain ⟨-, -, -, -, -, hlen0, hr0, hcl⟩ := resolved_levelOk v q Ls0 L0 hq
  obtain ⟨t, Ls1, L1, hrun, hpost⟩ := ih q Ls0 L0 v d2 false hf hbs hwf hq
    (fun x hx => by
      rcases hmem2 x hx with h | h
      · rw [h]; exact hr2
      · exact hr0 x h)
    (by rw [hlen2]; exact hlen0) (fun _ => hne2) (by rw [hlen2, ← hcl]; omega)
  have hrun2 := writeDirectoryEntryWith_run wd q n hn e2 v t L0.entries d2 _
    (resolved_readDirectory v q Ls0 L0 hq) hrep ((hwd d2).trans hrun)
  refine ⟨t, Ls1, L1, d2, hrep, hrun2, hpost, ?_⟩
  obtain ⟨hres, hent, hb, -⟩ := hpost
  obtain ⟨-, -, -, -, -, -, -, hcl1⟩ := resolved_levelOk t q Ls1 L1 hres
  rw [hcl1, hcl, hent, hlen2, hb]

theorem forall₂_snoc {α : Type} (R : α → α → Prop) (l1 l2 : List α) (a b : α)
    (h : List.Forall₂ R l1 l2) (hab : R a b) : List.Forall₂ R (l1 ++ [a]) (l2 ++ [b]) := by
  induction h with
  | nil => exact List.Forall₂.cons hab List.Forall₂.nil
  | cons h1 _ ih => exact List.Forall₂.cons h1 ih

/-- After the listing of `q` was rewritten, a stored directory `L2` that an entry of the
new listing names is reached through `q`, provided the rewrite could not touch its
chain. -/
theorem resolved_extend (v t : FS) (q : Path) (Ls0 Ls1 : List Level) (L0 L1 L2 : Level)
    (d2 : List DirectoryEntry) (n : Name) (e2 : DirectoryEntry)
    (hpost : WritePost v q Ls0 L0 d2 t Ls1 L1) (hn : n ≠ [])
    (hfind : findEntry d2 n = some e2) (hdir : e2.attributes.isDirectory = true)
    (ha : e2.firstBlockAddress = L2.address) (hz : e2.attributes.size = L2.size)
    (hL : LevelOk v L2) (hnf : ∀ c ∈ L2.chain, v.fat c ≠ 0)
    (hdisj : ∀ c ∈ chainsOf (Ls0 ++ [L0]), c ∉ L2.chain) :
    Resolved t (q ++ [n]) (Ls1 ++ [L1]) L2 ∧ (∀ c ∈ chainsOf (Ls1 ++ [L1]), c ∉ L2.chain) := by
  obtain ⟨hres, hent, hb, hwft, hF1, hF2, hO, -⟩ := hpost
  have hnew : ∀ c ∈ chainsOf (Ls1 ++ [L1]), c ∉ L2.chain := by
    intro c hc hc2
    rcases hO c hc with h0 | h0
    · exact hnf c hc2 h0
    · exact hdisj c h0 hc2
  have hLt : LevelOk t L2 := by
    refine levelOk_frame v t L2 hL hb ?_ ?_
    · intro c hc
      exact hF1 c (fun h0 => hdisj c h0 hc) (fun h0 => hnew c h0 hc)
    · intro c hc
      exact hF2 c (hL.2.2.1 c hc) (fun h0 => hdisj c h0 hc) (fun h0 => hnew c h0 hc)
  refine ⟨Resolved.step q Ls1 L1 n e2 L2 hres hn (by rw [hent]; exact hfind) hdir ha hz hLt ?_,
    hnew⟩
  intro M hM c hc
  exact hnew c (mem_chainsOf.mpr ⟨M, hM, hc⟩)

/-- The second half of `writeDirectory` on a directory below the root container, when the
entry of the directory is written into its parent: from the state `v` after the chain of
the directory was written (and the clock read, if it was) to the end. -/
theorem writeDirectoryAux_finish (f : Nat) (ih : WritesDirectory f) (s v : FS) (q : Path)
    (Ls0 : List Level) (L0 L2 : Level) (n : Name) (e e2 : DirectoryEntry)
    (es : List DirectoryEntry) (a : Int) (cs' : List Nat)
    (hbs : validBlockSize s.sb.blockSize)
    (hsb : v.sb = s.sb) (hclk : v.clock = s.clock) (htick : s.tick ≤ v.tick)
    (hwfv : wellFormedFat v.sb.blockSize v.fat)
    (hLv : LevelOk v { address := a, size := ((serializeDirectory es).length : Int),
                       entries := es, chain := cs' })
    (hcs' : ∀ c ∈ cs', s.fat c = 0 ∨ c ∈ L2.chain)
    (hfat : ∀ x, x ∉ L2.chain → x ∉ cs' → v.fat x = s.fat x)
    (hblk : ∀ x, 8192 / s.sb.blockSize ≤ x → x ∉ cs' → blockOf v x = blockOf s x)
    (hcount : freeBlockCount v.fat + cs'.length = freeBlockCount s.fat + L2.chain.length)
    (hqv : Resolved v q Ls0 L0) (hnew : ∀ c ∈ chainsOf (Ls0 ++ [L0]), c ∉ cs')
    (hnf : ∀ c ∈ cs', v.fat c ≠ 0)
    (hf : q.length + 1 ≤ f) (hn : n ≠ []) (hfind : findEntry L0.entries n = some e)
    (hname : e2.attributes.name = n) (hdir2 : e2.attributes.isDirectory = true)
    (ha2 : e2.firstBlockAddress = a)
    (hz2 : e2.attributes.size = ((serializeDirectory es).length : Int))
    (hr2 : entryInRange e2)
    (hattr : readAttributes (q ++ [n]) s = (Except.ok e.attributes, s))
    (hcr : e2.attributes.canRead = e.attributes.canRead)
    (hcw : e2.attributes.canWrite = e.attributes.canWrite)
    (hcc : e2.attributes.created = e.attributes.created)
    (hen : e.attributes.name = n) (hed : e.attributes.isDirectory = true) :
    ∃ (t : FS) (Ls1 : List Level) (L1 : Level),
      writeDirectoryEntryWith (writeDirectoryAux f) (q ++ [n]) e2 v = (Except.ok (), t) ∧
      WritePost s (q ++ [n]) (Ls0 ++ [L0]) L2 es t (Ls1 ++ [L1])
        { address := a, size := ((serializeDirectory es).length : Int), entries := es,
          chain := cs' } := by
  have hb : v.sb.blockSize = s.sb.blockSize := congrArg Superblock.blockSize hsb
  obtain ⟨t, Ls1, L1, d2, hrep, hrun, hpost, hclen⟩ := writeDirectoryEntryWith_spec f ih
    (writeDirectoryAux f) v q Ls0 L0 n e e2 (fun d => rfl) hf (by rw [hb]; exact hbs) hwfv hqv
    hn hfind hname hr2
  obtain ⟨hf2, -⟩ := replaceEntry_spec n e2 hname L0.entries d2 hrep
  obtain ⟨hres2, hnew2⟩ := resolved_extend v t q Ls0 Ls1 L0 L1 _ d2 n e2 hpost hn hf2 hdir2 ha2
    hz2 hLv hnf hnew
  obtain ⟨hres1, hent, hb1, hwft, hF1, hF2, hO, hcnt, hclk1, htick1⟩ := hpost
  have hattr2 := resolved_attributes t q Ls1 L1 hres1 n hn e2 (by rw [hent]; exact hf2)
  refine ⟨t, Ls1, L1, hrun, hres2, rfl, hb1.trans hb, hwft, ?_, ?_, ?_, ?_, hclk1.trans hclk,
    le_trans htick htick1.1, ?_, forall₂_snoc _ Ls0 Ls1 L0 L1 htick1.2.2.1 hclen,
    forall₂_snoc _ Ls0 Ls1 L0 L1 htick1.2.2.2
      (by rw [hent]; exact replaceEntry_names n e2 hname L0.entries d2 hrep)⟩
  rotate_right
  · intro a0 h0
    have h1 := run_ok_eq _ _ _ _ (hattr.symm.trans h0)
    rw [← h1]
    exact ⟨_, hattr2, hname.trans hen.symm, hdir2.trans hed.symm, hcr, hcw, hcc⟩
  · intro x hx hx2
    rw [mem_chainsOf_snoc] at hx hx2
    rw [hF1 x (fun h => hx (Or.inl h)) (fun h => hx2 (Or.inl h))]
    exact hfat x (fun h => hx (Or.inr h)) (fun h => hx2 (Or.inr h))
  · intro x hx1 hx hx2
    rw [mem_chainsOf_snoc] at hx hx2
    rw [hF2 x (by rw [hb]; exact hx1) (fun h => hx (Or.inl h)) (fun h => hx2 (Or.inl h))]
    exact hblk x hx1 (fun h => hx2 (Or.inr h))
  · intro c hc
    rw [mem_chainsOf_snoc] at hc ⊢
    rcases hc with hc | hc
    · rcases hO c hc with h0 | h0
      · by_cases h2 : c ∈ L2.chain
        · exact Or.inr (Or.inr h2)
        · by_cases h3 : c ∈ cs'
          · exact absurd h0 (hnf c h3)
          · left
            rw [← hfat c h2 h3]
            exact h0
      · exact Or.inr (Or.inl h0)
    · rcases hcs' c hc with h0 | h0
      · exact Or.inl h0
      · exact Or.inr (Or.inr h0)
  · show freeBlockCount t.fat + cs'.length = freeBlockCount s.fat + L2.chain.length
    omega

/-- The second half of `writeDirectory` on a directory below the root container, when
nothing is written into the parent. -/
theorem writeDirectoryAux_stay (s u : FS) (q : Path)
    (Ls0 : List Level) (L0 L2 : Level) (n : Name) (e : DirectoryEntry)
    (es : List DirectoryEntry) (a : Int) (cs' : List Nat)
    (hsb : u.sb = s.sb) (hclk : u.clock = s.clock) (htick : s.tick ≤ u.tick)
    (hwfu : wellFormedFat u.sb.blockSize u.fat)
    (hLu : LevelOk u { address := a, size := ((serializeDirectory es).length : Int),
                       entries := es, chain := cs' })
    (hcs' : ∀ c ∈ cs', s.fat c = 0 ∨ c ∈ L2.chain)
    (hfat : ∀ x, x ∉ L2.chain → x ∉ cs' → u.fat x = s.fat x)
    (hblk : ∀ x, 8192 / s.sb.blockSize ≤ x → x ∉ cs' → blockOf u x = blockOf s x)
    (hcount : freeBlockCount u.fat + cs'.length = freeBlockCount s.fat + L2.chain.length)
    (hqu : Resolved u q Ls0 L0) (hnew : ∀ c ∈ chainsOf (Ls0 ++ [L0]), c ∉ cs')
    (hn : n ≠ []) (hfind : findEntry L0.entries n = some e)
    (hdir : e.attributes.isDirectory = true)
    (ha : e.firstBlockAddress = a)
    (hz : e.attributes.size = ((serializeDirectory es).length : Int))
    (hattr : readAttributes (q ++ [n]) s = (Except.ok e.attributes, s)) :
    WritePost s (q ++ [n]) (Ls0 ++ [L0]) L2 es u (Ls0 ++ [L0])
      { address := a, size := ((serializeDirectory es).length : Int), entries := es,
        chain := cs' } := by
  refine ⟨Resolved.step q Ls0 L0 n e _ hqu hn hfind hdir ha hz hLu ?_, rfl,
    congrArg Superblock.blockSize hsb, hwfu, ?_, ?_, ?_, hcount, hclk, htick, ?_,
    List.forall₂_same.mpr (fun _ _ => rfl), List.forall₂_same.mpr (fun _ _ => rfl)⟩
  rotate_right
  · intro a0 h0
    have h1 := run_ok_eq _ _ _ _ (hattr.symm.trans h0)
    rw [← h1]
    exact ⟨_, resolved_attributes u q Ls0 L0 hqu n hn e hfind, rfl, rfl, rfl, rfl, rfl⟩
  · intro M hM c hc
    exact hnew c (mem_chainsOf.mpr ⟨M, hM, hc⟩)
  · intro x hx hx2
    rw [mem_chainsOf_snoc] at hx hx2
    exact hfat x (fun h => hx (Or.inr h)) (fun h => hx2 (Or.inr h))
  · intro x hx1 hx hx2
    rw [mem_chainsOf_snoc] at hx hx2
    exact hblk x hx1 (fun h => hx2 (Or.inr h))
  · intro c hc
    rw [mem_chainsOf_snoc] at hc ⊢
    rcases hc with hc | hc
    · exact Or.inr (Or.inl hc)
    · rcases hcs' c hc with h0 | h0
      · exact Or.inl h0
      · exact Or.inr (Or.inr h0)

theorem entry_unchanged (e : DirectoryEntry) (len old : Nat) (a : Int)
    (hold : e.attributes.size = (old : Int)) (hle : old ≤ 32767)
    (h : ¬ (toSizeT e.attributes.size ≠ len ∨ e.firstBlockAddress ≠ a)) :
    e.firstBlockAddress = a ∧ e.attributes.size = (len : Int) := by
  have h1 : toSizeT e.attributes.size = len := by
    by_contra hc
    exact h (Or.inl hc)
  have h2 : e.firstBlockAddress = a := by
    by_contra hc
    exact h (Or.inr hc)
  rw [hold, toSizeT_natCast _ (by omega)] at h1
  rw [hold, h1]
  exact ⟨h2, rfl⟩

/-- The fields of an entry whose size and first block were rewritten. -/
theorem resized_fields (e : DirectoryEntry) (z a : Int) :
    ({ attributes := { e.attributes with size := z }, firstBlockAddress := a }
        : DirectoryEntry).attributes.name = e.attributes.name
      ∧ ({ attributes := { e.attributes with size := z }, firstBlockAddress := a }
        : DirectoryEntry).attributes.isDirectory = e.attributes.isDirectory
      ∧ ({ attributes := { e.attributes with size := z }, firstBlockAddress := a }
        : DirectoryEntry).firstBlockAddress = a
      ∧ ({ attributes := { e.attributes with size := z }, firstBlockAddress := a }
        : DirectoryEntry).attributes.size = z
      ∧ ({ attributes := { e.attributes with size := z }, firstBlockAddress := a }
        : DirectoryEntry).attributes.created = e.attributes.created
      ∧ ({ attributes := { e.attributes with size := z }, firstBlockAddress := a }
        : DirectoryEntry).attributes.lastModified = e.attributes.lastModified
      ∧ ({ attributes := { e.attributes with size := z }, firstBlockAddress := a }
        : DirectoryEntry).attributes.canRead = e.attributes.canRead
      ∧ ({ attributes := { e.attributes with size := z }, firstBlockAddress := a }
        : DirectoryEntry).attributes.canWrite = e.attributes.canWrite :=
  ⟨rfl, rfl, rfl, rfl, rfl, rfl, rfl, rfl⟩

/-- The fields of an entry whose modification time was rewritten. -/
theorem stamped_fields (e : DirectoryEntry) (w : Int) :
    ({ e with attributes := { e.attributes with lastModified := w } }
        : DirectoryEntry).attributes.name = e.attributes.name
      ∧ ({ e with attributes := { e.attributes with lastModified := w } }
        : DirectoryEntry).attributes.isDirectory = e.attributes.isDirectory
      ∧ ({ e with attributes := { e.attributes with lastModified := w } }
        : DirectoryEntry).firstBlockAddress = e.firstBlockAddress
      ∧ ({ e with attributes := { e.attributes with lastModified := w } }
        : DirectoryEntry).attributes.size = e.attributes.size
      ∧ ({ e with attributes := { e.attributes with lastModified := w } }
        : DirectoryEntry).attributes.created = e.attributes.created
      ∧ ({ e with attributes := { e.attributes with lastModified := w } }
        : DirectoryEntry).attributes.lastModified = w
      ∧ ({ e with attributes := { e.attributes with lastModified := w } }
        : DirectoryEntry).attributes.canRead = e.attributes.canRead
      ∧ ({ e with attributes := { e.attributes with lastModified := w } }
        : DirectoryEntry).attributes.canWrite = e.attributes.canWrite :=
  ⟨rfl, rfl, rfl, rfl, rfl, rfl, rfl, rfl⟩

theorem entryInRange_of_fields (e e2 : DirectoryEntry)
    (hn : e2.attributes.name = e.attributes.name)
    (hz : -32768 ≤ e2.attributes.size ∧ e2.attributes.size ≤ 32767)
    (hc : e2.attributes.created = e.attributes.created)
    (hm : -9223372036854775808 ≤ e2.attributes.lastModified
      ∧ e2.attributes.lastModified ≤ 9223372036854775807)
    (ha : -32768 ≤ e2.firstBlockAddress ∧ e2.firstBlockAddress ≤ 32767)
    (he : entryInRange e) : entryInRange e2 := by
  obtain ⟨h1, -, h3, -, -⟩ := he
  exact ⟨by rw [hn]; exact h1, hz, by rw [hc]; exact h3, hm, ha⟩

/-- The entry `writeDirectory` writes into the parent. -/
theorem entry_resized (e e1 : DirectoryEntry) (len old : Nat) (a z : Int)
    (hold : e.attributes.size = (old : Int)) (hle : old ≤ 32767) (hz : z = (len : Int))
    (he1 : e1 = if decide (toSizeT e.attributes.size ≠ len ∨ e.firstBlockAddress ≠ a) = true then
      { attributes := { e.attributes with size := z },
        firstBlockAddress := a } else e) :
    e1.attributes.name = e.attributes.name ∧ e1.attributes.isDirectory = e.attributes.isDirectory
      ∧ e1.firstBlockAddress = a ∧ e1.attributes.size = (len : Int)
      ∧ e1.attributes.created = e.attributes.created
      ∧ e1.attributes.lastModified = e.attributes.lastModified
      ∧ e1.attributes.canRead = e.attributes.canRead
      ∧ e1.attributes.canWrite = e.attributes.canWrite := by
  by_cases hchg : toSizeT e.attributes.size ≠ len ∨ e.firstBlockAddress ≠ a
  · rw [if_pos (decide_eq_true hchg)] at he1
    obtain ⟨h1, h2, h3, h4, h5, h6, h7, h8⟩ := resized_fields e z a
    rw [← he1] at h1 h2 h3 h4 h5 h6 h7 h8
    exact ⟨h1, h2, h3, h4.trans hz, h5, h6, h7, h8⟩
  · rw [if_neg (by rw [decide_eq_false hchg]; exact Bool.false_ne_true)] at he1
    rw [he1]
    obtain ⟨h1, h2⟩ := entry_unchanged e len old a hold hle hchg
    exact ⟨rfl, rfl, h1, h2, rfl, rfl, rfl, rfl⟩

theorem address_int16 (a k : Int) (hk : 0 ≤ k) (h : a = -1 ∨ (k ≤ a ∧ a ≤ 4095)) :
    -32768 ≤ a ∧ a ≤ 32767 := by
  omega

/-- The rewrite of a directory below the root container, given the specification of the
rewrites of its ancestors. -/
theorem writeDirectoryAux_step_spec (f : Nat) (ih : WritesDirectory f) (s : FS) (q : Path)
    (Ls0 : List Level) (L0 L2 : Level) (n : Name) (e : DirectoryEntry)
    (es : List DirectoryEntry) (upd : Bool)
    (hf : q.length + 1 ≤ f) (hbs : validBlockSize s.sb.blockSize)
    (hwf : wellFormedFat s.sb.blockSize s.fat)
    (hq : Resolved s q Ls0 L0) (hn : n ≠ []) (hfind : findEntry L0.entries n = some e)
    (hdir : e.attributes.isDirectory = true) (ha : e.firstBlockAddress = L2.address)
    (hz : e.attributes.size = L2.size) (hL : LevelOk s L2)
    (hdisj : ∀ M ∈ Ls0 ++ [L0], ∀ c ∈ M.chain, c ∉ L2.chain)
    (hr : ∀ e ∈ es, entryInRange e) (hle : (serializeDirectory es).length ≤ 32767)
    (hspace : blocksNeeded (serializeDirectory es).length s.sb.blockSize
      ≤ freeBlockCount s.fat + L2.chain.length) :
    ∃ (t : FS) (Ls2 : List Level) (L3 : Level),
      writeDirectoryAux (f + 1) (q ++ [n]) es upd s
        = (Except.ok (wrap16 (serializeDirectory es).length), t) ∧
      WritePost s (q ++ [n]) (Ls0 ++ [L0]) L2 es t Ls2 L3 := by
  have hres := Resolved.step q Ls0 L0 n e L2 hq hn hfind hdir ha hz hL hdisj
  have hcheck := resolved_checkIsDirectory s q Ls0 L0 hq n hn e hfind true
  rw [if_pos hdir] at hcheck
  have haddr := resolved_address s _ _ L2 hres
  obtain ⟨hchain, hrange, hdatal, -, hsize, hlen0, -, -⟩ := hL
  obtain ⟨hda, -, h2, h16, -⟩ := dataAddressOf_valid hbs
  have hdas : dataAddress s = ((8192 / s.sb.blockSize : Nat) : Int) := hda
  obtain ⟨a, u, cs', hrun, hsb, hclk, htick, hwfu, hchu, hlenu, hrangea, hnil, hsame, hcs',
    hdat, hfat, hblk, hcount, hqu, hnew, hnf⟩ := writeBlocks_under s q Ls0 L0 L2.address L2.chain
      (serializeDirectory es) hbs hwf hq hrange hchain hdatal
      (fun c hc => by
        obtain ⟨M, hM, hcM⟩ := mem_chainsOf.mp hc
        exact hdisj M hM c hcM) hspace
  have hentry := resolved_entry u q Ls0 L0 hqu n hn e hfind
  have hLu := levelOk_written s u es a cs' hsb hchu hlenu hrangea (fun c hc => (hcs' c hc).1)
    (by rw [hlenu] at hdat ⊢; exact hdat) hr hle
  have hp : q ++ [n] ≠ [] := by simp
  have hname : e.attributes.name = n := (findEntry_name _ _ _ hfind).1
  obtain ⟨-, -, -, -, -, -, hrL0, -⟩ := resolved_levelOk s q Ls0 L0 hq
  obtain ⟨hre1, hre2, hre3, hre4, hre5⟩ := hrL0 e (findEntry_name _ _ _ hfind).2
  have hold : e.attributes.size = (((serializeDirectory L2.entries).length : Nat) : Int) :=
    hz.trans hsize
  have hara : -32768 ≤ a ∧ a ≤ 32767 :=
    address_int16 a (dataAddress s) (by rw [hdas]; exact Int.ofNat_nonneg _) hrangea
  obtain ⟨e1, he1⟩ : ∃ e1 : DirectoryEntry, e1 = if decide (toSizeT e.attributes.size
      ≠ (serializeDirectory es).length ∨ e.firstBlockAddress ≠ a) = true then
      { attributes := { e.attributes with size := wrap16 (serializeDirectory es).length },
        firstBlockAddress := a } else e := ⟨_, rfl⟩
  have hattr := resolved_attributes s q Ls0 L0 hq n hn e hfind
  obtain ⟨h1n, h1d, h1a, h1z, h1c, -, h1r, h1w⟩ := entry_resized e e1 _ _ a _ hold hlen0
    (wrap16_natCast _ hle) he1
  have hlr : -32768 ≤ (((serializeDirectory es).length : Nat) : Int)
      ∧ (((serializeDirectory es).length : Nat) : Int) ≤ 32767 := by omega
  cases upd with
  | false =>
    by_cases hchg : toSizeT e.attributes.size ≠ (serializeDirectory es).length
        ∨ e.firstBlockAddress ≠ a
    · obtain ⟨g1, g2, g3, g4, g5, g6, g7, g8⟩ := resized_fields e
        (wrap16 (serializeDirectory es).length) a
      obtain ⟨t, Ls1, L1, hup, hpost⟩ := writeDirectoryAux_finish f ih s u q Ls0 L0 L2 n e
        { attributes := { e.attributes with size := wrap16 (serializeDirectory es).length },
          firstBlockAddress := a } es a cs' hbs hsb hclk (le_of_eq htick.symm) hwfu hLu
        (fun c hc => (hcs' c hc).2.2) hfat hblk hcount hqu hnew hnf hf hn hfind
        (g1.trans hname) (g2.trans hdir) g3 (g4.trans (wrap16_natCast _ hle))
        (entryInRange_of_fields e _ g1 (by rw [g4]; exact wrap16_range _) g5
          (by rw [g6]; exact hre4) (by rw [g3]; exact hara) ⟨hre1, hre2, hre3, hre4, hre5⟩)
        hattr g7 g8 g5 hname hdir
      exact ⟨t, _, _, writeDirectoryAux_step_changed f _ hp es s u t _ _ a e hcheck haddr hrun
        hentry hchg hup, hpost⟩
    · obtain ⟨h3, h4⟩ := entry_unchanged e _ _ a hold hlen0 hchg
      exact ⟨u, _, _, writeDirectoryAux_step_same f _ hp es s u _ _ a e hcheck haddr hrun
        hentry hchg, writeDirectoryAux_stay s u q Ls0 L0 L2 n e es a cs' hsb hclk
          (le_of_eq htick.symm) hwfu hLu (fun c hc => (hcs' c hc).2.2) hfat hblk hcount hqu hnew
          hn hfind hdir h3 h4 hattr⟩
  | true =>
    obtain ⟨v, hv⟩ : ∃ v : FS, v = { u with tick := u.tick + 1 } := ⟨_, rfl⟩
    have hvsb : v.sb = u.sb := by rw [hv]
    have hvfat : v.fat = u.fat := by rw [hv]
    have hvclk : v.clock = u.clock := by rw [hv]
    have hvtick : v.tick = u.tick + 1 := by rw [hv]
    have hvblk : ∀ x, blockOf v x = blockOf u x := by
      intro x; rw [hv]; rfl
    have hvb : v.sb.blockSize = u.sb.blockSize := congrArg Superblock.blockSize hvsb
    obtain ⟨g1, g2, g3, g4, g5, g6, g7, g8⟩ := stamped_fields e1 (wrap64 (u.clock u.tick))
    obtain ⟨t, Ls1, L1, hup, hpost⟩ := writeDirectoryAux_finish f ih s v q Ls0 L0 L2 n e
      { e1 with attributes := { e1.attributes with lastModified := wrap64 (u.clock u.tick) } }
      es a cs' hbs (hvsb.trans hsb) (hvclk.trans hclk) (by omega)
      (by rw [hvb, hvfat]; exact hwfu)
      (levelOk_frame u v _ hLu hvb (fun c _ => by rw [hvfat]) (fun c _ => hvblk c))
      (fun c hc => (hcs' c hc).2.2) (by rw [hvfat]; exact hfat)
      (fun x hx hx2 => by rw [hvblk]; exact hblk x hx hx2) (by rw [hvfat]; exact hcount)
      (resolved_frame u v q Ls0 L0 hqu hvb (congrArg Superblock.rootDirectoryEntrySize hvsb)
        (fun c _ => ⟨by rw [hvfat], hvblk c⟩))
      hnew (by rw [hvfat]; exact hnf) hf hn hfind (g1.trans (h1n.trans hname))
      (g2.trans (h1d.trans hdir)) (g3.trans h1a) (g4.trans h1z)
      (entryInRange_of_fields e _ (g1.trans h1n) (by rw [g4, h1z]; exact hlr) (g5.trans h1c)
        (by rw [g6]; exact wrap64_range _) (by rw [g3, h1a]; exact hara)
        ⟨hre1, hre2, hre3, hre4, hre5⟩)
      hattr (g7.trans h1r) (g8.trans h1w) (g5.trans h1c) hname hdir
    rw [hv] at hup
    exact ⟨t, _, _, writeDirectoryAux_step_stamp f _ hp es s u t _ _ a e e1 hcheck haddr hrun
      hentry he1 hup, hpost⟩

/-- The specification of `writeDirectory` holds at every depth. -/
theorem writesDirectory_all : ∀ fuel : Nat, WritesDirectory fuel := by
  intro fuel
  induction fuel with
  | zero =>
    intro p Ls L s es upd hf
    omega
  | succ f ih =>
    intro p Ls L s es upd hf hbs hwf hres hr hle hne hspace
    cases hres with
    | root _ hL ha hz =>
      obtain ⟨t, L2, hrun, hpost⟩ := writeDirectoryAux_root_spec f L s es upd hbs hwf
        (Resolved.root L hL ha hz) hr hle (hne rfl) hspace
      exact ⟨t, [], L2, hrun, hpost⟩
    | step q Ls0 L0 n e _ hq hn hfind hdir ha hz hL hdisj =>
      rw [List.length_append, List.length_singleton] at hf
      exact writeDirectoryAux_step_spec f ih s q Ls0 L0 L n e es upd (by omega) hbs hwf hq hn
        hfind hdir ha hz hL hdisj hr hle hspace

/-- The loop of `chmod` changes nothing but the two permission bits. -/
theorem chmodLoop_fields (mode : List Char) :
    ∀ (add : Bool) (x a : FileAttributes), chmodLoop mode add x = Except.ok a →
      a.isDirectory = x.isDirectory ∧ a.name = x.name ∧ a.size = x.size ∧
      a.created = x.created ∧ a.lastModified = x.lastModified := by
  induction mode with
  | nil =>
    intro add x a h
    rw [chmodLoop] at h
    cases h
    exact ⟨rfl, rfl, rfl, rfl, rfl⟩
  | cons c rest ih =>
    intro add x a h
    rw [chmodLoop] at h
    by_cases h1 : c = '+'
    · rw [if_pos h1] at h
      exact ih true x a h
    · rw [if_neg h1] at h
      by_cases h2 : c = '-'
      · rw [if_pos h2] at h
        exact ih false x a h
      · rw [if_neg h2] at h
        by_cases h3 : c = 'r'
        · rw [if_pos h3] at h
          have h5 := ih add _ a h
          exact h5
        · rw [if_neg h3] at h
          by_cases h4 : c = 'w'
          · rw [if_pos h4] at h
            have h5 := ih add _ a h
            exact h5
          · rw [if_neg h4] at h
            cases h

/-- The loop of `chmod` gives the same result from every start that differs from the
original one only by permission bits that already have their final value. -/
theorem chmodLoop_stable (mode : List Char) :
    ∀ (add : Bool) (x a y : FileAttributes), chmodLoop mode add x = Except.ok a →
      y.isDirectory = x.isDirectory → y.name = x.name → y.size = x.size →
      y.created = x.created → y.lastModified = x.lastModified →
      (y.canRead = x.canRead ∨ y.canRead = a.canRead) →
      (y.canWrite = x.canWrite ∨ y.canWrite = a.canWrite) →
      chmodLoop mode add y = Except.ok a := by
  induction mode with
  | nil =>
    intro add x a y h e1 e2 e3 e4 e5 e6 e7
    rw [chmodLoop] at h ⊢
    cases h
    have e6' : y.canRead = x.canRead := by rcases e6 with h | h <;> exact h
    have e7' : y.canWrite = x.canWrite := by rcases e7 with h | h <;> exact h
    cases x
    cases y
    simp only at e1 e2 e3 e4 e5 e6' e7'
    rw [e1, e2, e3, e4, e5, e6', e7']
  | cons c rest ih =>
    intro add x a y h e1 e2 e3 e4 e5 e6 e7
    rw [chmodLoop] at h ⊢
    by_cases h1 : c = '+'
    · rw [if_pos h1] at h ⊢
      exact ih true x a y h e1 e2 e3 e4 e5 e6 e7
    · rw [if_neg h1] at h ⊢
      by_cases h2 : c = '-'
      · rw [if_pos h2] at h ⊢
        exact ih false x a y h e1 e2 e3 e4 e5 e6 e7
      · rw [if_neg h2] at h ⊢
        by_cases h3 : c = 'r'
        · rw [if_pos h3] at h ⊢
          exact ih add _ a _ h e1 e2 e3 e4 e5 (Or.inl rfl) e7
        · rw [if_neg h3] at h ⊢
          by_cases h4 : c = 'w'
          · rw [if_pos h4] at h ⊢
            exact ih add _ a _ h e1 e2 e3 e4 e5 e6 (Or.inl rfl)
          · rw [if_neg h4] at h
            cases h

/-- Applying the loop of `chmod` to its own result changes nothing. -/
theorem chmodLoop_idempotent (mode : List Char) (add : Bool) (x a : FileAttributes)
    (h : chmodLoop mode add x = Except.ok a) : chmodLoop mode add a = Except.ok a := by
  obtain ⟨e1, e2, e3, e4, e5⟩ := chmodLoop_fields mode add x a h
  exact chmodLoop_stable mode add x a a h e1 e2 e3 e4 e5 (Or.inr rfl) (Or.inr rfl)

/-- The run of `writeAttributes` on an entry of the stored directory `q`: the attributes
of the entry are replaced in the listing of `q`, which is rewritten in place. -/
theorem writeAttributes_spec (s : FS) (q : Path) (Ls : List Level) (L : Level) (n : Name)
    (e : DirectoryEntry) (a : FileAttributes)
    (hbs : validBlockSize s.sb.blockSize) (hwf : wellFormedFat s.sb.blockSize s.fat)
    (hq : Resolved s q Ls L) (hn : n ≠ []) (hfind : findEntry L.entries n = some e)
    (hname : a.name = n)
    (hr : entryInRange { attributes := a, firstBlockAddress := e.firstBlockAddress }) :
    ∃ (t : FS) (Ls1 : List Level) (L1 : Level) (d2 : List DirectoryEntry),
      replaceEntry n { attributes := a, firstBlockAddress := e.firstBlockAddress } L.entries
        = some d2 ∧
      writeAttributes (q ++ [n]) a s = (Except.ok (), t) ∧
      WritePost s q Ls L d2 t Ls1 L1 ∧ L1.chain.length = L.chain.length := by
  obtain ⟨t, Ls1, L1, d2, hrep, hrun, hpost, hlen⟩ := writeDirectoryEntryWith_spec
    (q.length + 1) (writesDirectory_all _) (fun p d u => writeDirectory p d u) s q Ls L n e
    { attributes := a, firstBlockAddress := e.firstBlockAddress } (fun d => rfl) (le_refl _)
    hbs hwf hq hn hfind hname hr
  refine ⟨t, Ls1, L1, d2, hrep, ?_, hpost, hlen⟩
  rw [writeAttributes, bind_ok _ _ _ _ _ (resolved_entry s q Ls L hq n hn e hfind)]
  exact hrun

theorem natCast_le_4095 (k : Nat) (h : k ≤ 16) : (k : Int) ≤ 4095 := by
  omega

/-- The image the formatting constructor leaves: the root container is the stored
directory whose only block is `dataAddress` and whose only entry is the root directory,
the table is well formed and `4095 - dataAddress` of its entries are FREE. -/
theorem resolved_format (b : Nat) (hb : validBlockSize b) (s : FS) :
    ∃ t : FS, format b s = (Except.ok (), t) ∧ t.sb.blockSize = b ∧
      wellFormedFat t.sb.blockSize t.fat ∧ freeBlockCount t.fat = 4095 - 8192 / b ∧
      t.clock = s.clock ∧ t.tick = s.tick + 1 ∧
      Resolved t [] [] { address := ((8192 / b : Nat) : Int), size := 32,
                         entries := [rootDirectoryEntry (wrap64 (s.clock s.tick))],
                         chain := [8192 / b] } := by
  obtain ⟨hda, hmul, h2, hle, -⟩ := dataAddressOf_valid hb
  have hb512 : 512 ≤ b := by rcases hb with h | h | h | h <;> omega
  obtain ⟨u, hformat, husb, hufat, huclk, hutick, hread⟩ := format_run b hb s
  have hbu : u.sb.blockSize = b := by rw [husb]
  obtain ⟨v, hv⟩ : ∃ v : FS, v = setRootSize (setRootSize u 32) 32 := ⟨_, rfl⟩
  have hvbs : v.sb.blockSize = b := by
    rw [hv, setRootSize_blockSize, setRootSize_blockSize, hbu]
  have hvb : validBlockSize v.sb.blockSize := by rw [hvbs]; exact hb
  have hvfat : v.fat = formatTable b := by
    rw [hv, setRootSize_fat, setRootSize_fat, hufat]
  rw [← hv] at hformat
  obtain ⟨t, ht⟩ : ∃ t : FS, t = persist v := ⟨_, rfl⟩
  rw [← ht] at hformat
  have htsb : t.sb = v.sb := by rw [ht, persist_sb v hvb]
  have htbs : t.sb.blockSize = b := by rw [htsb, hvbs]
  have htfat : t.fat = formatTable b := by rw [ht, persist_fat v hvb, hvfat]
  have htroot : t.sb.rootDirectoryEntrySize = 32 := by
    rw [htsb, hv, setRootSize_rootSize]
  have htda : dataAddress t = ((8192 / b : Nat) : Int) := by
    unfold dataAddress
    rw [htbs, hda]
  have htclk : t.clock = s.clock := by
    rw [ht, (persist_aux v hvb).1, hv, setRootSize_clock, setRootSize_clock, huclk]
  have httick : t.tick = s.tick + 1 := by
    rw [ht, (persist_aux v hvb).2.1, hv, setRootSize_tick, setRootSize_tick, hutick]
  have hblock : blockOf t (8192 / b) = blockOf u (8192 / b) := by
    rw [ht, persist_blockOf v _ hvb (by rw [hvbs]), hv, setRootSize_blockOf, setRootSize_blockOf]
  have hreadu := readBlocks_chain u ((8192 / b : Nat) : Int) [8192 / b]
    (Or.inl ⟨by unfold dataAddress; rw [hbu, hda], natCast_le_4095 _ hle⟩)
    (by rw [hufat]; exact formatTable_chain b hb)
  rw [hread] at hreadu
  have hbytes : blockOf u (8192 / b)
      = serializeDirectory [rootDirectoryEntry (wrap64 (s.clock s.tick))]
        ++ List.replicate (b - 32) 0 := by
    have h3 := congrArg Prod.fst hreadu
    simp only [Except.ok.injEq, List.flatMap_cons, List.flatMap_nil, List.append_nil] at h3
    exact h3.symm
  have hl := rootDirectoryEntry_length (wrap64 (s.clock s.tick))
  refine ⟨t, hformat, htbs, ?_, ?_, htclk, httick, Resolved.root _ ⟨?_, ?_, ?_, ⟨List.replicate (b - 32) 0, ?_⟩, ?_, ?_,
    ?_, ?_⟩ htda.symm htroot.symm⟩
  · rw [htbs, htfat]; exact formatTable_wellFormed b hb
  · rw [htfat]; exact freeBlockCount_formatTable b hb
  · rw [htfat]; exact formatTable_chain b hb
  · right
    rw [htda]
    exact ⟨le_refl _, natCast_le_4095 _ hle⟩
  · intro c hc
    rw [htbs]
    rw [List.mem_singleton.mp hc]
  · show [8192 / b].flatMap (blockOf t) = _ ++ _
    rw [List.flatMap_cons, List.flatMap_nil, List.append_nil, hblock, hbytes]
  · show (32 : Int) = ((serializeDirectory [rootDirectoryEntry (wrap64 (s.clock s.tick))]).length : Int)
    rw [hl]
    rfl
  · show (serializeDirectory [rootDirectoryEntry (wrap64 (s.clock s.tick))]).length ≤ 32767
    rw [hl]
    decide
  · intro e he
    rw [List.mem_singleton.mp he]
    exact rootDirectoryEntry_inRange _
  · show [8192 / b].length
      = blocksNeeded (serializeDirectory [rootDirectoryEntry (wrap64 (s.clock s.tick))]).length
          t.sb.blockSize
    rw [hl, htbs, blocksNeeded_one (by decide) (by omega)]
    rfl

/-- The run of `chmod` with an accepted mode string on an entry of the stored directory
`q`: the entry keeps its first block and receives the attributes the loop computes, and
the listing of `q` is rewritten in place. -/
theorem chmod_spec (s : FS) (q : Path) (Ls : List Level) (L : Level) (n : Name)
    (e : DirectoryEntry) (mode : List Char)
    (hbs : validBlockSize s.sb.blockSize) (hwf : wellFormedFat s.sb.blockSize s.fat)
    (hq : Resolved s q Ls L) (hn : n ≠ []) (hfind : findEntry L.entries n = some e)
    (hmode : modeAccepted mode = true) :
    ∃ (t : FS) (Ls1 : List Level) (L1 : Level) (a : FileAttributes),
      chmodLoop mode false e.attributes = Except.ok a ∧
      chmod (q ++ [n]) mode s = (Except.ok (), t) ∧
      validBlockSize t.sb.blockSize ∧ wellFormedFat t.sb.blockSize t.fat ∧
      Resolved t q Ls1 L1 ∧
      findEntry L1.entries n
        = some { attributes := a, firstBlockAddress := e.firstBlockAddress } ∧
      (∀ m, m ≠ n → findEntry L1.entries m = findEntry L.entries m) ∧
      (∀ x, x ∉ chainsOf (Ls ++ [L]) → x ∉ chainsOf (Ls1 ++ [L1]) → t.fat x = s.fat x) ∧
      (∀ x, 8192 / s.sb.blockSize ≤ x → x ∉ chainsOf (Ls ++ [L]) →
        x ∉ chainsOf (Ls1 ++ [L1]) → blockOf t x = blockOf s x) ∧
      (∀ c ∈ chainsOf (Ls1 ++ [L1]), s.fat c = 0 ∨ c ∈ chainsOf (Ls ++ [L])) ∧
      freeBlockCount t.fat = freeBlockCount s.fat ∧ t.sb.blockSize = s.sb.blockSize := by
  have hattr : (readAttributes (q ++ [n]) s).1 = Except.ok e.attributes := by
    rw [resolved_attributes s q Ls L hq n hn e hfind]
  obtain ⟨a, hloop, hch⟩ := (chmod_run (q ++ [n]) mode e.attributes s hattr).2 hmode
  obtain ⟨f1, f2, f3, f4, f5⟩ := chmodLoop_fields mode false e.attributes a hloop
  obtain ⟨hname, hmem⟩ := findEntry_name _ _ _ hfind
  obtain ⟨-, -, -, -, -, -, hrL, -⟩ := resolved_levelOk s q Ls L hq
  obtain ⟨r1, r2, r3, r4, r5⟩ := hrL e hmem
  have hr : entryInRange { attributes := a, firstBlockAddress := e.firstBlockAddress } :=
    ⟨by show a.name.length < _; rw [f2]; exact r1, by show _ ≤ a.size ∧ a.size ≤ _; rw [f3]; exact r2,
      by show _ ≤ a.created ∧ a.created ≤ _; rw [f4]; exact r3,
      by show _ ≤ a.lastModified ∧ a.lastModified ≤ _; rw [f5]; exact r4, r5⟩
  obtain ⟨t, Ls1, L1, d2, hrep, hrun, hpost, hlen⟩ := writeAttributes_spec s q Ls L n e a hbs hwf
    hq hn hfind (f2.trans hname) hr
  obtain ⟨g1, -, -, -, g5, -⟩ := replaceEntry_spec n
    { attributes := a, firstBlockAddress := e.firstBlockAddress } (f2.trans hname) L.entries d2
    hrep
  obtain ⟨hres, hent, hb, hwft, hF1, hF2, hO, hcnt, -⟩ := hpost
  refine ⟨t, Ls1, L1, a, hloop, hch.trans hrun, by rw [hb]; exact hbs, hwft, hres,
    by rw [hent]; exact g1, fun m hm => by rw [hent]; exact g5 m hm, hF1, hF2, hO, by omega, hb⟩

/-- Claim C15. `chmod` is idempotent and touches only the permission bits: for a path
`q/n` whose parent `q` resolves through stored directories of a well-formed image and
has an entry `e` named `n`, and every accepted mode string, `chmod` returns; the entry
read back afterwards has the first block of `e` and attributes that agree with those of
`e` in `isDirectory`, `name`, `size`, `created` and `lastModified`; and a second `chmod`
with the same mode string returns and leaves exactly the same entry. -/
theorem chmod_idempotent_permission_bits_only (s : FS) (q : Path) (Ls : List Level) (L : Level)
    (n : Name) (e : DirectoryEntry) (mode : List Char)
    (hbs : validBlockSize s.sb.blockSize) (hwf : wellFormedFat s.sb.blockSize s.fat)
    (hq : Resolved s q Ls L) (hn : n ≠ []) (hfind : findEntry L.entries n = some e)
    (hmode : modeAccepted mode = true) :
    readDirectoryEntry (q ++ [n]) s = (Except.ok e, s) ∧
    ∃ (t : FS) (a : FileAttributes),
      chmod (q ++ [n]) mode s = (Except.ok (), t) ∧
      readDirectoryEntry (q ++ [n]) t
        = (Except.ok { attributes := a, firstBlockAddress := e.firstBlockAddress }, t) ∧
      readAttributes (q ++ [n]) t = (Except.ok a, t) ∧
      a.isDirectory = e.attributes.isDirectory ∧ a.name = e.attributes.name ∧
      a.size = e.attributes.size ∧ a.created = e.attributes.created ∧
      a.lastModified = e.attributes.lastModified ∧
      ∃ t2 : FS, chmod (q ++ [n]) mode t = (Except.ok (), t2) ∧
        readDirectoryEntry (q ++ [n]) t2
          = (Except.ok { attributes := a, firstBlockAddress := e.firstBlockAddress }, t2) ∧
        readAttributes (q ++ [n]) t2 = (Except.ok a, t2) := by
  obtain ⟨t, Ls1, L1, a, hloop, hrun, hbst, hwft, hres, hfind1, -⟩ := chmod_spec s q Ls L n e mode
    hbs hwf hq hn hfind hmode
  obtain ⟨f1, f2, f3, f4, f5⟩ := chmodLoop_fields mode false e.attributes a hloop
  obtain ⟨t2, Ls2, L2, a2, hloop2, hrun2, -, -, hres2, hfind2, -⟩ := chmod_spec t q Ls1 L1 n
    { attributes := a, firstBlockAddress := e.firstBlockAddress } mode hbst hwft hres hn hfind1
    hmode
  have hidem : chmodLoop mode false a = Except.ok a :=
    chmodLoop_idempotent mode false e.attributes a hloop
  have ha2 : a2 = a := (Except.ok.inj (hloop2.symm.trans hidem))
  rw [ha2] at hfind2
  exact ⟨resolved_entry s q Ls L hq n hn e hfind, t, a, hrun,
    resolved_entry t q Ls1 L1 hres n hn _ hfind1,
    resolved_attributes t q Ls1 L1 hres n hn _ hfind1, f1, f2, f3, f4, f5, t2, hrun2,
    resolved_entry t2 q Ls2 L2 hres2 n hn _ hfind2,
    resolved_attributes t2 q Ls2 L2 hres2 n hn _ hfind2⟩

theorem image512_eq (t : FS) (h : format 512 (blank 0) = (Except.ok (), t)) : image512 = t := by
  unfold image512
  rw [h]

theorem chmod_idempotent_permission_bits_only_witness :
    modeAccepted ['+', 'r'] = true ∧
    readDirectoryEntry [rootName] image512 = (Except.ok (rootDirectoryEntry 0), image512) ∧
    ∃ (t : FS) (a : FileAttributes),
      chmod [rootName] ['+', 'r'] image512 = (Except.ok (), t) ∧
      readDirectoryEntry [rootName] t
        = (Except.ok { attributes := a, firstBlockAddress := -1 }, t) ∧
      readAttributes [rootName] t = (Except.ok a, t) ∧
      a.isDirectory = true ∧ a.name = rootName ∧ a.size = 0 ∧ a.created = 0 ∧
      a.lastModified = 0 ∧
      ∃ t2 : FS, chmod [rootName] ['+', 'r'] t = (Except.ok (), t2) ∧
        readDirectoryEntry [rootName] t2
          = (Except.ok { attributes := a, firstBlockAddress := -1 }, t2) ∧
        readAttributes [rootName] t2 = (Except.ok a, t2) := by
  obtain ⟨t0, hfmt, hb, hwf, -, -, -, hres⟩ := resolved_format 512 (by decide) (blank 0)
  rw [image512_eq t0 hfmt]
  exact ⟨by decide, chmod_idempotent_permission_bits_only t0 [] [] _ rootName
    (rootDirectoryEntry 0) ['+', 'r'] (by rw [hb]; decide) hwf hres (by decide) (by decide)
    (by decide)⟩

/-- Without room for the buffer once the old chain is freed, `writeBlocks` reports that
the file system is full. -/
theorem writeBlocks_full (s : FS) (h : Int) (cs : List Nat) (buffer : List Byte)
    (hbs : validBlockSize s.sb.blockSize) (hwf : wellFormedFat s.sb.blockSize s.fat)
    (hh : h = -1 ∨ (dataAddress s ≤ h ∧ h ≤ 4095))
    (hchain : chainOf s.fat chainFuel h = some cs)
    (hdata : ∀ c ∈ cs, 8192 / s.sb.blockSize ≤ c)
    (hspace : freeBlockCount s.fat + cs.length < blocksNeeded buffer.length s.sb.blockSize) :
    ∃ t : FS, writeBlocks h buffer s = (Except.error Error.fileSystemFull, t) := by
  obtain ⟨hda, hmul, h2, hle, -⟩ := dataAddressOf_valid hbs
  have hbpos : 0 < s.sb.blockSize := by rcases hbs with h | h | h | h <;> omega
  have hne : buffer ≠ [] := by
    intro hc
    rw [hc, List.length_nil, blocksNeeded_zero _ hbpos] at hspace
    omega
  have h0 : s.fat 0 = -1 := by
    apply hwf.2 0
    rw [hda]
    exact Int.ofNat_lt.mpr (by omega)
  have hcslt := chainOf_mem_lt s.fat chainFuel h cs hchain
  have hcsnd := chainOf_nodup s.fat chainFuel h cs hchain
  have hcsnf := chain_nonfree s.fat chainFuel h cs hchain (fun c hc => by
    have := hdata c hc
    omega)
  have hfreed := freedFat_eq s h cs hbs hh hchain
  have hfcount : freeBlockCount (freedFat s h) = freeBlockCount s.fat + cs.length := by
    rw [hfreed]
    exact freeBlockCount_clearChain cs s.fat hcsnd (fun c hc => ⟨hcslt c hc, hcsnf c hc⟩)
  obtain ⟨start, t, hstart, hsb, hfat, -, -, -, hrun⟩ :=
    writeBlocks_scan s h buffer hne hbs hwf.1 h0 hh
  obtain ⟨hfull, -⟩ := scan_from_start buffer start hstart t (hsb ▸ hbs) hne
  rw [hsb, hfat, hfcount] at hfull
  obtain ⟨u, hu⟩ := hfull hspace
  exact ⟨u, hrun.trans hu⟩

/-- A stored directory passes the check that opens `writeDirectory`. -/
theorem resolved_isDirectory (s : FS) (p : Path) (Ls : List Level) (L : Level)
    (h : Resolved s p Ls L) : checkIsDirectory p true s = (Except.ok (), s) := by
  cases h with
  | root _ hL ha hz => exact checkIsDirectory_nil s
  | step q Ls0 L0 n e _ hq hn hfind hdir ha hz hL hdisj =>
    have hc := resolved_checkIsDirectory s q Ls0 L0 hq n hn e hfind true
    rw [if_pos hdir] at hc
    exact hc

/-- Without room for the new listing, `writeDirectory` reports that the file system is
full. -/
theorem writeDirectoryAux_full (f : Nat) (s : FS) (p : Path) (Ls : List Level) (L : Level)
    (es : List DirectoryEntry) (upd : Bool)
    (hbs : validBlockSize s.sb.blockSize) (hwf : wellFormedFat s.sb.blockSize s.fat)
    (h : Resolved s p Ls L)
    (hspace : freeBlockCount s.fat + L.chain.length
      < blocksNeeded (serializeDirectory es).length s.sb.blockSize) :
    ∃ t : FS, writeDirectoryAux (f + 1) p es upd s = (Except.error Error.fileSystemFull, t) := by
  obtain ⟨hchain, hrange, hdatal, -⟩ := resolved_levelOk s p Ls L h
  obtain ⟨t, ht⟩ := writeBlocks_full s L.address L.chain (serializeDirectory es) hbs hwf hrange
    hchain hdatal hspace
  refine ⟨t, ?_⟩
  rw [writeDirectoryAux, bind_ok _ _ _ _ _ (resolved_isDirectory s p Ls L h),
    bind_ok _ _ _ _ _ (resolved_address s p Ls L h)]
  simp only [writeDirectoryAux.match_1]
  rw [bind_error _ _ _ _ _ ht]

theorem tryCatch_ok {α : Type} (body handler : M α) (s t : FS) (a : α)
    (h : body s = (Except.ok a, t)) : tryCatchNoSuchFile body handler s = (Except.ok a, t) := by
  unfold tryCatchNoSuchFile
  rw [h]

theorem tryCatch_error {α : Type} (body handler : M α) (s t : FS) (e : Error)
    (h : body s = (Except.error e, t)) (he : e ≠ Error.noSuchFileOrDirectory) :
    tryCatchNoSuchFile body handler s = (Except.error e, t) := by
  unfold tryCatchNoSuchFile
  rw [h]
  cases e <;> first | rfl | exact absurd rfl he

theorem tryCatch_missing {α : Type} (body handler : M α) (s t : FS)
    (h : body s = (Except.error Error.noSuchFileOrDirectory, t)) :
    tryCatchNoSuchFile body handler s = handler t := by
  unfold tryCatchNoSuchFile
  rw [h]

theorem any_name_false (d : List DirectoryEntry) (n : Name) (h : findEntry d n = none) :
    d.any (fun entry => decide (entry.attributes.name = n)) = false := by
  unfold findEntry at h
  rw [List.find?_eq_none] at h
  rw [List.any_eq_false]
  intro x hx
  exact h x hx

theorem any_name_true (d : List DirectoryEntry) (n : Name) (e : DirectoryEntry)
    (h : findEntry d n = some e) :
    d.any (fun entry => decide (entry.attributes.name = n)) = true := by
  obtain ⟨h1, h2⟩ := findEntry_name d n e h
  rw [List.any_eq_true]
  exact ⟨e, h2, decide_eq_true h1⟩

theorem serializeDirectory_append (d : List DirectoryEntry) (e : DirectoryEntry) :
    serializeDirectory (d ++ [e]) = serializeDirectory d ++ entryBytes e := by
  rw [serializeDirectory_eq, serializeDirectory_eq, List.flatMap_append, List.flatMap_cons,
    List.flatMap_nil, List.append_nil]

theorem serializeDirectory_append_length (d : List DirectoryEntry) (e : DirectoryEntry) :
    (serializeDirectory (d ++ [e])).length
      = (serializeDirectory d).length + 31 + e.attributes.name.length := by
  rw [serializeDirectory_append, List.length_append, entryBytes_length]
  omega

/-- The run of `createDirectory` up to its `writeDirectory`, for a new name in a listed,
writable parent. -/
theorem createDirectory_run (q : Path) (n : Name) (hn : n ≠ []) (s : FS)
    (d : List DirectoryEntry) (now : Int) (v : FS)
    (hperm : checkPermission q Permission.w s = (Except.ok (), s))
    (hread : readDirectory q s = (Except.ok d, s))
    (hnone : findEntry d n = none)
    (hnow : getNow s = (Except.ok now, v)) :
    createDirectory (q ++ [n]) s
      = ((do
          let _ ← writeDirectory q (d ++ [{ attributes := { isDirectory := true, name := n,
                                                             created := now,
                                                             lastModified := now } }]) true
          pure ()) : M Unit) v := by
  rw [createDirectory, bind_ok _ _ _ _ _ (parentPath_snoc q n s hn), bind_ok _ _ _ _ _ hperm,
    bind_ok _ _ _ _ _ (parentPath_snoc q n s hn), bind_ok _ _ _ _ _ hread,
    bind_ok _ _ _ _ _ (pathToName_snoc q n s hn), any_name_false d n hnone]
  rw [if_neg Bool.false_ne_true, bind_ok _ _ _ _ _ hnow,
    bind_ok _ _ _ _ _ (parentPath_snoc q n v hn)]

/-- Reading the clock leaves every stored directory where it is. -/
theorem resolved_tick (s : FS) (k : Nat) (p : Path) (Ls : List Level) (L : Level)
    (h : Resolved s p Ls L) : Resolved { s with tick := k } p Ls L :=
  resolved_frame s _ p Ls L h rfl rfl (fun _ _ => ⟨rfl, rfl⟩)

/-- A stored directory below the root container is reached through an entry of its
parent. -/
theorem resolved_snoc_inv (s : FS) (p : Path) (Ls : List Level) (L : Level)
    (h : Resolved s p Ls L) (q : Path) (n : Name) (hp : p = q ++ [n]) :
    ∃ (Ls0 : List Level) (L0 : Level) (e : DirectoryEntry),
      Ls = Ls0 ++ [L0] ∧ Resolved s q Ls0 L0 ∧ n ≠ [] ∧ findEntry L0.entries n = some e ∧
      e.attributes.isDirectory = true ∧ e.firstBlockAddress = L.address ∧
      e.attributes.size = L.size ∧ LevelOk s L ∧
      (∀ c ∈ chainsOf (Ls0 ++ [L0]), c ∉ L.chain) := by
  cases h with
  | root _ hL ha hz => exact absurd (congrArg List.length hp) (by simp)
  | step q1 Ls0 L0 n1 e _ hq hn hfind hdir ha hz hL hdisj =>
    obtain ⟨h1, h2⟩ := List.append_inj' hp rfl
    have h3 : n1 = n := by simpa using h2
    subst h1
    subst h3
    exact ⟨Ls0, L0, e, rfl, hq, hn, hfind, hdir, ha, hz, hL, fun c hc => by
      obtain ⟨M, hM, hcM⟩ := mem_chainsOf.mp hc
      exact hdisj M hM c hcM⟩

theorem resolved_attributes_eq (s v : FS) (p : Path) (Ls : List Level) (L : Level)
    (hs : Resolved s p Ls L) (hv : Resolved v p Ls L) (a : FileAttributes)
    (h : readAttributes p s = (Except.ok a, s)) : readAttributes p v = (Except.ok a, v) := by
  rcases List.eq_nil_or_concat p with hp | ⟨q, n, hp⟩
  · rw [hp, readAttributes_nil] at h
    exact absurd (congrArg Prod.fst h) (fun hc => by cases hc)
  · rw [List.concat_eq_append] at hp
    obtain ⟨Ls0, L0, e, hLs, hq, hn, hfind, -⟩ := resolved_snoc_inv s p Ls L hs q n hp
    obtain ⟨Ls1, L1, e1, hLs1, hq1, -, hfind1, -⟩ := resolved_snoc_inv v p Ls L hv q n hp
    obtain ⟨h1, h2⟩ := List.append_inj' (hLs.symm.trans hLs1) rfl
    have h3 : L0 = L1 := by simpa using h2
    rw [← h3, hfind] at hfind1
    have h4 : e = e1 := Option.some.inj hfind1
    rw [hp] at h ⊢
    have h5 := run_ok_eq _ _ _ _ ((resolved_attributes s q Ls0 L0 hq n hn e hfind).symm.trans h)
    rw [← h5, h4]
    exact resolved_attributes v q Ls1 L1 hq1 n hn e1 (by rw [← h3, ← h4]; exact hfind)

/-- A rewrite of a directory specified from the state after the clock was read is a
rewrite from the state before. -/
theorem writePost_tick (s : FS) (k : Nat) (p : Path) (Ls : List Level) (L : Level)
    (es : List DirectoryEntry) (t : FS) (Ls2 : List Level) (L2 : Level)
    (hk : s.tick ≤ k) (hs : Resolved s p Ls L)
    (hpost : WritePost { s with tick := k } p Ls L es t Ls2 L2) :
    WritePost s p Ls L es t Ls2 L2 := by
  obtain ⟨h1, h2, h3, h4, h5, h6, h7, h8, h9, h10, h11, h12⟩ := hpost
  refine ⟨h1, h2, h3, h4, h5, h6, h7, h8, h9, le_trans hk h10, ?_, h12⟩
  intro a ha
  exact h11 a (resolved_attributes_eq s _ p Ls L hs (resolved_tick s k p Ls L hs) a ha)

theorem newDirectory_inRange (n : Name) (now : Int) (hn : n.length < 18446744073709551616)
    (hnow : -9223372036854775808 ≤ now ∧ now ≤ 9223372036854775807) :
    entryInRange { attributes := { isDirectory := true, name := n, created := now,
                                   lastModified := now } } :=
  ⟨hn, (by decide : (-32768 : Int) ≤ 0 ∧ (0 : Int) ≤ 32767), hnow, hnow,
    (by decide : (-32768 : Int) ≤ -1 ∧ (-1 : Int) ≤ 32767)⟩

theorem newFile_inRange (n : Name) (z now a : Int) (hn : n.length < 18446744073709551616)
    (hz : -32768 ≤ z ∧ z ≤ 32767)
    (hnow : -9223372036854775808 ≤ now ∧ now ≤ 9223372036854775807)
    (ha : -32768 ≤ a ∧ a ≤ 32767) :
    entryInRange { attributes := { isDirectory := false, name := n, size := z, created := now,
                                   lastModified := now },
                   firstBlockAddress := a } :=
  ⟨hn, hz, hnow, hnow, ha⟩

theorem newDirectory_length (d : List DirectoryEntry) (n : Name) (now : Int) :
    (serializeDirectory (d ++ [({ attributes := { isDirectory := true, name := n,
                                                   created := now, lastModified := now } }
                                 : DirectoryEntry)])).length
      = (serializeDirectory d).length + 31 + n.length :=
  serializeDirectory_append_length d _

theorem newFile_length (d : List DirectoryEntry) (n : Name) (z now a : Int) :
    (serializeDirectory (d ++ [({ attributes := { isDirectory := false, name := n, size := z,
                                                   created := now, lastModified := now },
                                  firstBlockAddress := a } : DirectoryEntry)])).length
      = (serializeDirectory d).length + 31 + n.length :=
  serializeDirectory_append_length d _

/-- The run of `createDirectory` for a new name `n` in the stored, writable directory
`q`, when the new listing fits in 32767 bytes and in the free blocks: the call returns
and has rewritten the listing of `q` with the new entry appended. -/
theorem createDirectory_spec (s : FS) (q : Path) (Ls : List Level) (L : Level) (n : Name)
    (hbs : validBlockSize s.sb.blockSize) (hwf : wellFormedFat s.sb.blockSize s.fat)
    (hq : Resolved s q Ls L) (hn : n ≠ []) (hnone : findEntry L.entries n = none)
    (hperm : checkPermission q Permission.w s = (Except.ok (), s))
    (hlen : (serializeDirectory L.entries).length + 31 + n.length ≤ 32767)
    (hspace : blocksNeeded ((serializeDirectory L.entries).length + 31 + n.length)
      s.sb.blockSize ≤ freeBlockCount s.fat + L.chain.length) :
    ∃ (t : FS) (Ls1 : List Level) (L1 : Level),
      createDirectory (q ++ [n]) s = (Except.ok (), t) ∧
      WritePost s q Ls L
        (L.entries ++ [{ attributes := { isDirectory := true, name := n,
                                         created := wrap64 (s.clock s.tick),
                                         lastModified := wrap64 (s.clock s.tick) } }])
        t Ls1 L1 := by
  obtain ⟨-, -, -, -, -, -, hrL, -⟩ := resolved_levelOk s q Ls L hq
  have hrun := createDirectory_run q n hn s L.entries _ _ hperm
    (resolved_readDirectory s q Ls L hq) hnone (getNow_run s)
  have hl2 := newDirectory_length L.entries n (wrap64 (s.clock s.tick))
  obtain ⟨t, Ls1, L1, hW, hpost⟩ := writesDirectory_all (q.length + 1) q Ls L
    ({ s with tick := s.tick + 1 } : FS)
    (L.entries ++ [{ attributes := { isDirectory := true, name := n,
                                     created := wrap64 (s.clock s.tick),
                                     lastModified := wrap64 (s.clock s.tick) } }])
    true (le_refl _) hbs hwf (resolved_tick s _ q Ls L hq)
    (fun x hx => by
      rcases List.mem_append.mp hx with h | h
      · exact hrL x h
      · rw [List.mem_singleton.mp h]
        exact newDirectory_inRange n _ (by omega) (wrap64_range _))
    (by rw [hl2]; exact hlen) (fun _ => by simp) (by rw [hl2]; exact hspace)
  refine ⟨t, Ls1, L1, ?_, writePost_tick s _ q Ls L _ t Ls1 L1 (Nat.le_succ _) hq hpost⟩
  rw [hrun]
  exact (bind_ok _ _ _ _ _ hW).trans rfl

/-- The entry `writeDirectory` passes up to the parent holds values of the C++ types and
keeps the name, with and without a new modification time. -/
theorem entry_passed_range (e e1 : DirectoryEntry) (z a w : Int) (b : Bool)
    (he : entryInRange e) (hz : -32768 ≤ z ∧ z ≤ 32767) (ha : -32768 ≤ a ∧ a ≤ 32767)
    (hw : -9223372036854775808 ≤ w ∧ w ≤ 9223372036854775807)
    (he1 : e1 = if b = true then
      { attributes := { e.attributes with size := z }, firstBlockAddress := a } else e) :
    entryInRange e1 ∧ e1.attributes.name = e.attributes.name ∧
    entryInRange { e1 with attributes := { e1.attributes with lastModified := w } } ∧
    ({ e1 with attributes := { e1.attributes with lastModified := w } }
      : DirectoryEntry).attributes.name = e.attributes.name := by
  have h1 : entryInRange e1 ∧ e1.attributes.name = e.attributes.name := by
    cases b with
    | false =>
      rw [if_neg Bool.false_ne_true] at he1
      rw [he1]
      exact ⟨he, rfl⟩
    | true =>
      rw [if_pos rfl] at he1
      obtain ⟨g1, g2, g3, g4, g5, g6, g7, g8⟩ := resized_fields e z a
      rw [← he1] at g1 g2 g3 g4 g5 g6 g7 g8
      exact ⟨entryInRange_of_fields e e1 g1 (by rw [g4]; exact hz) g5
        (by rw [g6]; exact he.2.2.2.1) (by rw [g3]; exact ha) he, g1⟩
  obtain ⟨k1, k2, k3, k4, k5, k6, k7, k8⟩ := stamped_fields e1 w
  exact ⟨h1.1, h1.2, entryInRange_of_fields e1 _ k1 (by rw [k4]; exact h1.1.2.1) k5
    (by rw [k6]; exact hw) (by rw [k3]; exact h1.1.2.2.2.2) h1.1, k1.trans h1.2⟩

/-- A rewrite of a directory below the root container returns when its chain can be
written, whatever the list of entries. -/
theorem writeDirectoryAux_step_returns (f : Nat) (ih : WritesDirectory f) (s : FS) (q : Path)
    (Ls0 : List Level) (L0 L2 : Level) (n : Name) (e : DirectoryEntry)
    (es : List DirectoryEntry) (upd : Bool)
    (hf : q.length + 1 ≤ f) (hbs : validBlockSize s.sb.blockSize)
    (hwf : wellFormedFat s.sb.blockSize s.fat)
    (hq : Resolved s q Ls0 L0) (hn : n ≠ []) (hfind : findEntry L0.entries n = some e)
    (hdir : e.attributes.isDirectory = true) (ha : e.firstBlockAddress = L2.address)
    (hz : e.attributes.size = L2.size) (hL : LevelOk s L2)
    (hdisj : ∀ M ∈ Ls0 ++ [L0], ∀ c ∈ M.chain, c ∉ L2.chain)
    (hspace : blocksNeeded (serializeDirectory es).length s.sb.blockSize
      ≤ freeBlockCount s.fat + L2.chain.length) :
    ∃ t : FS, writeDirectoryAux (f + 1) (q ++ [n]) es upd s
      = (Except.ok (wrap16 (serializeDirectory es).length), t) := by
  have hres := Resolved.step q Ls0 L0 n e L2 hq hn hfind hdir ha hz hL hdisj
  have hcheck := resolved_checkIsDirectory s q Ls0 L0 hq n hn e hfind true
  rw [if_pos hdir] at hcheck
  have haddr := resolved_address s _ _ L2 hres
  obtain ⟨hchain, hrange, hdatal, -, hsize, hlen0, -, -⟩ := hL
  obtain ⟨hda, -, h2, h16, -⟩ := dataAddressOf_valid hbs
  have hdas : dataAddress s = ((8192 / s.sb.blockSize : Nat) : Int) := hda
  obtain ⟨a, u, cs', hrun, hsb, hclk, htick, hwfu, hchu, hlenu, hrangea, hnil, hsame, hcs',
    hdat, hfat, hblk, hcount, hqu, hnew, hnf⟩ := writeBlocks_under s q Ls0 L0 L2.address L2.chain
      (serializeDirectory es) hbs hwf hq hrange hchain hdatal
      (fun c hc => by
        obtain ⟨M, hM, hcM⟩ := mem_chainsOf.mp hc
        exact hdisj M hM c hcM) hspace
  have hentry := resolved_entry u q Ls0 L0 hqu n hn e hfind
  have hp : q ++ [n] ≠ [] := by simp
  have hname : e.attributes.name = n := (findEntry_name _ _ _ hfind).1
  obtain ⟨-, -, -, -, -, -, hrL0, -⟩ := resolved_levelOk s q Ls0 L0 hq
  have hre := hrL0 e (findEntry_name _ _ _ hfind).2
  have hara : -32768 ≤ a ∧ a ≤ 32767 :=
    address_int16 a (dataAddress s) (by rw [hdas]; exact Int.ofNat_nonneg _) hrangea
  have hub : u.sb.blockSize = s.sb.blockSize := congrArg Superblock.blockSize hsb
  obtain ⟨e1, he1⟩ : ∃ e1 : DirectoryEntry, e1 = if decide (toSizeT e.attributes.size
      ≠ (serializeDirectory es).length ∨ e.firstBlockAddress ≠ a) = true then
      { attributes := { e.attributes with size := wrap16 (serializeDirectory es).length },
        firstBlockAddress := a } else e := ⟨_, rfl⟩
  obtain ⟨p1, p2, p3, p4⟩ := entry_passed_range e e1 (wrap16 (serializeDirectory es).length) a
    (wrap64 (u.clock u.tick)) _ hre (wrap16_range _) hara (wrap64_range _) he1
  cases upd with
  | false =>
    by_cases hchg : toSizeT e.attributes.size ≠ (serializeDirectory es).length
        ∨ e.firstBlockAddress ≠ a
    · rw [if_pos (decide_eq_true hchg)] at he1
      obtain ⟨t, Ls1, L1, d2, -, hup, -, -⟩ := writeDirectoryEntryWith_spec f ih
        (writeDirectoryAux f) u q Ls0 L0 n e e1 (fun d => rfl) hf (by rw [hub]; exact hbs) hwfu
        hqu hn hfind (p2.trans hname) p1
      rw [he1] at hup
      exact ⟨t, writeDirectoryAux_step_changed f _ hp es s u t _ _ a e hcheck haddr hrun
        hentry hchg hup⟩
    · exact ⟨u, writeDirectoryAux_step_same f _ hp es s u _ _ a e hcheck haddr hrun
        hentry hchg⟩
  | true =>
    obtain ⟨v, hv⟩ : ∃ v : FS, v = { u with tick := u.tick + 1 } := ⟨_, rfl⟩
    have hvsb : v.sb = u.sb := by rw [hv]
    have hvfat : v.fat = u.fat := by rw [hv]
    have hvblk : ∀ x, blockOf v x = blockOf u x := by
      intro x; rw [hv]; rfl
    have hvb : v.sb.blockSize = u.sb.blockSize := congrArg Superblock.blockSize hvsb
    obtain ⟨t, Ls1, L1, d2, -, hup, -, -⟩ := writeDirectoryEntryWith_spec f ih
      (writeDirectoryAux f) v q Ls0 L0 n e
      { e1 with attributes := { e1.attributes with lastModified := wrap64 (u.clock u.tick) } }
      (fun d => rfl) hf (by rw [hvb, hub]; exact hbs) (by rw [hvb, hvfat]; exact hwfu)
      (resolved_frame u v q Ls0 L0 hqu hvb (congrArg Superblock.rootDirectoryEntrySize hvsb)
        (fun c _ => ⟨by rw [hvfat], hvblk c⟩))
      hn hfind (p4.trans hname) p3
    rw [hv] at hup
    exact ⟨t, writeDirectoryAux_step_stamp f _ hp es s u t _ _ a e e1 hcheck haddr hrun
      hentry he1 hup⟩

/-- On a stored directory `writeDirectory` returns, whatever the list of entries: with the
first block of the new chain when the chain fits into the FREE blocks and the blocks of
the old chain, and with the filesystem-full error when it does not. -/
theorem writeDirectoryAux_returns (fuel : Nat) (s : FS) (p : Path) (Ls : List Level) (L : Level)
    (es : List DirectoryEntry) (upd : Bool) (hf : p.length + 1 ≤ fuel)
    (hbs : validBlockSize s.sb.blockSize) (hwf : wellFormedFat s.sb.blockSize s.fat)
    (h : Resolved s p Ls L) :
    ∃ t : FS,
      (blocksNeeded (serializeDirectory es).length s.sb.blockSize
          ≤ freeBlockCount s.fat + L.chain.length →
        writeDirectoryAux fuel p es upd s
          = (Except.ok (wrap16 (serializeDirectory es).length), t)) ∧
      (¬ blocksNeeded (serializeDirectory es).length s.sb.blockSize
          ≤ freeBlockCount s.fat + L.chain.length →
        writeDirectoryAux fuel p es upd s = (Except.error Error.fileSystemFull, t)) := by
  obtain ⟨f, rfl⟩ : ∃ f, fuel = f + 1 := ⟨fuel - 1, by omega⟩
  by_cases hspace : blocksNeeded (serializeDirectory es).length s.sb.blockSize
      ≤ freeBlockCount s.fat + L.chain.length
  · have key : ∃ t : FS, writeDirectoryAux (f + 1) p es upd s
        = (Except.ok (wrap16 (serializeDirectory es).length), t) := by
      cases h with
      | root _ hL ha hz =>
        obtain ⟨hchain, hrange, hdatal, -, -, -, -, -⟩ := hL
        obtain ⟨a, u, cs', hrun, -⟩ := writeBlocks_spec s L.address L.chain
          (serializeDirectory es) hbs hwf hrange hchain hdatal hspace
        rw [ha] at hrun
        exact ⟨_, writeDirectoryAux_root_run f s es upd _ _ a u (pathToAddressAndSize_nil s)
          hrun⟩
      | step q Ls0 L0 n e _ hq hn hfind hdir ha hz hL hdisj =>
        rw [List.length_append, List.length_singleton] at hf
        exact writeDirectoryAux_step_returns f (writesDirectory_all f) s q Ls0 L0 L n e es upd
          (by omega) hbs hwf hq hn hfind hdir ha hz hL hdisj hspace
    obtain ⟨t, ht⟩ := key
    exact ⟨t, fun _ => ht, fun hc => absurd hspace hc⟩
  · obtain ⟨t, ht⟩ := writeDirectoryAux_full f s p Ls L es upd hbs hwf h (by omega)
    exact ⟨t, fun hc => absurd hc hspace, fun _ => ht⟩

theorem mapResult_ok_inv {α β : Type} (φ : α → β) (m : M α) (s t : FS) (b : β)
    (h : mapResult φ m s = (Except.ok b, t)) : ∃ a, m s = (Except.ok a, t) ∧ φ a = b := by
  unfold mapResult at h
  cases hr : m s with
  | mk r t2 =>
    rw [hr] at h
    cases r with
    | ok a =>
      have h0 : ((Except.ok (φ a), t2) : Except Error β × FS) = (Except.ok b, t) := h
      obtain ⟨h1, h2⟩ := Prod.mk.inj h0
      rw [h2]
      exact ⟨a, rfl, Except.ok.inj h1⟩
    | error e =>
      have h0 : ((Except.error e, t2) : Except Error β × FS) = (Except.ok b, t) := h
      exact absurd (Prod.mk.inj h0).1 (fun hc => by cases hc)

theorem mapResult_error_inv {α β : Type} (φ : α → β) (m : M α) (s t : FS) (e : Error)
    (h : mapResult φ m s = (Except.error e, t)) : m s = (Except.error e, t) := by
  unfold mapResult at h
  cases hr : m s with
  | mk r t2 =>
    rw [hr] at h
    cases r with
    | ok a =>
      have h0 : ((Except.ok (φ a), t2) : Except Error β × FS) = (Except.error e, t) := h
      exact absurd (Prod.mk.inj h0).1 (fun hc => by cases hc)
    | error e2 =>
      have h0 : ((Except.error e2, t2) : Except Error β × FS) = (Except.error e, t) := h
      obtain ⟨h1, h2⟩ := Prod.mk.inj h0
      rw [h2, Except.error.inj h1]

/-- The empty directory, as an entry with no first block and size 0 names it. -/
theorem levelOk_empty (s : FS) (hbs : validBlockSize s.sb.blockSize) :
    LevelOk s { address := -1, size := 0, entries := [], chain := [] } := by
  refine ⟨chainOf_last s.fat _, Or.inl rfl, fun c hc => absurd hc (List.not_mem_nil c),
    ⟨[], rfl⟩, rfl, (by decide), fun e he => absurd he (List.not_mem_nil e), ?_⟩
  show 0 = blocksNeeded 0 s.sb.blockSize
  unfold blocksNeeded
  rcases hbs with h | h | h | h <;> rw [h]

/-- The image the formatting constructor leaves: `/` is the stored, empty directory that
the only entry of the root container names. -/
theorem resolved_format_root (b : Nat) (hb : validBlockSize b) (s : FS) :
    ∃ t : FS, format b s = (Except.ok (), t) ∧ t.sb.blockSize = b ∧
      wellFormedFat t.sb.blockSize t.fat ∧ freeBlockCount t.fat = 4095 - 8192 / b ∧
      t.clock = s.clock ∧ t.tick = s.tick + 1 ∧
      Resolved t [] [] { address := ((8192 / b : Nat) : Int), size := 32,
                         entries := [rootDirectoryEntry (wrap64 (s.clock s.tick))],
                         chain := [8192 / b] } ∧
      Resolved t [rootName]
        [{ address := ((8192 / b : Nat) : Int), size := 32,
           entries := [rootDirectoryEntry (wrap64 (s.clock s.tick))], chain := [8192 / b] }]
        { address := -1, size := 0, entries := [], chain := [] } := by
  obtain ⟨t, hrun, hbt, hwf, hcount, hclk, htick, hres⟩ := resolved_format b hb s
  refine ⟨t, hrun, hbt, hwf, hcount, hclk, htick, hres, ?_⟩
  exact Resolved.step [] [] _ rootName (rootDirectoryEntry (wrap64 (s.clock s.tick))) _ hres
    (by decide) rfl rfl rfl rfl (levelOk_empty t (by rw [hbt]; exact hb))
    (fun M _ c _ hc => absurd hc (List.not_mem_nil c))

/-- Claim C25. A call `writeDirectory(path, entries, updateMtime)` on a path of `k`
components never needs more than `k + 1` nested activations (with more fuel the result
is the same), each activation writes one chain, so a call that returns performs between
1 and `k + 1` chain writes. On a well-formed image, where `path` is a stored directory,
the call terminates for every list of entries: it returns after between 1 and `k + 1`
chain writes when the new chain fits into the FREE blocks and the blocks of the old
chain, and reports the filesystem-full error when it does not. When the entry of the
directory already records the size and the first block of the new chain and
`updateMtime` is false, it performs exactly one chain write: the parent is not
rewritten. -/
theorem writeDirectory_recursion_bounded (path : Path) (d : List DirectoryEntry) (u : Bool)
    (s : FS) :
    (∀ fuel, path.length + 1 ≤ fuel →
      writeDirectoryAux fuel path d u s = writeDirectory path d u s) ∧
    mapResult Prod.fst (writeDirectoryCounting (path.length + 1) path d u) s
      = writeDirectory path d u s ∧
    (∀ r n t, writeDirectoryCounting (path.length + 1) path d u s = (Except.ok (r, n), t) →
      1 ≤ n ∧ n ≤ path.length + 1) ∧
    (∀ (Ls : List Level) (L : Level), validBlockSize s.sb.blockSize →
      wellFormedFat s.sb.blockSize s.fat → Resolved s path Ls L →
      ∃ t : FS,
        (blocksNeeded (serializeDirectory d).length s.sb.blockSize
            ≤ freeBlockCount s.fat + L.chain.length →
          writeDirectory path d u s = (Except.ok (wrap16 (serializeDirectory d).length), t) ∧
          ∃ n, writeDirectoryCounting (path.length + 1) path d u s
              = (Except.ok (wrap16 (serializeDirectory d).length, n), t) ∧
            1 ≤ n ∧ n ≤ path.length + 1) ∧
        (¬ blocksNeeded (serializeDirectory d).length s.sb.blockSize
            ≤ freeBlockCount s.fat + L.chain.length →
          writeDirectory path d u s = (Except.error Error.fileSystemFull, t) ∧
          writeDirectoryCounting (path.length + 1) path d u s
            = (Except.error Error.fileSystemFull, t))) ∧
    (∀ (t : FS) (address size address2 : Int) (entry : DirectoryEntry), path ≠ [] → u = false →
      (checkIsDirectory path true s).1 = Except.ok () →
      (pathToAddressAndSize path s).1 = Except.ok (address, size) →
      writeBlocks address (serializeDirectory d) s = (Except.ok address2, t) →
      (readDirectoryEntry path t).1 = Except.ok entry →
      toSizeT entry.attributes.size = (serializeDirectory d).length
        ∧ entry.firstBlockAddress = address2 →
      writeDirectoryCounting (path.length + 1) path d u s
        = (Except.ok (wrap16 (serializeDirectory d).length, 1), t)) := by
  have herase : mapResult Prod.fst (writeDirectoryCounting (path.length + 1) path d u) s
      = writeDirectory path d u s := by
    unfold writeDirectory
    rw [writeDirectoryCounting_erase]
  refine ⟨fun fuel h => ?_, herase, ?_, ?_, ?_⟩
  · unfold writeDirectory
    rw [← writeDirectoryCounting_erase fuel path d u,
      ← writeDirectoryCounting_erase (path.length + 1) path d u,
      writeDirectoryCounting_fuel path d u fuel h]
  · intro r n t h
    exact writeDirectoryCounting_count _ path d u s r n t h
  · intro Ls L hbs hwf hres
    obtain ⟨t, hfit, hfull⟩ := writeDirectoryAux_returns (path.length + 1) s path Ls L d u
      (le_refl _) hbs hwf hres
    refine ⟨t, fun hs => ?_, fun hs => ?_⟩
    · have h1 : writeDirectory path d u s
          = (Except.ok (wrap16 (serializeDirectory d).length), t) := hfit hs
      rw [← herase] at h1
      obtain ⟨x, hx, hx2⟩ := mapResult_ok_inv _ _ _ _ _ h1
      obtain ⟨r, n⟩ := x
      have hr : r = wrap16 (serializeDirectory d).length := hx2
      rw [hr] at hx
      exact ⟨hfit hs, n, hx, writeDirectoryCounting_count _ path d u s _ n t hx⟩
    · have h1 : writeDirectory path d u s = (Except.error Error.fileSystemFull, t) := hfull hs
      refine ⟨h1, ?_⟩
      rw [← herase] at h1
      exact mapResult_error_inv _ _ _ _ _ h1
  · intro t address size address2 entry hp hu h1 h2 h3 h4 hsame
    subst hu
    exact writeDirectoryCounting_unchanged _ path d s t address size address2 entry hp h1 h2 h3
      h4 hsame

theorem writeDirectory_recursion_bounded_witness :
    ∃ s : FS, format 512 (blank 0) = (Except.ok (), s) ∧
      ∃ (t : FS) (n : Nat),
        writeDirectoryCounting ([rootName].length + 1) [rootName] [fileXEntry] true s
          = (Except.ok (wrap16 (serializeDirectory [fileXEntry]).length, n), t) ∧
        1 ≤ n ∧ n ≤ [rootName].length + 1 := by
  obtain ⟨s, hrun, hb, hwf, hcount, -, -, -, hres⟩ :=
    resolved_format_root 512 (by decide) (blank 0)
  obtain ⟨t, hfit, -⟩ := (writeDirectory_recursion_bounded [rootName] [fileXEntry] true s).2.2.2.1
    _ _ (by rw [hb]; decide) hwf hres
  obtain ⟨-, n, h1, h2⟩ := hfit (by
    rw [hb, hcount]
    decide)
  exact ⟨s, hrun, t, n, h1, h2⟩

/-- The iteration of the loop of `dumpDirectory` for an entry whose chain is `cs`. -/
theorem dumpEntries_cons (dumpDir : Path → Nat → Int × Int → M (String × (Int × Int)))
    (path : Path) (indent : Nat) (entry : DirectoryEntry) (rest : List DirectoryEntry)
    (fileCount directoryCount : Int) (s : FS) (cs : List Nat)
    (hchain : chainOf s.fat chainFuel entry.firstBlockAddress = some cs) :
    dumpEntries dumpDir path indent (entry :: rest) (fileCount, directoryCount) s
      = ((do
          let (sub, counts) ←
            if entry.attributes.isDirectory then
              dumpDir (path.join entry.attributes.name) (indent + 2)
                (fileCount, wrap32 (directoryCount + 1))
            else pure ("", (wrap32 (fileCount + 1), directoryCount))
          let (tail, counts) ← dumpEntries dumpDir path indent rest counts
          pure (String.mk (List.replicate indent ' ') ++ nameText entry.attributes.name ++ " "
            ++ renderRuns (runsOf cs) ++ "\n" ++ sub ++ tail, counts))
          : M (String × (Int × Int))) s := by
  have hlabel : liftE (chainLabel s.fat entry.firstBlockAddress) s
      = (Except.ok (renderRuns (runsOf cs)), s) := by
    rw [chainLabel_chain s.fat _ cs hchain]
    rfl
  rw [dumpEntries, bind_ok _ _ _ _ _ (get_run s), bind_ok _ _ _ _ _ hlabel]

/-- The loop of `dumpDirectory` returns, and leaves the state as it is, when the table
holds a chain for every entry and the dump of every subdirectory returns. -/
theorem dumpEntries_returns (dumpDir : Path → Nat → Int × Int → M (String × (Int × Int)))
    (path : Path) (indent : Nat) (s : FS) :
    ∀ (directory : List DirectoryEntry) (counts : Int × Int),
      (∀ entry ∈ directory,
        (∃ cs : List Nat, chainOf s.fat chainFuel entry.firstBlockAddress = some cs) ∧
        (entry.attributes.isDirectory = true → ∀ k c, ∃ r,
          dumpDir (path.join entry.attributes.name) k c s = (Except.ok r, s))) →
      ∃ r, dumpEntries dumpDir path indent directory counts s = (Except.ok r, s) := by
  intro directory
  induction directory with
  | nil =>
    intro counts _
    exact ⟨("", counts), rfl⟩
  | cons entry rest ih =>
    intro counts h
    obtain ⟨fileCount, directoryCount⟩ := counts
    obtain ⟨⟨cs, hcs⟩, hdir⟩ := h entry (List.mem_cons_self _ _)
    rw [dumpEntries_cons dumpDir path indent entry rest fileCount directoryCount s cs hcs]
    dsimp only
    by_cases hd : entry.attributes.isDirectory = true
    · obtain ⟨r1, hr1⟩ := hdir hd (indent + 2) (fileCount, wrap32 (directoryCount + 1))
      obtain ⟨r2, hr2⟩ := ih r1.2 (fun e he => h e (List.mem_cons_of_mem _ he))
      rw [if_pos hd, bind_ok _ _ _ _ _ hr1, bind_ok _ _ _ _ _ hr2]
      exact ⟨_, rfl⟩
    · obtain ⟨r2, hr2⟩ := ih (wrap32 (fileCount + 1), directoryCount)
        (fun e he => h e (List.mem_cons_of_mem _ he))
      rw [if_neg hd, bind_ok _ _ _ _ _ (pure_run _ s), bind_ok _ _ _ _ _ hr2]
      exact ⟨_, rfl⟩

/-- The dump of a tree that can be dumped returns and leaves the state as it is. -/
theorem dumpDirectory_returns (s : FS) :
    ∀ (fuel : Nat) (path : Path), TreeOk s fuel path → ∀ (indent : Nat) (counts : Int × Int),
      ∃ r, dumpDirectory fuel path indent counts s = (Except.ok r, s) := by
  intro fuel
  induction fuel with
  | zero =>
    intro path h
    exact absurd h (fun hc => hc)
  | succ fuel ih =>
    intro path h indent counts
    obtain ⟨directory, hread, hall⟩ := h
    rw [dumpDirectory, bind_ok _ _ _ _ _ hread]
    exact dumpEntries_returns (dumpDirectory fuel) path indent s directory counts
      (fun e he => ⟨(hall e he).1, fun hd k c => ih _ ((hall e he).2 hd) k c⟩)

/-- Claim C27. The loop of `dumpDirectory` prints, for an entry whose chain `cs` is well
formed, the indentation, the name, a blank and then the runs of consecutive block
addresses of `cs`, in chain order, each as `a` or `a-b`, with `->` between successive
runs (`5-7` for the chain 5, 6, 7; `5-6->9` for 5, 6, 9; `5` for 5) and nothing for the
empty chain of the first block `-1`; the line ends there and is followed by the dump of
the subdirectory, if the entry is one, and by the lines of the other entries.
`dumpDirectory` runs this loop on the listing it reads. When the tree below the root
container can be dumped, `dump` returns, and the count it prints as `Free blocks` is
the number of entries of the table equal to FREE. -/
theorem dump_chain_label (s : FS) :
    (∀ (dumpDir : Path → Nat → Int × Int → M (String × (Int × Int))) (path : Path)
        (indent : Nat) (entry : DirectoryEntry) (rest : List DirectoryEntry)
        (fileCount directoryCount : Int) (cs : List Nat),
      chainOf s.fat chainFuel entry.firstBlockAddress = some cs →
      dumpEntries dumpDir path indent (entry :: rest) (fileCount, directoryCount) s
        = ((do
            let (sub, counts) ←
              if entry.attributes.isDirectory then
                dumpDir (path.join entry.attributes.name) (indent + 2)
                  (fileCount, wrap32 (directoryCount + 1))
              else pure ("", (wrap32 (fileCount + 1), directoryCount))
            let (tail, counts) ← dumpEntries dumpDir path indent rest counts
            pure (String.mk (List.replicate indent ' ') ++ nameText entry.attributes.name
              ++ " " ++ renderRuns (runsOf cs) ++ "\n" ++ sub ++ tail, counts))
            : M (String × (Int × Int))) s) ∧
    (∀ (fuel : Nat) (path : Path) (indent : Nat) (counts : Int × Int),
      dumpDirectory (fuel + 1) path indent counts
        = (readDirectory path >>= fun directory =>
            dumpEntries (dumpDirectory fuel) path indent directory counts)) ∧
    (chainOf s.fat chainFuel (-1) = some [] ∧ renderRuns (runsOf []) = "") ∧
    renderRuns (runsOf [5, 6, 7]) = "5-7" ∧
    renderRuns (runsOf [5, 6, 9]) = "5-6->9" ∧
    renderRuns (runsOf [5]) = "5" ∧
    dumpFreeBlockCount s.fat = ((Finset.range 4096).filter fun i => s.fat i = freeBlockMarker).card ∧
    (∀ fuel : Nat, TreeOk s fuel [] →
      ∃ (directoryDump : String) (fileCount directoryCount : Int),
        dumpDirectory fuel [] 0 (0, 0) s
          = (Except.ok (directoryDump, (fileCount, directoryCount)), s) ∧
        dump fuel s = (Except.ok ("Block count: 4096\n"
          ++ "Free blocks: "
          ++ toString ((Finset.range 4096).filter fun i => s.fat i = freeBlockMarker).card
          ++ "\n"
          ++ "Block size: " ++ toString s.sb.blockSize ++ "\n"
          ++ "File count: " ++ toString fileCount ++ "\n"
          ++ "Directory count: " ++ toString directoryCount ++ "\n"
          ++ directoryDump), s)) := by
  have hcount : dumpFreeBlockCount s.fat
      = ((Finset.range 4096).filter fun i => s.fat i = freeBlockMarker).card := by
    rw [dumpFreeBlockCount_eq]
    unfold freeBlockCount
    rw [List.countP_eq_length_filter, Finset.card_def]
    simp only [Finset.filter_val, Finset.range_val, Multiset.range, fatSize]
    rw [← Multiset.coe_card]
    congr 1
  have hlast : chainOf s.fat chainFuel (-1) = some [] := by
    have hfuel : chainFuel = 4097 + 1 := by decide
    rw [hfuel, chainOf_last]
  refine ⟨fun dumpDir path indent entry rest fileCount directoryCount cs hchain =>
      dumpEntries_cons dumpDir path indent entry rest fileCount directoryCount s cs hchain,
    fun fuel path indent counts => rfl, ⟨hlast, by decide⟩, by decide, by decide, by decide,
    hcount, ?_⟩
  intro fuel htree
  obtain ⟨r, hr⟩ := dumpDirectory_returns s fuel [] htree 0 (0, 0)
  obtain ⟨directoryDump, fileCount, directoryCount⟩ := r
  refine ⟨directoryDump, fileCount, directoryCount, hr, ?_⟩
  rw [dump, bind_ok _ _ _ _ _ (get_run s), bind_ok _ _ _ _ _ hr, ← hcount]
  have e : "Block count: " ++ toString fatSize ++ "\n" = "Block count: 4096\n" := by decide
  rw [← e]
  rfl

theorem dump_chain_label_witness :
    (chainOf chainSampleFS.fat chainFuel 20 = some [20, 21, 30] ∧
      dumpEntries (fun _ _ counts => pure ("", counts)) [rootName] 2
          [{ attributes := { isDirectory := false, name := nameX, created := 0,
                             lastModified := 0 },
             firstBlockAddress := 20 }] (0, 0) chainSampleFS
        = (Except.ok ("  x 20-21->30\n", (1, 0)), chainSampleFS)) ∧
    ∃ s : FS, format 512 (blank 0) = (Except.ok (), s) ∧ TreeOk s 2 [] ∧
      ∃ (directoryDump : String) (fileCount directoryCount : Int),
        dump 2 s = (Except.ok ("Block count: 4096\n"
          ++ "Free blocks: "
          ++ toString ((Finset.range 4096).filter fun i => s.fat i = freeBlockMarker).card
          ++ "\n"
          ++ "Block size: " ++ toString s.sb.blockSize ++ "\n"
          ++ "File count: " ++ toString fileCount ++ "\n"
          ++ "Directory count: " ++ toString directoryCount ++ "\n"
          ++ directoryDump), s) := by
  have h : chainOf chainSampleFS.fat chainFuel 20 = some [20, 21, 30] := by decide
  refine ⟨⟨h, ?_⟩, ?_⟩
  · rw [(dump_chain_label chainSampleFS).1 (fun _ _ counts => pure ("", counts)) [rootName] 2
      { attributes := { isDirectory := false, name := nameX, created := 0, lastModified := 0 },
        firstBlockAddress := 20 } [] 0 0 [20, 21, 30] h]
    rfl
  · obtain ⟨s, hrun, -, -, -, -, -, hroot, hres⟩ :=
      resolved_format_root 512 (by decide) (blank 0)
    have hsub : TreeOk s 1 [rootName] :=
      ⟨[], resolved_readDirectory s _ _ _ hres, fun e he => absurd he (List.not_mem_nil e)⟩
    have htree : TreeOk s 2 [] := by
      refine ⟨_, resolved_readDirectory s _ _ _ hroot, fun e he => ?_⟩
      rw [List.mem_singleton.mp he]
      exact ⟨⟨[], chainOf_last s.fat _⟩, fun _ => hsub⟩
    obtain ⟨directoryDump, fileCount, directoryCount, -, hd⟩ :=
      (dump_chain_label s).2.2.2.2.2.2.2 2 htree
    exact ⟨s, hrun, htree, directoryDump, fileCount, directoryCount, hd⟩

theorem natCast_lt_4096 (k : Nat) (h : k < 4096) : (k : Int) ≤ 4095 := by
  omega

/-- Claim C10, amended. On a well-formed table, if `writeBlocks(h, buffer)` returns first
block `a` for a non-empty buffer of n bytes, then the chain from `a` has exactly
ceil(n / blockSize) blocks and ends in END-OF-CHAIN, its blocks were FREE when the scan
started and are the first such in circular scan order from the scan start; and, when the
table blocks are still pinned once the chain of the hint has been freed, `readBlocks(a)`
is the buffer followed by zero bytes up to a multiple of the block size (2050 bytes at
block size 1024 take 3 blocks). For an empty buffer `writeBlocks` returns -1 and
`readBlocks(-1)` is empty. -/
theorem writeBlocks_postcondition (s : FS) (h : Int) (buffer : List Byte)
    (hbs : validBlockSize s.sb.blockSize) (hwf : wellFormedFat s.sb.blockSize s.fat)
    (hh : h = -1 ∨ (dataAddress s ≤ h ∧ h ≤ 4095)) :
    (∀ (a : Int) (u : FS), buffer ≠ [] → writeBlocks h buffer s = (Except.ok a, u) →
      ∃ cs : List Nat,
        chainOf u.fat chainFuel a = some cs ∧
        cs.length = blocksNeeded buffer.length s.sb.blockSize ∧
        (∀ c ∈ cs, freedFat s h c = freeBlockMarker) ∧
        cs.Sublist (scanFrom (scanStart s h) 0) ∧
        cs = (freeIn (freedFat s h) (scanFrom (scanStart s h) 0)).take
          (blocksNeeded buffer.length s.sb.blockSize) ∧
        (fatPinned s.sb.blockSize (freedFat s h) →
          readBlocks a u = (Except.ok (buffer ++ List.replicate
            (blocksNeeded buffer.length s.sb.blockSize * s.sb.blockSize - buffer.length) 0),
            u))) ∧
    blocksNeeded 2050 1024 = 3 ∧
    (writeBlocks h [] s).1 = Except.ok lastBlockMarker ∧
    (∀ t : FS, readBlocks lastBlockMarker t = (Except.ok [], t)) := by
  refine ⟨?_, by decide, writeBlocks_empty s h hbs hwf hh, readBlocks_last⟩
  intro a u hne hrun
  have hda := (dataAddressOf_valid hbs).1
  have hbpos : 0 < s.sb.blockSize := by rcases hbs with h | h | h | h <;> omega
  obtain ⟨t, c, r, hsb, hfat, hcs, hlen, hstart, ha, hu⟩ :=
    writeBlocks_ok_state s h buffer a u hbs hwf hh hne hrun
  have hsub : (c :: r).Sublist (scanFrom (scanStart s h) 0) := by
    rw [← hcs]
    exact (List.take_sublist _ _).trans (freeIn_sublist _ _)
  have hnd : (c :: r).Nodup := hsub.nodup (scanFrom_zero_nodup _ hstart)
  have hfreeAll : ∀ x ∈ c :: r, freedFat s h x = 0 := by
    intro x hx
    rw [← hcs] at hx
    exact (mem_freeIn (List.mem_of_mem_take hx)).2
  have hltAll : ∀ x ∈ c :: r, x < 4096 := by
    intro x hx
    obtain ⟨k, _, rfl⟩ := mem_scanFrom (hsub.subset hx)
    exact Nat.mod_lt _ (by decide)
  have hbsA : validBlockSize (setFat (allocChain buffer t (-1) 0 (c :: r))
      ((c :: r).getLast (List.cons_ne_nil c r)) lastBlockMarker).sb.blockSize := by
    show validBlockSize (allocChain buffer t (-1) 0 (c :: r)).sb.blockSize
    rw [allocChain_sb, hsb]
    exact hbs
  have hufat : u.fat = fatSet (linkFat t.fat (c : Int) r)
      ((c :: r).getLast (List.cons_ne_nil c r)) lastBlockMarker := by
    rw [hu, persist_fat _ hbsA]
    show fatSet (allocChain buffer t (-1) 0 (c :: r)).fat _ _ = _
    rw [allocChain_fat]
    rfl
  have husb : u.sb = s.sb := by
    rw [hu, persist_sb _ hbsA]
    show (allocChain buffer t (-1) 0 (c :: r)).sb = _
    rw [allocChain_sb, hsb]
  have hlen4096 : (c :: r).length ≤ 4096 := by
    have := hsub.length_le
    simpa [scanFrom, fatSize] using this
  have hchain : chainOf u.fat chainFuel (c : Int) = some (c :: r) := by
    rw [hufat]
    apply chainOf_link r _ c chainFuel hnd hltAll
    simp only [List.length_cons] at hlen4096
    simp only [chainFuel, fatSize]
    omega
  refine ⟨c :: r, ha ▸ hchain, hlen, hfreeAll, hsub, hcs.symm, ?_⟩
  intro hpin
  have hgeAll : ∀ x ∈ c :: r, 8192 / s.sb.blockSize ≤ x := by
    intro x hx
    by_contra hcon
    have h1 := hpin x (by rw [hda]; omega)
    rw [hfreeAll x hx] at h1
    simp [lastBlockMarker] at h1
  have hblocks : ∀ b ∈ c :: r, blockOf u b = blockOf (allocChain buffer t (-1) 0 (c :: r)) b := by
    intro b hb
    rw [hu, persist_blockOf _ _ hbsA, setFat_blockOf]
    show 8192 / (allocChain buffer t (-1) 0 (c :: r)).sb.blockSize ≤ b
    rw [allocChain_sb, hsb]
    exact hgeAll b hb
  have hflat := allocChain_flatMap buffer (c :: r) t (-1) 0 u hnd (hsb ▸ hbs) hblocks
  rw [hsb, slices_eq_resize, List.drop_zero, hlen,
    resize_of_le _ _ (blocksNeeded_mul_ge _ _ hbpos)] at hflat
  have hrange : dataAddress u ≤ (c : Int) ∧ (c : Int) ≤ 4095 := by
    have h1 := hgeAll c (List.mem_cons_self _ _)
    have h2 := hltAll c (List.mem_cons_self _ _)
    rw [dataAddress, husb, hda]
    exact ⟨Int.ofNat_le.mpr h1, natCast_lt_4096 c h2⟩
  rw [ha, readBlocks_chain u (c : Int) (c :: r) (Or.inl hrange) hchain, hflat]

/-- The hypotheses of `writeBlocks_postcondition` hold for a 513-byte buffer written with
hint -1 on a freshly formatted table. -/
theorem writeBlocks_postcondition_witness :
    (∀ (a : Int) (u : FS), List.replicate 513 (1 : Byte) ≠ [] →
      writeBlocks (-1) (List.replicate 513 1) sampleFS = (Except.ok a, u) →
      ∃ cs : List Nat,
        chainOf u.fat chainFuel a = some cs ∧
        cs.length = blocksNeeded (List.replicate 513 (1 : Byte)).length sampleFS.sb.blockSize ∧
        (∀ c ∈ cs, freedFat sampleFS (-1) c = freeBlockMarker) ∧
        cs.Sublist (scanFrom (scanStart sampleFS (-1)) 0) ∧
        cs = (freeIn (freedFat sampleFS (-1)) (scanFrom (scanStart sampleFS (-1)) 0)).take
          (blocksNeeded (List.replicate 513 (1 : Byte)).length sampleFS.sb.blockSize) ∧
        (fatPinned sampleFS.sb.blockSize (freedFat sampleFS (-1)) →
          readBlocks a u = (Except.ok (List.replicate 513 1 ++ List.replicate
            (blocksNeeded (List.replicate 513 (1 : Byte)).length sampleFS.sb.blockSize
              * sampleFS.sb.blockSize - (List.replicate 513 (1 : Byte)).length) 0), u))) ∧
    blocksNeeded 2050 1024 = 3 ∧
    (writeBlocks (-1) [] sampleFS).1 = Except.ok lastBlockMarker ∧
    (∀ t : FS, readBlocks lastBlockMarker t = (Except.ok [], t)) :=
  writeBlocks_postcondition sampleFS (-1) (List.replicate 513 1) (by decide) sampleFS_wellFormed
    (Or.inl rfl)

/-- Claim C21, amended. The serialised form of a list of entries takes `31 + |name|`
bytes per entry. When the fields hold values of their C++ types and the total length `L`
is at most 32767, a non-empty list written with `writeBlocks`, under a hint that leaves
the table blocks pinned once its chain is freed (as the hint -1 and every hint that roots
a chain of data blocks do), and read back with `readDirectory(firstBlock, L)` is returned
unchanged, in the same order; the reader stops after exactly `L` bytes, whatever follows
them; the empty list is written as `firstBlock = -1` and read back from `(-1, 0)`. -/
theorem directory_round_trip (s : FS) (h : Int) (es : List DirectoryEntry)
    (hbs : validBlockSize s.sb.blockSize) (hwf : wellFormedFat s.sb.blockSize s.fat)
    (hh : h = -1 ∨ (dataAddress s ≤ h ∧ h ≤ 4095))
    (hrange : ∀ e ∈ es, entryInRange e)
    (hlen : (serializeDirectory es).length ≤ 32767) :
    (serializeDirectory es).length = (es.map fun e => 31 + e.attributes.name.length).sum ∧
    (∀ (a : Int) (u : FS), es ≠ [] → fatPinned s.sb.blockSize (freedFat s h) →
      writeBlocks h (serializeDirectory es) s = (Except.ok a, u) →
      readDirectoryAt a (wrap16 (serializeDirectory es).length) u = (Except.ok es, u)) ∧
    (∀ pad : List Byte,
      deserializeDirectory (serializeDirectory es ++ pad) (serializeDirectory es).length
        ((serializeDirectory es ++ pad).length + 1) 0 [] = Except.ok es) ∧
    (writeBlocks h (serializeDirectory []) s).1 = Except.ok lastBlockMarker ∧
    (∀ t : FS, readDirectoryAt lastBlockMarker 0 t = (Except.ok [], t)) := by
  refine ⟨serializeDirectory_length es, ?_, fun pad => deserializeDirectory_serialize es pad hrange,
    writeBlocks_empty s h hbs hwf hh, readDirectoryAt_last⟩
  intro a u hne hpin hrun
  have hbne : serializeDirectory es ≠ [] := by
    intro hnil
    have h1 := serializeDirectory_length es
    rw [hnil] at h1
    cases es with
    | nil => exact hne rfl
    | cons e r =>
      simp only [List.length_nil, List.map_cons, List.sum_cons] at h1
      omega
  obtain ⟨c, r, -, -, -, -, -, -, -, -, -, -, -, hread, -⟩ :=
    writeBlocks_effect s h (serializeDirectory es) a u hbs hwf hh hpin hbne hrun
  rw [readDirectoryAt_of_readBlocks _ _ _ _ hread, wrap16_small _ (by omega) (by omega),
    toSizeT_natCast _ (by omega), deserializeDirectory_serialize es _ hrange]
  rfl

theorem directory_round_trip_witness :
    (writeBlocks (-1) (serializeDirectory [fileXEntry, duplicateEntry]) sampleFS).1
      = Except.ok 17 ∧
    readDirectoryAt 17 (wrap16 (serializeDirectory [fileXEntry, duplicateEntry]).length)
        (writeBlocks (-1) (serializeDirectory [fileXEntry, duplicateEntry]) sampleFS).2
      = (Except.ok [fileXEntry, duplicateEntry],
        (writeBlocks (-1) (serializeDirectory [fileXEntry, duplicateEntry]) sampleFS).2) :=
  have h1 : (writeBlocks (-1) (serializeDirectory [fileXEntry, duplicateEntry]) sampleFS).1
      = Except.ok 17 := by decide!
  have h2 : writeBlocks (-1) (serializeDirectory [fileXEntry, duplicateEntry]) sampleFS
      = (Except.ok 17,
        (writeBlocks (-1) (serializeDirectory [fileXEntry, duplicateEntry]) sampleFS).2) := by
    rw [← h1]
  ⟨h1, (directory_round_trip sampleFS (-1) [fileXEntry, duplicateEntry] (by decide)
    sampleFS_wellFormed (Or.inl rfl) (by decide) (by decide)).2.1 17 _ (by decide)
    (by
      have e : freedFat sampleFS (-1) = sampleFS.fat := by simp [freedFat, lastBlockMarker]
      rw [e]
      exact sampleFS_wellFormed.2) h2⟩

/-- Counterexample to C21 as stated: on a freshly formatted table the hint 4095 is a data
block address whose entry is FREE; the list of seventeen copies of the entry of `/x`
serialises to 544 bytes; `writeBlocks(4095, ...)` frees entry 0 while it frees the chain
of the hint, places the second block of the list in block 0, and the table written
afterwards overwrites that block, so `readDirectory(4095, 544)` does not return the
list. -/
theorem directory_round_trip_counterexample :
    (serializeDirectory (List.replicate 17 fileXEntry)).length = 544 ∧
    (dataAddress sampleFS ≤ 4095 ∧ sampleFS.fat 4095 = freeBlockMarker) ∧
    (writeBlocks 4095 (serializeDirectory (List.replicate 17 fileXEntry)) sampleFS).1
      = Except.ok 4095 ∧
    (readDirectoryAt 4095 (wrap16 544)
      (writeBlocks 4095 (serializeDirectory (List.replicate 17 fileXEntry)) sampleFS).2).1
      ≠ Except.ok (List.replicate 17 fileXEntry) := by
  decide!

theorem atomic_ok {α : Type} (x : M α) (s t : FS) (a : α)
    (h : x s = (Except.ok a, t)) : ∀ e u, x s = (Except.error e, u) → u = s := by
  intro e u h2
  rw [h] at h2
  exact absurd (Prod.mk.inj h2).1 (fun hc => by cases hc)

theorem atomic_same {α : Type} (x : M α) (s : FS) (e0 : Error)
    (h : x s = (Except.error e0, s)) : ∀ e u, x s = (Except.error e, u) → u = s := by
  intro e u h2
  rw [h] at h2
  exact (Prod.mk.inj h2).2.symm

theorem errorsAtomic_ok {α : Type} (x : M α) (s t : FS) (a : α)
    (h : x s = (Except.ok a, t)) : ErrorsAtomic x s := by
  intro e u h2 _
  rw [h] at h2
  exact absurd (Prod.mk.inj h2).1 (fun hc => by cases hc)

theorem errorsAtomic_full {α : Type} (x : M α) (s t : FS)
    (h : x s = (Except.error Error.fileSystemFull, t)) : ErrorsAtomic x s := by
  intro e u h2 he
  rw [h] at h2
  exact absurd (Except.error.inj (Prod.mk.inj h2).1).symm he

theorem errorsAtomic_same {α : Type} (x : M α) (s : FS) (e0 : Error)
    (h : x s = (Except.error e0, s)) : ErrorsAtomic x s := by
  intro e u h2 _
  rw [h] at h2
  exact (Prod.mk.inj h2).2.symm

/-- The listing read through the path of a stored directory is the stored one. -/
theorem resolved_listing (s : FS) (q : Path) (Ls : List Level) (L : Level)
    (d : List DirectoryEntry) (hq : Resolved s q Ls L)
    (hd : readDirectory q s = (Except.ok d, s)) : d = L.entries :=
  (run_ok_eq _ _ _ _ ((resolved_readDirectory s q Ls L hq).symm.trans hd)).symm

/-- Outcome of a read-only computation: an error with the state unchanged, or a value
with the state unchanged. -/
theorem readOnly_cases {α : Type} (m : M α) (hm : ReadOnly m) (s : FS) :
    (∃ e, m s = (Except.error e, s)) ∨ (∃ a, m s = (Except.ok a, s)) := by
  have h := readOnly_run_eq hm s
  generalize (m s).1 = r at h
  cases r with
  | error e => exact Or.inl ⟨e, h⟩
  | ok a => exact Or.inr ⟨a, h⟩

/-- On an image that is well formed at the new name, `createDirectory` returns, or
reports filesystem-full, or reports an error and leaves the state as it was. -/
theorem createDirectory_atomic (s : FS) (q : Path) (n : Name) (hn : n ≠ [])
    (hw : WellFormedAt s q n) : ErrorsAtomic (createDirectory (q ++ [n])) s := by
  obtain ⟨hbs, hwf, hres⟩ := hw
  rcases readOnly_cases _ (checkPermission_readOnly q Permission.w) s with ⟨e0, hp⟩ | ⟨u0, hp⟩
  · refine errorsAtomic_same _ s e0 ?_
    rw [createDirectory, bind_ok _ _ _ _ _ (parentPath_snoc q n s hn), bind_error _ _ _ _ _ hp]
  rcases readOnly_cases _ (readDirectory_readOnly q) s with ⟨e0, hd⟩ | ⟨d, hd⟩
  · refine errorsAtomic_same _ s e0 ?_
    rw [createDirectory, bind_ok _ _ _ _ _ (parentPath_snoc q n s hn), bind_ok _ _ _ _ _ hp,
      bind_ok _ _ _ _ _ (parentPath_snoc q n s hn), bind_error _ _ _ _ _ hd]
  obtain ⟨Ls, L, hq, -⟩ := hres ⟨d, hd⟩
  have hdL := resolved_listing s q Ls L d hq hd
  rw [hdL] at hd
  cases hfind : findEntry L.entries n with
  | some e =>
    refine errorsAtomic_same _ s Error.fileExists ?_
    rw [createDirectory, bind_ok _ _ _ _ _ (parentPath_snoc q n s hn), bind_ok _ _ _ _ _ hp,
      bind_ok _ _ _ _ _ (parentPath_snoc q n s hn), bind_ok _ _ _ _ _ hd,
      bind_ok _ _ _ _ _ (pathToName_snoc q n s hn), any_name_true L.entries n e hfind]
    rfl
  | none =>
    have hrun := createDirectory_run q n hn s L.entries _ _ hp hd hfind (getNow_run s)
    obtain ⟨t, hfit, hfull⟩ := writeDirectoryAux_returns (q.length + 1)
      ({ s with tick := s.tick + 1 } : FS) q Ls L
      (L.entries ++ [{ attributes := { isDirectory := true, name := n,
                                       created := wrap64 (s.clock s.tick),
                                       lastModified := wrap64 (s.clock s.tick) } }])
      true (le_refl _) hbs hwf (resolved_tick s _ q Ls L hq)
    by_cases hspace : blocksNeeded (serializeDirectory
        (L.entries ++ [({ attributes := { isDirectory := true, name := n,
                                          created := wrap64 (s.clock s.tick),
                                          lastModified := wrap64 (s.clock s.tick) } }
                        : DirectoryEntry)])).length
        ({ s with tick := s.tick + 1 } : FS).sb.blockSize
        ≤ freeBlockCount ({ s with tick := s.tick + 1 } : FS).fat + L.chain.length
    · refine errorsAtomic_ok _ s t () ?_
      rw [hrun]
      exact (bind_ok _ _ _ _ _ (hfit hspace)).trans rfl
    · refine errorsAtomic_full _ s t ?_
      rw [hrun]
      exact bind_error _ _ _ _ _ (hfull hspace)

theorem readDirectoryEntry_parent_error (q : Path) (n : Name) (hn : n ≠ []) (s : FS)
    (e0 : Error) (hd : readDirectory q s = (Except.error e0, s)) :
    readDirectoryEntryWith readDirectory (q ++ [n]) s = (Except.error e0, s) := by
  rw [readDirectoryEntryWith, bind_ok _ _ _ _ _ (parentPath_snoc q n s hn),
    bind_error _ _ _ _ _ hd]

theorem checkIsDirectory_parent_error (q : Path) (n : Name) (hn : n ≠ []) (s : FS)
    (e0 : Error) (b : Bool) (hd : readDirectory q s = (Except.error e0, s)) :
    checkIsDirectory (q ++ [n]) b s = (Except.error e0, s) := by
  have hne : q ++ [n] ≠ [] := by simp
  show checkIsDirectoryWith readDirectory (q ++ [n]) b s = _
  rw [checkIsDirectoryWith, if_neg hne,
    bind_error _ _ _ _ _ (readDirectoryEntry_parent_error q n hn s e0 hd)]

/-- On an image that is well formed at the name, `writeAttributes` returns, or reports
filesystem-full, or reports an error and leaves the state as it was. -/
theorem writeAttributes_atomic (s : FS) (q : Path) (n : Name) (hn : n ≠ [])
    (attributes : FileAttributes) (hw : WellFormedAt s q n) :
    ErrorsAtomic (writeAttributes (q ++ [n]) attributes) s := by
  obtain ⟨hbs, hwf, hres⟩ := hw
  rcases readOnly_cases _ (readDirectory_readOnly q) s with ⟨e0, hd⟩ | ⟨d, hd⟩
  · refine errorsAtomic_same _ s e0 ?_
    rw [writeAttributes]
    exact bind_error _ _ _ _ _ (readDirectoryEntry_parent_error q n hn s e0 hd)
  obtain ⟨Ls, L, hq, -⟩ := hres ⟨d, hd⟩
  have hdL := resolved_listing s q Ls L d hq hd
  rw [hdL] at hd
  cases hfind : findEntry L.entries n with
  | none =>
    refine errorsAtomic_same _ s Error.noSuchFileOrDirectory ?_
    rw [writeAttributes, bind_error _ _ _ _ _ (resolved_entry_missing s q Ls L hq n hn hfind)]
  | some e =>
    obtain ⟨d2, hrep⟩ := replaceEntry_some n
      { e with attributes := attributes } L.entries e hfind
    obtain ⟨t, hfit, hfull⟩ := writeDirectoryAux_returns (q.length + 1) s q Ls L d2 false
      (le_refl _) hbs hwf hq
    have hrun : writeAttributes (q ++ [n]) attributes s
        = ((do
            let _ ← writeDirectory q d2 false
            pure ()) : M Unit) s := by
      rw [writeAttributes, bind_ok _ _ _ _ _ (resolved_entry s q Ls L hq n hn e hfind)]
      show writeDirectoryEntryWith _ (q ++ [n]) _ s = _
      rw [writeDirectoryEntryWith, bind_ok _ _ _ _ _ (parentPath_snoc q n s hn),
        bind_ok _ _ _ _ _ hd, bind_ok _ _ _ _ _ (pathToName_snoc q n s hn), hrep]
      simp only
      rw [bind_ok _ _ _ _ _ (parentPath_snoc q n s hn)]
    by_cases hspace : blocksNeeded (serializeDirectory d2).length s.sb.blockSize
        ≤ freeBlockCount s.fat + L.chain.length
    · refine errorsAtomic_ok _ s t () ?_
      rw [hrun]
      exact (bind_ok _ _ _ _ _ (hfit hspace)).trans rfl
    · refine errorsAtomic_full _ s t ?_
      rw [hrun]
      exact bind_error _ _ _ _ _ (hfull hspace)

theorem eraseEntry_some (n : Name) :
    ∀ (d : List DirectoryEntry) (e : DirectoryEntry), findEntry d n = some e →
      ∃ d2, eraseEntry n d = some d2 := by
  intro d
  induction d with
  | nil => intro e h; cases h
  | cons x r ih =>
    intro e h
    rw [eraseEntry]
    by_cases hx : x.attributes.name = n
    · rw [if_pos hx]
      exact ⟨_, rfl⟩
    · rw [if_neg hx]
      have h2 : findEntry r n = some e := by
        unfold findEntry at h ⊢
        rw [List.find?_cons_of_neg _ (by simpa using hx)] at h
        exact h
      obtain ⟨d2, hd2⟩ := ih e h2
      rw [hd2]
      exact ⟨_, rfl⟩

theorem eraseEntry_length (n : Name) :
    ∀ (d d2 : List DirectoryEntry), eraseEntry n d = some d2 →
      (serializeDirectory d2).length ≤ (serializeDirectory d).length := by
  intro d
  induction d with
  | nil => intro d2 h; cases h
  | cons x r ih =>
    intro d2 h
    rw [eraseEntry] at h
    by_cases hx : x.attributes.name = n
    · rw [if_pos hx] at h
      cases h
      rw [serializeDirectory_length, serializeDirectory_length, List.map_cons, List.sum_cons]
      exact Nat.le_add_left _ _
    · rw [if_neg hx] at h
      cases hr : eraseEntry n r with
      | none => rw [hr] at h; cases h
      | some r2 =>
        rw [hr] at h
        cases h
        have h2 := ih r2 hr
        rw [serializeDirectory_length] at h2 ⊢
        rw [serializeDirectory_length] at h2 ⊢
        rw [List.map_cons, List.sum_cons, List.map_cons, List.sum_cons]
        exact Nat.add_le_add_left h2 _

theorem blocksNeeded_le {a b : Nat} (bs : Nat) (h : a ≤ b) :
    blocksNeeded a bs ≤ blocksNeeded b bs := by
  unfold blocksNeeded
  exact Nat.div_le_div_right (by omega)

/-- Freeing the stored chain of a file below the directory `q` leaves the directories on
the way to `q` as they are stored. -/
theorem freeBlocks_under (s : FS) (q : Path) (Ls : List Level) (L : Level) (h : Int)
    (cs : List Nat) (hbs : validBlockSize s.sb.blockSize)
    (hwf : wellFormedFat s.sb.blockSize s.fat)
    (hq : Resolved s q Ls L)
    (hh : h = -1 ∨ (dataAddress s ≤ h ∧ h ≤ 4095))
    (hchain : chainOf s.fat chainFuel h = some cs)
    (hdata : ∀ c ∈ cs, 8192 / s.sb.blockSize ≤ c)
    (hdisj : ∀ c ∈ chainsOf (Ls ++ [L]), c ∉ cs) :
    ∃ u : FS, freeBlocks h s = (Except.ok (), u) ∧ u.sb = s.sb ∧ u.clock = s.clock ∧
      u.tick = s.tick ∧ u.fat = clearChain s.fat cs ∧
      wellFormedFat u.sb.blockSize u.fat ∧
      (∀ b, 8192 / s.sb.blockSize ≤ b → blockOf u b = blockOf s b) ∧
      Resolved u q Ls L := by
  have hrun := freeBlocks_chain s h cs hbs (by
    rcases hh with hh | hh
    · exact Or.inr hh
    · exact Or.inl hh) hchain
  obtain ⟨u, hu⟩ : ∃ u : FS, u = persist { s with fat := clearChain s.fat cs } := ⟨_, rfl⟩
  rw [← hu] at hrun
  have hbs2 : validBlockSize ({ s with fat := clearChain s.fat cs } : FS).sb.blockSize := hbs
  obtain ⟨h1, h2, h3⟩ := persist_aux { s with fat := clearChain s.fat cs } hbs2
  have hsb : u.sb = s.sb := by rw [hu]; exact persist_sb _ hbs2
  have hfat : u.fat = clearChain s.fat cs := by rw [hu]; exact persist_fat _ hbs2
  have hblk : ∀ b, 8192 / s.sb.blockSize ≤ b → blockOf u b = blockOf s b := by
    intro b hb
    rw [hu, persist_blockOf _ b hbs2 hb]
    rfl
  have hanc := resolved_chains s q Ls L hq hbs
  have hda := (dataAddressOf_valid hbs).1
  have hwfu : wellFormedFat u.sb.blockSize u.fat := by
    rw [hfat, hsb]
    refine ⟨clearChain_inRange s.fat cs hwf.1, ?_⟩
    intro i hi
    rw [clearChain_apply, if_neg]
    · exact hwf.2 i hi
    · intro hc
      have h5 := hdata i hc
      rw [hda] at hi
      exact absurd (Int.ofNat_lt.mp hi) (by omega)
  refine ⟨u, hrun, hsb, by rw [hu]; exact h1, by rw [hu]; exact h2, hfat, hwfu, hblk, ?_⟩
  refine resolved_frame s u q Ls L hq (congrArg Superblock.blockSize hsb)
    (congrArg Superblock.rootDirectoryEntrySize hsb) ?_
  intro c hc
  refine ⟨?_, hblk c (hanc c hc).2.1⟩
  rw [hfat, clearChain_apply, if_neg (hdisj c hc)]

/-- On an image that is well formed at the name, `deleteFile` returns, or reports
filesystem-full, or reports an error and leaves the state as it was. -/
theorem deleteFile_atomic (s : FS) (q : Path) (n : Name) (hn : n ≠ [])
    (hw : WellFormedAt s q n) :
    ∀ e t, deleteFile (q ++ [n]) s = (Except.error e, t) → t = s := by
  obtain ⟨hbs, hwf, hres⟩ := hw
  rcases readOnly_cases _ (readDirectory_readOnly q) s with ⟨e0, hd⟩ | ⟨d, hd⟩
  · refine atomic_same _ s e0 ?_
    rw [deleteFile, bind_error _ _ _ _ _ (checkIsDirectory_parent_error q n hn s e0 false hd)]
  obtain ⟨Ls, L, hq, hfile⟩ := hres ⟨d, hd⟩
  have hdL := resolved_listing s q Ls L d hq hd
  rw [hdL] at hd
  cases hfind : findEntry L.entries n with
  | none =>
    refine atomic_same _ s Error.noSuchFileOrDirectory ?_
    have hc : checkIsDirectory (q ++ [n]) false s
        = (Except.error Error.noSuchFileOrDirectory, s) :=
      checkIsDirectoryWith_missing readDirectory q n s hn L.entries hd hfind false
    rw [deleteFile, bind_error _ _ _ _ _ hc]
  | some e =>
    have hc := resolved_checkIsDirectory s q Ls L hq n hn e hfind false
    by_cases hdir : e.attributes.isDirectory = false
    · rw [if_pos hdir] at hc
      have hp := resolved_checkPermission s q Ls L hq n hn e hfind Permission.w
      by_cases hcw : e.attributes.canWrite = false
      · rw [if_pos (Or.inr ⟨rfl, hcw⟩)] at hp
        refine atomic_same _ s Error.permission ?_
        rw [deleteFile, bind_ok _ _ _ _ _ hc, bind_error _ _ _ _ _ hp]
      · rw [if_neg (fun h => by
          rcases h with h | h
          · exact absurd h.1 (by decide)
          · exact hcw h.2)] at hp
        obtain ⟨cs, hchain, hrange, hdata, hdisj⟩ := hfile e hfind hdir
        obtain ⟨u, hfree, hsb, -, -, -, hwfu, -, hqu⟩ := freeBlocks_under s q Ls L
          e.firstBlockAddress cs hbs hwf hq hrange hchain hdata hdisj
        have haddr := resolved_child_address s q Ls L hq n e hfind (fun h => by
          rw [hdir] at h
          exact absurd h Bool.false_ne_true)
        have hfp : freeBlocksPath (q ++ [n]) s = (Except.ok (), u) := by
          rw [freeBlocksPath, bind_ok _ _ _ _ _ haddr]
          exact hfree
        obtain ⟨d2, hd2⟩ := eraseEntry_some n L.entries e hfind
        have hub : u.sb.blockSize = s.sb.blockSize := congrArg Superblock.blockSize hsb
        obtain ⟨t, hfit, -⟩ := writeDirectoryAux_returns (q.length + 1) u q Ls L d2 true
          (le_refl _) (by rw [hub]; exact hbs) hwfu hqu
        have hrun : deleteFile (q ++ [n]) s
            = ((do
                let _ ← writeDirectory q d2 true
                pure ()) : M Unit) u := by
          rw [deleteFile, bind_ok _ _ _ _ _ hc, bind_ok _ _ _ _ _ hp,
            bind_ok _ _ _ _ _ (parentPath_snoc q n s hn), bind_ok _ _ _ _ _ hd,
            bind_ok _ _ _ _ _ (pathToName_snoc q n s hn), bind_ok _ _ _ _ _ hfp, hd2]
          simp only
          rw [bind_ok _ _ _ _ _ (parentPath_snoc q n u hn)]
        have hspace : blocksNeeded (serializeDirectory d2).length u.sb.blockSize
            ≤ freeBlockCount u.fat + L.chain.length := by
          rw [(resolved_levelOk u q Ls L hqu).2.2.2.2.2.2.2]
          exact le_trans (blocksNeeded_le _ (eraseEntry_length n L.entries d2 hd2))
            (Nat.le_add_left _ _)
        refine atomic_ok _ s t () ?_
        rw [hrun]
        exact (bind_ok _ _ _ _ _ (hfit hspace)).trans rfl
    · rw [if_neg hdir, if_neg Bool.false_ne_true] at hc
      refine atomic_same _ s Error.isADirectory ?_
      rw [deleteFile, bind_error _ _ _ _ _ hc]

/-- The entry of a file with a new size and modification time holds values of the C++
types. -/
theorem rewritten_inRange (e : DirectoryEntry) (z w : Int) (he : entryInRange e)
    (hz : -32768 ≤ z ∧ z ≤ 32767)
    (hw : -9223372036854775808 ≤ w ∧ w ≤ 9223372036854775807) :
    entryInRange { attributes := { e.attributes with size := z, lastModified := w },
                   firstBlockAddress := e.firstBlockAddress } :=
  ⟨he.1, hz, he.2.2.1, hw, he.2.2.2.2⟩

/-- The run of `writeFile` up to its `try` block. -/
theorem writeFile_run (q : Path) (n : Name) (hn : n ≠ []) (s : FS) (d : List DirectoryEntry)
    (data : List Byte) (hd : readDirectory q s = (Except.ok d, s)) :
    writeFile (q ++ [n]) data s
      = tryCatchNoSuchFile (writeFileExisting (q ++ [n]) data)
          (writeFileNew (q ++ [n]) data n d) s := by
  rw [writeFile, bind_ok _ _ _ _ _ (parentPath_snoc q n s hn), bind_ok _ _ _ _ _ hd,
    bind_ok _ _ _ _ _ (pathToName_snoc q n s hn)]
  rfl

/-- The run of the `catch` block of `writeFile` up to its `writeDirectory`. -/
theorem writeFileNew_run (q : Path) (n : Name) (hn : n ≠ []) (s u : FS)
    (d : List DirectoryEntry) (data : List Byte) (a : Int)
    (hp : checkPermission q Permission.w s = (Except.ok (), s))
    (hwb : writeBlocks lastBlockMarker data s = (Except.ok a, u)) :
    writeFileNew (q ++ [n]) data n d s
      = ((do
          let _ ← writeDirectory q
            (d ++ [{ attributes := { isDirectory := false, name := n,
                                     size := wrap16 data.length,
                                     created := wrap64 (u.clock u.tick),
                                     lastModified := wrap64 (u.clock u.tick) },
                     firstBlockAddress := a }]) true
          pure ()) : M Unit) { u with tick := u.tick + 1 } := by
  rw [writeFileNew, bind_ok _ _ _ _ _ (parentPath_snoc q n s hn), bind_ok _ _ _ _ _ hp,
    bind_ok _ _ _ _ _ hwb, bind_ok _ _ _ _ _ (getNow_run u),
    bind_ok _ _ _ _ _ (parentPath_snoc q n _ hn)]

/-- The run of the `try` block of `writeFile` up to its `writeAttributes`. -/
theorem writeFileExisting_run (q : Path) (n : Name) (s u : FS) (data : List Byte)
    (a0 z0 a : Int) (attributes : FileAttributes)
    (hc : checkIsDirectory (q ++ [n]) false s = (Except.ok (), s))
    (hp : checkPermission (q ++ [n]) Permission.w s = (Except.ok (), s))
    (haddr : pathToAddressAndSize (q ++ [n]) s = (Except.ok (a0, z0), s))
    (hwb : writeBlocks a0 data s = (Except.ok a, u))
    (hattr : readAttributes (q ++ [n]) u = (Except.ok attributes, u)) :
    writeFileExisting (q ++ [n]) data s
      = writeAttributes (q ++ [n])
          { attributes with size := wrap16 data.length,
                            lastModified := wrap64 (u.clock u.tick) }
          { u with tick := u.tick + 1 } := by
  rw [writeFileExisting, bind_ok _ _ _ _ _ hc, bind_ok _ _ _ _ _ hp, bind_ok _ _ _ _ _ haddr]
  simp only [writeDirectoryAux.match_1]
  rw [bind_ok _ _ _ _ _ hwb, bind_ok _ _ _ _ _ hattr, bind_ok _ _ _ _ _ (getNow_run u)]

/-- On an image that is well formed at the name, `writeFile` returns, or reports
filesystem-full, or reports an error and leaves the state as it was. -/
theorem writeFile_atomic (s : FS) (q : Path) (n : Name) (hn : n ≠ []) (data : List Byte)
    (hw : WellFormedAt s q n) : ErrorsAtomic (writeFile (q ++ [n]) data) s := by
  obtain ⟨hbs, hwf, hres⟩ := hw
  rcases readOnly_cases _ (readDirectory_readOnly q) s with ⟨e0, hd⟩ | ⟨d, hd⟩
  · refine errorsAtomic_same _ s e0 ?_
    rw [writeFile, bind_ok _ _ _ _ _ (parentPath_snoc q n s hn), bind_error _ _ _ _ _ hd]
  obtain ⟨Ls, L, hq, hfile⟩ := hres ⟨d, hd⟩
  have hdL := resolved_listing s q Ls L d hq hd
  rw [hdL] at hd
  have hrun := writeFile_run q n hn s L.entries data hd
  cases hfind : findEntry L.entries n with
  | none =>
    have hc : checkIsDirectory (q ++ [n]) false s
        = (Except.error Error.noSuchFileOrDirectory, s) :=
      checkIsDirectoryWith_missing readDirectory q n s hn L.entries hd hfind false
    have hbody : writeFileExisting (q ++ [n]) data s
        = (Except.error Error.noSuchFileOrDirectory, s) := by
      rw [writeFileExisting, bind_error _ _ _ _ _ hc]
    rw [tryCatch_missing _ _ s s hbody] at hrun
    rcases readOnly_cases _ (checkPermission_readOnly q Permission.w) s with
      ⟨e0, hp⟩ | ⟨u0, hp⟩
    · refine errorsAtomic_same _ s e0 ?_
      rw [hrun, writeFileNew, bind_ok _ _ _ _ _ (parentPath_snoc q n s hn),
        bind_error _ _ _ _ _ hp]
    have hlast : chainOf s.fat chainFuel lastBlockMarker = some [] := chainOf_last s.fat _
    by_cases hspace : blocksNeeded data.length s.sb.blockSize
        ≤ freeBlockCount s.fat + ([] : List Nat).length
    · obtain ⟨a, u, cs', hwb, hsb, -, -, hwfu, -, -, -, -, -, -, -, -, -, -, hqu, -, -⟩ :=
        writeBlocks_under s q Ls L lastBlockMarker [] data hbs hwf hq (Or.inl rfl) hlast
          (fun c hc => absurd hc (List.not_mem_nil c))
          (fun c _ hc => absurd hc (List.not_mem_nil c)) hspace
      have hub : u.sb.blockSize = s.sb.blockSize := congrArg Superblock.blockSize hsb
      have hnew := writeFileNew_run q n hn s u L.entries data a hp hwb
      obtain ⟨t, hfit, hfull⟩ := writeDirectoryAux_returns (q.length + 1)
        ({ u with tick := u.tick + 1 } : FS) q Ls L
        (L.entries ++ [{ attributes := { isDirectory := false, name := n,
                                         size := wrap16 data.length,
                                         created := wrap64 (u.clock u.tick),
                                         lastModified := wrap64 (u.clock u.tick) },
                         firstBlockAddress := a }])
        true (le_refl _) (by rw [← hub] at hbs; exact hbs) hwfu (resolved_tick u _ q Ls L hqu)
      by_cases hspace2 : blocksNeeded (serializeDirectory
          (L.entries ++ [({ attributes := { isDirectory := false, name := n,
                                            size := wrap16 data.length,
                                            created := wrap64 (u.clock u.tick),
                                            lastModified := wrap64 (u.clock u.tick) },
                            firstBlockAddress := a } : DirectoryEntry)])).length
          ({ u with tick := u.tick + 1 } : FS).sb.blockSize
          ≤ freeBlockCount ({ u with tick := u.tick + 1 } : FS).fat + L.chain.length
      · refine errorsAtomic_ok _ s t () ?_
        rw [hrun, hnew]
        exact (bind_ok _ _ _ _ _ (hfit hspace2)).trans rfl
      · refine errorsAtomic_full _ s t ?_
        rw [hrun, hnew]
        exact bind_error _ _ _ _ _ (hfull hspace2)
    · obtain ⟨t, ht⟩ := writeBlocks_full s lastBlockMarker [] data hbs hwf (Or.inl rfl) hlast
        (fun c hc => absurd hc (List.not_mem_nil c)) (by omega)
      refine errorsAtomic_full _ s t ?_
      rw [hrun, writeFileNew, bind_ok _ _ _ _ _ (parentPath_snoc q n s hn),
        bind_ok _ _ _ _ _ hp, bind_error _ _ _ _ _ ht]
  | some e =>
    have hc := resolved_checkIsDirectory s q Ls L hq n hn e hfind false
    by_cases hdir : e.attributes.isDirectory = false
    · rw [if_pos hdir] at hc
      have hp := resolved_checkPermission s q Ls L hq n hn e hfind Permission.w
      by_cases hcw : e.attributes.canWrite = false
      · rw [if_pos (Or.inr ⟨rfl, hcw⟩)] at hp
        have hbody : writeFileExisting (q ++ [n]) data s = (Except.error Error.permission, s) := by
          rw [writeFileExisting, bind_ok _ _ _ _ _ hc, bind_error _ _ _ _ _ hp]
        refine errorsAtomic_same _ s Error.permission ?_
        rw [hrun]
        exact tryCatch_error _ _ s s _ hbody (by decide)
      · rw [if_neg (fun h => by
          rcases h with h | h
          · exact absurd h.1 (by decide)
          · exact hcw h.2)] at hp
        obtain ⟨cs, hchain, hrange, hdata, hdisj⟩ := hfile e hfind hdir
        have haddr := resolved_child_address s q Ls L hq n e hfind (fun h => by
          rw [hdir] at h
          exact absurd h Bool.false_ne_true)
        by_cases hspace : blocksNeeded data.length s.sb.blockSize
            ≤ freeBlockCount s.fat + cs.length
        · obtain ⟨a, u, cs', hwb, hsb, -, -, hwfu, -, -, -, -, -, -, -, -, -, -, hqu, -, -⟩ :=
            writeBlocks_under s q Ls L e.firstBlockAddress cs data hbs hwf hq hrange hchain
              hdata hdisj hspace
          have hub : u.sb.blockSize = s.sb.blockSize := congrArg Superblock.blockSize hsb
          have hattr := resolved_attributes u q Ls L hqu n hn e hfind
          have hex := writeFileExisting_run q n s u data _ _ a e.attributes hc hp haddr hwb hattr
          obtain ⟨hname, hmem⟩ := findEntry_name _ _ _ hfind
          obtain ⟨-, -, -, -, -, -, hrL, -⟩ := resolved_levelOk s q Ls L hq
          obtain ⟨t, Ls1, L1, d2, -, hwa, -, -⟩ := writeAttributes_spec
            ({ u with tick := u.tick + 1 } : FS) q Ls L n e
            { e.attributes with size := wrap16 data.length,
                                lastModified := wrap64 (u.clock u.tick) }
            (by rw [← hub] at hbs; exact hbs) hwfu (resolved_tick u _ q Ls L hqu) hn hfind hname
            (rewritten_inRange e _ _ (hrL e hmem) (wrap16_range _) (wrap64_range _))
          refine errorsAtomic_ok _ s t () ?_
          rw [hrun]
          exact tryCatch_ok _ _ s t () (hex.trans hwa)
        · obtain ⟨t, ht⟩ := writeBlocks_full s e.firstBlockAddress cs data hbs hwf hrange
            hchain hdata (by omega)
          have hbody : writeFileExisting (q ++ [n]) data s
              = (Except.error Error.fileSystemFull, t) := by
            rw [writeFileExisting, bind_ok _ _ _ _ _ hc, bind_ok _ _ _ _ _ hp,
              bind_ok _ _ _ _ _ haddr]
            simp only [writeDirectoryAux.match_1]
            rw [bind_error _ _ _ _ _ ht]
          refine errorsAtomic_full _ s t ?_
          rw [hrun]
          exact tryCatch_error _ _ s t _ hbody (by decide)
    · rw [if_neg hdir, if_neg Bool.false_ne_true] at hc
      have hbody : writeFileExisting (q ++ [n]) data s
          = (Except.error Error.isADirectory, s) := by
        rw [writeFileExisting, bind_error _ _ _ _ _ hc]
      refine errorsAtomic_same _ s Error.isADirectory ?_
      rw [hrun]
      exact tryCatch_error _ _ s s _ hbody (by decide)

/-- The filesystem-full error of `writeFile` is not atomic: on a device without a FREE
block, overwriting the one-block file `/x` with 513 bytes reports filesystem-full after
the chain of `/x` has been freed and the table written back, so sector 1 of the image,
which holds the entry of block 17, differs from before the call. -/
theorem writeFile_full_not_atomic :
    (writeFile pathX (List.replicate 513 1) fullImage).1
      = Except.error Error.fileSystemFull ∧
    (writeFile pathX (List.replicate 513 1) fullImage).2.disk 1 ≠ fullImage.disk 1 := by
  decide!

/-- An error of the reads that open `deleteDirectory` (the permission check, the listing
of the directory, the listing of its parent) is reported with the state unchanged. -/
theorem deleteDirectory_leading_checks (fuel : Nat) (path : Path) (s : FS) (e : Error) :
    ((checkPermission path Permission.w s).1 = Except.error e →
      deleteDirectory (fuel + 1) path s = (Except.error e, s)) ∧
    ((checkPermission path Permission.w s).1 = Except.ok () →
      (readDirectory path s).1 = Except.error e →
      deleteDirectory (fuel + 1) path s = (Except.error e, s)) ∧
    ((checkPermission path Permission.w s).1 = Except.ok () →
      (∃ self, (readDirectory path s).1 = Except.ok self) →
      ((parentPath path >>= readDirectory) s).1 = Except.error e →
      deleteDirectory (fuel + 1) path s = (Except.error e, s)) := by
  refine ⟨deleteDirectory_own_check fuel path s e, ?_, ?_⟩
  · intro hperm hself
    have h1 : checkPermission path Permission.w s = (Except.ok (), s) := by
      rw [readOnly_run_eq (checkPermission_readOnly _ _) s, hperm]
    have h2 : readDirectory path s = (Except.error e, s) := by
      rw [readOnly_run_eq (readDirectory_readOnly _) s, hself]
    rw [deleteDirectory, bind_ok _ _ _ _ _ h1, bind_error _ _ _ _ _ h2]
  · intro hperm hself hpar
    have h1 : checkPermission path Permission.w s = (Except.ok (), s) := by
      rw [readOnly_run_eq (checkPermission_readOnly _ _) s, hperm]
    obtain ⟨self, hs⟩ := hself
    have h2 : readDirectory path s = (Except.ok self, s) := by
      rw [readOnly_run_eq (readDirectory_readOnly _) s, hs]
    rcases readOnly_cases _ (parentPath_readOnly path) s with ⟨e1, hp⟩ | ⟨pp, hp⟩
    · rw [bind_error _ _ _ _ _ hp] at hpar
      have he : e1 = e := Except.error.inj hpar
      rw [deleteDirectory, bind_ok _ _ _ _ _ h1, bind_ok _ _ _ _ _ h2, bind_error _ _ _ _ _ hp,
        he]
    · rw [bind_ok _ _ _ _ _ hp] at hpar
      have h3 : readDirectory pp s = (Except.error e, s) := by
        rw [readOnly_run_eq (readDirectory_readOnly pp) s, hpar]
      rw [deleteDirectory, bind_ok _ _ _ _ _ h1, bind_ok _ _ _ _ _ h2, bind_ok _ _ _ _ _ hp,
        bind_error _ _ _ _ _ h3]

/-- Counterexample to C8 as stated, in its two cases. `deleteDirectory("/d")` where `/d`
holds the writable `a` and then the non-writable `b` reports Permission after it has
removed `a`. On a device without a FREE block, overwriting the one-block file `/x` with
513 bytes reports filesystem-full after the chain of `/x` has been freed and the table
written back. In both cases the image differs from the image before the call. -/
theorem errors_after_mutation_not_atomic :
    ((deleteDirectory 3 pathD guardedTreeImage).1 = Except.error Error.permission ∧
      entryNames (readDirectory pathD guardedTreeImage).1 = Except.ok [nameA, nameB] ∧
      entryNames (readDirectory pathD (deleteDirectory 3 pathD guardedTreeImage).2).1
        = Except.ok [nameB] ∧
      (deleteDirectory 3 pathD guardedTreeImage).2.disk 19 ≠ guardedTreeImage.disk 19) ∧
    ((writeFile pathX (List.replicate 513 1) fullImage).1
        = Except.error Error.fileSystemFull ∧
      (writeFile pathX (List.replicate 513 1) fullImage).2.disk 1 ≠ fullImage.disk 1) :=
  ⟨deleteDirectory_error_not_atomic, writeFile_full_not_atomic⟩

/-- Claim C8, amended. On an image that is well formed at the name `n` of the directory
`q` (allowed block size, well-formed table, `q` a stored directory if its listing can be
read at all, the chain of the file named `n` stored), whenever `createDirectory`,
`writeFile` or `writeAttributes` on `q/n` reports an error other than filesystem-full
(FileExists, Permission, NotADirectory, IsADirectory, NoSuchFileOrDirectory or any
other), and whenever `deleteFile` on `q/n` reports any error at all, the whole state, in
memory and on the device, is the state before the call. On every image the same holds when `createDirectory`,
`deleteFile` or `chmod` reports Permission, FileExists, IsADirectory or InvalidMode and
when `writeFile` reports IsADirectory. An error of the reads that open `deleteDirectory`
(the permission check, the listing of the directory, the listing of its parent) is
reported with the state unchanged. -/
theorem errors_before_mutation_atomic (s : FS) (q path : Path) (n : Name) (data : List Byte)
    (attributes : FileAttributes) (mode : List Char) (fuel : Nat) :
    (n ≠ [] → WellFormedAt s q n →
      (∀ e t, createDirectory (q ++ [n]) s = (Except.error e, t) →
        e ≠ Error.fileSystemFull → t = s) ∧
      (∀ e t, writeFile (q ++ [n]) data s = (Except.error e, t) →
        e ≠ Error.fileSystemFull → t = s) ∧
      (∀ e t, deleteFile (q ++ [n]) s = (Except.error e, t) → t = s) ∧
      (∀ e t, writeAttributes (q ++ [n]) attributes s = (Except.error e, t) →
        e ≠ Error.fileSystemFull → t = s)) ∧
    (∀ e, checkError e →
      ((createDirectory path s).1 = Except.error e → (createDirectory path s).2 = s) ∧
      ((deleteFile path s).1 = Except.error e → (deleteFile path s).2 = s) ∧
      ((chmod path mode s).1 = Except.error e → (chmod path mode s).2 = s)) ∧
    ((writeFile path data s).1 = Except.error Error.isADirectory →
      (writeFile path data s).2 = s) ∧
    (∀ e,
      ((checkPermission path Permission.w s).1 = Except.error e →
        deleteDirectory (fuel + 1) path s = (Except.error e, s)) ∧
      ((checkPermission path Permission.w s).1 = Except.ok () →
        (readDirectory path s).1 = Except.error e →
        deleteDirectory (fuel + 1) path s = (Except.error e, s)) ∧
      ((checkPermission path Permission.w s).1 = Except.ok () →
        (∃ self, (readDirectory path s).1 = Except.ok self) →
        ((parentPath path >>= readDirectory) s).1 = Except.error e →
        deleteDirectory (fuel + 1) path s = (Except.error e, s))) :=
  ⟨fun hn hw => ⟨createDirectory_atomic s q n hn hw, writeFile_atomic s q n hn data hw,
      deleteFile_atomic s q n hn hw, writeAttributes_atomic s q n hn attributes hw⟩,
    fun e hcheck => ⟨fun h => createDirectory_checkAtomic path s e h hcheck,
      fun h => deleteFile_checkAtomic path s e h hcheck,
      fun h => chmod_checkAtomic path mode s e h hcheck⟩,
    writeFile_isADirectory_state path data s,
    fun e => deleteDirectory_leading_checks fuel path s e⟩

theorem errors_before_mutation_atomic_witness :
    ∃ s : FS, format 512 (blank 0) = (Except.ok (), s) ∧ WellFormedAt s [rootName] nameX ∧
      deleteFile ([rootName] ++ [nameX]) s
        = (Except.error Error.noSuchFileOrDirectory, s) ∧
      ∀ e t, deleteFile ([rootName] ++ [nameX]) s = (Except.error e, t) → t = s := by
  obtain ⟨s, hrun, hb, hwf, -, -, -, -, hres⟩ := resolved_format_root 512 (by decide) (blank 0)
  have hw : WellFormedAt s [rootName] nameX :=
    ⟨by rw [hb]; decide, hwf, fun _ => ⟨_, _, hres, fun e he => absurd he (fun hc => by cases hc)⟩⟩
  have hc : checkIsDirectory ([rootName] ++ [nameX]) false s
      = (Except.error Error.noSuchFileOrDirectory, s) :=
    checkIsDirectoryWith_missing readDirectory [rootName] nameX s (by decide) []
      (resolved_readDirectory s _ _ _ hres) rfl false
  have hfail : deleteFile ([rootName] ++ [nameX]) s
      = (Except.error Error.noSuchFileOrDirectory, s) := by
    rw [deleteFile, bind_error _ _ _ _ _ hc]
  exact ⟨s, hrun, hw, hfail,
    ((errors_before_mutation_atomic s [rootName] [] nameX [] fileXEntry.attributes [] 0).1
      (by decide) hw).2.2.1⟩

theorem stored_succ (s : FS) (depth : Nat) (e : DirectoryEntry) (bs : List Nat) :
    Stored s (depth + 1) e bs ↔
      ((e.attributes.isDirectory = false ∧
        chainOf s.fat chainFuel e.firstBlockAddress = some bs ∧
        (e.firstBlockAddress = -1
          ∨ (dataAddress s ≤ e.firstBlockAddress ∧ e.firstBlockAddress ≤ 4095)) ∧
        ∀ c ∈ bs, 8192 / s.sb.blockSize ≤ c) ∨
      (e.attributes.isDirectory = true ∧
        ∃ (L : Level) (bss : List (List Nat)),
          e.firstBlockAddress = L.address ∧ e.attributes.size = L.size ∧ LevelOk s L ∧
          (L.entries.map fun x => x.attributes.name).Nodup ∧
          (∀ x ∈ L.entries, x.attributes.name ≠ [] ∧ x.attributes.name ≠ rootName) ∧
          bs = L.chain ++ bss.flatten ∧
          List.Forall₂ (Stored s depth) L.entries bss)) := Iff.rfl

theorem stored_zero (s : FS) (e : DirectoryEntry) (bs : List Nat) : ¬ Stored s 0 e bs :=
  fun h => h

/-- A stored entry stays stored when the block size, the table entries of its blocks and
the contents of its blocks stay the same. -/
theorem stored_frame (s u : FS) (hb : u.sb.blockSize = s.sb.blockSize) :
    ∀ (depth : Nat) (e : DirectoryEntry) (bs : List Nat), Stored s depth e bs →
      (∀ c ∈ bs, u.fat c = s.fat c) → (∀ c ∈ bs, blockOf u c = blockOf s c) →
      Stored u depth e bs := by
  intro depth
  induction depth with
  | zero => intro e bs h; exact absurd h (stored_zero s e bs)
  | succ d ih =>
    intro e bs h hfat hblk
    rw [stored_succ] at h ⊢
    rcases h with ⟨hfile, hchain, hrange, hdata⟩ | ⟨hdir, L, bss, ha, hz, hL, hnd, hnames, hbs, hF⟩
    · refine Or.inl ⟨hfile, chainOf_congr s.fat u.fat chainFuel _ bs hchain hfat, ?_, ?_⟩
      · rw [dataAddress_congr s u hb]
        exact hrange
      · rw [hb]
        exact hdata
    · refine Or.inr ⟨hdir, L, bss, ha, hz, ?_, hnd, hnames, hbs, ?_⟩
      · exact levelOk_frame s u L hL hb
          (fun c hc => hfat c (by rw [hbs]; exact List.mem_append_left _ hc))
          (fun c hc => hblk c (by rw [hbs]; exact List.mem_append_left _ hc))
      · have key : ∀ (es : List DirectoryEntry) (xs : List (List Nat)),
            List.Forall₂ (Stored s d) es xs →
            (∀ c ∈ xs.flatten, u.fat c = s.fat c) →
            (∀ c ∈ xs.flatten, blockOf u c = blockOf s c) →
            List.Forall₂ (Stored u d) es xs := by
          intro es xs hes
          induction hes with
          | nil => intro _ _; exact List.Forall₂.nil
          | cons h1 _ ih2 =>
            intro g1 g2
            rw [List.flatten_cons] at g1 g2
            exact List.Forall₂.cons
              (ih _ _ h1 (fun c hc => g1 c (List.mem_append_left _ hc))
                (fun c hc => g2 c (List.mem_append_left _ hc)))
              (ih2 (fun c hc => g1 c (List.mem_append_right _ hc))
                (fun c hc => g2 c (List.mem_append_right _ hc)))
        exact key _ _ hF
          (fun c hc => hfat c (by rw [hbs]; exact List.mem_append_right _ hc))
          (fun c hc => hblk c (by rw [hbs]; exact List.mem_append_right _ hc))

/-- The blocks of a stored entry are data blocks in use. -/
theorem stored_blocks (s : FS) (hbsz : validBlockSize s.sb.blockSize) :
    ∀ (depth : Nat) (e : DirectoryEntry) (bs : List Nat), Stored s depth e bs →
      ∀ c ∈ bs, s.fat c ≠ 0 ∧ 8192 / s.sb.blockSize ≤ c ∧ c < 4096 := by
  have hpos : 1 ≤ 8192 / s.sb.blockSize := by
    rcases hbsz with h | h | h | h <;> rw [h] <;> decide
  intro depth
  induction depth with
  | zero => intro e bs h; exact absurd h (stored_zero s e bs)
  | succ d ih =>
    intro e bs h
    rw [stored_succ] at h
    rcases h with ⟨-, hchain, -, hdata⟩ | ⟨-, L, bss, -, -, hL, -, -, hbs, hF⟩
    · intro c hc
      exact ⟨chain_nonfree s.fat chainFuel _ bs hchain
          (fun x hx => le_trans hpos (hdata x hx)) c hc, hdata c hc,
        chainOf_mem_lt s.fat chainFuel _ bs hchain c hc⟩
    · have key : ∀ (es : List DirectoryEntry) (xs : List (List Nat)),
          List.Forall₂ (Stored s d) es xs →
          ∀ c ∈ xs.flatten, s.fat c ≠ 0 ∧ 8192 / s.sb.blockSize ≤ c ∧ c < 4096 := by
        intro es xs hes
        induction hes with
        | nil => intro c hc; exact absurd hc (List.not_mem_nil c)
        | cons h1 _ ih2 =>
          intro c hc
          rw [List.flatten_cons] at hc
          rcases List.mem_append.mp hc with hc | hc
          · exact ih _ _ h1 c hc
          · exact ih2 c hc
      intro c hc
      rw [hbs] at hc
      rcases List.mem_append.mp hc with hc | hc
      · obtain ⟨hchain, -, hdata, -⟩ := hL
        exact ⟨chain_nonfree s.fat chainFuel _ L.chain hchain
            (fun x hx => le_trans hpos (hdata x hx)) c hc, hdata c hc,
          chainOf_mem_lt s.fat chainFuel _ L.chain hchain c hc⟩
      · exact key _ _ hF c hc

theorem findEntry_cons_ne (x : DirectoryEntry) (r : List DirectoryEntry) (n : Name)
    (h : x.attributes.name ≠ n) : findEntry (x :: r) n = findEntry r n := by
  unfold findEntry
  rw [List.find?_cons_of_neg _ (by simpa using h)]

theorem findEntry_cons_eq (x : DirectoryEntry) (r : List DirectoryEntry) :
    findEntry (x :: r) x.attributes.name = some x := by
  unfold findEntry
  rw [List.find?_cons_of_pos _ (by simp)]

/-- With distinct names, the entry found under the name of an entry of the list is that
entry, and erasing the name removes exactly that entry. -/
theorem entry_mid (x : DirectoryEntry) (rest : List DirectoryEntry) :
    ∀ kept : List DirectoryEntry,
      ((kept ++ x :: rest).map fun y => y.attributes.name).Nodup →
      findEntry (kept ++ x :: rest) x.attributes.name = some x ∧
      eraseEntry x.attributes.name (kept ++ x :: rest) = some (kept ++ rest) := by
  intro kept
  induction kept with
  | nil =>
    intro _
    refine ⟨findEntry_cons_eq x rest, ?_⟩
    rw [List.nil_append, eraseEntry, if_pos rfl]
    rfl
  | cons k ks ih =>
    intro hnd
    rw [List.cons_append, List.map_cons, List.nodup_cons] at hnd
    have hne : k.attributes.name ≠ x.attributes.name := by
      intro hc
      apply hnd.1
      rw [hc]
      exact List.mem_map.mpr ⟨x, List.mem_append_right _ (List.mem_cons_self _ _), rfl⟩
    obtain ⟨h1, h2⟩ := ih hnd.2
    refine ⟨?_, ?_⟩
    · rw [List.cons_append, findEntry_cons_ne k _ _ hne]
      exact h1
    · rw [List.cons_append, eraseEntry, if_neg hne, h2]
      rfl

theorem eraseEntry_mem (n : Name) :
    ∀ (d d2 : List DirectoryEntry), eraseEntry n d = some d2 → ∀ y ∈ d2, y ∈ d := by
  intro d
  induction d with
  | nil => intro d2 h; cases h
  | cons x r ih =>
    intro d2 h y hy
    rw [eraseEntry] at h
    by_cases hx : x.attributes.name = n
    · rw [if_pos hx] at h
      cases h
      exact List.mem_cons_of_mem _ hy
    · rw [if_neg hx] at h
      cases hr : eraseEntry n r with
      | none => rw [hr] at h; cases h
      | some r2 =>
        rw [hr] at h
        cases h
        rcases List.mem_cons.mp hy with hy | hy
        · rw [hy]; exact List.mem_cons_self _ _
        · exact List.mem_cons_of_mem _ (ih r2 hr y hy)

theorem untouched_refl (s : FS) (X old : List Nat) : Untouched s s X old old :=
  fun _ _ _ hold => ⟨rfl, fun _ => rfl, hold⟩

/-- Two steps in a row leave untouched what each of them leaves untouched. -/
theorem untouched_trans (s u t : FS) (X Y old mid new : List Nat)
    (hb : u.sb.blockSize = s.sb.blockSize)
    (h1 : Untouched s u X old mid) (h2 : Untouched u t Y mid new) :
    Untouched s t (X ++ Y) old new := by
  intro x hx hX hold
  obtain ⟨a1, a2, a3⟩ := h1 x hx (fun h => hX (List.mem_append_left _ h)) hold
  obtain ⟨b1, b2, b3⟩ := h2 x (by rw [a1]; exact hx)
    (fun h => hX (List.mem_append_right _ h)) a3
  refine ⟨b1.trans a1, fun hd => ?_, b3⟩
  rw [b2 (by rw [hb]; exact hd), a2 hd]

theorem bind_ok_inv {α β : Type} (m : M α) (f : α → M β) (s t : FS) (b : β)
    (h : (m >>= f) s = (Except.ok b, t)) :
    ∃ (a : α) (u : FS), m s = (Except.ok a, u) ∧ f a u = (Except.ok b, t) := by
  rcases hm : m s with ⟨r, u⟩
  cases r with
  | error e =>
    rw [bind_error _ _ _ _ _ hm] at h
    exact absurd (Prod.mk.inj h).1 (fun hc => by cases hc)
  | ok a =>
    rw [bind_ok _ _ _ _ _ hm] at h
    exact ⟨a, u, rfl, h⟩

theorem join_snoc (q : Path) (n name : Name) (hn : n ≠ []) (hr : name ≠ rootName) :
    Path.join (q ++ [n]) name = q ++ [n] ++ [name] := by
  unfold Path.join
  rw [if_neg hr, List.getLast?_concat, if_neg]
  intro hc
  exact hn (Option.some.inj hc)

theorem lengths_trans (As Bs Cs : List Level)
    (h1 : List.Forall₂ (fun A B : Level => B.chain.length = A.chain.length) As Bs)
    (h2 : List.Forall₂ (fun A B : Level => B.chain.length = A.chain.length) Bs Cs) :
    List.Forall₂ (fun A B : Level => B.chain.length = A.chain.length) As Cs := by
  induction h1 generalizing Cs with
  | nil =>
    cases h2
    exact List.Forall₂.nil
  | cons hab _ ih =>
    cases h2 with
    | cons hbc h2r => exact List.Forall₂.cons (hbc.trans hab) (ih _ h2r)

theorem lengths_refl (As : List Level) :
    List.Forall₂ (fun A B : Level => B.chain.length = A.chain.length) As As :=
  List.forall₂_same.mpr (fun _ _ => rfl)

theorem forall₂_snoc_split {α : Type} (R : α → α → Prop) (l1 l2 : List α) (a b : α)
    (h : List.Forall₂ R (l1 ++ [a]) (l2 ++ [b])) : List.Forall₂ R l1 l2 ∧ R a b := by
  have h2 := List.forall₂_reverse_iff.mpr h
  rw [List.reverse_append, List.reverse_append, List.reverse_singleton, List.reverse_singleton,
    List.singleton_append, List.singleton_append] at h2
  cases h2 with
  | cons hab hr => exact ⟨List.forall₂_reverse_iff.mp hr, hab⟩

/-- Freeing the stored chain `cs` of an entry below the directory `q`: the FREE count
grows by the length of the chain and only the entries of the chain change. -/
theorem freeBlocks_count (s : FS) (q : Path) (Ls : List Level) (L : Level) (h : Int)
    (cs : List Nat) (hbs : validBlockSize s.sb.blockSize)
    (hwf : wellFormedFat s.sb.blockSize s.fat)
    (hq : Resolved s q Ls L)
    (hh : h = -1 ∨ (dataAddress s ≤ h ∧ h ≤ 4095))
    (hchain : chainOf s.fat chainFuel h = some cs)
    (hdata : ∀ c ∈ cs, 8192 / s.sb.blockSize ≤ c)
    (hdisj : ∀ c ∈ chainsOf (Ls ++ [L]), c ∉ cs) :
    ∃ u : FS, freeBlocks h s = (Except.ok (), u) ∧ u.sb.blockSize = s.sb.blockSize ∧
      wellFormedFat u.sb.blockSize u.fat ∧ Resolved u q Ls L ∧
      Untouched s u cs (chainsOf (Ls ++ [L])) (chainsOf (Ls ++ [L])) ∧
      freeBlockCount u.fat = freeBlockCount s.fat + cs.length := by
  obtain ⟨u, hrun, hsb, -, -, hfat, hwfu, hblk, hres⟩ := freeBlocks_under s q Ls L h cs hbs hwf
    hq hh hchain hdata hdisj
  have hpos : 1 ≤ 8192 / s.sb.blockSize := by
    rcases hbs with h | h | h | h <;> rw [h] <;> decide
  refine ⟨u, hrun, congrArg Superblock.blockSize hsb, hwfu, hres, ?_, ?_⟩
  · intro x _ hx hold
    refine ⟨?_, fun hd => hblk x hd, hold⟩
    rw [hfat, clearChain_apply, if_neg hx]
  · rw [hfat]
    exact freeBlockCount_clearChain cs s.fat (chainOf_nodup _ _ _ _ hchain)
      (fun c hc => ⟨chainOf_mem_lt _ _ _ _ hchain c hc,
        chain_nonfree s.fat chainFuel h cs hchain
          (fun x hx => le_trans hpos (hdata x hx)) c hc⟩)

/-- The end of `deleteFile` and of `deleteDirectory`: once the blocks `bs` of the entry
named `n` are freed, the listing of the parent without that entry is written back. -/
theorem delete_finish (s w t : FS) (p : Path) (Ls Ls0 : List Level) (L L0 : Level) (n : Name)
    (bs : List Nat) (d2 : List DirectoryEntry) (r : Int)
    (hbs : validBlockSize s.sb.blockSize) (hL : LevelOk s L)
    (herase : eraseEntry n L.entries = some d2)
    (hroot : p = [] → d2 ≠ [])
    (hwb : w.sb.blockSize = s.sb.blockSize) (hwf : wellFormedFat w.sb.blockSize w.fat)
    (hres : Resolved w p Ls0 L0)
    (hlen : List.Forall₂ (fun A B : Level => B.chain.length = A.chain.length)
      (Ls ++ [L]) (Ls0 ++ [L0]))
    (hU : Untouched s w bs (chainsOf (Ls ++ [L])) (chainsOf (Ls0 ++ [L0])))
    (hcount : freeBlockCount w.fat = freeBlockCount s.fat + bs.length)
    (hrun : writeDirectory p d2 true w = (Except.ok r, t)) :
    DeletePost s p Ls L n bs t := by
  obtain ⟨hlen1, hlen2⟩ := forall₂_snoc_split _ Ls Ls0 L L0 hlen
  obtain ⟨-, -, -, -, -, hle, hrL, hcl⟩ := hL
  have hshort := eraseEntry_length n L.entries d2 herase
  obtain ⟨t2, Ls2, L2, hW, hpost⟩ := writesDirectory_all (p.length + 1) p Ls0 L0 w d2 true
    (le_refl _) (by rw [hwb]; exact hbs) hwf hres
    (fun e he => hrL e (eraseEntry_mem n L.entries d2 herase e he))
    (le_trans hshort hle) hroot
    (by
      rw [hwb, hlen2, hcl]
      exact le_trans (blocksNeeded_le _ hshort) (Nat.le_add_left _ _))
  have ht : t2 = t := by
    have h0 : writeDirectoryAux (p.length + 1) p d2 true w = (Except.ok r, t) := hrun
    rw [hW] at h0
    exact (Prod.mk.inj h0).2
  rw [ht] at hpost
  obtain ⟨hres2, hent, hb2, hwft, hF1, hF2, hO, hcnt, -, -, -, hlen3, -⟩ := hpost
  refine ⟨Ls2, L2, d2, herase, hres2, hent, hb2.trans hwb, hwft,
    lengths_trans _ _ _ hlen1 hlen3, ?_, ?_⟩
  · intro x hx hX hold
    obtain ⟨a1, a2, a3⟩ := hU x hx hX hold
    have hnew : x ∉ chainsOf (Ls2 ++ [L2]) := by
      intro hc
      rcases hO x hc with h0 | h0
      · rw [a1] at h0
        exact hx h0
      · exact a3 h0
    refine ⟨(hF1 x a3 hnew).trans a1, fun hd => ?_, hnew⟩
    rw [hF2 x (by rw [hwb]; exact hd) a3 hnew, a2 hd]
  · rw [hlen2] at hcnt
    omega

/-- The end of a deletion that empties the root container: its chain is freed. -/
theorem delete_finish_root (w t : FS) (L0 : Level) (r : Int)
    (hbs : validBlockSize w.sb.blockSize) (hwf : wellFormedFat w.sb.blockSize w.fat)
    (hres : Resolved w [] [] L0)
    (hrun : writeDirectory [] [] true w = (Except.ok r, t)) :
    freeBlockCount t.fat = freeBlockCount w.fat + L0.chain.length := by
  obtain ⟨hchain, hrange, hdatal, -, -, -, -, -⟩ := resolved_levelOk w [] [] L0 hres
  have hbpos : 0 < w.sb.blockSize := by rcases hbs with h | h | h | h <;> omega
  obtain ⟨a, u, cs', hwr, -, -, -, -, -, -, hlenu, -, -, -, -, -, -, -, hcount⟩ :=
    writeBlocks_spec w L0.address L0.chain (serializeDirectory []) hbs hwf hrange hchain hdatal
      (by
        have e : (serializeDirectory []).length = 0 := rfl
        rw [e, blocksNeeded_zero _ hbpos]
        exact Nat.zero_le _)
  have hW := writeDirectoryAux_root_run 0 w [] true _ _ a u (resolved_address w [] [] L0 hres) hwr
  have h0 : writeDirectoryAux (0 + 1) [] [] true w = (Except.ok r, t) := hrun
  rw [hW] at h0
  have ht := (Prod.mk.inj h0).2
  rw [← ht, setRootSize_fat]
  have e : (serializeDirectory []).length = 0 := rfl
  rw [e, blocksNeeded_zero _ hbpos] at hlenu
  omega

theorem storedList_frame (s u : FS) (hb : u.sb.blockSize = s.sb.blockSize) (d : Nat)
    (es : List DirectoryEntry) (xs : List (List Nat))
    (h : List.Forall₂ (Stored s d) es xs)
    (hfat : ∀ c ∈ xs.flatten, u.fat c = s.fat c)
    (hblk : ∀ c ∈ xs.flatten, blockOf u c = blockOf s c) :
    List.Forall₂ (Stored u d) es xs := by
  induction h with
  | nil => exact List.Forall₂.nil
  | cons h1 _ ih2 =>
    rw [List.flatten_cons] at hfat hblk
    exact List.Forall₂.cons
      (stored_frame s u hb d _ _ h1 (fun c hc => hfat c (List.mem_append_left _ hc))
        (fun c hc => hblk c (List.mem_append_left _ hc)))
      (ih2 (fun c hc => hfat c (List.mem_append_right _ hc))
        (fun c hc => hblk c (List.mem_append_right _ hc)))

theorem storedList_blocks (s : FS) (hbsz : validBlockSize s.sb.blockSize) (d : Nat)
    (es : List DirectoryEntry) (xs : List (List Nat))
    (h : List.Forall₂ (Stored s d) es xs) :
    ∀ c ∈ xs.flatten, s.fat c ≠ 0 ∧ 8192 / s.sb.blockSize ≤ c ∧ c < 4096 := by
  induction h with
  | nil => intro c hc; exact absurd hc (List.not_mem_nil c)
  | cons h1 _ ih2 =>
    intro c hc
    rw [List.flatten_cons] at hc
    rcases List.mem_append.mp hc with hc | hc
    · exact stored_blocks s hbsz d _ _ h1 c hc
    · exact ih2 c hc

/-- The stored entries that an `Untouched` step leaves alone stay stored. -/
theorem storedList_untouched (s u : FS) (hbsz : validBlockSize s.sb.blockSize)
    (hb : u.sb.blockSize = s.sb.blockSize) (d : Nat)
    (es : List DirectoryEntry) (xs : List (List Nat)) (X old new : List Nat)
    (h : List.Forall₂ (Stored s d) es xs) (hU : Untouched s u X old new)
    (hX : ∀ c ∈ xs.flatten, c ∉ X) (hold : ∀ c ∈ xs.flatten, c ∉ old) :
    List.Forall₂ (Stored u d) es xs ∧ ∀ c ∈ new, c ∉ xs.flatten := by
  have hblocks := storedList_blocks s hbsz d es xs h
  refine ⟨storedList_frame s u hb d es xs h
    (fun c hc => (hU c (hblocks c hc).1 (hX c hc) (hold c hc)).1)
    (fun c hc => (hU c (hblocks c hc).1 (hX c hc) (hold c hc)).2.1 (hblocks c hc).2.1), ?_⟩
  intro c hc hcx
  exact (hU c (hblocks c hcx).1 (hX c hcx) (hold c hcx)).2.2 hc

/-- The loop over the children in `deleteDirectory`: when it returns, the directory is
still stored, the chains on the way to it are as long as before, what is in use outside
the children's blocks is untouched, and the children's blocks are reclaimed. -/
theorem deleteChildren_post (f d : Nat) (ih : DeletesStored f d) (p : Path) (n : Name)
    (hn : n ≠ []) :
    ∀ (rem : List DirectoryEntry) (bss : List (List Nat)) (kept : List DirectoryEntry)
      (v : FS) (As : List Level) (Lc : Level) (t : FS),
      validBlockSize v.sb.blockSize → wellFormedFat v.sb.blockSize v.fat →
      Resolved v (p ++ [n]) As Lc →
      Lc.entries = kept ++ rem →
      ((kept ++ rem).map fun y => y.attributes.name).Nodup →
      (∀ x ∈ rem, x.attributes.name ≠ [] ∧ x.attributes.name ≠ rootName) →
      List.Forall₂ (Stored v d) rem bss → bss.flatten.Nodup →
      (∀ x ∈ chainsOf (As ++ [Lc]), x ∉ bss.flatten) →
      deleteChildren (deleteDirectory f) (p ++ [n]) rem v = (Except.ok (), t) →
      ∃ (As2 : List Level) (Lc2 : Level),
        Resolved t (p ++ [n]) As2 Lc2 ∧ t.sb.blockSize = v.sb.blockSize ∧
        wellFormedFat t.sb.blockSize t.fat ∧
        List.Forall₂ (fun A B : Level => B.chain.length = A.chain.length) As As2 ∧
        Untouched v t bss.flatten (chainsOf (As ++ [Lc])) (chainsOf (As2 ++ [Lc2])) ∧
        freeBlockCount t.fat + Lc2.chain.length
          = freeBlockCount v.fat + bss.flatten.length + Lc.chain.length := by
  intro rem
  induction rem with
  | nil =>
    intro bss kept v As Lc t hbs hwf hres _ _ _ hF _ _ hrun
    cases hF
    rw [deleteChildren] at hrun
    have ht : v = t := (Prod.mk.inj hrun).2
    rw [← ht]
    exact ⟨As, Lc, hres, rfl, hwf, lengths_refl As, untouched_refl v _ _, by simp⟩
  | cons x rem' ih2 =>
    intro bss kept v As Lc t hbs hwf hres hent hnd hnm hF hbnd hdisj hrun
    cases hF with
    | cons hx hrest =>
    rename_i bx bss'
    rw [List.flatten_cons] at hbnd hdisj ⊢
    obtain ⟨hbxnd, hbssnd, hbxd⟩ := List.nodup_append.mp hbnd
    have hnames := hnm x (List.mem_cons_self _ _)
    by_cases hd : x.attributes.isDirectory = true
    · rw [deleteChildren, if_pos hd] at hrun
      obtain ⟨a, u, hstep, hrest2⟩ := bind_ok_inv _ _ _ _ _ hrun
      rw [join_snoc p n _ hn hnames.2] at hstep
      have hmid := entry_mid x rem' kept hnd
      rw [← hent] at hmid
      obtain ⟨As1, L1, d2, herase, hres1, hent1, hb1, hwf1, hlen1, hU1, hcnt1⟩ :=
        ih v (p ++ [n]) As Lc x.attributes.name x bx u hbs hwf hres hnames.1 hmid.1 hd
          (fun hc => absurd hc (by simp)) hx hbxnd
          (fun c hc hcb => hdisj c hc (List.mem_append_left _ hcb)) hstep
      have hd2 : d2 = kept ++ rem' := Option.some.inj (herase.symm.trans hmid.2)
      obtain ⟨hF', hnew⟩ := storedList_untouched v u hbs hb1 d rem' bss' bx _ _ hrest hU1
        (fun c hc hcb => hbxd hcb hc)
        (fun c hc hcold => hdisj c hcold (List.mem_append_right _ hc))
      have hrest3 : deleteChildren (deleteDirectory f) (p ++ [n]) rem' u = (Except.ok (), t) :=
        hrest2
      obtain ⟨As2, Lc2, hres2, hb2, hwf2, hlen2, hU2, hcnt2⟩ := ih2 bss' kept u As1 L1 t
        (by rw [hb1]; exact hbs) hwf1 hres1 (hent1.trans hd2)
        (by
          have hsub : (kept ++ rem').Sublist (kept ++ x :: rem') :=
            List.Sublist.append_left (List.sublist_cons_self x rem') kept
          exact (hsub.map _).nodup hnd)
        (fun y hy => hnm y (List.mem_cons_of_mem _ hy)) hF' hbssnd hnew hrest3
      refine ⟨As2, Lc2, hres2, hb2.trans hb1, hwf2, lengths_trans _ _ _ hlen1 hlen2,
        untouched_trans v u t bx bss'.flatten _ _ _ hb1 hU1 hU2, ?_⟩
      rw [List.length_append]
      omega
    · rw [deleteChildren, if_neg hd] at hrun
      obtain ⟨a, u, hstep, hrest2⟩ := bind_ok_inv _ _ _ _ _ hrun
      cases d with
      | zero => exact absurd hx (stored_zero v x bx)
      | succ d0 =>
      rw [stored_succ] at hx
      rcases hx with ⟨-, hchain, hrange, hdata⟩ | ⟨hdir, -⟩
      · obtain ⟨u', hfr, hb1, hwf1, hres1, hU1, hcnt1⟩ := freeBlocks_count v (p ++ [n]) As Lc
          x.firstBlockAddress bx hbs hwf hres hrange hchain hdata
          (fun c hc hcb => hdisj c hc (List.mem_append_left _ hcb))
        have hu : u' = u := by
          rw [hfr] at hstep
          exact (Prod.mk.inj hstep).2
        rw [hu] at hb1 hwf1 hres1 hU1 hcnt1
        obtain ⟨hF', hnew⟩ := storedList_untouched v u hbs hb1 (d0 + 1) rem' bss' bx _ _ hrest
          hU1 (fun c hc hcb => hbxd hcb hc)
          (fun c hc hcold => hdisj c hcold (List.mem_append_right _ hc))
        have hrest3 : deleteChildren (deleteDirectory f) (p ++ [n]) rem' u
            = (Except.ok (), t) := hrest2
        obtain ⟨As2, Lc2, hres2, hb2, hwf2, hlen2, hU2, hcnt2⟩ := ih2 bss' (kept ++ [x]) u As Lc
          t (by rw [hb1]; exact hbs) hwf1 hres1
          (by rw [hent, List.append_assoc, List.singleton_append])
          (by rw [List.append_assoc, List.singleton_append]; exact hnd)
          (fun y hy => hnm y (List.mem_cons_of_mem _ hy)) hF' hbssnd hnew hrest3
        refine ⟨As2, Lc2, hres2, hb2.trans hb1, hwf2, hlen2,
          untouched_trans v u t bx bss'.flatten _ _ _ hb1 hU1 hU2, ?_⟩
        rw [List.length_append]
        omega
      · exact absurd hdir hd

/-- The run of `deleteDirectory` on a stored directory up to the rewrite of the parent:
when the call returns, the children were deleted and the chain of the directory freed,
leaving a state `w` in which the parent is still stored, the blocks of the tree are
reclaimed, and the write of the parent listing without the entry returns. -/
theorem deleteDirectory_freed (f d : Nat) (ih : DeletesStored f d) (s : FS) (p : Path)
    (Ls : List Level) (L : Level) (n : Name) (e : DirectoryEntry) (bs : List Nat) (t : FS)
    (hbs : validBlockSize s.sb.blockSize) (hwf : wellFormedFat s.sb.blockSize s.fat)
    (hq : Resolved s p Ls L) (hn : n ≠ []) (hfind : findEntry L.entries n = some e)
    (hdir : e.attributes.isDirectory = true)
    (hst : Stored s (d + 1) e bs) (hnd : bs.Nodup)
    (hdisj : ∀ c ∈ chainsOf (Ls ++ [L]), c ∉ bs)
    (hrun : deleteDirectory (f + 1) (p ++ [n]) s = (Except.ok (), t)) :
    ∃ (w : FS) (Ls0 : List Level) (L0 : Level) (d2 : List DirectoryEntry) (r : Int),
      eraseEntry n L.entries = some d2 ∧
      w.sb.blockSize = s.sb.blockSize ∧ wellFormedFat w.sb.blockSize w.fat ∧
      Resolved w p Ls0 L0 ∧
      List.Forall₂ (fun A B : Level => B.chain.length = A.chain.length)
        (Ls ++ [L]) (Ls0 ++ [L0]) ∧
      Untouched s w bs (chainsOf (Ls ++ [L])) (chainsOf (Ls0 ++ [L0])) ∧
      freeBlockCount w.fat = freeBlockCount s.fat + bs.length ∧
      writeDirectory p d2 true w = (Except.ok r, t) := by
  rw [stored_succ] at hst
  rcases hst with ⟨hfile, -⟩ | ⟨-, Lc, bss, ha, hz, hLc, hnames_nd, hnames, hbs_eq, hF⟩
  · rw [hdir] at hfile
    cases hfile
  have hchainsLc : ∀ M ∈ Ls ++ [L], ∀ c ∈ M.chain, c ∉ Lc.chain :=
    fun M hM c hc hcl => hdisj c (mem_chainsOf.mpr ⟨M, hM, hc⟩)
      (by rw [hbs_eq]; exact List.mem_append_left _ hcl)
  have hresc := Resolved.step p Ls L n e Lc hq hn hfind hdir ha hz hLc hchainsLc
  have hperm := resolved_checkPermission s p Ls L hq n hn e hfind Permission.w
  rw [deleteDirectory] at hrun
  by_cases hcw : e.attributes.canWrite = false
  · rw [if_pos (Or.inr ⟨rfl, hcw⟩)] at hperm
    rw [bind_error _ _ _ _ _ hperm] at hrun
    exact absurd (Prod.mk.inj hrun).1 (fun hc => by cases hc)
  rw [if_neg (fun h => by
    rcases h with h | h
    · exact absurd h.1 (by decide)
    · exact hcw h.2)] at hperm
  rw [bind_ok _ _ _ _ _ hperm, bind_ok _ _ _ _ _ (resolved_readDirectory s _ _ Lc hresc),
    bind_ok _ _ _ _ _ (parentPath_snoc p n s hn),
    bind_ok _ _ _ _ _ (resolved_readDirectory s p Ls L hq),
    bind_ok _ _ _ _ _ (pathToName_snoc p n s hn)] at hrun
  obtain ⟨a1, v, hloop, hrun2⟩ := bind_ok_inv _ _ _ _ _ hrun
  rw [hbs_eq] at hnd hdisj
  obtain ⟨-, hbssnd, hLcb⟩ := List.nodup_append.mp hnd
  obtain ⟨As2, Lc2, hres2, hb2, hwf2, hlen2, hU2, hcnt2⟩ := deleteChildren_post f d ih p n hn
    Lc.entries bss [] s (Ls ++ [L]) Lc v hbs hwf hresc rfl hnames_nd hnames hF hbssnd
    (fun c hc hcb => by
      rcases (mem_chainsOf_snoc _ _ _).mp hc with h | h
      · exact hdisj c h (List.mem_append_right _ hcb)
      · exact hLcb h hcb) hloop
  obtain ⟨a2, w, hfree, hrun3⟩ := bind_ok_inv _ _ _ _ _ hrun2
  obtain ⟨Ls0, L0, e2, rfl, hresp, -, -, -, -, -, hLc2, hdisj2⟩ :=
    resolved_snoc_inv v _ As2 Lc2 hres2 p n rfl
  obtain ⟨hchain2, hrange2, hdata2, -⟩ := hLc2
  have hbsv : validBlockSize v.sb.blockSize := by rw [hb2]; exact hbs
  obtain ⟨w2, hfr, hwb, hwfw, hresw, hUw, hcntw⟩ := freeBlocks_count v p Ls0 L0 Lc2.address
    Lc2.chain hbsv hwf2 hresp hrange2 hchain2 hdata2 hdisj2
  rw [freeBlocksPath, bind_ok _ _ _ _ _ (resolved_address v _ _ Lc2 hres2)] at hfree
  have hfree2 : freeBlocks Lc2.address v = (Except.ok a2, w) := hfree
  have hw : w2 = w := by
    rw [hfr] at hfree2
    exact (Prod.mk.inj hfree2).2
  rw [hw] at hwb hwfw hresw hUw hcntw
  obtain ⟨d2, herase⟩ := eraseEntry_some n L.entries e hfind
  rw [herase] at hrun3
  simp only at hrun3
  rw [bind_ok _ _ _ _ _ (parentPath_snoc p n w hn)] at hrun3
  obtain ⟨r, t2, hwd, hpure⟩ := bind_ok_inv _ _ _ _ _ hrun3
  have ht : t2 = t := (Prod.mk.inj hpure).2
  rw [ht] at hwd
  refine ⟨w, Ls0, L0, d2, r, herase, hwb.trans hb2, hwfw, hresw, ?_, ?_, ?_, hwd⟩
  · exact hlen2
  · intro x hx hX hold
    rw [hbs_eq] at hX
    have hX1 : x ∉ Lc.chain := fun h => hX (List.mem_append_left _ h)
    have hX2 : x ∉ bss.flatten := fun h => hX (List.mem_append_right _ h)
    obtain ⟨c1, c2, c3⟩ := hU2 x hx hX2 (fun h => by
      rcases (mem_chainsOf_snoc _ _ _).mp h with h | h
      · exact hold h
      · exact hX1 h)
    have c4 : x ∉ chainsOf (Ls0 ++ [L0]) := fun h => c3 ((mem_chainsOf_snoc _ _ _).mpr (Or.inl h))
    have c5 : x ∉ Lc2.chain := fun h => c3 ((mem_chainsOf_snoc _ _ _).mpr (Or.inr h))
    obtain ⟨b1, b2, b3⟩ := hUw x (by rw [c1]; exact hx) c5 c4
    exact ⟨b1.trans c1, fun hd => (b2 (by rw [hb2]; exact hd)).trans (c2 hd), b3⟩
  · rw [hbs_eq, List.length_append]
    omega

/-- The specification of `deleteDirectory` holds for every fuel and every depth. -/
theorem deletesStored_all : ∀ (d f : Nat), DeletesStored f d := by
  intro d
  induction d with
  | zero =>
    intro f s p Ls L n e bs t _ _ _ _ _ _ _ hst
    exact absurd hst (stored_zero s e bs)
  | succ d ihd =>
    intro f
    cases f with
    | zero =>
      intro s p Ls L n e bs t _ _ _ _ _ _ _ _ _ _ hrun
      rw [deleteDirectory] at hrun
      exact absurd (Prod.mk.inj hrun).1 (fun hc => by cases hc)
    | succ f =>
      intro s p Ls L n e bs t hbs hwf hq hn hfind hdir hroot hst hnd hdisj hrun
      obtain ⟨w, Ls0, L0, d2, r, herase, hwb, hwfw, hresw, hlen, hU, hcnt, hwd⟩ :=
        deleteDirectory_freed f d (ihd f) s p Ls L n e bs t hbs hwf hq hn hfind hdir hst hnd
          hdisj hrun
      exact delete_finish s w t p Ls Ls0 L L0 n bs d2 r hbs (resolved_levelOk s p Ls L hq)
        herase (fun hp => hroot hp d2 herase) hwb hwfw hresw hlen hU hcnt hwd

/-- The run of `deleteFile` on a stored file up to the rewrite of the parent. -/
theorem deleteFile_freed (s : FS) (p : Path) (Ls : List Level) (L : Level) (n : Name)
    (e : DirectoryEntry) (bs : List Nat) (t : FS)
    (hbs : validBlockSize s.sb.blockSize) (hwf : wellFormedFat s.sb.blockSize s.fat)
    (hq : Resolved s p Ls L) (hn : n ≠ []) (hfind : findEntry L.entries n = some e)
    (hfile : e.attributes.isDirectory = false)
    (hchain : chainOf s.fat chainFuel e.firstBlockAddress = some bs)
    (hrange : e.firstBlockAddress = -1
      ∨ (dataAddress s ≤ e.firstBlockAddress ∧ e.firstBlockAddress ≤ 4095))
    (hdata : ∀ c ∈ bs, 8192 / s.sb.blockSize ≤ c)
    (hdisj : ∀ c ∈ chainsOf (Ls ++ [L]), c ∉ bs)
    (hrun : deleteFile (p ++ [n]) s = (Except.ok (), t)) :
    ∃ (w : FS) (d2 : List DirectoryEntry) (r : Int),
      eraseEntry n L.entries = some d2 ∧
      w.sb.blockSize = s.sb.blockSize ∧ wellFormedFat w.sb.blockSize w.fat ∧
      Resolved w p Ls L ∧
      Untouched s w bs (chainsOf (Ls ++ [L])) (chainsOf (Ls ++ [L])) ∧
      freeBlockCount w.fat = freeBlockCount s.fat + bs.length ∧
      writeDirectory p d2 true w = (Except.ok r, t) := by
  have hc := resolved_checkIsDirectory s p Ls L hq n hn e hfind false
  rw [if_pos hfile] at hc
  have hperm := resolved_checkPermission s p Ls L hq n hn e hfind Permission.w
  rw [deleteFile, bind_ok _ _ _ _ _ hc] at hrun
  by_cases hcw : e.attributes.canWrite = false
  · rw [if_pos (Or.inr ⟨rfl, hcw⟩)] at hperm
    rw [bind_error _ _ _ _ _ hperm] at hrun
    exact absurd (Prod.mk.inj hrun).1 (fun hc => by cases hc)
  rw [if_neg (fun h => by
    rcases h with h | h
    · exact absurd h.1 (by decide)
    · exact hcw h.2)] at hperm
  have haddr := resolved_child_address s p Ls L hq n e hfind (fun h => by
    rw [hfile] at h
    exact absurd h Bool.false_ne_true)
  obtain ⟨w, hfr, hwb, hwfw, hresw, hUw, hcntw⟩ := freeBlocks_count s p Ls L
    e.firstBlockAddress bs hbs hwf hq hrange hchain hdata hdisj
  have hfp : freeBlocksPath (p ++ [n]) s = (Except.ok (), w) := by
    rw [freeBlocksPath, bind_ok _ _ _ _ _ haddr]
    exact hfr
  obtain ⟨d2, herase⟩ := eraseEntry_some n L.entries e hfind
  rw [bind_ok _ _ _ _ _ hperm, bind_ok _ _ _ _ _ (parentPath_snoc p n s hn),
    bind_ok _ _ _ _ _ (resolved_readDirectory s p Ls L hq),
    bind_ok _ _ _ _ _ (pathToName_snoc p n s hn), bind_ok _ _ _ _ _ hfp, herase] at hrun
  simp only at hrun
  rw [bind_ok _ _ _ _ _ (parentPath_snoc p n w hn)] at hrun
  obtain ⟨r, t2, hwd, hpure⟩ := bind_ok_inv _ _ _ _ _ hrun
  have ht : t2 = t := (Prod.mk.inj hpure).2
  rw [ht] at hwd
  exact ⟨w, d2, r, herase, hwb, hwfw, hresw, hUw, hcntw, hwd⟩

/-- Reading a path that names a file as a directory reports NotADirectory. -/
theorem resolved_readDirectory_file (s : FS) (q : Path) (Ls : List Level) (L : Level)
    (h : Resolved s q Ls L) (n : Name) (hn : n ≠ []) (e : DirectoryEntry)
    (hfind : findEntry L.entries n = some e) (hfile : e.attributes.isDirectory = false) :
    readDirectory (q ++ [n]) s = (Except.error Error.notADirectory, s) := by
  have hrd : readDirectoryAux (q.length + 1) q s = (Except.ok L.entries, s) :=
    resolved_readDirectory s q Ls L h
  have hcheck := checkIsDirectoryWith_found (readDirectoryAux (q.length + 1)) q n s hn
    L.entries e hrd hfind true
  rw [if_neg (by rw [hfile]; decide), if_pos rfl] at hcheck
  have hlen : (q ++ [n]).length + 1 = (q.length + 1) + 1 := by
    rw [List.length_append, List.length_singleton]
  unfold readDirectory
  rw [hlen, readDirectoryAux, bind_error _ _ _ _ _ hcheck]

/-- The FREE count after a deletion, from the state reached once the blocks of the entry
are freed and from the write of the parent listing that follows. -/
theorem delete_count (s w t : FS) (p : Path) (Ls Ls0 : List Level) (L L0 : Level) (n : Name)
    (bs : List Nat) (d2 : List DirectoryEntry) (r : Int)
    (hbs : validBlockSize s.sb.blockSize) (hL : LevelOk s L)
    (herase : eraseEntry n L.entries = some d2)
    (hwb : w.sb.blockSize = s.sb.blockSize) (hwf : wellFormedFat w.sb.blockSize w.fat)
    (hres : Resolved w p Ls0 L0)
    (hlen : List.Forall₂ (fun A B : Level => B.chain.length = A.chain.length)
      (Ls ++ [L]) (Ls0 ++ [L0]))
    (hU : Untouched s w bs (chainsOf (Ls ++ [L])) (chainsOf (Ls0 ++ [L0])))
    (hcount : freeBlockCount w.fat = freeBlockCount s.fat + bs.length)
    (hrun : writeDirectory p d2 true w = (Except.ok r, t)) :
    freeBlockCount t.fat + blocksNeeded (serializeDirectory d2).length s.sb.blockSize
      = freeBlockCount s.fat + bs.length
        + blocksNeeded (serializeDirectory L.entries).length s.sb.blockSize := by
  have hcl : L.chain.length = blocksNeeded (serializeDirectory L.entries).length s.sb.blockSize :=
    hL.2.2.2.2.2.2.2
  by_cases hcase : p = [] ∧ d2 = []
  · obtain ⟨hp, hd⟩ := hcase
    subst hp
    subst hd
    obtain ⟨hLs0, -⟩ := resolved_nil w [] Ls0 L0 hres rfl
    subst hLs0
    have hfin := delete_finish_root w t L0 r (by rw [hwb]; exact hbs) hwf hres hrun
    obtain ⟨-, hl2⟩ := forall₂_snoc_split _ Ls [] L L0 hlen
    have hbpos : 0 < s.sb.blockSize := by rcases hbs with h | h | h | h <;> omega
    have e0 : (serializeDirectory []).length = 0 := rfl
    rw [e0, blocksNeeded_zero _ hbpos, ← hcl]
    omega
  · obtain ⟨Ls2, L2, d3, herase3, hres2, hent, hb2, -, -, -, hcnt⟩ :=
      delete_finish s w t p Ls Ls0 L L0 n bs d2 r hbs hL herase
        (fun hp hd => hcase ⟨hp, hd⟩) hwb hwf hres hlen hU hcount hrun
    have hcl2 := (resolved_levelOk t p Ls2 L2 hres2).2.2.2.2.2.2.2
    rw [hent, hb2, Option.some.inj (herase3.symm.trans herase)] at hcl2
    rw [← hcl, ← hcl2]
    exact hcnt

/-- Claim C6, amended. Deletion reclaims exactly the removed chains, and what the
listing of the parent directory gives up. On a well-formed image, let the entry named `n`
of the stored directory `p` be stored with the blocks `bs` (the chain of a file; the
chain of a directory and the blocks of everything below it), these blocks being distinct
and shared with no directory on the way to `p`. If `deleteFile(p/n)` returns, or
`deleteDirectory(p/n)` returns, then the FREE count afterwards plus the number of blocks
of the parent listing without the entry equals the FREE count before plus the number of
blocks `bs` plus the number of blocks of the parent listing before. In particular the
FREE count grows by exactly the number of removed blocks whenever the parent listing
occupies as many blocks after the deletion as before. -/
theorem deletion_reclaims_chains (s : FS) (p : Path) (Ls : List Level) (L : Level)
    (n : Name) (e : DirectoryEntry) (bs : List Nat) (depth : Nat)
    (hbs : validBlockSize s.sb.blockSize) (hwf : wellFormedFat s.sb.blockSize s.fat)
    (hq : Resolved s p Ls L) (hn : n ≠ []) (hfind : findEntry L.entries n = some e)
    (hst : Stored s depth e bs) (hnd : bs.Nodup)
    (hdisj : ∀ c ∈ chainsOf (Ls ++ [L]), c ∉ bs) :
    ∃ d2 : List DirectoryEntry, eraseEntry n L.entries = some d2 ∧
      ∀ t : FS,
        (deleteFile (p ++ [n]) s = (Except.ok (), t)
          ∨ ∃ fuel, deleteDirectory fuel (p ++ [n]) s = (Except.ok (), t)) →
        freeBlockCount t.fat + blocksNeeded (serializeDirectory d2).length s.sb.blockSize
          = freeBlockCount s.fat + bs.length
            + blocksNeeded (serializeDirectory L.entries).length s.sb.blockSize ∧
        (blocksNeeded (serializeDirectory d2).length s.sb.blockSize
            = blocksNeeded (serializeDirectory L.entries).length s.sb.blockSize →
          freeBlockCount t.fat = freeBlockCount s.fat + bs.length) := by
  obtain ⟨d2, herase⟩ := eraseEntry_some n L.entries e hfind
  have hL := resolved_levelOk s p Ls L hq
  refine ⟨d2, herase, fun t hrun => ?_⟩
  have key : freeBlockCount t.fat + blocksNeeded (serializeDirectory d2).length s.sb.blockSize
      = freeBlockCount s.fat + bs.length
        + blocksNeeded (serializeDirectory L.entries).length s.sb.blockSize := by
    cases depth with
    | zero => exact absurd hst (stored_zero s e bs)
    | succ d =>
    rcases hrun with hrun | ⟨fuel, hrun⟩
    · by_cases hfile : e.attributes.isDirectory = false
      · have hst2 := hst
        rw [stored_succ] at hst2
        rcases hst2 with ⟨-, hchain, hrange, hdata⟩ | ⟨hdir, -⟩
        · obtain ⟨w, d3, r, herase3, hwb, hwfw, hresw, hUw, hcntw, hwd⟩ := deleteFile_freed s p
            Ls L n e bs t hbs hwf hq hn hfind hfile hchain hrange hdata hdisj hrun
          rw [Option.some.inj (herase3.symm.trans herase)] at hwd
          exact delete_count s w t p Ls Ls L L n bs d2 r hbs hL herase hwb hwfw hresw
            (lengths_refl _) hUw hcntw hwd
        · rw [hfile] at hdir
          cases hdir
      · have hc := resolved_checkIsDirectory s p Ls L hq n hn e hfind false
        rw [if_neg hfile, if_neg Bool.false_ne_true] at hc
        rw [deleteFile, bind_error _ _ _ _ _ hc] at hrun
        exact absurd (Prod.mk.inj hrun).1 (fun hc => by cases hc)
    · cases fuel with
      | zero =>
        rw [deleteDirectory] at hrun
        exact absurd (Prod.mk.inj hrun).1 (fun hc => by cases hc)
      | succ f =>
      by_cases hdir : e.attributes.isDirectory = true
      · obtain ⟨w, Ls0, L0, d3, r, herase3, hwb, hwfw, hresw, hlen, hU, hcnt, hwd⟩ :=
          deleteDirectory_freed f d (deletesStored_all d f) s p Ls L n e bs t hbs hwf hq hn
            hfind hdir hst hnd hdisj hrun
        rw [Option.some.inj (herase3.symm.trans herase)] at hwd
        exact delete_count s w t p Ls Ls0 L L0 n bs d2 r hbs hL herase hwb hwfw hresw hlen hU
          hcnt hwd
      · have hfile : e.attributes.isDirectory = false := by
          cases h : e.attributes.isDirectory with
          | false => rfl
          | true => exact absurd h hdir
        have hperm := resolved_checkPermission s p Ls L hq n hn e hfind Permission.w
        rw [deleteDirectory] at hrun
        by_cases hcw : e.attributes.canWrite = false
        · rw [if_pos (Or.inr ⟨rfl, hcw⟩)] at hperm
          rw [bind_error _ _ _ _ _ hperm] at hrun
          exact absurd (Prod.mk.inj hrun).1 (fun hc => by cases hc)
        · rw [if_neg (fun h => by
            rcases h with h | h
            · exact absurd h.1 (by decide)
            · exact hcw h.2)] at hperm
          rw [bind_ok _ _ _ _ _ hperm,
            bind_error _ _ _ _ _ (resolved_readDirectory_file s p Ls L hq n hn e hfind hfile)]
            at hrun
          exact absurd (Prod.mk.inj hrun).1 (fun hc => by cases hc)
  exact ⟨key, fun h => by omega⟩

theorem run_eta {α : Type} (x : Except Error α × FS) (a : α) (h : x.1 = Except.ok a) :
    x = (Except.ok a, x.2) := by
  obtain ⟨r, t⟩ := x
  cases h
  rfl

theorem deletion_reclaims_chains_witness :
    ∃ (s t : FS) (Ls : List Level) (L : Level) (e : DirectoryEntry)
      (d2 : List DirectoryEntry),
      createDirectory pathD image512 = (Except.ok (), s) ∧
      Resolved s [rootName] Ls L ∧ findEntry L.entries nameD = some e ∧
      Stored s 1 e [] ∧ deleteDirectory 2 pathD s = (Except.ok (), t) ∧
      eraseEntry nameD L.entries = some d2 ∧
      freeBlockCount t.fat + blocksNeeded (serializeDirectory d2).length s.sb.blockSize
        = freeBlockCount s.fat + ([] : List Nat).length
          + blocksNeeded (serializeDirectory L.entries).length s.sb.blockSize := by
  obtain ⟨t0, hfmt, hb, hwf, hfree, -, -, hres0, hres⟩ :=
    resolved_format_root 512 (by decide) (blank 0)
  have himg := image512_eq t0 hfmt
  have hbs0 : validBlockSize t0.sb.blockSize := by rw [hb]; decide
  have hperm := resolved_checkPermission t0 [] [] _ hres0 rootName (by decide)
    (rootDirectoryEntry (wrap64 ((blank 0).clock (blank 0).tick)))
    (findEntry_cons_eq _ []) Permission.w
  rw [if_neg (fun h => by
    rcases h with h | h
    · exact absurd h.1 (by decide)
    · exact absurd h.2 (by decide))] at hperm
  obtain ⟨s, Ls, L, hrun, hpost⟩ := createDirectory_spec t0 [rootName] _ _ nameD hbs0 hwf hres
    (by decide) rfl hperm (by decide) (by rw [hb, hfree]; decide)
  obtain ⟨hress, hent, hbs1, hwfs, -⟩ := hpost
  have hbss : validBlockSize s.sb.blockSize := by rw [hbs1]; exact hbs0
  have hrun2 : createDirectory pathD t0 = (Except.ok (), s) := hrun
  have hs : emptyDirImage = s := by
    unfold emptyDirImage
    rw [himg, hrun2]
  have h1 : (deleteDirectory 2 pathD emptyDirImage).1 = Except.ok () := by decide!
  rw [hs] at h1
  obtain ⟨t, ht⟩ : ∃ t : FS, deleteDirectory 2 pathD s = (Except.ok (), t) :=
    ⟨_, run_eta _ () h1⟩
  have hfind : findEntry L.entries nameD
      = some { attributes := { isDirectory := true, name := nameD,
                               created := wrap64 (t0.clock t0.tick),
                               lastModified := wrap64 (t0.clock t0.tick) } } := by
    rw [hent]
    exact findEntry_cons_eq _ []
  have hst : Stored s 1 { attributes := { isDirectory := true, name := nameD,
                                           created := wrap64 (t0.clock t0.tick),
                                           lastModified := wrap64 (t0.clock t0.tick) } } [] :=
    (stored_succ s 0 _ []).mpr (Or.inr ⟨rfl, _, [], rfl, rfl, levelOk_empty s hbss,
      List.nodup_nil, fun x hx => absurd hx (List.not_mem_nil x), rfl, List.Forall₂.nil⟩)
  obtain ⟨d2, herase, hcount⟩ := deletion_reclaims_chains s [rootName] Ls L nameD _ [] 1 hbss
    hwfs hress (by decide) hfind hst List.nodup_nil (fun c _ hc => absurd hc (List.not_mem_nil c))
  rw [himg]
  exact ⟨s, t, Ls, L, _, d2, hrun2, hress, hfind, hst, ht, herase,
    (hcount t (Or.inr ⟨2, ht⟩)).1⟩

/-- The entry found under a new name appended to a listing that lacks it. -/
theorem findEntry_append_new (d : List DirectoryEntry) (x : DirectoryEntry)
    (h : findEntry d x.attributes.name = none) :
    findEntry (d ++ [x]) x.attributes.name = some x := by
  unfold findEntry at h ⊢
  rw [List.find?_append, h]
  simp

/-- A chain in use that shares no block with the directories on the way to `q` survives
a rewrite of these directories. -/
theorem chain_survives (s t : FS) (Ls Ls1 : List Level) (L L1 : Level) (h : Int)
    (cs : List Nat) (hbs : validBlockSize s.sb.blockSize)
    (hb : t.sb.blockSize = s.sb.blockSize)
    (hF1 : ∀ x, x ∉ chainsOf (Ls ++ [L]) → x ∉ chainsOf (Ls1 ++ [L1]) → t.fat x = s.fat x)
    (hO : ∀ c ∈ chainsOf (Ls1 ++ [L1]), s.fat c = 0 ∨ c ∈ chainsOf (Ls ++ [L]))
    (hchain : chainOf s.fat chainFuel h = some cs)
    (hrange : h = -1 ∨ (dataAddress s ≤ h ∧ h ≤ 4095))
    (hdata : ∀ c ∈ cs, 8192 / s.sb.blockSize ≤ c)
    (hdisj : ∀ c ∈ chainsOf (Ls ++ [L]), c ∉ cs) :
    chainOf t.fat chainFuel h = some cs ∧ (h = -1 ∨ (dataAddress t ≤ h ∧ h ≤ 4095)) ∧
    (∀ c ∈ cs, 8192 / t.sb.blockSize ≤ c) ∧ (∀ c ∈ chainsOf (Ls1 ++ [L1]), c ∉ cs) := by
  have hpos : 1 ≤ 8192 / s.sb.blockSize := by
    rcases hbs with h | h | h | h <;> rw [h] <;> decide
  have hnf := chain_nonfree s.fat chainFuel h cs hchain (fun x hx => le_trans hpos (hdata x hx))
  have hnew : ∀ c ∈ chainsOf (Ls1 ++ [L1]), c ∉ cs := by
    intro c hc hcs
    rcases hO c hc with h0 | h0
    · exact hnf c hcs h0
    · exact hdisj c h0 hcs
  refine ⟨chainOf_congr s.fat t.fat chainFuel h cs hchain
    (fun c hc => hF1 c (fun h0 => hdisj c h0 hc) (fun h0 => hnew c h0 hc)), ?_, ?_, hnew⟩
  · rw [dataAddress_congr s t hb]
    exact hrange
  · rw [hb]
    exact hdata

/-- Writing a new file: on a well-formed image where `q` is a stored writable directory
without an entry named `n`, with room for the data and for the longer listing (which
stays within 32767 bytes), `writeFile(q/n, data)` returns; afterwards `q` is stored and
lists the old entries followed by the entry of the file, whose size field holds the
length of the data as a 16-bit value and whose first block roots a stored chain of
`ceil(|data| / blockSize)` blocks. -/
theorem writeFile_new_spec (s : FS) (q : Path) (Ls : List Level) (L : Level) (n : Name)
    (data : List Byte)
    (hbs : validBlockSize s.sb.blockSize) (hwf : wellFormedFat s.sb.blockSize s.fat)
    (hq : Resolved s q Ls L) (hn : n ≠ []) (hnone : findEntry L.entries n = none)
    (hperm : checkPermission q Permission.w s = (Except.ok (), s))
    (hlen : (serializeDirectory L.entries).length + 31 + n.length ≤ 32767)
    (hspace1 : blocksNeeded data.length s.sb.blockSize ≤ freeBlockCount s.fat)
    (hspace2 : blocksNeeded data.length s.sb.blockSize
      + blocksNeeded ((serializeDirectory L.entries).length + 31 + n.length) s.sb.blockSize
      ≤ freeBlockCount s.fat + L.chain.length) :
    ∃ (t : FS) (Ls1 : List Level) (L1 : Level) (e : DirectoryEntry) (cs : List Nat),
      writeFile (q ++ [n]) data s = (Except.ok (), t) ∧
      t.sb.blockSize = s.sb.blockSize ∧ wellFormedFat t.sb.blockSize t.fat ∧
      Resolved t q Ls1 L1 ∧ L1.entries = L.entries ++ [e] ∧
      findEntry L1.entries n = some e ∧
      e.attributes.isDirectory = false ∧ e.attributes.name = n ∧
      e.attributes.size = wrap16 data.length ∧
      e.attributes.canRead = true ∧ e.attributes.canWrite = true ∧
      chainOf t.fat chainFuel e.firstBlockAddress = some cs ∧
      (e.firstBlockAddress = -1
        ∨ (dataAddress t ≤ e.firstBlockAddress ∧ e.firstBlockAddress ≤ 4095)) ∧
      (∀ c ∈ cs, 8192 / t.sb.blockSize ≤ c) ∧ (∀ c ∈ chainsOf (Ls1 ++ [L1]), c ∉ cs) ∧
      cs.length = blocksNeeded data.length s.sb.blockSize ∧
      freeBlockCount t.fat + L1.chain.length + cs.length
        = freeBlockCount s.fat + L.chain.length ∧
      readAttributes (q ++ [n]) t = (Except.ok e.attributes, t) ∧
      (∀ a, readAttributes q s = (Except.ok a, s) →
        ∃ a2, readAttributes q t = (Except.ok a2, t) ∧ a2.name = a.name ∧
          a2.isDirectory = a.isDirectory ∧ a2.canRead = a.canRead ∧
          a2.canWrite = a.canWrite ∧ a2.created = a.created) ∧
      List.Forall₂ (fun A B : Level => B.chain.length = A.chain.length) Ls Ls1 ∧
      List.Forall₂ (fun A B : Level =>
        (B.entries.map fun x => x.attributes.name) = A.entries.map fun x => x.attributes.name)
        Ls Ls1 := by
  have hd := resolved_readDirectory s q Ls L hq
  have hrun := writeFile_run q n hn s L.entries data hd
  have hc : checkIsDirectory (q ++ [n]) false s
      = (Except.error Error.noSuchFileOrDirectory, s) :=
    checkIsDirectoryWith_missing readDirectory q n s hn L.entries hd hnone false
  have hbody : writeFileExisting (q ++ [n]) data s
      = (Except.error Error.noSuchFileOrDirectory, s) := by
    rw [writeFileExisting, bind_error _ _ _ _ _ hc]
  rw [tryCatch_missing _ _ s s hbody] at hrun
  have hlast : chainOf s.fat chainFuel lastBlockMarker = some [] := chainOf_last s.fat _
  obtain ⟨a, u, cs, hwb, hsb, -, -, hwfu, hchu, hlenu, hrangea, -, -, hcs, -, -, -, hcount,
    hqu, hnewu, hnf⟩ := writeBlocks_under s q Ls L lastBlockMarker [] data hbs hwf hq
      (Or.inl rfl) hlast (fun c hc => absurd hc (List.not_mem_nil c))
      (fun c _ hc => absurd hc (List.not_mem_nil c))
      (le_trans hspace1 (Nat.le_add_right _ _))
  have hub : u.sb.blockSize = s.sb.blockSize := congrArg Superblock.blockSize hsb
  have hnew := writeFileNew_run q n hn s u L.entries data a hperm hwb
  obtain ⟨-, -, -, -, -, -, hrL, hcl⟩ := resolved_levelOk s q Ls L hq
  obtain ⟨hda, -, -, -, -⟩ := dataAddressOf_valid hbs
  have hdas : dataAddress s = ((8192 / s.sb.blockSize : Nat) : Int) := hda
  have hara : -32768 ≤ a ∧ a ≤ 32767 :=
    address_int16 a (dataAddress s) (by rw [hdas]; exact Int.ofNat_nonneg _) hrangea
  obtain ⟨z, hz⟩ : ∃ z : Int, z = wrap16 data.length := ⟨_, rfl⟩
  obtain ⟨now, hnow⟩ : ∃ now : Int, now = wrap64 (u.clock u.tick) := ⟨_, rfl⟩
  rw [← hz, ← hnow] at hnew
  have hzr : -32768 ≤ z ∧ z ≤ 32767 := by rw [hz]; exact wrap16_range _
  have hnr : -9223372036854775808 ≤ now ∧ now ≤ 9223372036854775807 := by
    rw [hnow]; exact wrap64_range _
  obtain ⟨e, he⟩ : ∃ e : DirectoryEntry,
      e = { attributes := { isDirectory := false, name := n, size := z, created := now,
                            lastModified := now },
            firstBlockAddress := a } := ⟨_, rfl⟩
  have hl2 : (serializeDirectory (L.entries ++ [e])).length
      = (serializeDirectory L.entries).length + 31 + n.length := by
    rw [he]; exact newFile_length L.entries n z now a
  have her : entryInRange e := by
    rw [he]; exact newFile_inRange n z now a (by omega) hzr hnr hara
  have hen : e.attributes.name = n := by rw [he]
  rw [← he] at hnew
  obtain ⟨v, hv⟩ : ∃ v : FS, v = { u with tick := u.tick + 1 } := ⟨_, rfl⟩
  rw [← hv] at hnew
  have hvfat : v.fat = u.fat := by rw [hv]
  have hvb : v.sb.blockSize = u.sb.blockSize := by rw [hv]
  have hvblk : ∀ x, blockOf v x = blockOf u x := by intro x; rw [hv]; rfl
  have hqv : Resolved v q Ls L := by rw [hv]; exact resolved_tick u _ q Ls L hqu
  obtain ⟨t, Ls1, L1, hW, hpost⟩ := writesDirectory_all (q.length + 1) q Ls L v
    (L.entries ++ [e]) true (le_refl _) (by rw [hvb, hub]; exact hbs)
    (by rw [hvb, hvfat]; exact hwfu) hqv
    (fun x hx => by
      rcases List.mem_append.mp hx with h | h
      · exact hrL x h
      · rw [List.mem_singleton.mp h]
        exact her)
    (by rw [hl2]; exact hlen) (fun _ => by simp)
    (by
      rw [hl2, hvb, hub, hvfat]
      rw [hlenu, List.length_nil] at hcount
      omega)
  obtain ⟨hrest, hent, hbt, hwft, hF1, -, hO, hcnt, -, -, hA, hlens, hnames⟩ := hpost
  have hfind : findEntry L1.entries n = some e := by
    rw [hent, ← hen]
    exact findEntry_append_new L.entries e (by rw [hen]; exact hnone)
  have hbvs : validBlockSize v.sb.blockSize := by rw [hvb, hub]; exact hbs
  obtain ⟨k1, k2, k3, k4⟩ := chain_survives v t Ls Ls1 L L1 a cs hbvs hbt hF1 hO
    (by rw [hvfat]; exact hchu)
    (by rw [dataAddress_congr s v (hvb.trans hub)]; exact hrangea)
    (fun c hc => by rw [hvb, hub]; exact (hcs c hc).1) hnewu
  refine ⟨t, Ls1, L1, e, cs, ?_, hbt.trans (hvb.trans hub), hwft, hrest, hent, hfind, ?_, hen,
    ?_, ?_, ?_, ?_, ?_, k3, k4, hlenu, ?_, ?_, ?_, hlens, hnames⟩
  · rw [hrun, hnew]
    exact (bind_ok _ _ _ _ _ hW).trans rfl
  · rw [he]
  · rw [he, hz]
  · rw [he]
  · rw [he]
  · rw [he]; exact k1
  · rw [he]; exact k2
  · rw [hvfat] at hcnt
    rw [List.length_nil] at hcount
    omega
  · rw [← hen]
    exact resolved_attributes t q Ls1 L1 hrest _ (by rw [hen]; exact hn) e
      (by rw [hen]; exact hfind)
  · intro a0 h0
    exact hA a0 (resolved_attributes_eq u v q Ls L hqu hqv a0
      (resolved_attributes_eq s u q Ls L hq hqu a0 h0))

/-- A returning `writeFile` of a new name passed the permission check on the parent and
found room for the data and for the longer listing of the parent. -/
theorem writeFile_new_ok_inv (s : FS) (q : Path) (Ls : List Level) (L : Level) (n : Name)
    (data : List Byte) (t : FS)
    (hbs : validBlockSize s.sb.blockSize) (hwf : wellFormedFat s.sb.blockSize s.fat)
    (hq : Resolved s q Ls L) (hn : n ≠ []) (hnone : findEntry L.entries n = none)
    (hrun : writeFile (q ++ [n]) data s = (Except.ok (), t)) :
    checkPermission q Permission.w s = (Except.ok (), s) ∧
    blocksNeeded data.length s.sb.blockSize ≤ freeBlockCount s.fat ∧
    blocksNeeded data.length s.sb.blockSize
        + blocksNeeded ((serializeDirectory L.entries).length + 31 + n.length) s.sb.blockSize
      ≤ freeBlockCount s.fat + L.chain.length := by
  have hd := resolved_readDirectory s q Ls L hq
  have hrun0 := writeFile_run q n hn s L.entries data hd
  have hc : checkIsDirectory (q ++ [n]) false s
      = (Except.error Error.noSuchFileOrDirectory, s) :=
    checkIsDirectoryWith_missing readDirectory q n s hn L.entries hd hnone false
  have hbody : writeFileExisting (q ++ [n]) data s
      = (Except.error Error.noSuchFileOrDirectory, s) := by
    rw [writeFileExisting, bind_error _ _ _ _ _ hc]
  rw [tryCatch_missing _ _ s s hbody] at hrun0
  rcases readOnly_cases _ (checkPermission_readOnly q Permission.w) s with
    ⟨e0, hp⟩ | ⟨u0, hp⟩
  · have hX : writeFile (q ++ [n]) data s = (Except.error e0, s) := by
      rw [hrun0, writeFileNew, bind_ok _ _ _ _ _ (parentPath_snoc q n s hn),
        bind_error _ _ _ _ _ hp]
    cases hX.symm.trans hrun
  have hlast : chainOf s.fat chainFuel lastBlockMarker = some [] := chainOf_last s.fat _
  by_cases hspace : blocksNeeded data.length s.sb.blockSize ≤ freeBlockCount s.fat
  · refine ⟨hp, hspace, ?_⟩
    by_contra hspace2
    obtain ⟨a, u, cs, hwb, hsb, -, -, hwfu, -, hlenu, -, -, -, -, -, -, -, hcount, hqu, -,
      -⟩ := writeBlocks_under s q Ls L lastBlockMarker [] data hbs hwf hq (Or.inl rfl) hlast
        (fun c hc => absurd hc (List.not_mem_nil c))
        (fun c _ hc => absurd hc (List.not_mem_nil c))
        (le_trans hspace (Nat.le_add_right _ _))
    have hub : u.sb.blockSize = s.sb.blockSize := congrArg Superblock.blockSize hsb
    have hnew := writeFileNew_run q n hn s u L.entries data a hp hwb
    obtain ⟨z, hz⟩ : ∃ z : Int, z = wrap16 data.length := ⟨_, rfl⟩
    obtain ⟨now, hnow⟩ : ∃ now : Int, now = wrap64 (u.clock u.tick) := ⟨_, rfl⟩
    rw [← hz, ← hnow] at hnew
    have hl2 := newFile_length L.entries n z now a
    obtain ⟨e, he⟩ : ∃ e : DirectoryEntry,
        e = { attributes := { isDirectory := false, name := n, size := z, created := now,
                              lastModified := now },
              firstBlockAddress := a } := ⟨_, rfl⟩
    rw [← he] at hnew hl2
    obtain ⟨v, hv⟩ : ∃ v : FS, v = { u with tick := u.tick + 1 } := ⟨_, rfl⟩
    rw [← hv] at hnew
    have hvfat : v.fat = u.fat := by rw [hv]
    have hvb : v.sb.blockSize = u.sb.blockSize := by rw [hv]
    have hqv : Resolved v q Ls L := by rw [hv]; exact resolved_tick u _ q Ls L hqu
    obtain ⟨t1, -, hfull⟩ := writeDirectoryAux_returns (q.length + 1) v q Ls L
      (L.entries ++ [e]) true (le_refl _) (by rw [hvb, hub]; exact hbs)
      (by rw [hvb, hvfat]; exact hwfu) hqv
    have hX : writeFile (q ++ [n]) data s = (Except.error Error.fileSystemFull, t1) := by
      rw [hrun0, hnew]
      exact bind_error _ _ _ _ _ (hfull (by
        rw [hl2, hvb, hub, hvfat]
        rw [hlenu, List.length_nil] at hcount
        omega))
    cases hX.symm.trans hrun
  · obtain ⟨t1, ht⟩ := writeBlocks_full s lastBlockMarker [] data hbs hwf (Or.inl rfl) hlast
      (fun c hc => absurd hc (List.not_mem_nil c)) (by rw [List.length_nil]; omega)
    have hX : writeFile (q ++ [n]) data s = (Except.error Error.fileSystemFull, t1) := by
      rw [hrun0, writeFileNew, bind_ok _ _ _ _ _ (parentPath_snoc q n s hn),
        bind_ok _ _ _ _ _ hp, bind_error _ _ _ _ _ ht]
    cases hX.symm.trans hrun

theorem chmodLoop_minus_w (x : FileAttributes) :
    chmodLoop ['-', 'w'] false x = Except.ok { x with canWrite := false } := by
  rw [chmodLoop, if_neg (by decide), if_pos rfl, chmodLoop, if_neg (by decide),
    if_neg (by decide), if_neg (by decide), if_pos rfl, chmodLoop]

theorem chmodLoop_plus_w (x : FileAttributes) :
    chmodLoop ['+', 'w'] false x = Except.ok { x with canWrite := true } := by
  rw [chmodLoop, if_pos rfl, chmodLoop, if_neg (by decide),
    if_neg (by decide), if_neg (by decide), if_pos rfl, chmodLoop]

/-- Writing to a stored file that is not writable reports Permission and changes
nothing. -/
theorem writeFile_denied (s : FS) (q : Path) (Ls : List Level) (L : Level) (n : Name)
    (e : DirectoryEntry) (data : List Byte)
    (hq : Resolved s q Ls L) (hn : n ≠ []) (hfind : findEntry L.entries n = some e)
    (hfile : e.attributes.isDirectory = false) (hcw : e.attributes.canWrite = false) :
    writeFile (q ++ [n]) data s = (Except.error Error.permission, s) := by
  have hd := resolved_readDirectory s q Ls L hq
  have hrun := writeFile_run q n hn s L.entries data hd
  have hc := resolved_checkIsDirectory s q Ls L hq n hn e hfind false
  rw [if_pos hfile] at hc
  have hp := resolved_checkPermission s q Ls L hq n hn e hfind Permission.w
  rw [if_pos (Or.inr ⟨rfl, hcw⟩)] at hp
  have hbody : writeFileExisting (q ++ [n]) data s = (Except.error Error.permission, s) := by
    rw [writeFileExisting, bind_ok _ _ _ _ _ hc, bind_error _ _ _ _ _ hp]
  rw [hrun]
  exact tryCatch_error _ _ s s _ hbody (by decide)

/-- Overwriting a stored writable file: with room for the data once the old chain is
freed, `writeFile(q/n, data)` returns; afterwards `q` is stored and the entry of the
file keeps its first block, its name and its kind, and its size field holds the length
of the data as a 16-bit value. -/
theorem writeFile_existing_spec (s : FS) (q : Path) (Ls : List Level) (L : Level) (n : Name)
    (e : DirectoryEntry) (cs : List Nat) (data : List Byte)
    (hbs : validBlockSize s.sb.blockSize) (hwf : wellFormedFat s.sb.blockSize s.fat)
    (hq : Resolved s q Ls L) (hn : n ≠ []) (hfind : findEntry L.entries n = some e)
    (hfile : e.attributes.isDirectory = false) (hcw : e.attributes.canWrite = true)
    (hchain : chainOf s.fat chainFuel e.firstBlockAddress = some cs)
    (hrange : e.firstBlockAddress = -1
      ∨ (dataAddress s ≤ e.firstBlockAddress ∧ e.firstBlockAddress ≤ 4095))
    (hdata : ∀ c ∈ cs, 8192 / s.sb.blockSize ≤ c)
    (hdisj : ∀ c ∈ chainsOf (Ls ++ [L]), c ∉ cs)
    (hspace : blocksNeeded data.length s.sb.blockSize ≤ freeBlockCount s.fat + cs.length) :
    ∃ (t : FS) (Ls1 : List Level) (L1 : Level) (a : FileAttributes),
      writeFile (q ++ [n]) data s = (Except.ok (), t) ∧
      t.sb.blockSize = s.sb.blockSize ∧ wellFormedFat t.sb.blockSize t.fat ∧
      Resolved t q Ls1 L1 ∧
      findEntry L1.entries n
        = some { attributes := a, firstBlockAddress := e.firstBlockAddress } ∧
      a.size = wrap16 data.length ∧ a.name = n ∧ a.isDirectory = false ∧
      readAttributes (q ++ [n]) t = (Except.ok a, t) := by
  have hd := resolved_readDirectory s q Ls L hq
  have hrun := writeFile_run q n hn s L.entries data hd
  have hc := resolved_checkIsDirectory s q Ls L hq n hn e hfind false
  rw [if_pos hfile] at hc
  have hp := resolved_checkPermission s q Ls L hq n hn e hfind Permission.w
  rw [if_neg (fun h => by
    rcases h with h | h
    · exact absurd h.1 (by decide)
    · rw [hcw] at h
      exact absurd h.2 (by decide))] at hp
  have haddr := resolved_child_address s q Ls L hq n e hfind (fun h => by
    rw [hfile] at h
    exact absurd h Bool.false_ne_true)
  obtain ⟨a0, u, cs', hwb, hsb, -, -, hwfu, -, -, -, -, -, -, -, -, -, -, hqu, -, -⟩ :=
    writeBlocks_under s q Ls L e.firstBlockAddress cs data hbs hwf hq hrange hchain
      hdata hdisj hspace
  have hub : u.sb.blockSize = s.sb.blockSize := congrArg Superblock.blockSize hsb
  have hattr := resolved_attributes u q Ls L hqu n hn e hfind
  have hex := writeFileExisting_run q n s u data _ _ a0 e.attributes hc hp haddr hwb hattr
  obtain ⟨hname, hmem⟩ := findEntry_name _ _ _ hfind
  obtain ⟨-, -, -, -, -, -, hrL, -⟩ := resolved_levelOk s q Ls L hq
  obtain ⟨z, hz⟩ : ∃ z : Int, z = wrap16 data.length := ⟨_, rfl⟩
  obtain ⟨w, hw⟩ : ∃ w : Int, w = wrap64 (u.clock u.tick) := ⟨_, rfl⟩
  rw [← hz, ← hw] at hex
  have hzr : -32768 ≤ z ∧ z ≤ 32767 := by rw [hz]; exact wrap16_range _
  have hwr : -9223372036854775808 ≤ w ∧ w ≤ 9223372036854775807 := by
    rw [hw]; exact wrap64_range _
  obtain ⟨a, ha⟩ : ∃ a : FileAttributes,
      a = { e.attributes with size := z, lastModified := w } := ⟨_, rfl⟩
  rw [← ha] at hex
  have han : a.name = n := by rw [ha]; exact hname
  obtain ⟨t, Ls1, L1, d2, hrep, hwa, hpost, -⟩ := writeAttributes_spec
    ({ u with tick := u.tick + 1 } : FS) q Ls L n e a
    (by rw [← hub] at hbs; exact hbs) hwfu (resolved_tick u _ q Ls L hqu) hn hfind han
    (by rw [ha]; exact rewritten_inRange e z w (hrL e hmem) hzr hwr)
  obtain ⟨hf2, -⟩ := replaceEntry_spec n
    { attributes := a, firstBlockAddress := e.firstBlockAddress } han L.entries d2 hrep
  obtain ⟨hrest, hent, hbt, hwft, -⟩ := hpost
  have hfind2 : findEntry L1.entries n
      = some { attributes := a, firstBlockAddress := e.firstBlockAddress } := by
    rw [hent]; exact hf2
  refine ⟨t, Ls1, L1, a, ?_, hbt.trans hub, hwft, hrest, hfind2, ?_, han, ?_,
    resolved_attributes t q Ls1 L1 hrest n hn _ hfind2⟩
  · rw [hrun]
    exact tryCatch_ok _ _ s t () (hex.trans hwa)
  · rw [ha, hz]
  · rw [ha]; exact hfile

/-- Claim C14. Write permission is enforced and restorable. For every file `q/n` stored
in a directory `q` of a well-formed image: `chmod "-w"` returns; after it, `writeFile`
fails with Permission for every data and leaves the whole state, hence `readFile`, the
attributes and the FAT, unchanged; a subsequent `chmod "+w"` returns, leaving block size
and FREE count as at the start; and after it, when the chain of the file is stored,
`writeFile` returns for every data that fits (its blocks are at most the FREE blocks
plus the blocks of the old chain of the file). -/
theorem write_permission_enforced (s : FS) (q : Path) (Ls : List Level) (L : Level)
    (n : Name) (e : DirectoryEntry)
    (hbs : validBlockSize s.sb.blockSize) (hwf : wellFormedFat s.sb.blockSize s.fat)
    (hq : Resolved s q Ls L) (hn : n ≠ []) (hfind : findEntry L.entries n = some e)
    (hfile : e.attributes.isDirectory = false) :
    ∃ t : FS, chmod (q ++ [n]) ['-', 'w'] s = (Except.ok (), t) ∧
      (∀ data, writeFile (q ++ [n]) data t = (Except.error Error.permission, t)) ∧
      ∃ u : FS, chmod (q ++ [n]) ['+', 'w'] t = (Except.ok (), u) ∧
        u.sb.blockSize = s.sb.blockSize ∧ freeBlockCount u.fat = freeBlockCount s.fat ∧
        ∀ cs : List Nat, chainOf s.fat chainFuel e.firstBlockAddress = some cs →
          (e.firstBlockAddress = -1
            ∨ (dataAddress s ≤ e.firstBlockAddress ∧ e.firstBlockAddress ≤ 4095)) →
          (∀ c ∈ cs, 8192 / s.sb.blockSize ≤ c) →
          (∀ c ∈ chainsOf (Ls ++ [L]), c ∉ cs) →
          ∀ data,
            blocksNeeded data.length s.sb.blockSize ≤ freeBlockCount s.fat + cs.length →
            ∃ v : FS, writeFile (q ++ [n]) data u = (Except.ok (), v) := by
  obtain ⟨t, Ls1, L1, a, hloop, hrun, hbst, hwft, hrest, hfind1, -, hF1, -, hO, hcnt, hbt⟩ :=
    chmod_spec s q Ls L n e ['-', 'w'] hbs hwf hq hn hfind (by decide)
  rw [chmodLoop_minus_w] at hloop
  have ha : a = { e.attributes with canWrite := false } := (Except.ok.inj hloop).symm
  obtain ⟨u, Ls2, L2, a2, hloop2, hrun2, hbsu, hwfu, hresu, hfind2, -, hG1, -, hP, hcnt2, hbu⟩ :=
    chmod_spec t q Ls1 L1 n { attributes := a, firstBlockAddress := e.firstBlockAddress }
      ['+', 'w'] hbst hwft hrest hn hfind1 (by decide)
  rw [chmodLoop_plus_w] at hloop2
  have ha2 : a2 = { a with canWrite := true } := (Except.ok.inj hloop2).symm
  refine ⟨t, hrun, fun data => ?_, u, hrun2, hbu.trans hbt, hcnt2.trans hcnt,
    fun cs hchain hrange hdata hdisj data hsp => ?_⟩
  · exact writeFile_denied t q Ls1 L1 n _ data hrest hn hfind1 (by rw [ha]; exact hfile)
      (by rw [ha])
  · obtain ⟨k1, k2, k3, k4⟩ := chain_survives s t Ls Ls1 L L1 e.firstBlockAddress cs hbs hbt
      hF1 hO hchain hrange hdata hdisj
    obtain ⟨m1, m2, m3, m4⟩ := chain_survives t u Ls1 Ls2 L1 L2 e.firstBlockAddress cs hbst hbu
      hG1 hP k1 k2 k3 k4
    obtain ⟨v, -, -, -, hv, -⟩ := writeFile_existing_spec u q Ls2 L2 n
      { attributes := a2, firstBlockAddress := e.firstBlockAddress } cs data hbsu hwfu hresu hn
      hfind2 (by rw [ha2, ha]; exact hfile) (by rw [ha2]) m1 m2 m3 m4
      (by rw [hbu, hbt, hcnt2, hcnt]; exact hsp)
    exact ⟨v, hv⟩

theorem write_permission_enforced_witness :
    ∃ s : FS, writeFile ([rootName] ++ [nameX]) [1] image512 = (Except.ok (), s) ∧
      ∃ t : FS, chmod ([rootName] ++ [nameX]) ['-', 'w'] s = (Except.ok (), t) ∧
        (∀ data, writeFile ([rootName] ++ [nameX]) data t
          = (Except.error Error.permission, t)) ∧
        ∃ u : FS, chmod ([rootName] ++ [nameX]) ['+', 'w'] t = (Except.ok (), u) ∧
          ∃ v : FS, writeFile ([rootName] ++ [nameX]) [2] u = (Except.ok (), v) := by
  obtain ⟨t0, hfmt, hb, hwf, hfree, -, -, hres0, hres⟩ :=
    resolved_format_root 512 (by decide) (blank 0)
  have hbs0 : validBlockSize t0.sb.blockSize := by rw [hb]; decide
  have hperm := resolved_checkPermission t0 [] [] _ hres0 rootName (by decide)
    (rootDirectoryEntry (wrap64 ((blank 0).clock (blank 0).tick)))
    (by unfold findEntry; rfl) Permission.w
  rw [if_neg (fun h => by
    rcases h with h | h
    · exact absurd h.1 (by decide)
    · exact absurd h.2 (by decide))] at hperm
  obtain ⟨s, Ls, L, e, cs, hrun, hbs1, hwfs, hress, -, hfind, hfile, -, -, -, -, hchain, hrange,
    hdata, hdisj, hlen, -, -⟩ := writeFile_new_spec t0 [rootName] _ _ nameX [1] hbs0 hwf hres
      (by decide) rfl hperm (by decide) (by rw [hb, hfree]; decide) (by rw [hb, hfree]; decide)
  have hbss : validBlockSize s.sb.blockSize := by rw [hbs1]; exact hbs0
  obtain ⟨t, hch, hden, u, hch2, hbu, hcu, hok⟩ := write_permission_enforced s [rootName] Ls L
    nameX e hbss hwfs hress (by decide) hfind hfile
  obtain ⟨v, hv⟩ := hok cs hchain hrange hdata hdisj [2] (by
    rw [hlen, hbs1]
    exact Nat.le_add_left _ _)
  rw [image512_eq t0 hfmt]
  exact ⟨s, hrun, t, hch, hden, u, hch2, v, hv⟩

/-- A returning `writeFile(q/n, data)` records the length of the data as a 16-bit value:
`readAttributes(q/n)` afterwards returns attributes whose size is that value. -/
theorem writeFile_size (s : FS) (q : Path) (Ls : List Level) (L : Level) (n : Name)
    (data : List Byte) (t : FS)
    (hbs : validBlockSize s.sb.blockSize) (hwf : wellFormedFat s.sb.blockSize s.fat)
    (hq : Resolved s q Ls L) (hn : n ≠ [])
    (hstored : ∀ e, findEntry L.entries n = some e → e.attributes.isDirectory = false →
      FileStored s Ls L e)
    (hlen : findEntry L.entries n = none →
      (serializeDirectory L.entries).length + 31 + n.length ≤ 32767)
    (hrun : writeFile (q ++ [n]) data s = (Except.ok (), t)) :
    ∃ a : FileAttributes, readAttributes (q ++ [n]) t = (Except.ok a, t) ∧
      a.size = wrap16 data.length := by
  have hd := resolved_readDirectory s q Ls L hq
  have hrun0 := writeFile_run q n hn s L.entries data hd
  cases hfind : findEntry L.entries n with
  | none =>
    obtain ⟨hp, hspace, hspace2⟩ :=
      writeFile_new_ok_inv s q Ls L n data t hbs hwf hq hn hfind hrun
    obtain ⟨t1, Ls1, L1, e, cs, hok, -, -, -, -, -, -, -, hsz, -, -, -, -, -, -, -, -, hra, -⟩ :=
      writeFile_new_spec s q Ls L n data hbs hwf hq hn hfind hp (hlen hfind) hspace hspace2
    have ht : t1 = t := by
      have h := hok.symm.trans hrun
      exact congrArg Prod.snd h
    rw [ht] at hra
    exact ⟨e.attributes, hra, hsz⟩
  | some e =>
    have hc := resolved_checkIsDirectory s q Ls L hq n hn e hfind false
    by_cases hdir : e.attributes.isDirectory = false
    · by_cases hcw : e.attributes.canWrite = false
      · have hX := writeFile_denied s q Ls L n e data hq hn hfind hdir hcw
        cases hX.symm.trans hrun
      · have hcw1 : e.attributes.canWrite = true := by
          cases h : e.attributes.canWrite
          · exact absurd h hcw
          · rfl
        obtain ⟨cs, hchain, hrange, hdata, hdisj⟩ := hstored e hfind hdir
        by_cases hspace : blocksNeeded data.length s.sb.blockSize
            ≤ freeBlockCount s.fat + cs.length
        · obtain ⟨t1, Ls1, L1, a, hok, -, -, -, -, hsz, -, -, hra⟩ :=
            writeFile_existing_spec s q Ls L n e cs data hbs hwf hq hn hfind hdir hcw1 hchain
              hrange hdata hdisj hspace
          have ht : t1 = t := by
            have h := hok.symm.trans hrun
            exact congrArg Prod.snd h
          rw [ht] at hra
          exact ⟨a, hra, hsz⟩
        · have hp := resolved_checkPermission s q Ls L hq n hn e hfind Permission.w
          rw [if_neg (fun h => by
            rcases h with h | h
            · exact absurd h.1 (by decide)
            · exact hcw h.2)] at hp
          rw [if_pos hdir] at hc
          have haddr := resolved_child_address s q Ls L hq n e hfind (fun h => by
            rw [hdir] at h
            exact absurd h Bool.false_ne_true)
          obtain ⟨t1, ht⟩ := writeBlocks_full s e.firstBlockAddress cs data hbs hwf hrange
            hchain hdata (by omega)
          have hbody : writeFileExisting (q ++ [n]) data s
              = (Except.error Error.fileSystemFull, t1) := by
            rw [writeFileExisting, bind_ok _ _ _ _ _ hc, bind_ok _ _ _ _ _ hp,
              bind_ok _ _ _ _ _ haddr]
            simp only [writeDirectoryAux.match_1]
            rw [bind_error _ _ _ _ _ ht]
          have hX : writeFile (q ++ [n]) data s = (Except.error Error.fileSystemFull, t1) := by
            rw [hrun0]
            exact tryCatch_error _ _ s t1 _ hbody (by decide)
          cases hX.symm.trans hrun
    · rw [if_neg hdir, if_neg Bool.false_ne_true] at hc
      have hbody : writeFileExisting (q ++ [n]) data s
          = (Except.error Error.isADirectory, s) := by
        rw [writeFileExisting, bind_error _ _ _ _ _ hc]
      have hX : writeFile (q ++ [n]) data s = (Except.error Error.isADirectory, s) := by
        rw [hrun0]
        exact tryCatch_error _ _ s s _ hbody (by decide)
      cases hX.symm.trans hrun

/-- Claim C17, amended. The recorded file size is the byte count as a 16-bit signed
value. On a well-formed image (the parent `q` a stored directory, the chain of an
existing file `q/n` stored, the listing of `q` with a new entry for `n` within 32767
bytes), after a returning `writeFile(q/n, data)`, new or existing file, `readAttributes`
returns attributes whose size is the length of the data wrapped to 16 bits, which is
the length itself for every data of at most 32767 bytes. -/
theorem recorded_size_is_wrapped_count (s : FS) (q : Path) (Ls : List Level) (L : Level)
    (n : Name) (data : List Byte) (t : FS)
    (hbs : validBlockSize s.sb.blockSize) (hwf : wellFormedFat s.sb.blockSize s.fat)
    (hq : Resolved s q Ls L) (hn : n ≠ [])
    (hstored : ∀ e, findEntry L.entries n = some e → e.attributes.isDirectory = false →
      FileStored s Ls L e)
    (hlen : findEntry L.entries n = none →
      (serializeDirectory L.entries).length + 31 + n.length ≤ 32767)
    (hrun : writeFile (q ++ [n]) data s = (Except.ok (), t)) :
    ∃ a : FileAttributes, readAttributes (q ++ [n]) t = (Except.ok a, t) ∧
      a.size = wrap16 data.length ∧
      (data.length ≤ 32767 → a.size = (data.length : Int)) := by
  obtain ⟨a, hra, hsz⟩ := writeFile_size s q Ls L n data t hbs hwf hq hn hstored hlen hrun
  exact ⟨a, hra, hsz, fun h => hsz.trans (wrap16_small _ (by omega) (by omega))⟩

theorem recorded_size_is_wrapped_count_witness :
    ∃ (t : FS) (a : FileAttributes),
      writeFile ([rootName] ++ [nameX]) [104, 101, 108, 108, 111, 10] image512
        = (Except.ok (), t) ∧
      readAttributes ([rootName] ++ [nameX]) t = (Except.ok a, t) ∧ a.size = 6 := by
  obtain ⟨t0, hfmt, hb, hwf, hfree, -, -, hres0, hres⟩ :=
    resolved_format_root 512 (by decide) (blank 0)
  have hbs0 : validBlockSize t0.sb.blockSize := by rw [hb]; decide
  have hperm := resolved_checkPermission t0 [] [] _ hres0 rootName (by decide)
    (rootDirectoryEntry (wrap64 ((blank 0).clock (blank 0).tick)))
    (by unfold findEntry; rfl) Permission.w
  rw [if_neg (fun h => by
    rcases h with h | h
    · exact absurd h.1 (by decide)
    · exact absurd h.2 (by decide))] at hperm
  obtain ⟨t, Ls, L, e, cs, hrun, -⟩ := writeFile_new_spec t0 [rootName] _ _ nameX
    [104, 101, 108, 108, 111, 10] hbs0 hwf hres (by decide) rfl hperm (by decide)
    (by rw [hb, hfree]; decide) (by rw [hb, hfree]; decide)
  obtain ⟨a, hra, -, hsmall⟩ := recorded_size_is_wrapped_count t0 [rootName] _ _ nameX
    [104, 101, 108, 108, 111, 10] t hbs0 hwf hres (by decide)
    (fun e h => by cases h) (fun _ => by decide) hrun
  rw [image512_eq t0 hfmt]
  exact ⟨t, a, hrun, hra, hsmall (by decide)⟩

/-- A file of 32768 bytes written to the formatted 512-byte-block image: `writeFile`
returns and `readAttributes` then reports the size -32768, not 32768. -/
theorem writeFile_size_wraps :
    ∃ (t : FS) (a : FileAttributes),
      writeFile ([rootName] ++ [nameX]) (List.replicate 32768 0) image512
        = (Except.ok (), t) ∧
      readAttributes ([rootName] ++ [nameX]) t = (Except.ok a, t) ∧
      a.size = -32768 ∧ a.size ≠ ((List.replicate 32768 (0 : Byte)).length : Int) := by
  obtain ⟨t0, hfmt, hb, hwf, hfree, -, -, hres0, hres⟩ :=
    resolved_format_root 512 (by decide) (blank 0)
  have hbs0 : validBlockSize t0.sb.blockSize := by rw [hb]; decide
  have hperm := resolved_checkPermission t0 [] [] _ hres0 rootName (by decide)
    (rootDirectoryEntry (wrap64 ((blank 0).clock (blank 0).tick)))
    (by unfold findEntry; rfl) Permission.w
  rw [if_neg (fun h => by
    rcases h with h | h
    · exact absurd h.1 (by decide)
    · exact absurd h.2 (by decide))] at hperm
  obtain ⟨dat, hdat⟩ : ∃ dat : List Byte, dat = List.replicate 32768 0 := ⟨_, rfl⟩
  have hlen : dat.length = 32768 := by rw [hdat, List.length_replicate]
  obtain ⟨t, Ls, L, e, cs, hrun, -, -, -, -, -, -, -, hsz, -, -, -, -, -, -, -, -, hra, -⟩ :=
    writeFile_new_spec t0 [rootName] _ _ nameX dat hbs0 hwf hres (by decide) rfl hperm
      (by decide) (by rw [hb, hfree, hlen]; decide) (by rw [hb, hfree, hlen]; decide)
  rw [image512_eq t0 hfmt, ← hdat]
  have h1 : e.attributes.size = -32768 := by
    rw [hsz, hlen]; decide
  refine ⟨t, e.attributes, hrun, hra, h1, ?_⟩
  rw [h1, hlen]
  decide

end FAT12
